import Mathlib

namespace Haparanda

/-- Width of `unsigned` / `uint32_t`. -/
def U32 : Nat := 4294967296

/-- Width of `std::size_t` / `uint64_t`. -/
def U64 : Nat := 18446744073709551616

/-- Unsigned 32-bit subtraction of two values below `U32`. -/
def sub32 (x y : Nat) : Nat := (x + U32 - y) % U32

/-- Magic number triple of `struct MagicNumber`. -/
structure MagicNumber where
  M : Nat
  a : Nat
  s : Nat
deriving DecidableEq, Repr

/-- Local variables of `getMagicNumbers` that the do-while loop updates. -/
structure MagicLoopState where
  p : Nat
  q1 : Nat
  r1 : Nat
  q2 : Nat
  r2 : Nat
  delta : Nat
  a : Nat
deriving DecidableEq, Repr

/-- Body of the do-while loop of `getMagicNumbers`, in 32-bit unsigned arithmetic. -/
def magicLoopBody (divisor nc : Nat) (st : MagicLoopState) : MagicLoopState :=
  let p := st.p + 1
  let q1 := if st.r1 ≥ sub32 nc st.r1 then (2 * st.q1 + 1) % U32 else (2 * st.q1) % U32
  let r1 := if st.r1 ≥ sub32 nc st.r1 then sub32 ((2 * st.r1) % U32) nc else (2 * st.r1) % U32
  let a :=
    if (st.r2 + 1) % U32 ≥ sub32 divisor st.r2 then
      (if st.q2 ≥ 0x7FFFFFFF then 1 else st.a)
    else
      (if st.q2 ≥ 0x80000000 then 1 else st.a)
  let q2 :=
    if (st.r2 + 1) % U32 ≥ sub32 divisor st.r2 then (2 * st.q2 + 1) % U32 else (2 * st.q2) % U32
  let r2 :=
    if (st.r2 + 1) % U32 ≥ sub32 divisor st.r2 then sub32 ((2 * st.r2 + 1) % U32) divisor
    else (2 * st.r2 + 1) % U32
  let delta := sub32 (sub32 divisor 1) r2
  { p := p, q1 := q1, r1 := r1, q2 := q2, r2 := r2, delta := delta, a := a }

/-- Continuation test of the do-while loop. -/
def magicLoopCond (st : MagicLoopState) : Bool :=
  decide (st.p < 64) && (decide (st.q1 < st.delta) || (decide (st.q1 = st.delta) && decide (st.r1 = 0)))

/-- The do-while loop: the body runs, then the test decides whether it runs again. -/
def magicLoop : Nat → Nat → Nat → MagicLoopState → MagicLoopState
  | 0, _, _, st => st
  | fuel + 1, divisor, nc, st =>
    let st1 := magicLoopBody divisor nc st
    if magicLoopCond st1 then magicLoop fuel divisor nc st1 else st1

/-- Embedding of `MagicNumber::getMagicNumbers(unsigned divisor)`. -/
def getMagicNumbers (divisor : Nat) : MagicNumber :=
  if divisor = 0 then
    { M := U32 - 1, a := 0, s := 0 }
  else
    let nc := sub32 (U32 - 1) (sub32 0 divisor % divisor)
    let q1 := 0x80000000 / nc
    let r1 := sub32 0x80000000 ((q1 * nc) % U32)
    let q2 := 0x7FFFFFFF / divisor
    let r2 := sub32 0x7FFFFFFF ((q2 * divisor) % U32)
    let st := magicLoop 33 divisor nc
      { p := 31, q1 := q1, r1 := r1, q2 := q2, r2 := r2, delta := 0, a := 0 }
    { M := (st.q2 + 1) % U32, a := st.a, s := st.p - 32 }

/-- `MagicNumber::getMagicNumbers` once more, with every division and remainder guarded:
`none` when a divisor is zero, where the C++ operators `/` and `%` are undefined.  Otherwise the
result is that of `getMagicNumbers`.  The remainder `(-divisor) % divisor` and the quotient
`0x7FFFFFFF / divisor` are taken in the branch where `divisor` is not zero; the quotient
`0x80000000 / nc` is guarded by `nc`. -/
def getMagicNumbersDefined (divisor : Nat) : Option MagicNumber :=
  if divisor = 0 then
    some { M := U32 - 1, a := 0, s := 0 }
  else
    let nc := sub32 (U32 - 1) (sub32 0 divisor % divisor)
    if nc = 0 then none
    else
      let q1 := 0x80000000 / nc
      let r1 := sub32 0x80000000 ((q1 * nc) % U32)
      let q2 := 0x7FFFFFFF / divisor
      let r2 := sub32 0x7FFFFFFF ((q2 * divisor) % U32)
      let st := magicLoop 33 divisor nc
        { p := 31, q1 := q1, r1 := r1, q2 := q2, r2 := r2, delta := 0, a := 0 }
      some { M := (st.q2 + 1) % U32, a := st.a, s := st.p - 32 }

/-- The division expression `(((x * M) >> 32) + x * a) >> s` on 64-bit unsigned values. -/
def magicDiv (m : MagicNumber) (x : Nat) : Nat :=
  (((((x * m.M) % U64) >>> 32) + (x * m.a) % U64) % U64) >>> m.s

/-! ## Machine integers

`unsigned`/`uint32_t` values are naturals below `U32`, `std::size_t`/`uint64_t` values are
naturals below `U64`.  `int` and `long` values are integers; a conversion to `int` keeps the low
32 bits (`toInt32`), a conversion to `long` keeps the low 64 bits (`toInt64`) and a conversion to
`std::size_t` reduces modulo `U64` (`toU64`).  Arithmetic on `int` operands is done over the
integers: signed overflow has no defined result in the source language. -/

/-- Conversion of an unsigned value to `int`. -/
def toInt32 (x : Nat) : Int :=
  if x % U32 < 2147483648 then ((x % U32 : Nat) : Int) else ((x % U32 : Nat) : Int) - (U32 : Int)

/-- Conversion of an unsigned value to `long`. -/
def toInt64 (x : Nat) : Int :=
  if x % U64 < 9223372036854775808 then ((x % U64 : Nat) : Int)
  else ((x % U64 : Nat) : Int) - (U64 : Int)

/-- Conversion of a signed value to `std::size_t`. -/
def toU64 (z : Int) : Nat := (z % (U64 : Int)).toNat

/-- Unsigned 64-bit subtraction of two values below `U64`. -/
def sub64 (x y : Nat) : Nat := (x + U64 - y) % U64

/-! ## BoundaryId -/

/-- Identifier of one face of a box: `class BoundaryId`. -/
structure BoundaryId where
  dimension : Nat
  lower : Bool
deriving DecidableEq, Repr

namespace BoundaryId

/-- `BoundaryId::reset`. -/
def reset (_b : BoundaryId) : BoundaryId := { dimension := 0, lower := true }

/-- Default constructor `BoundaryId::BoundaryId()`. -/
def new : BoundaryId := reset { dimension := 0, lower := true }

/-- `BoundaryId::getDimension`. -/
def getDimension (b : BoundaryId) : Nat := b.dimension

/-- `BoundaryId::isLowerSide`. -/
def isLowerSide (b : BoundaryId) : Bool := b.lower

/-- `BoundaryId::oppositeSide`. -/
def oppositeSide (b : BoundaryId) : BoundaryId := { dimension := b.dimension, lower := !b.lower }

/-- `BoundaryId::operator++`. -/
def advance (b : BoundaryId) : BoundaryId :=
  let lower := !b.lower
  { dimension := if lower then (b.dimension + 1) % U64 else b.dimension, lower := lower }

end BoundaryId

/-! ## FieldSteppingStrategy -/

/-- Member variables of `class FieldSteppingStrategy`. -/
structure FieldSteppingStrategy where
  minIndex : Nat
  maxIndex : Nat
  index : Nat
  stride : List Nat
  size : List Nat
  totalSize : Nat
  magicStrideNumbers : List MagicNumber
  magicSizeNumbers : List MagicNumber
deriving DecidableEq, Repr

namespace FieldSteppingStrategy

/-- The `for` loop of the constructor, entered at dimension `i` with `stride[i] = strideI` and
the running product `totalSize`; `minIndex`, `maxIndex` and `index` are not written. -/
def fill (minIndex maxIndex index : Nat) : Nat → Nat → List Nat → FieldSteppingStrategy
  | strideI, totalSize, [] =>
    { minIndex := minIndex, maxIndex := maxIndex, index := index,
      stride := [strideI], size := [], totalSize := totalSize,
      magicStrideNumbers := [getMagicNumbers strideI], magicSizeNumbers := [] }
  | strideI, totalSize, n :: sizes =>
    let sizeI := n % U32
    let rest := fill minIndex maxIndex index ((strideI * sizeI) % U32)
      ((totalSize * sizeI) % U64) sizes
    { rest with
      stride := strideI :: rest.stride, size := sizeI :: rest.size,
      magicStrideNumbers := getMagicNumbers strideI :: rest.magicStrideNumbers,
      magicSizeNumbers := getMagicNumbers sizeI :: rest.magicSizeNumbers }

/-- Constructor `FieldSteppingStrategy(sizes)`.  It fails when `assert(sizes[i] <= 4294967295)`
fails.  The constructor leaves `minIndex`, `maxIndex` and `index` unwritten; their indeterminate
contents are the first three arguments. -/
def new (minIndex maxIndex index : Nat) (sizes : List Nat) : Option FieldSteppingStrategy :=
  if sizes.all (fun n => decide (n ≤ 4294967295)) then
    some (fill minIndex maxIndex index 1 1 sizes)
  else none

/-- `FieldSteppingStrategy::isInField`. -/
def isInField (s : FieldSteppingStrategy) : Bool :=
  decide (s.index ≥ s.minIndex) && decide (s.index ≤ s.maxIndex)

/-- `FieldSteppingStrategy::first`. -/
def first (s : FieldSteppingStrategy) : FieldSteppingStrategy := { s with index := s.minIndex }

/-- `FieldSteppingStrategy::currentIndex`; `none` when `assert(isInField())` fails. -/
def currentIndex (s : FieldSteppingStrategy) (dimension : Nat) : Option Nat :=
  if s.isInField then
    let indexAlongDimension := magicDiv (s.magicStrideNumbers.getD dimension ⟨0, 0, 0⟩) s.index
    let n := magicDiv (s.magicSizeNumbers.getD dimension ⟨0, 0, 0⟩) indexAlongDimension
    some (sub64 indexAlongDimension ((s.size.getD dimension 0 * n) % U64))
  else none

/-- `FieldSteppingStrategy::neighborInField`; `none` when the assertion of `currentIndex`
fails. -/
def neighborInField (s : FieldSteppingStrategy) (dimension : Nat) (offset : Int) : Option Bool :=
  match s.currentIndex dimension with
  | none => none
  | some c =>
    let neighborIndexInDimension := toInt64 ((toU64 offset + c) % U64)
    some (decide (neighborIndexInDimension ≥ 0) &&
      decide (neighborIndexInDimension < toInt64 (s.size.getD dimension 0)))

/-- `FieldSteppingStrategy::linearNeighborIndex`; `none` when
`assert(neighborInField(dimension, offset))` fails. -/
def linearNeighborIndex (s : FieldSteppingStrategy) (dimension : Nat) (offset : Int) :
    Option Nat :=
  match s.neighborInField dimension offset with
  | some true => some ((s.index + toU64 (offset * toInt32 (s.stride.getD dimension 0))) % U64)
  | _ => none

end FieldSteppingStrategy

/-! ## WholeFieldStepper -/

namespace WholeFieldStepper

/-- `WholeFieldStepper::setIndexLimits` for the thread `threadId` of `numThreads`
(`OMP_THREAD_ID`, `OMP_NUM_THREADS`). -/
def setIndexLimits (threadId numThreads : Nat) (s : FieldSteppingStrategy) :
    FieldSteppingStrategy :=
  let chunk : Int := toInt32 (s.totalSize / numThreads)
  let offset : Int := toInt32 (s.totalSize % numThreads)
  let chunk1 : Int := if (threadId : Int) < offset then chunk + 1 else chunk
  let minIndex : Nat :=
    if (threadId : Int) < offset then toU64 (chunk1 * threadId)
    else toU64 (chunk1 * threadId + offset)
  { s with minIndex := minIndex, maxIndex := sub64 ((minIndex + toU64 chunk1) % U64) 1 }

/-- Constructor `WholeFieldStepper(sizes)`: base constructor, `setIndexLimits`, `first`.  The
three members the base constructor leaves unwritten are overwritten here before any read. -/
def new (threadId numThreads : Nat) (sizes : List Nat) : Option FieldSteppingStrategy :=
  match FieldSteppingStrategy.new 0 0 0 sizes with
  | none => none
  | some s => some (setIndexLimits threadId numThreads s).first

/-- `WholeFieldStepper::next`; `none` when `assert(isInField())` fails. -/
def next (s : FieldSteppingStrategy) : Option FieldSteppingStrategy :=
  if s.isInField then some { s with index := (s.index + 1) % U64 } else none

end WholeFieldStepper

/-- The traversal loop `while (stepper.isInField()) { ...; stepper.next(); }` used by every
client of the stepper: the states at which the loop body runs, in order.  `none` when `next`
fails or when `fuel` passes of the loop do not leave the field. -/
def WholeFieldStepper.visit : Nat → FieldSteppingStrategy → Option (List FieldSteppingStrategy)
  | 0, s => if s.isInField then none else some []
  | fuel + 1, s =>
    if s.isInField then
      match WholeFieldStepper.next s with
      | none => none
      | some s1 => (WholeFieldStepper.visit fuel s1).map (fun l => s :: l)
    else some []

/-! ## BoundaryStepper -/

/-- Member variables of `class BoundaryStepper`. -/
structure BoundaryStepper extends FieldSteppingStrategy where
  boundary : BoundaryId
deriving DecidableEq, Repr

namespace BoundaryStepper

/-- Constructor `BoundaryStepper(sizes)`: the base constructor and a default `BoundaryId`. -/
def new (minIndex maxIndex index : Nat) (sizes : List Nat) : Option BoundaryStepper :=
  match FieldSteppingStrategy.new minIndex maxIndex index sizes with
  | none => none
  | some s => some { toFieldSteppingStrategy := s, boundary := BoundaryId.new }

/-- `BoundaryStepper::next`; `none` when an assertion fails. -/
def next (s : BoundaryStepper) : Option BoundaryStepper :=
  if s.isInField then
    let stride := s.stride.getD s.boundary.getDimension 0
    if (s.index + 1) % U64 % stride ≠ 0 then
      some { s with index := (s.index + 1) % U64 }
    else if s.boundary.getDimension < s.size.length then
      let strideNextDim := s.stride.getD (s.boundary.getDimension + 1) 0
      some { s with index := (s.index + sub64 strideNextDim (sub64 stride 1)) % U64 }
    else none
  else none

/-- `BoundaryStepper::setIndexLimits` for the thread `threadId` of `numThreads`. -/
def setIndexLimits (threadId numThreads : Nat) (s : BoundaryStepper) : BoundaryStepper :=
  let boundarySize :=
    if 0 = s.totalSize then 0 else s.totalSize / s.size.getD s.boundary.getDimension 0
  let offset := boundarySize % numThreads
  let chunk := boundarySize / numThreads
  let chunk := if threadId < offset then (chunk + 1) % U64 else chunk
  if 0 = boundarySize then
    { s with minIndex := 1, maxIndex := 0 }
  else
    let stride := s.stride.getD s.boundary.getDimension 0
    let nextStride := s.stride.getD (s.boundary.getDimension + 1) 0
    let minIndexOnBoundary :=
      if s.boundary.isLowerSide then 0
      else (stride * sub32 (s.size.getD s.boundary.getDimension 0) 1) % U64
    let stepsToMin := (chunk * threadId) % U64
    let stepsToMin := if threadId ≥ offset then (stepsToMin + offset) % U64 else stepsToMin
    let stepsToMax := sub64 ((stepsToMin + chunk) % U64) 1
    { s with
      minIndex :=
        (minIndexOnBoundary + stepsToMin % stride + stepsToMin / stride * nextStride) % U64,
      maxIndex :=
        (minIndexOnBoundary + stepsToMax % stride + stepsToMax / stride * nextStride) % U64 }

/-- `BoundaryStepper::setIndexLimits` once more, with every division and remainder guarded:
`none` when a divisor is zero, where the C++ operators `/` and `%` are undefined.  Otherwise the
result is that of `setIndexLimits`. -/
def setIndexLimitsDefined (threadId numThreads : Nat) (s : BoundaryStepper) :
    Option BoundaryStepper :=
  if 0 ≠ s.totalSize ∧ s.size.getD s.boundary.getDimension 0 = 0 then none
  else
    let boundarySize :=
      if 0 = s.totalSize then 0 else s.totalSize / s.size.getD s.boundary.getDimension 0
    if numThreads = 0 then none
    else
      let offset := boundarySize % numThreads
      let chunk := boundarySize / numThreads
      let chunk := if threadId < offset then (chunk + 1) % U64 else chunk
      if 0 = boundarySize then
        some { s with minIndex := 1, maxIndex := 0 }
      else
        let stride := s.stride.getD s.boundary.getDimension 0
        let nextStride := s.stride.getD (s.boundary.getDimension + 1) 0
        let minIndexOnBoundary :=
          if s.boundary.isLowerSide then 0
          else (stride * sub32 (s.size.getD s.boundary.getDimension 0) 1) % U64
        let stepsToMin := (chunk * threadId) % U64
        let stepsToMin := if threadId ≥ offset then (stepsToMin + offset) % U64 else stepsToMin
        let stepsToMax := sub64 ((stepsToMin + chunk) % U64) 1
        if stride = 0 then none
        else
          some { s with
            minIndex :=
              (minIndexOnBoundary + stepsToMin % stride + stepsToMin / stride * nextStride) % U64,
            maxIndex :=
              (minIndexOnBoundary + stepsToMax % stride + stepsToMax / stride * nextStride)
                % U64 }

/-- `BoundaryStepper::setBoundaryToIterate`; `none` when
`assert(DIMENSIONALITY > boundary.getDimension())` fails. -/
def setBoundaryToIterate (threadId numThreads : Nat) (s : BoundaryStepper)
    (boundary : BoundaryId) : Option BoundaryStepper :=
  if s.size.length > boundary.getDimension then
    let s1 := setIndexLimits threadId numThreads { s with boundary := boundary }
    some { s1 with toFieldSteppingStrategy := s1.toFieldSteppingStrategy.first }
  else none

end BoundaryStepper

/-- The traversal loop `while (stepper.isInField()) { ...; stepper.next(); }` over a boundary:
the states at which the loop body runs, in order.  `none` when `next` fails or when `fuel`
passes of the loop do not leave the field. -/
def BoundaryStepper.visit : Nat → BoundaryStepper → Option (List BoundaryStepper)
  | 0, s => if s.isInField then none else some []
  | fuel + 1, s =>
    if s.isInField then
      match BoundaryStepper.next s with
      | none => none
      | some s1 => (BoundaryStepper.visit fuel s1).map (fun l => s :: l)
    else some []

/-! ## ValueArray -/

/-- `class ValueArray`: the `double *values` member is modelled by the content of the buffer it
points to, a map from linear index to value.  The element type is a parameter: the iterators
only copy values. -/
structure ValueArray (α : Type) where
  values : Nat → α

namespace ValueArray

/-- `ValueArray::getValue`. -/
def getValue {α : Type} (v : ValueArray α) (index : Nat) : α := v.values index

/-- `ValueArray::setValue`. -/
def setValue {α : Type} (v : ValueArray α) (index : Nat) (newValue : α) : ValueArray α :=
  { values := fun i => if i = index then newValue else v.values i }

end ValueArray

/-! ## PureFieldIterator

The methods of `class PureFieldIterator`, on its two members `stepper` and `getter`.  A method
that writes through the getter returns the new content of the buffer. -/

namespace PureFieldIterator

/-- `PureFieldIterator::currentIndex`. -/
def currentIndex (stepper : FieldSteppingStrategy) (dimension : Nat) : Option Nat :=
  if stepper.isInField then stepper.currentIndex dimension else none

/-- `PureFieldIterator::currentNeighbor`; `none` when
`assert(stepper->neighborInField(dimension, offset))` fails. -/
def currentNeighbor {α : Type} (stepper : FieldSteppingStrategy) (getter : ValueArray α)
    (dimension : Nat) (offset : Int) : Option α :=
  match stepper.neighborInField dimension offset with
  | some true =>
    match stepper.linearNeighborIndex dimension offset with
    | some neighborIndex => some (getter.getValue neighborIndex)
    | none => none
  | _ => none

/-- `PureFieldIterator::currentValue`. -/
def currentValue {α : Type} (stepper : FieldSteppingStrategy) (getter : ValueArray α) :
    Option α :=
  if stepper.isInField then some (getter.getValue stepper.index) else none

/-- `PureFieldIterator::setCurrentValue`. -/
def setCurrentValue {α : Type} (stepper : FieldSteppingStrategy) (getter : ValueArray α)
    (newValue : α) : Option (ValueArray α) :=
  if stepper.isInField then some (getter.setValue stepper.index newValue) else none

/-- `PureFieldIterator::setCurrentNeighbor`. -/
def setCurrentNeighbor {α : Type} (stepper : FieldSteppingStrategy) (getter : ValueArray α)
    (dimension : Nat) (offset : Int) (newValue : α) : Option (ValueArray α) :=
  match stepper.neighborInField dimension offset with
  | some true =>
    match stepper.linearNeighborIndex dimension offset with
    | some neighborIndex => some (getter.setValue neighborIndex newValue)
    | none => none
  | _ => none

/-- `PureFieldIterator::size`. -/
def size (stepper : FieldSteppingStrategy) (dimension : Nat) : Nat :=
  stepper.size.getD dimension 0

end PureFieldIterator

/-! ## ValueFieldIterator -/

/-- `class ValueFieldIterator`: a `PureFieldIterator` whose stepper is a `WholeFieldStepper` and
whose getter is a `ValueArray`. -/
structure ValueFieldIterator (α : Type) where
  stepper : FieldSteppingStrategy
  getter : ValueArray α

namespace ValueFieldIterator

/-- Constructor `ValueFieldIterator(sizes, values)`, run by thread `threadId` of
`numThreads`. -/
def new {α : Type} (threadId numThreads : Nat) (sizes : List Nat) (values : Nat → α) :
    Option (ValueFieldIterator α) :=
  match WholeFieldStepper.new threadId numThreads sizes with
  | none => none
  | some s => some { stepper := s, getter := { values := values } }

/-- `isInField`. -/
def isInField {α : Type} (it : ValueFieldIterator α) : Bool := it.stepper.isInField

/-- `first`. -/
def first {α : Type} (it : ValueFieldIterator α) : ValueFieldIterator α :=
  { it with stepper := it.stepper.first }

/-- `next`: the stepper's `next`. -/
def next {α : Type} (it : ValueFieldIterator α) : Option (ValueFieldIterator α) :=
  match WholeFieldStepper.next it.stepper with
  | none => none
  | some s => some { it with stepper := s }

/-- `currentIndex`. -/
def currentIndex {α : Type} (it : ValueFieldIterator α) (dimension : Nat) : Option Nat :=
  PureFieldIterator.currentIndex it.stepper dimension

/-- `currentNeighbor`. -/
def currentNeighbor {α : Type} (it : ValueFieldIterator α) (dimension : Nat) (offset : Int) :
    Option α :=
  PureFieldIterator.currentNeighbor it.stepper it.getter dimension offset

/-- `currentValue`. -/
def currentValue {α : Type} (it : ValueFieldIterator α) : Option α :=
  PureFieldIterator.currentValue it.stepper it.getter

/-- `setCurrentValue`. -/
def setCurrentValue {α : Type} (it : ValueFieldIterator α) (newValue : α) :
    Option (ValueFieldIterator α) :=
  match PureFieldIterator.setCurrentValue it.stepper it.getter newValue with
  | none => none
  | some g => some { it with getter := g }

/-- `setCurrentNeighbor`. -/
def setCurrentNeighbor {α : Type} (it : ValueFieldIterator α) (dimension : Nat) (offset : Int)
    (newValue : α) : Option (ValueFieldIterator α) :=
  match PureFieldIterator.setCurrentNeighbor it.stepper it.getter dimension offset newValue with
  | none => none
  | some g => some { it with getter := g }

/-- `size`. -/
def size {α : Type} (it : ValueFieldIterator α) (dimension : Nat) : Nat :=
  PureFieldIterator.size it.stepper dimension

end ValueFieldIterator

/-- The first loop of `ValueFieldIteratorTest::testSetCurrentValue`, with `value i` for the
value written in pass `i`: `count` passes of `setCurrentValue(value i); next()`.  `none` when a
call fails. -/
def ValueFieldIterator.writeLoop {α : Type} (value : Nat → α) :
    Nat → ValueFieldIterator α → Option (ValueFieldIterator α)
  | 0, it => some it
  | count + 1, it =>
    match ValueFieldIterator.writeLoop value count it with
    | none => none
    | some it1 =>
      match it1.setCurrentValue (value count) with
      | none => none
      | some it2 => it2.next

/-- The second loop of `ValueFieldIteratorTest::testSetCurrentValue`: `count` passes of
`currentValue(); next()`; the values read, in order, and the iterator left.  `none` when a call
fails. -/
def ValueFieldIterator.readLoop {α : Type} :
    Nat → ValueFieldIterator α → Option (List α × ValueFieldIterator α)
  | 0, it => some ([], it)
  | count + 1, it =>
    match ValueFieldIterator.readLoop count it with
    | none => none
    | some (read, it1) =>
      match it1.currentValue with
      | none => none
      | some v => it1.next.map fun it2 => (read ++ [v], it2)

/-! ## ValueFieldBoundaryIterator -/

/-- `class ValueFieldBoundaryIterator`: a `PureFieldIterator` whose stepper is a
`BoundaryStepper`, with the member `currentBoundary` of `BoundaryIterator`. -/
structure ValueFieldBoundaryIterator (α : Type) where
  stepper : BoundaryStepper
  getter : ValueArray α
  currentBoundary : BoundaryId

namespace ValueFieldBoundaryIterator

/-- Constructor `ValueFieldBoundaryIterator(sizes, values)`; the first three arguments are the
indeterminate contents of the stepper members that the constructors do not write. -/
def new {α : Type} (minIndex maxIndex index : Nat) (sizes : List Nat) (values : Nat → α) :
    Option (ValueFieldBoundaryIterator α) :=
  match BoundaryStepper.new minIndex maxIndex index sizes with
  | none => none
  | some s => some { stepper := s, getter := { values := values }, currentBoundary := BoundaryId.new }

/-- `isInField`. -/
def isInField {α : Type} (it : ValueFieldBoundaryIterator α) : Bool := it.stepper.isInField

/-- `first`. -/
def first {α : Type} (it : ValueFieldBoundaryIterator α) : ValueFieldBoundaryIterator α :=
  { it with stepper := { it.stepper with
      toFieldSteppingStrategy := it.stepper.toFieldSteppingStrategy.first } }

/-- `next`: the stepper's `next`. -/
def next {α : Type} (it : ValueFieldBoundaryIterator α) :
    Option (ValueFieldBoundaryIterator α) :=
  match it.stepper.next with
  | none => none
  | some s => some { it with stepper := s }

/-- `ValueFieldBoundaryIterator::setBoundaryToIterate`, run by thread `threadId` of
`numThreads`. -/
def setBoundaryToIterate {α : Type} (threadId numThreads : Nat)
    (it : ValueFieldBoundaryIterator α) (boundary : BoundaryId) :
    Option (ValueFieldBoundaryIterator α) :=
  match it.stepper.setBoundaryToIterate threadId numThreads boundary with
  | none => none
  | some s => some (first { it with currentBoundary := boundary, stepper := s })

/-- `currentIndex`. -/
def currentIndex {α : Type} (it : ValueFieldBoundaryIterator α) (dimension : Nat) :
    Option Nat :=
  PureFieldIterator.currentIndex it.stepper.toFieldSteppingStrategy dimension

/-- `currentNeighbor`. -/
def currentNeighbor {α : Type} (it : ValueFieldBoundaryIterator α) (dimension : Nat)
    (offset : Int) : Option α :=
  PureFieldIterator.currentNeighbor it.stepper.toFieldSteppingStrategy it.getter dimension offset

/-- `currentValue`. -/
def currentValue {α : Type} (it : ValueFieldBoundaryIterator α) : Option α :=
  PureFieldIterator.currentValue it.stepper.toFieldSteppingStrategy it.getter

/-- `setCurrentValue`. -/
def setCurrentValue {α : Type} (it : ValueFieldBoundaryIterator α) (newValue : α) :
    Option (ValueFieldBoundaryIterator α) :=
  match PureFieldIterator.setCurrentValue it.stepper.toFieldSteppingStrategy it.getter
      newValue with
  | none => none
  | some g => some { it with getter := g }

/-- `setCurrentNeighbor`. -/
def setCurrentNeighbor {α : Type} (it : ValueFieldBoundaryIterator α) (dimension : Nat)
    (offset : Int) (newValue : α) : Option (ValueFieldBoundaryIterator α) :=
  match PureFieldIterator.setCurrentNeighbor it.stepper.toFieldSteppingStrategy it.getter
      dimension offset newValue with
  | none => none
  | some g => some { it with getter := g }

/-- `size`. -/
def size {α : Type} (it : ValueFieldBoundaryIterator α) (dimension : Nat) : Nat :=
  PureFieldIterator.size it.stepper.toFieldSteppingStrategy dimension

end ValueFieldBoundaryIterator

/-! ## ComposedFieldBoundaryIterator -/

/-- `class ComposedFieldBoundaryIterator`: the main iterator, the array `sideIterators` (entry
`i` holds the iterator of the side region below and of the side region above the main region
along dimension `i`) and the member `currentBoundary` of `BoundaryIterator`. -/
structure ComposedFieldBoundaryIterator (α : Type) where
  mainIterator : ValueFieldBoundaryIterator α
  sideIterators : List (ValueFieldBoundaryIterator α × ValueFieldBoundaryIterator α)
  currentBoundary : BoundaryId

namespace ComposedFieldBoundaryIterator

/-- Constructor `ComposedFieldBoundaryIterator(sizes, data, sideIterators)`. -/
def new {α : Type} (minIndex maxIndex index : Nat) (sizes : List Nat) (data : Nat → α)
    (sideIterators : List (ValueFieldBoundaryIterator α × ValueFieldBoundaryIterator α)) :
    Option (ComposedFieldBoundaryIterator α) :=
  match ValueFieldBoundaryIterator.new minIndex maxIndex index sizes data with
  | none => none
  | some m =>
    some { mainIterator := m, sideIterators := sideIterators, currentBoundary := BoundaryId.new }

/-- Entry `sideIterators[dimension][side]`; `none` outside the array. -/
def sideIterator {α : Type} (it : ComposedFieldBoundaryIterator α) (dimension side : Nat) :
    Option (ValueFieldBoundaryIterator α) :=
  match it.sideIterators.get? dimension with
  | none => none
  | some p => if side = 0 then some p.1 else some p.2

/-- Assignment to the iterator object `sideIterators[dimension][side]`. -/
def setSideIterator {α : Type} (it : ComposedFieldBoundaryIterator α) (dimension side : Nat)
    (s : ValueFieldBoundaryIterator α) : ComposedFieldBoundaryIterator α :=
  { it with sideIterators :=
      it.sideIterators.modify (fun p => if side = 0 then (s, p.2) else (p.1, s)) dimension }

/-- Index pair of `ComposedFieldBoundaryIterator::currentSideIterator`. -/
def currentSide {α : Type} (it : ComposedFieldBoundaryIterator α) : Nat × Nat :=
  (it.currentBoundary.getDimension, if it.currentBoundary.isLowerSide then 0 else 1)

/-- `ComposedFieldBoundaryIterator::currentSideIterator`. -/
def currentSideIterator {α : Type} (it : ComposedFieldBoundaryIterator α) :
    Option (ValueFieldBoundaryIterator α) :=
  it.sideIterator it.currentSide.1 it.currentSide.2

/-- `ComposedFieldIterator::currentIndex`. -/
def currentIndex {α : Type} (it : ComposedFieldBoundaryIterator α) (dimension : Nat) :
    Option Nat :=
  it.mainIterator.currentIndex dimension

/-- `ComposedFieldIterator::isInField`. -/
def isInField {α : Type} (it : ComposedFieldBoundaryIterator α) : Bool :=
  it.mainIterator.isInField

/-- `ComposedFieldIterator::currentValue`. -/
def currentValue {α : Type} (it : ComposedFieldBoundaryIterator α) : Option α :=
  it.mainIterator.currentValue

/-- `ComposedFieldIterator::currentNeighbor`. -/
def currentNeighbor {α : Type} (it : ComposedFieldBoundaryIterator α) (dimension : Nat)
    (offset : Int) : Option α :=
  match it.currentIndex dimension with
  | none => none
  | some c =>
    let neighborIndexInDimension := toInt64 ((toU64 offset + c) % U64)
    if neighborIndexInDimension < 0 then
      let offsetInSideRegion := toInt32 (toU64 (neighborIndexInDimension + 1))
      match it.sideIterator dimension 0 with
      | none => none
      | some side => side.currentNeighbor dimension offsetInSideRegion
    else if neighborIndexInDimension ≥ toInt64 (it.mainIterator.size dimension) then
      let offsetInSideRegion :=
        toInt32 (sub64 (toU64 neighborIndexInDimension) (it.mainIterator.size dimension))
      match it.sideIterator dimension 1 with
      | none => none
      | some side => side.currentNeighbor dimension offsetInSideRegion
    else it.mainIterator.currentNeighbor dimension offset

/-- `ComposedFieldIterator::setCurrentValue`. -/
def setCurrentValue {α : Type} (it : ComposedFieldBoundaryIterator α) (newValue : α) :
    Option (ComposedFieldBoundaryIterator α) :=
  match it.mainIterator.setCurrentValue newValue with
  | none => none
  | some m => some { it with mainIterator := m }

/-- `ComposedFieldIterator::setCurrentNeighbor`. -/
def setCurrentNeighbor {α : Type} (it : ComposedFieldBoundaryIterator α) (dimension : Nat)
    (offset : Int) (newValue : α) : Option (ComposedFieldBoundaryIterator α) :=
  match it.currentIndex dimension with
  | none => none
  | some c =>
    let neighborIndexInDimension := toInt64 ((toU64 offset + c) % U64)
    if neighborIndexInDimension < 0 then
      let offsetInSideRegion := toInt32 (toU64 (neighborIndexInDimension + 1))
      match it.sideIterator dimension 0 with
      | none => none
      | some side =>
        match side.setCurrentNeighbor dimension offsetInSideRegion newValue with
        | none => none
        | some side1 => some (it.setSideIterator dimension 0 side1)
    else if neighborIndexInDimension ≥ toInt64 (it.mainIterator.size dimension) then
      let offsetInSideRegion :=
        toInt32 (sub64 (toU64 neighborIndexInDimension) (it.mainIterator.size dimension))
      match it.sideIterator dimension 1 with
      | none => none
      | some side =>
        match side.setCurrentNeighbor dimension offsetInSideRegion newValue with
        | none => none
        | some side1 => some (it.setSideIterator dimension 1 side1)
    else
      match it.mainIterator.setCurrentNeighbor dimension offset newValue with
      | none => none
      | some m => some { it with mainIterator := m }

/-- `ComposedFieldIterator::size`. -/
def size {α : Type} (it : ComposedFieldBoundaryIterator α) (dimension : Nat) : Option Nat :=
  match it.sideIterator dimension 0, it.sideIterator dimension 1 with
  | some lo, some hi =>
    some ((it.mainIterator.size dimension + lo.size dimension + hi.size dimension) % U64)
  | _, _ => none

/-- `ComposedFieldBoundaryIterator::first`. -/
def first {α : Type} (it : ComposedFieldBoundaryIterator α) :
    Option (ComposedFieldBoundaryIterator α) :=
  let it1 := { it with mainIterator := it.mainIterator.first }
  match it1.currentSideIterator with
  | none => none
  | some side => some (it1.setSideIterator it1.currentSide.1 it1.currentSide.2 side.first)

/-- `ComposedFieldBoundaryIterator::next`. -/
def next {α : Type} (it : ComposedFieldBoundaryIterator α) :
    Option (ComposedFieldBoundaryIterator α) :=
  match it.mainIterator.next with
  | none => none
  | some m =>
    let it1 := { it with mainIterator := m }
    match it1.currentSideIterator with
    | none => none
    | some side =>
      match side.next with
      | none => none
      | some side1 => some (it1.setSideIterator it1.currentSide.1 it1.currentSide.2 side1)

/-- `ComposedFieldBoundaryIterator::setBoundaryToIterate`, run by thread `threadId` of
`numThreads`. -/
def setBoundaryToIterate {α : Type} (threadId numThreads : Nat)
    (it : ComposedFieldBoundaryIterator α) (boundary : BoundaryId) :
    Option (ComposedFieldBoundaryIterator α) :=
  let it1 := { it with currentBoundary := boundary }
  match it1.mainIterator.setBoundaryToIterate threadId numThreads it1.currentBoundary with
  | none => none
  | some m =>
    let it2 := { it1 with mainIterator := m }
    let oppositeBoundary := it2.currentBoundary.oppositeSide
    match it2.currentSideIterator with
    | none => none
    | some side =>
      match side.setBoundaryToIterate threadId numThreads oppositeBoundary with
      | none => none
      | some side1 =>
        (it2.setSideIterator it2.currentSide.1 it2.currentSide.2 side1).first

end ComposedFieldBoundaryIterator

/-- `times` calls of `ComposedFieldBoundaryIterator::next` in a row; `none` when one of them
fails. -/
def ComposedFieldBoundaryIterator.nextTimes {α : Type} :
    Nat → ComposedFieldBoundaryIterator α → Option (ComposedFieldBoundaryIterator α)
  | 0, it => some it
  | times + 1, it =>
    match it.next with
    | none => none
    | some it1 => ComposedFieldBoundaryIterator.nextTimes times it1

/-! ## Math -/

/-- `Math::power(base, exp)`: the loop `result *= base` on `std::size_t`; the exponent is an
`unsigned int`. -/
def Math.power (base exp : Nat) : Nat :=
  Nat.rec 1 (fun _ result => (result * base) % U64) (exp % U32)

/-! ## GhostRegion -/

/-- A persistent receive request made by `Recv_init(values, totalSize, MPI::DOUBLE, rank, tag)`:
the buffer is the `values` array of the ghost region at `buffer`. -/
structure ReceiveRequest where
  buffer : BoundaryId
  count : Nat
  tag : Int
deriving DecidableEq, Repr

/-- A message in transit made by `Isend(buf, 1, datatype, rank, tag)`: the elements of `buf`
that the datatype selects, in the order of the datatype. -/
structure Message (α : Type) where
  tag : Int
  data : List α

/-- Member variables of `class GhostRegion`. -/
structure GhostRegion (α : Type) where
  boundary : BoundaryId
  width : Nat
  elementsPerDim : Nat
  values : Nat → α

namespace GhostRegion

/-- The local `totalSize` of the constructor `GhostRegion(boundary, size, width)` for
`DIMENSIONALITY = D`: the length of the array `values` that the constructor allocates. -/
def totalSize (D size width : Nat) : Nat :=
  (Math.power size (sub64 D 1) * width) % U64

/-- Constructor `GhostRegion(boundary, size, width)`; `values` is the indeterminate content of
the array the constructor allocates. -/
def new {α : Type} (boundary : BoundaryId) (size width : Nat) (values : Nat → α) :
    GhostRegion α :=
  { boundary := boundary, width := width, elementsPerDim := size, values := values }

/-- `GhostRegion::getSizeArray` for `DIMENSIONALITY = D`. -/
def getSizeArray {α : Type} (D : Nat) (g : GhostRegion α) : List Nat :=
  (List.replicate D g.elementsPerDim).set g.boundary.getDimension g.width

/-- `GhostRegion::getBoundaryIterator`; the first three arguments are the indeterminate contents
of the stepper members that the constructors do not write. -/
def getBoundaryIterator {α : Type} (D minIndex maxIndex index : Nat) (g : GhostRegion α) :
    Option (ValueFieldBoundaryIterator α) :=
  ValueFieldBoundaryIterator.new minIndex maxIndex index (g.getSizeArray D) g.values

/-- `GhostRegion::getInnerIterator`, run by thread `threadId` of `numThreads`. -/
def getInnerIterator {α : Type} (D threadId numThreads : Nat) (g : GhostRegion α) :
    Option (ValueFieldIterator α) :=
  ValueFieldIterator.new threadId numThreads (g.getSizeArray D) g.values

/-- `GhostRegion::initializeReceive`. -/
def initializeReceive {α : Type} (D : Nat) (g : GhostRegion α) : ReceiveRequest :=
  { buffer := g.boundary,
    count := (Math.power g.elementsPerDim (sub64 D 1) * g.width) % U64,
    tag := toInt32 ((2 * g.boundary.getDimension + if g.boundary.isLowerSide then 1 else 0)
      % U64) }

end GhostRegion

/-! ## ComputationalComposedBlock -/

/-- The type map of `oldtype.Create_hvector(count, 1, stride * doubleSize)` in units of one
`double`: `count` copies of `oldtype`, the copy `c` displaced by `c * stride` elements. -/
def hvector (count stride : Nat) (oldtype : List Nat) : List Nat :=
  (List.range count).flatMap fun c => oldtype.map fun o => c * stride + o

/-- Member variables of `class ComputationalComposedBlock` (with those of its bases
`ComputationalBlock` and `CommunicativeBlock` that the embedded methods use); `values` is `none`
for the `NULL` pointer. -/
structure ComputationalComposedBlock (α : Type) where
  smallestIndex : Nat
  elementsPerDim : Nat
  values : Option (Nat → α)
  ghostRegions : List (GhostRegion α × GhostRegion α)
  extent : Nat
  commDataBlockTypes : List (List Nat)
  receiveRequest : List ReceiveRequest

namespace ComputationalComposedBlock

/-- `ComputationalBlock::getSizeArray` for `DIMENSIONALITY = D`. -/
def getSizeArray {α : Type} (D : Nat) (block : ComputationalComposedBlock α) : List Nat :=
  List.replicate D block.elementsPerDim

/-- The array `stride` of `initializeBlockDataTypes`. -/
def dataTypeStride (elementsPerDim : Nat) : Nat → Nat
  | 0 => 1
  | d + 1 => (dataTypeStride elementsPerDim d * elementsPerDim) % U64

/-- The array `tmpTypes` of `initializeBlockDataTypes` in pass `i` of the outer loop. -/
def tmpTypes (elementsPerDim extent i : Nat) : Nat → List Nat
  | 0 => [0]
  | j + 1 =>
    if i = j then
      hvector extent (dataTypeStride elementsPerDim j) (tmpTypes elementsPerDim extent i j)
    else
      hvector elementsPerDim (dataTypeStride elementsPerDim j)
        (tmpTypes elementsPerDim extent i j)

/-- `ComputationalComposedBlock::initializeBlockDataTypes`: the array `commDataBlockTypes`. -/
def initializeBlockDataTypes (D elementsPerDim extent : Nat) : List (List Nat) :=
  (List.range D).map fun i => tmpTypes elementsPerDim extent i D

/-- `ComputationalComposedBlock::createGhostRegions`; `fresh i j` is the indeterminate content
of the array allocated for `ghostRegions[i][j]`. -/
def createGhostRegions {α : Type} (D elementsPerDim extent : Nat) (fresh : Nat → Nat → Nat → α) :
    List (GhostRegion α × GhostRegion α) :=
  (List.range D).map fun i =>
    (GhostRegion.new { dimension := i, lower := true } elementsPerDim extent (fresh i 0),
     GhostRegion.new { dimension := i, lower := false } elementsPerDim extent (fresh i 1))

/-- Constructors `ComputationalComposedBlock(elementsPerDim, extent)` and
`ComputationalComposedBlock(elementsPerDim, extent, values)`. -/
def new {α : Type} (D elementsPerDim extent : Nat) (values : Option (Nat → α))
    (fresh : Nat → Nat → Nat → α) : ComputationalComposedBlock α :=
  { smallestIndex := 0, elementsPerDim := elementsPerDim, values := values,
    ghostRegions := createGhostRegions D elementsPerDim extent fresh, extent := extent,
    commDataBlockTypes := initializeBlockDataTypes D elementsPerDim extent,
    receiveRequest := [] }

/-- `ComputationalBlock::setValues`, which `ComputationalComposedBlock` inherits without
overriding it. -/
def setValues {α : Type} (block : ComputationalComposedBlock α) (values : Nat → α) :
    ComputationalComposedBlock α :=
  { block with values := some values }

/-- The loop of `getBoundaryIterator` that fills `ghostIterators`, entered at dimension `i`;
`u` gives the indeterminate contents of the members of each new stepper. -/
def ghostIterators {α : Type} (D : Nat) (u : Nat → Nat) :
    Nat → List (GhostRegion α × GhostRegion α) →
    Option (List (ValueFieldBoundaryIterator α × ValueFieldBoundaryIterator α))
  | _, [] => some []
  | i, (lo, hi) :: rest =>
    match lo.getBoundaryIterator D (u (6 * i + 3)) (u (6 * i + 4)) (u (6 * i + 5)),
      hi.getBoundaryIterator D (u (6 * i + 6)) (u (6 * i + 7)) (u (6 * i + 8)),
      ghostIterators D u (i + 1) rest with
    | some a, some b, some r => some ((a, b) :: r)
    | _, _, _ => none

/-- `ComputationalComposedBlock::getBoundaryIterator`; `none` when an assertion fails. -/
def getBoundaryIterator {α : Type} (D : Nat) (u : Nat → Nat)
    (block : ComputationalComposedBlock α) : Option (ComposedFieldBoundaryIterator α) :=
  match block.values with
  | none => none
  | some values =>
    match ghostIterators D u 0 block.ghostRegions with
    | none => none
    | some sides =>
      ComposedFieldBoundaryIterator.new (u 0) (u 1) (u 2) (block.getSizeArray D)
        (fun i => values (block.smallestIndex + i)) sides

/-- `ComputationalComposedBlock::getInnerIterator`, run by thread `threadId` of `numThreads`;
`none` when an assertion fails. -/
def getInnerIterator {α : Type} (D threadId numThreads : Nat)
    (block : ComputationalComposedBlock α) : Option (ValueFieldIterator α) :=
  match block.values with
  | none => none
  | some values =>
    ValueFieldIterator.new threadId numThreads (block.getSizeArray D)
      (fun i => values (block.smallestIndex + i))

/-- `ComputationalComposedBlock::startReceive`: the array `receiveRequest`, slot `2 i + 1` for
`ghostRegions[i][0]` and slot `2 i` for `ghostRegions[i][1]`. -/
def startReceive {α : Type} (D : Nat) (block : ComputationalComposedBlock α) :
    ComputationalComposedBlock α :=
  match block.values with
  | none => block
  | some _ =>
    { block with receiveRequest :=
        (List.range D).flatMap fun i =>
          match block.ghostRegions.get? i with
          | none => []
          | some p => [p.2.initializeReceive D, p.1.initializeReceive D] }

/-- `ComputationalComposedBlock::startSendingGhostData`: the messages handed to `Isend`, in the
order of the calls. -/
def startSendingGhostData {α : Type} (D : Nat) (block : ComputationalComposedBlock α)
    (values : Nat → α) : List (Message α) :=
  (List.range D).flatMap fun d =>
    let stride := Math.power block.elementsPerDim d
    let startIndex := (sub64 block.elementsPerDim block.extent * stride) % U64
    [{ tag := toInt32 ((2 * d) % U64),
       data := (block.commDataBlockTypes.getD d []).map fun o => values o },
     { tag := toInt32 ((2 * d + 1) % U64),
       data := (block.commDataBlockTypes.getD d []).map fun o => values (startIndex + o) }]

/-- `ComputationalComposedBlock::startSend`. -/
def startSend {α : Type} (D : Nat) (block : ComputationalComposedBlock α) : List (Message α) :=
  match block.values with
  | none => []
  | some values => startSendingGhostData D block values

/-- `CommunicativeBlock::startCommunication`: the block with its receive requests and the
messages sent. -/
def startCommunication {α : Type} (D : Nat) (block : ComputationalComposedBlock α) :
    ComputationalComposedBlock α × List (Message α) :=
  let block1 := startReceive D block
  (block1, startSend D block1)

/-- `CommunicativeBlock::finishCommunication`: `Waitall` on the send requests; no member of the
block is written. -/
def finishCommunication {α : Type} (block : ComputationalComposedBlock α) :
    ComputationalComposedBlock α :=
  block

/-- `ComputationalComposedBlock::receiveDoneAt` when `Waitany` returns `index`. -/
def receiveDoneAt (index : Nat) : BoundaryId :=
  { dimension := index / 2, lower := decide (1 = index % 2) }

end ComputationalComposedBlock

/-! ## The MPI calls of a halo exchange, with their rank arguments -/

/-- One call `ghostRegions[i][j]->initializeReceive(communicator, neighborRank[i][j])` of
`startReceive`: the slot of `receiveRequest` that takes the result, the entry of `neighborRank`
passed as rank (given by its index pair; entry `[i][0]` is the neighbour below and entry `[i][1]`
the neighbour above along dimension `i`), and the request made. -/
structure ReceiveCall where
  slot : Nat
  rank : Nat × Nat
  request : ReceiveRequest
deriving DecidableEq, Repr

/-- One call `Isend(buf, 1, commDataBlockTypes[d], neighborRank[d][j], tag)` of
`startSendingGhostData`: the slot of `sendRequest` that takes the result, the index in `values`
of the first element of `buf`, the entry of `neighborRank` passed as destination (given by its
index pair) and the tag. -/
structure SendCall where
  slot : Nat
  startIndex : Nat
  rank : Nat × Nat
  tag : Int
deriving DecidableEq, Repr

/-- The calls of `initializeReceive` that `ComputationalComposedBlock::startReceive` makes, in
program order. -/
def ComputationalComposedBlock.startReceiveCalls {α : Type} (D : Nat)
    (block : ComputationalComposedBlock α) : List ReceiveCall :=
  match block.values with
  | none => []
  | some _ =>
    (List.range D).flatMap fun i =>
      match block.ghostRegions.get? i with
      | none => []
      | some p =>
        [{ slot := (2 * i + 1) % U64, rank := (i, 0), request := p.1.initializeReceive D },
         { slot := (2 * i) % U64, rank := (i, 1), request := p.2.initializeReceive D }]

/-- The calls of `Isend` that `ComputationalComposedBlock::startSend` makes through
`startSendingGhostData`, in program order. -/
def ComputationalComposedBlock.startSendingGhostDataCalls {α : Type} (D : Nat)
    (block : ComputationalComposedBlock α) : List SendCall :=
  match block.values with
  | none => []
  | some _ =>
    (List.range D).flatMap fun d =>
      let stride := Math.power block.elementsPerDim d
      let startIndex := (sub64 block.elementsPerDim block.extent * stride) % U64
      [{ slot := (2 * d) % U64, startIndex := 0, rank := (d, 0),
         tag := toInt32 ((2 * d) % U64) },
       { slot := (2 * d + 1) % U64, startIndex := startIndex, rank := (d, 1),
         tag := toInt32 ((2 * d + 1) % U64) }]

/-- A number of rounds `startCommunication(); finishCommunication();` on one block, the
communication calls of the loop of `StencilApplication::applyStencil`: the block left, and the
calls of `initializeReceive` of all the rounds in program order.  Each of these calls is one
call of `Recv_init`, which makes a new persistent request. -/
def ComputationalComposedBlock.communicationRounds {α : Type} (D : Nat) :
    Nat → ComputationalComposedBlock α → ComputationalComposedBlock α × List ReceiveCall
  | 0, block => (block, [])
  | rounds + 1, block =>
    let before := ComputationalComposedBlock.communicationRounds D rounds block
    let started := before.1.startCommunication D
    (started.1.finishCommunication, before.2 ++ before.1.startReceiveCalls D)

/-! ## Message transport on a single process

On a periodic topology with one process every neighbour rank is the rank of the process itself:
each message is delivered to the process that sent it, and a message and a receive request match
when their tags are equal. -/

/-- Completion of the receive request `r`: the first message with the tag of the request is
copied, element by element and at most `r.count` elements, to the front of the buffer. -/
def ReceiveRequest.complete {α : Type} (r : ReceiveRequest) (messages : List (Message α))
    (buffer : Nat → α) : Nat → α :=
  match messages.find? fun m => decide (m.tag = r.tag) with
  | none => buffer
  | some m => fun k => if k < r.count then m.data.getD k (buffer k) else buffer k

/-- Completion of the receive request of one ghost region, if there is one. -/
def GhostRegion.completeReceive {α : Type} (requests : List ReceiveRequest)
    (messages : List (Message α)) (g : GhostRegion α) : GhostRegion α :=
  match requests.find? fun r => decide (r.buffer = g.boundary) with
  | none => g
  | some r => { g with values := r.complete messages g.values }

/-- The block after all its receive requests have completed. -/
def ComputationalComposedBlock.completeReceives {α : Type}
    (block : ComputationalComposedBlock α) (messages : List (Message α)) :
    ComputationalComposedBlock α :=
  { block with ghostRegions := block.ghostRegions.map fun p =>
      (p.1.completeReceive block.receiveRequest messages,
       p.2.completeReceive block.receiveRequest messages) }

/-- The block on a single-process periodic topology after `startCommunication` and the
completion of all receives. -/
def ComputationalComposedBlock.exchanged {α : Type} (D : Nat)
    (block : ComputationalComposedBlock α) : ComputationalComposedBlock α :=
  let started := block.startCommunication D
  started.1.completeReceives started.2

/-! ## ComputationalPureBlock -/

/-- Member variables of `class ComputationalPureBlock` (those of its base `ComputationalBlock`);
`values` is `none` for the `NULL` pointer. -/
structure ComputationalPureBlock (α : Type) where
  smallestIndex : Nat
  elementsPerDim : Nat
  values : Option (Nat → α)

namespace ComputationalPureBlock

/-- Constructor `ComputationalPureBlock(elementsPerDim, values)`. -/
def new {α : Type} (elementsPerDim : Nat) (values : Nat → α) : ComputationalPureBlock α :=
  { smallestIndex := 0, elementsPerDim := elementsPerDim, values := some values }

/-- `ComputationalBlock::getSizeArray` for `DIMENSIONALITY = D`. -/
def getSizeArray {α : Type} (D : Nat) (block : ComputationalPureBlock α) : List Nat :=
  List.replicate D block.elementsPerDim

/-- `ComputationalPureBlock::getBoundaryIterator`; `none` when the assertion fails.  The
arguments `minIndex`, `maxIndex` and `index` are the indeterminate contents of the stepper
members that the constructors do not write. -/
def getBoundaryIterator {α : Type} (D minIndex maxIndex index : Nat)
    (block : ComputationalPureBlock α) : Option (ValueFieldBoundaryIterator α) :=
  match block.values with
  | none => none
  | some values =>
    ValueFieldBoundaryIterator.new minIndex maxIndex index (block.getSizeArray D)
      (fun i => values (block.smallestIndex + i))

/-- `ComputationalPureBlock::getInnerIterator`, run by thread `threadId` of `numThreads`;
`none` when the assertion fails. -/
def getInnerIterator {α : Type} (D threadId numThreads : Nat)
    (block : ComputationalPureBlock α) : Option (ValueFieldIterator α) :=
  match block.values with
  | none => none
  | some values =>
    ValueFieldIterator.new threadId numThreads (block.getSizeArray D)
      (fun i => values (block.smallestIndex + i))

/-- The block after an iterator made by `getInnerIterator` or `getBoundaryIterator` has written
to the array it shares with the block: `buffer` is the content of the array from
`values[smallestIndex]` on. -/
def written {α : Type} (block : ComputationalPureBlock α) (buffer : Nat → α) :
    ComputationalPureBlock α :=
  match block.values with
  | none => block
  | some values =>
    { block with values := some fun i =>
        if block.smallestIndex ≤ i then buffer (i - block.smallestIndex) else values i }

end ComputationalPureBlock

/-! ## MultuncialStencil and BlockOperator

`EXTENT` is `ORDER_OF_ACCURACY / 2`; the pure virtual `getWeight(iterator, dim, weightIndex)` is
the parameter `getWeight dim weightIndex`, a table of weights that does not depend on the
point.  The values are elements of a commutative ring: the arithmetic is exact. -/

/-- Conversion of a signed value to `unsigned`. -/
def toU32 (z : Int) : Nat := (z % (U32 : Int)).toNat

/-- A loop `for (i = 0; i < count; i++) resultValue += term(i)`; `none` when a term fails. -/
def accumulate {α : Type} [Add α] (term : Nat → Option α) : Nat → α → Option α
  | 0, resultValue => some resultValue
  | count + 1, resultValue =>
    match accumulate term count resultValue with
    | none => none
    | some r =>
      match term count with
      | none => none
      | some x => some (r + x)

/-- A parallel region run by `numThreads` threads, the threads taken one after another in the
order of their ids: `count` threads have run. -/
def parallelRegion {σ : Type} (body : Nat → σ → Option σ) : Nat → σ → Option σ
  | 0, s => some s
  | count + 1, s =>
    match parallelRegion body count s with
    | none => none
    | some s1 => body count s1

namespace MultuncialStencil

variable {α : Type} [CommRing α]

/-- Body of the loop over `d` in `applyInInnerRegion`: the contribution of dimension `d` is
added to `resultValue`. -/
def innerDimension (EXTENT sizePerDim : Nat) (getWeight : Nat → Int → α)
    (inputIterator : ValueFieldIterator α) (d : Nat) (resultValue : α) : Option α :=
  match inputIterator.currentIndex d with
  | none => none
  | some indexAlongD =>
    let left :=
      if indexAlongD ≥ EXTENT then
        accumulate (fun i =>
          (inputIterator.currentNeighbor d (toInt32 ((sub32 0 EXTENT + i) % U64))).map
            fun v => getWeight d (toInt32 i) * v) EXTENT resultValue
      else some resultValue
    match left, inputIterator.currentValue with
    | some r1, some v =>
      let r2 := r1 + getWeight d (toInt32 EXTENT) * v
      if (indexAlongD + EXTENT) % U64 < sizePerDim then
        accumulate (fun i =>
          (inputIterator.currentNeighbor d (toInt32 (i + 1))).map
            fun v1 => getWeight d (toInt32 ((EXTENT + (i + 1)) % U64)) * v1) EXTENT r2
      else some r2
    | _, _ => none

/-- The loop over `d` in `applyInInnerRegion`, started with `resultValue = 0`; `count`
dimensions have been handled. -/
def innerValue (EXTENT sizePerDim : Nat) (getWeight : Nat → Int → α)
    (inputIterator : ValueFieldIterator α) : Nat → Option α
  | 0 => some 0
  | count + 1 =>
    match innerValue EXTENT sizePerDim getWeight inputIterator count with
    | none => none
    | some r => innerDimension EXTENT sizePerDim getWeight inputIterator count r

/-- The `while` loop of `applyInInnerRegion` with the assertion that follows it; the final
result iterator, or `none` when an assertion fails or `fuel` passes do not end the loop. -/
def innerLoop (D EXTENT sizePerDim : Nat) (getWeight : Nat → Int → α) :
    Nat → ValueFieldIterator α → ValueFieldIterator α → Option (ValueFieldIterator α)
  | 0, inputIterator, resultIterator =>
    if inputIterator.isInField then none
    else if resultIterator.isInField then none else some resultIterator
  | fuel + 1, inputIterator, resultIterator =>
    if inputIterator.isInField then
      match innerValue EXTENT sizePerDim getWeight inputIterator D with
      | none => none
      | some resultValue =>
        match resultIterator.setCurrentValue resultValue with
        | none => none
        | some r1 =>
          match inputIterator.next, r1.next with
          | some i2, some r2 => innerLoop D EXTENT sizePerDim getWeight fuel i2 r2
          | _, _ => none
    else if resultIterator.isInField then none else some resultIterator

/-- The parallel region of `applyInInnerRegion` as run by thread `threadId` of `numThreads`. -/
def innerThread (D EXTENT : Nat) (getWeight : Nat → Int → α) (fuel numThreads : Nat)
    (input : ComputationalComposedBlock α) (threadId : Nat)
    (result : ComputationalPureBlock α) : Option (ComputationalPureBlock α) :=
  match input.getInnerIterator D threadId numThreads,
    result.getInnerIterator D threadId numThreads with
  | some inputIterator, some resultIterator =>
    match innerLoop D EXTENT input.elementsPerDim getWeight fuel inputIterator
        resultIterator with
    | none => none
    | some r => some (result.written r.getter.values)
  | _, _ => none

/-- `MultuncialStencil::applyInInnerRegion`. -/
def applyInInnerRegion (D EXTENT : Nat) (getWeight : Nat → Int → α) (fuel numThreads : Nat)
    (input : ComputationalComposedBlock α) (result : ComputationalPureBlock α) :
    Option (ComputationalPureBlock α) :=
  parallelRegion (innerThread D EXTENT getWeight fuel numThreads input) numThreads result

/-- Body of the loop over `distanceFromBoundary` in `applyInBoundaryRegion`. -/
def boundaryDistance (EXTENT : Nat) (getWeight : Nat → Int → α) (boundary : BoundaryId)
    (inputIterator : ComposedFieldBoundaryIterator α) (distanceFromBoundary : Int)
    (resultIterator : ValueFieldBoundaryIterator α) : Option (ValueFieldBoundaryIterator α) :=
  let dim := boundary.getDimension
  let lowestWeightIndex : Int := if boundary.isLowerSide then 0 else toInt32 ((EXTENT + 1) % U32)
  match resultIterator.currentNeighbor dim distanceFromBoundary with
  | none => none
  | some r0 =>
    match accumulate (fun i =>
        let weightIndex := toInt32 ((toU64 lowestWeightIndex + i) % U64)
        let offset := toInt32
          (((sub32 (toU32 lowestWeightIndex) EXTENT + toU32 distanceFromBoundary) % U32 + i)
            % U64)
        (inputIterator.currentNeighbor dim offset).map
          fun v => getWeight dim weightIndex * v) EXTENT r0 with
    | none => none
    | some resultValue => resultIterator.setCurrentNeighbor dim distanceFromBoundary resultValue

/-- The loop over `distanceFromBoundary` in `applyInBoundaryRegion`: the loop variable takes the
values `0, dir, 2 dir, …`; `count` values have been handled. -/
def boundaryDistances (EXTENT : Nat) (getWeight : Nat → Int → α) (boundary : BoundaryId)
    (inputIterator : ComposedFieldBoundaryIterator α) :
    Nat → ValueFieldBoundaryIterator α → Option (ValueFieldBoundaryIterator α)
  | 0, resultIterator => some resultIterator
  | count + 1, resultIterator =>
    let dir : Int := if boundary.isLowerSide then 1 else -1
    match boundaryDistances EXTENT getWeight boundary inputIterator count resultIterator with
    | none => none
    | some r => boundaryDistance EXTENT getWeight boundary inputIterator (dir * count) r

/-- The `while` loop of `applyInBoundaryRegion` with the assertion that follows it; the final
result iterator, or `none` when an assertion fails or `fuel` passes do not end the loop. -/
def boundaryLoop (EXTENT : Nat) (getWeight : Nat → Int → α) (boundary : BoundaryId) :
    Nat → ComposedFieldBoundaryIterator α → ValueFieldBoundaryIterator α →
    Option (ValueFieldBoundaryIterator α)
  | 0, inputIterator, resultIterator =>
    if inputIterator.isInField then none
    else if resultIterator.isInField then none else some resultIterator
  | fuel + 1, inputIterator, resultIterator =>
    if inputIterator.isInField then
      match boundaryDistances EXTENT getWeight boundary inputIterator EXTENT resultIterator with
      | none => none
      | some r1 =>
        match inputIterator.next, r1.next with
        | some i2, some r2 => boundaryLoop EXTENT getWeight boundary fuel i2 r2
        | _, _ => none
    else if resultIterator.isInField then none else some resultIterator

/-- The parallel region of `applyInBoundaryRegion` as run by thread `threadId` of `numThreads`;
`u` gives the indeterminate contents of the members of each new stepper. -/
def boundaryThread (D EXTENT : Nat) (getWeight : Nat → Int → α) (fuel numThreads : Nat)
    (u : Nat → Nat → Nat) (input : ComputationalComposedBlock α) (boundary : BoundaryId)
    (threadId : Nat) (result : ComputationalPureBlock α) :
    Option (ComputationalPureBlock α) :=
  match input.getBoundaryIterator D (u threadId) with
  | none => none
  | some i0 =>
    match i0.setBoundaryToIterate threadId numThreads boundary,
      result.getBoundaryIterator D (u threadId (6 * D + 3)) (u threadId (6 * D + 4))
        (u threadId (6 * D + 5)) with
    | some inputIterator, some r0 =>
      match r0.setBoundaryToIterate threadId numThreads boundary with
      | none => none
      | some resultIterator =>
        match boundaryLoop EXTENT getWeight boundary fuel inputIterator resultIterator with
        | none => none
        | some r => some (result.written r.getter.values)
    | _, _ => none

/-- `MultuncialStencil::applyInBoundaryRegion`. -/
def applyInBoundaryRegion (D EXTENT : Nat) (getWeight : Nat → Int → α) (fuel numThreads : Nat)
    (u : Nat → Nat → Nat) (input : ComputationalComposedBlock α)
    (result : ComputationalPureBlock α) (boundary : BoundaryId) :
    Option (ComputationalPureBlock α) :=
  parallelRegion (boundaryThread D EXTENT getWeight fuel numThreads u input boundary)
    numThreads result

end MultuncialStencil

namespace BlockOperator

variable {α : Type} [CommRing α]

/-- `BlockOperator::applyInBoundaryRegions`: `count` passes of the loop have run; pass `k`
handles the boundary that `receiveDoneAt` reports when `Waitany` returns `completions[k]`. -/
def applyInBoundaryRegions (D EXTENT : Nat) (getWeight : Nat → Int → α) (fuel numThreads : Nat)
    (u : Nat → Nat → Nat → Nat) (completions : List Nat)
    (input : ComputationalComposedBlock α) :
    Nat → ComputationalPureBlock α → Option (ComputationalPureBlock α)
  | 0, result => some result
  | count + 1, result =>
    match applyInBoundaryRegions D EXTENT getWeight fuel numThreads u completions input count
        result, completions.get? count with
    | some r, some index =>
      MultuncialStencil.applyInBoundaryRegion D EXTENT getWeight fuel numThreads (u count) input r
        (ComputationalComposedBlock.receiveDoneAt index)
    | _, _ => none

/-- `BlockOperator::apply`. -/
def apply (D EXTENT : Nat) (getWeight : Nat → Int → α) (fuel numThreads : Nat)
    (u : Nat → Nat → Nat → Nat) (completions : List Nat)
    (input : ComputationalComposedBlock α) (result : ComputationalPureBlock α) :
    Option (ComputationalPureBlock α) :=
  match MultuncialStencil.applyInInnerRegion D EXTENT getWeight fuel numThreads input result with
  | none => none
  | some r =>
    applyInBoundaryRegions D EXTENT getWeight fuel numThreads u completions input (2 * D) r

end BlockOperator

/-! ## ConstFD8Stencil -/

/-- Member variables of `class ConstFD8Stencil`: the array `weights`, one row of nine weights for
each dimension.  The `double` values are modelled in the exact arithmetic of a field. -/
structure ConstFD8Stencil (α : Type) where
  weights : List (List α)

namespace ConstFD8Stencil

variable {α : Type} [Field α]

/-- `ConstFD8Stencil::initializeWeights`: one pass of the loop for each entry of `stepLength`.
`none` when `DIMENSIONALITY` is beyond the range of the `unsigned short` loop counter, which
then never reaches it. -/
def initializeWeights (stepLength : List α) : Option (ConstFD8Stencil α) :=
  if stepLength.length < 65536 then
    some { weights := stepLength.map fun h =>
      let hSquared := h * h
      let w0 := -1 / (560 * hSquared)
      let w1 := 8 / (315 * hSquared)
      let w2 := -1 / (5 * hSquared)
      let w3 := 8 / (5 * hSquared)
      let w4 := -205 / (72 * hSquared)
      [w0, w1, w2, w3, w4, w3, w2, w1, w0] }
  else none

/-- Constructor `ConstFD8Stencil(stepLength)`. -/
def new (stepLength : List α) : Option (ConstFD8Stencil α) := initializeWeights stepLength

/-- `ConstFD8Stencil::getWeight`; the iterator argument is of any type and is not used.  The
`int` index is meant to be in `[0, 8]`: the array has no element at a negative index. -/
def getWeight {ι : Type} (s : ConstFD8Stencil α) (_iterator : ι) (dim : Nat)
    (weightIndex : Int) : α :=
  (s.weights.getD dim []).getD weightIndex.toNat 0

end ConstFD8Stencil

/-! ## Reference definitions of the specification -/

/-- Reference stride of the specification: the product of the extents below `d`. -/
def Spec.stride (sizes : List Nat) (d : Nat) : Nat := (sizes.take d).prod

/-- Reference coordinate of the specification: `(index / stride[d]) mod size[d]`,
with native division. -/
def Spec.coordinate (sizes : List Nat) (index d : Nat) : Nat :=
  (index / Spec.stride sizes d) % sizes.getD d 0

/-- Number of cells of a face of dimension `d`: `totalSize / size[d]`. -/
def Spec.faceSize (sizes : List Nat) (d : Nat) : Nat := sizes.prod / sizes.getD d 0

/-- First face cell of thread `t` of `N` when `B` cells are split into chunks of `B / N` cells
with one extra cell for each of the first `B mod N` threads. -/
def Spec.chunkStart (B N t : Nat) : Nat := B / N * t + min t (B % N)

/-- Number of cells of thread `t` of `N` when `B` cells are split as above. -/
def Spec.chunkSize (B N t : Nat) : Nat := B / N + if t < B % N then 1 else 0

/-- Coordinate along `d` of the cells of the face `(d, lower)`: `0` on the lower side,
`size[d] - 1` on the upper side. -/
def Spec.faceCoordinate (sizes : List Nat) (d : Nat) (lower : Bool) : Nat :=
  if lower then 0 else sizes.getD d 0 - 1

/-- Linear index of the `k`-th cell of the face `(d, lower)` in face order: the coordinates
below `d` run fastest, the coordinate `d` is fixed, the coordinates above `d` run slowest. -/
def Spec.faceIndex (sizes : List Nat) (d : Nat) (lower : Bool) (k : Nat) : Nat :=
  Spec.stride sizes d * Spec.faceCoordinate sizes d lower
    + k % Spec.stride sizes d + k / Spec.stride sizes d * Spec.stride sizes (d + 1)

/-- Coordinates of the linear index `index` of a field with extents `sizes`. -/
def Spec.coordinates (sizes : List Nat) (index : Nat) : List Nat :=
  (List.range sizes.length).map (Spec.coordinate sizes index)

/-- Linear index of the cell with coordinates `c` of a field with extents `sizes`. -/
def Spec.linearIndex (sizes c : List Nat) : Nat :=
  ∑ d in Finset.range sizes.length, c.getD d 0 * Spec.stride sizes d

/-- The value `u(x + off e_d)` of the specification for a block of width `n` with side regions
of width `E`: the main buffer when the coordinate `x_d + off` is in `[0, n)`, the side region
below dimension `d` at coordinate `E + (x_d + off)` when it is negative, the side region above
dimension `d` at coordinate `x_d + off - n` when it is at least `n`; the other coordinates are
those of `x`.  `ghost d 0` is the buffer of the side region below and `ghost d 1` the buffer of
the side region above the main region along `d`. -/
def Spec.neighborValue {α : Type} (D n E : Nat) (main : Nat → α) (ghost : Nat → Nat → Nat → α)
    (x d : Nat) (off : Int) : α :=
  let c : Int := (Spec.coordinate (List.replicate D n) x d : Int) + off
  if c < 0 then
    ghost d 0 (Spec.linearIndex ((List.replicate D n).set d E)
      ((Spec.coordinates (List.replicate D n) x).set d (E + c).toNat))
  else if c < n then
    main (Spec.linearIndex (List.replicate D n)
      ((Spec.coordinates (List.replicate D n) x).set d c.toNat))
  else
    ghost d 1 (Spec.linearIndex ((List.replicate D n).set d E)
      ((Spec.coordinates (List.replicate D n) x).set d (c - n).toNat))

/-- The full stencil value of the specification at the cell `x`: the sum over the dimensions
`d` and the taps `k` in `[0, 2 E]` of `w[d][k] * u(x + (k - E) e_d)`. -/
def Spec.stencil {α : Type} [CommRing α] (D n E : Nat) (w : Nat → Int → α) (main : Nat → α)
    (ghost : Nat → Nat → Nat → α) (x : Nat) : α :=
  ∑ d in Finset.range D, ∑ k in Finset.range (2 * E + 1),
    w d (k : Int) * Spec.neighborValue D n E main ghost x d ((k : Int) - (E : Int))

/-- The `E` taps of dimension `d` below the centre, at the cell `x`. -/
def Spec.leftTaps {α : Type} [CommRing α] (D n E : Nat) (w : Nat → Int → α) (main : Nat → α)
    (ghost : Nat → Nat → Nat → α) (x d : Nat) : α :=
  ∑ i in Finset.range E,
    w d (i : Int) * Spec.neighborValue D n E main ghost x d ((i : Int) - (E : Int))

/-- The `E` taps of dimension `d` above the centre, at the cell `x`. -/
def Spec.rightTaps {α : Type} [CommRing α] (D n E : Nat) (w : Nat → Int → α) (main : Nat → α)
    (ghost : Nat → Nat → Nat → α) (x d : Nat) : α :=
  ∑ i in Finset.range E,
    w d ((E : Int) + 1 + (i : Int)) * Spec.neighborValue D n E main ghost x d ((i : Int) + 1)

/-- What the inner pass adds for dimension `d` at the cell `x`: the taps below the centre when
`x_d ≥ E`, the centre tap, and the taps above the centre when `x_d + E < n`. -/
def Spec.innerTerm {α : Type} [CommRing α] (D n E : Nat) (w : Nat → Int → α) (main : Nat → α)
    (ghost : Nat → Nat → Nat → α) (x d : Nat) : α :=
  (if E ≤ Spec.coordinate (List.replicate D n) x d then Spec.leftTaps D n E w main ghost x d
    else 0)
  + w d (E : Int) * Spec.neighborValue D n E main ghost x d 0
  + (if Spec.coordinate (List.replicate D n) x d + E < n then
      Spec.rightTaps D n E w main ghost x d
    else 0)

/-- The value the inner pass writes to the cell `x`. -/
def Spec.innerValue {α : Type} [CommRing α] (D n E : Nat) (w : Nat → Int → α) (main : Nat → α)
    (ghost : Nat → Nat → Nat → α) (x : Nat) : α :=
  ∑ d in Finset.range D, Spec.innerTerm D n E w main ghost x d

/-- What the pass over the face `b` adds at the cell `x`: the taps of the face dimension that
point towards the face, when `x` is one of the `E` cells nearest to the face. -/
def Spec.boundaryTerm {α : Type} [CommRing α] (D n E : Nat) (w : Nat → Int → α) (main : Nat → α)
    (ghost : Nat → Nat → Nat → α) (b : BoundaryId) (x : Nat) : α :=
  if b.lower then
    if Spec.coordinate (List.replicate D n) x b.dimension < E then
      Spec.leftTaps D n E w main ghost x b.dimension
    else 0
  else
    if n ≤ Spec.coordinate (List.replicate D n) x b.dimension + E then
      Spec.rightTaps D n E w main ghost x b.dimension
    else 0

/-- The cell at distance `s` from the face `b` behind the face cell `p`: its coordinate along the
face dimension is `s` (lower face) or `n - 1 - s` (upper face), its other coordinates are those
of the face cell. -/
def Spec.stripCell (D n : Nat) (b : BoundaryId) (p s : Nat) : Nat :=
  Spec.linearIndex (List.replicate D n)
    ((Spec.coordinates (List.replicate D n)
      (Spec.faceIndex (List.replicate D n) b.dimension b.lower p)).set b.dimension
      (if b.lower then s else n - 1 - s))

/-- The `E` taps of the face dimension that point towards the face `b`, at the cell `x`. -/
def Spec.faceTaps {α : Type} [CommRing α] (D n E : Nat) (w : Nat → Int → α) (main : Nat → α)
    (ghost : Nat → Nat → Nat → α) (b : BoundaryId) (x : Nat) : α :=
  if b.lower then Spec.leftTaps D n E w main ghost x b.dimension
  else Spec.rightTaps D n E w main ghost x b.dimension

/-- Slot of the array `receiveRequest` for the face `b`, as the specification numbers the
faces: `2 d + 1` for the lower and `2 d` for the upper face of dimension `d`. -/
def Spec.slot (b : BoundaryId) : Nat := 2 * b.dimension + if b.lower then 1 else 0

/-! ## Invariants used in the proofs -/

/-- Relation between the 32-bit loop variables and the exact quotients they stand for. -/
structure MagicInv (d nc : Nat) (st : MagicLoopState) (Q1 Q2 : Nat) : Prop where
  hp : 31 ≤ st.p
  e1 : Q1 * nc + st.r1 = 2 ^ st.p
  l1 : st.r1 < nc
  e2 : Q2 * d + st.r2 + 1 = 2 ^ st.p
  l2 : st.r2 < d
  w1 : st.q1 = Q1 % U32
  w2 : st.q2 = Q2 % U32
  ha : st.a = if U32 ≤ Q2 + 1 then 1 else 0

/-- What the loop of `getMagicNumbers` has established when it is left. -/
structure MagicPost (d nc : Nat) (st : MagicLoopState) (Q2 : Nat) : Prop where
  hp : 32 ≤ st.p
  hp' : st.p ≤ 64
  e2 : Q2 * d + st.r2 + 1 = 2 ^ st.p
  l2 : st.r2 < d
  w2 : st.q2 = Q2 % U32
  ha : st.a = if U32 ≤ Q2 + 1 then 1 else 0
  hb : Q2 + 1 < 2 * U32
  hc : nc * (d - 1 - st.r2) < 2 ^ st.p

/-- The tables of a stepping strategy are those of the size array `sizes`, built without
wrap-around. -/
structure TablesOf (sizes : List Nat) (s : FieldSteppingStrategy) : Prop where
  size_eq : s.size = sizes
  total_eq : s.totalSize = sizes.prod
  stride_len : s.stride.length = sizes.length + 1
  stride_eq : ∀ d, d ≤ sizes.length → s.stride.getD d 0 = Spec.stride sizes d
  mstride : s.magicStrideNumbers = s.stride.map getMagicNumbers
  msize : s.magicSizeNumbers = s.size.map getMagicNumbers

/-- A boundary iterator of a field with size array `sizes` and buffer content `vals` that
iterates the face `b`, owns the face cells `lo, …, hi - 1` and stands at face cell `k`. -/
structure OnFace {α : Type} (sizes : List Nat) (b : BoundaryId) (lo hi : Nat) (vals : Nat → α)
    (k : Nat) (it : ValueFieldBoundaryIterator α) : Prop where
  tables : TablesOf sizes it.stepper.toFieldSteppingStrategy
  boundary : it.stepper.boundary = b
  index : it.stepper.index = Spec.faceIndex sizes b.dimension b.lower k
  minIndex : it.stepper.minIndex = Spec.faceIndex sizes b.dimension b.lower lo
  maxIndex : it.stepper.maxIndex = Spec.faceIndex sizes b.dimension b.lower (hi - 1)
  values : it.getter.values = vals

/-- A composed boundary iterator that iterates the face `b`: its main iterator and the side
iterator beyond that face both stand at face cell `k` of the chunk `lo, …, hi - 1`; the side
region has the main extents except `E` along the face dimension and iterates the opposite
face. -/
structure ComposedOnFace {α : Type} (sizes : List Nat) (E : Nat) (b : BoundaryId) (lo hi : Nat)
    (data ghost : Nat → α) (k : Nat) (it : ComposedFieldBoundaryIterator α) : Prop where
  boundary : it.currentBoundary = b
  main : OnFace sizes b lo hi data k it.mainIterator
  side : ∃ s, it.currentSideIterator = some s ∧
    OnFace (sizes.set b.dimension E) b.oppositeSide lo hi ghost k s

/-- A composed block of dimensionality `D` with `n` elements per dimension and side regions of
width `E`: its value pointer is set, and the side regions of dimension `d` have the main extents
except `E` along `d`. -/
structure ComputationalComposedBlock.WellFormed {α : Type} (D n E : Nat)
    (block : ComputationalComposedBlock α) : Prop where
  smallest : block.smallestIndex = 0
  elements : block.elementsPerDim = n
  length : block.ghostRegions.length = D
  ghost : ∀ d, d < D → ∃ lo hi, block.ghostRegions.get? d = some (lo, hi) ∧
    lo.getSizeArray D = (List.replicate D n).set d E ∧
    hi.getSizeArray D = (List.replicate D n).set d E

/-- A whole-field iterator of a field with size array `sizes` and buffer content `vals` that
owns the cells `lo, …, hi - 1` and stands at the cell `k`. -/
structure InChunk {α : Type} (sizes : List Nat) (lo hi : Nat) (vals : Nat → α) (k : Nat)
    (it : ValueFieldIterator α) : Prop where
  tables : TablesOf sizes it.stepper
  index : it.stepper.index = k
  minIndex : it.stepper.minIndex = lo
  maxIndex : it.stepper.maxIndex + 1 = hi
  values : it.getter.values = vals

/-- The buffer `out1` is the buffer `out` with `f y` added to every cell `y` that satisfies `P`;
the other cells are unchanged. -/
def Adds {α : Type} [Add α] (P : Nat → Prop) (f out out1 : Nat → α) : Prop :=
  ∀ y, (P y → out1 y = out y + f y) ∧ (¬ P y → out1 y = out y)

/-! ## Fixture of the unit tests of the composed boundary iterator -/

/-- Ghost iterator `ghostIterators[i][j]` of the fixture of `ComposedFieldBoundaryIteratorTest`:
extents 5 x 5 x 5 with width 4 along dimension `i`, values `1000 i + 100 j + k`. -/
def fixtureGhostIterator (i j : Nat) : Option (ValueFieldBoundaryIterator Nat) :=
  ValueFieldBoundaryIterator.new 0 0 0 ([5, 5, 5].set i 4) (fun k => 1000 * i + 100 * j + k)

/-- The array `ghostIterators` of the fixture of `ComposedFieldBoundaryIteratorTest`. -/
def fixtureGhostIterators :
    List (ValueFieldBoundaryIterator Nat × ValueFieldBoundaryIterator Nat) :=
  [((fixtureGhostIterator 0 0).get rfl, (fixtureGhostIterator 0 1).get rfl),
   ((fixtureGhostIterator 1 0).get rfl, (fixtureGhostIterator 1 1).get rfl),
   ((fixtureGhostIterator 2 0).get rfl, (fixtureGhostIterator 2 1).get rfl)]

theorem sub32_of_le {x y : Nat} (h : y ≤ x) (hx : x < U32) : sub32 x y = x - y := by
  unfold sub32 U32 at *; omega

theorem magicLoopBody_inv {d nc : Nat} (hd : d < U32) (hnc : nc < U32)
    {st : MagicLoopState} {Q1 Q2 : Nat} (h : MagicInv d nc st Q1 Q2) :
    MagicInv d nc (magicLoopBody d nc st)
      (2 * Q1 + if nc ≤ 2 * st.r1 then 1 else 0)
      (2 * Q2 + if d ≤ 2 * st.r2 + 1 then 1 else 0) ∧
    (magicLoopBody d nc st).p = st.p + 1 ∧
    (magicLoopBody d nc st).delta = d - 1 - (magicLoopBody d nc st).r2 := by
  obtain ⟨hp, e1, l1, e2, l2, w1, w2, ha⟩ := h
  have hpow : 2 ^ (st.p + 1) = 2 * 2 ^ st.p := by ring
  have hm1 : (2 * Q1 + 1) * nc = 2 * (Q1 * nc) + nc := by ring
  have hm1' : (2 * Q1 + 0) * nc = 2 * (Q1 * nc) := by ring
  have hm2 : (2 * Q2 + 1) * d = 2 * (Q2 * d) + d := by ring
  have hm2' : (2 * Q2 + 0) * d = 2 * (Q2 * d) := by ring
  have c1 : (st.r1 ≥ sub32 nc st.r1) ↔ nc ≤ 2 * st.r1 := by
    unfold sub32 U32 at *; omega
  have c2 : ((st.r2 + 1) % U32 ≥ sub32 d st.r2) ↔ d ≤ 2 * st.r2 + 1 := by
    unfold sub32 U32 at *; omega
  refine ⟨⟨?_, ?_, ?_, ?_, ?_, ?_, ?_, ?_⟩, ?_, ?_⟩
  · simp only [magicLoopBody]; omega
  · simp only [magicLoopBody, c1]; split_ifs <;> unfold sub32 U32 at * <;> omega
  · simp only [magicLoopBody, c1]; split_ifs <;> unfold sub32 U32 at * <;> omega
  · simp only [magicLoopBody, c2]; split_ifs <;> unfold sub32 U32 at * <;> omega
  · simp only [magicLoopBody, c2]; split_ifs <;> unfold sub32 U32 at * <;> omega
  · simp only [magicLoopBody, c1]; split_ifs <;> unfold sub32 U32 at * <;> omega
  · simp only [magicLoopBody, c2]; split_ifs <;> unfold sub32 U32 at * <;> omega
  · simp only [magicLoopBody, c2]; rw [ha, w2]; unfold U32; split_ifs <;> omega
  · simp only [magicLoopBody]
  · simp only [magicLoopBody, c2]; split_ifs <;> unfold sub32 U32 at * <;> omega

/-- Exact division by a multiplier `m` with `m * d = P + delta` and small `delta`. -/
theorem magic_core (d nc k m P delta x : ℕ) (hd : 0 < d) (hk : nc + 1 = k * d)
    (hU : U32 ≤ nc + d) (hn : U32 - 1 - nc ≤ nc) (hnc : nc < U32)
    (hm : m * d = P + delta) (hc : nc * delta < P) (hx : x < U32) :
    x * m / P = x / d := by
  have hP : 0 < P := by omega
  have hqr : d * (x / d) + x % d = x := Nat.div_add_mod x d
  have hr : x % d < d := Nat.mod_lt x hd
  set q := x / d with hq
  set r := x % d with hr'
  -- the key inequality
  have key : x * delta < (d - r) * P := by
    by_cases hxn : x ≤ nc
    · have h1 : x * delta ≤ nc * delta := Nat.mul_le_mul_right _ hxn
      have h2 : 1 * P ≤ (d - r) * P := Nat.mul_le_mul_right _ (by omega)
      omega
    · have hqk : q = k := by
        rcases Nat.lt_trichotomy q k with h | h | h
        · have : d * (q + 1) ≤ d * k := Nat.mul_le_mul_left _ h
          have e : d * (q + 1) = d * q + d := by ring
          have e' : k * d = d * k := by ring
          unfold U32 at *; omega
        · exact h
        · have : d * (k + 1) ≤ d * q := Nat.mul_le_mul_left _ h
          have e : d * (k + 1) = d * k + d := by ring
          have e' : k * d = d * k := by ring
          unfold U32 at *; omega
      have e' : k * d = d * q := by rw [hqk]; ring
      have hr2 : r + 2 ≤ d := by unfold U32 at *; omega
      have hx' : x = nc + (1 + r) := by omega
      have h1 : (1 + r) * delta ≤ nc * delta := Nat.mul_le_mul_right _ (by unfold U32 at *; omega)
      have h2 : 2 * P ≤ (d - r) * P := Nat.mul_le_mul_right _ (by omega)
      have h3 : x * delta = nc * delta + (1 + r) * delta := by rw [hx']; ring
      omega
  apply Nat.div_eq_of_lt_le
  · -- q * P ≤ x * m
    apply Nat.le_of_mul_le_mul_right _ hd
    have e1 : x * m * d = x * P + x * delta := by rw [Nat.mul_assoc, hm]; ring
    have e2 : q * P * d = (d * q) * P := by ring
    have h1 : (d * q) * P ≤ x * P := Nat.mul_le_mul_right _ (by omega)
    omega
  · apply Nat.lt_of_mul_lt_mul_right (a := d)
    have e1 : x * m * d = x * P + x * delta := by rw [Nat.mul_assoc, hm]; ring
    have e2 : (q + 1) * P * d = (d * q + d) * P := by ring
    have e3 : (d * q + d) * P = x * P + (d - r) * P := by
      have : d * q + d = x + (d - r) := by omega
      rw [this]; ring
    omega

/-- Facts about the constant `nc` of `getMagicNumbers`. -/
theorem magic_nc_facts {d : Nat} (hd0 : 0 < d) (hd : d < U32) :
    let nc := sub32 (U32 - 1) (sub32 0 d % d)
    nc < U32 ∧ U32 ≤ nc + d ∧ U32 - 1 - nc ≤ nc ∧ ∃ k, nc + 1 = k * d := by
  intro nc
  have h0 : sub32 0 d = U32 - d := by unfold sub32 U32 at *; omega
  have ht : (U32 - d) % d < d := Nat.mod_lt _ hd0
  have ht' : (U32 - d) % d ≤ U32 - d := Nat.mod_le _ _
  have hdm : d * ((U32 - d) / d) + (U32 - d) % d = U32 - d := Nat.div_add_mod _ _
  have hnc : nc = U32 - 1 - (U32 - d) % d := by
    show sub32 (U32 - 1) (sub32 0 d % d) = _
    rw [h0]; unfold sub32 U32 at *; omega
  refine ⟨?_, ?_, ?_, (U32 - d) / d + 1, ?_⟩
  · unfold U32 at *; omega
  · unfold U32 at *; omega
  · unfold U32 at *; omega
  · have e : ((U32 - d) / d + 1) * d = d * ((U32 - d) / d) + d := by ring
    rw [e]; unfold U32 at *; omega

/-- While the loop continues, the exact quotient `Q2` still fits in 32 bits. -/
theorem magic_continue_bound {d nc k : Nat} (hd0 : 0 < d) (hd : d < U32) (hnc : nc < U32)
    (hU : U32 ≤ nc + d) (hn : U32 - 1 - nc ≤ nc) (hk : nc + 1 = k * d)
    {st : MagicLoopState} {Q1 Q2 : Nat} (h : MagicInv d nc st Q1 Q2)
    (hp : st.p ≤ 63) (hq : st.q1 ≤ d - 1 - st.r2) : Q2 + 1 < U32 := by
  obtain ⟨_, e1, l1, e2, l2, w1, _, _⟩ := h
  have hpow : 2 ^ st.p ≤ 2 ^ 63 := Nat.pow_le_pow_right (by norm_num) hp
  by_cases hQ : Q1 < U32
  · have hq1 : st.q1 = Q1 := by rw [w1]; exact Nat.mod_eq_of_lt hQ
    have h1 : (Q1 + 1) * nc ≤ d * nc := Nat.mul_le_mul_right _ (by omega)
    have e : (Q1 + 1) * nc = Q1 * nc + nc := by ring
    have h2 : Q2 * d < nc * d := by
      have : d * nc = nc * d := by ring
      omega
    have h3 : Q2 < nc := Nat.lt_of_mul_lt_mul_right h2
    omega
  · have h1 : U32 * nc ≤ Q1 * nc := Nat.mul_le_mul_right _ (by omega)
    have hnc31 : nc = 2147483648 := by unfold U32 at *; norm_num at hpow; omega
    have hk1 : k = 1 := by
      rcases Nat.lt_trichotomy k 1 with h | h | h
      · have : k = 0 := by omega
        subst this; simp at hk
      · exact h
      · have : 2 * d ≤ k * d := Nat.mul_le_mul_right _ h
        unfold U32 at *; omega
    subst hk1
    have hd' : d = 2147483649 := by omega
    subst hd'
    unfold U32 at *; norm_num at hpow; omega

/-- When the loop test fails, the multiplier is precise enough. -/
theorem magic_exit_bound {d nc : Nat} (hd : d < U32) (hnc : nc < U32)
    {st : MagicLoopState} {Q1 Q2 : Nat} (h : MagicInv d nc st Q1 Q2)
    (hp : st.p ≤ 64) (hdelta : st.delta = d - 1 - st.r2)
    (hex : magicLoopCond st = false) : nc * (d - 1 - st.r2) < 2 ^ st.p := by
  obtain ⟨_, e1, l1, e2, l2, w1, _, _⟩ := h
  rw [← hdelta]
  have hdl : st.delta < U32 := by omega
  by_cases hp64 : st.p = 64
  · rw [hp64]
    have h1 : nc * st.delta ≤ nc * U32 := Nat.mul_le_mul_left _ (by omega)
    have h2 : nc * U32 < U32 * U32 := Nat.mul_lt_mul_of_pos_right hnc (by unfold U32; norm_num)
    have : U32 * U32 = 2 ^ 64 := by unfold U32; norm_num
    omega
  · have hlt : st.p < 64 := by omega
    simp only [magicLoopCond, hlt, decide_True, Bool.true_and, Bool.or_eq_false_iff,
      decide_eq_false_iff_not, Bool.and_eq_false_iff, not_lt] at hex
    obtain ⟨hge, hne⟩ := hex
    have hQ : st.q1 ≤ Q1 := by rw [w1]; exact Nat.mod_le _ _
    have h1 : nc * st.delta ≤ nc * st.q1 := Nat.mul_le_mul_left _ hge
    have h2 : nc * st.q1 ≤ nc * Q1 := Nat.mul_le_mul_left _ hQ
    have e : Q1 * nc = nc * Q1 := by ring
    rcases hne with hne | hne
    · have : st.delta + 1 ≤ st.q1 := by omega
      have h3 : nc * (st.delta + 1) ≤ nc * st.q1 := Nat.mul_le_mul_left _ this
      have e3 : nc * (st.delta + 1) = nc * st.delta + nc := by ring
      omega
    · omega

theorem magicLoop_post {d nc k : Nat} (hd0 : 0 < d) (hd : d < U32) (hnc : nc < U32)
    (hU : U32 ≤ nc + d) (hn : U32 - 1 - nc ≤ nc) (hk : nc + 1 = k * d) :
    ∀ (fuel : Nat) (st : MagicLoopState) (Q1 Q2 : Nat), MagicInv d nc st Q1 Q2 →
      st.p ≤ 63 → Q2 + 1 < U32 → 64 - st.p ≤ fuel →
      ∃ Q, MagicPost d nc (magicLoop fuel d nc st) Q := by
  intro fuel
  induction fuel with
  | zero => intro st Q1 Q2 _ hp _ hf; omega
  | succ n ih =>
    intro st Q1 Q2 hinv hp hQ hf
    obtain ⟨hinv1, hp1, hdelta⟩ := magicLoopBody_inv hd hnc hinv
    simp only [magicLoop]
    by_cases hc : magicLoopCond (magicLoopBody d nc st) = true
    · rw [if_pos hc]
      have hc' := hc
      simp only [magicLoopCond, Bool.and_eq_true, decide_eq_true_eq, Bool.or_eq_true] at hc'
      obtain ⟨hlt, hq⟩ := hc'
      have hq' : (magicLoopBody d nc st).q1 ≤ d - 1 - (magicLoopBody d nc st).r2 := by
        rw [← hdelta]; omega
      have hb := magic_continue_bound hd0 hd hnc hU hn hk hinv1 (by omega) hq'
      exact ih _ _ _ hinv1 (by omega) hb (by omega)
    · rw [if_neg hc]
      have hc' : magicLoopCond (magicLoopBody d nc st) = false := by
        simpa using hc
      have hex := magic_exit_bound hd hnc hinv1 (by omega) hdelta hc'
      obtain ⟨hp31, _, _, e2, l2, _, w2, ha⟩ := hinv1
      have hle : (if d ≤ 2 * st.r2 + 1 then 1 else 0) ≤ 1 := by split_ifs <;> omega
      have hU32 : U32 = 4294967296 := rfl
      have hp0 := hinv.hp
      exact ⟨_, ⟨by omega, by omega, e2, l2, w2, ha, by omega, hex⟩⟩

/-- The 64-bit expression evaluates the quotient by the exact multiplier. -/
theorem magicDiv_eq {M a s x m : Nat} (hM : M < U32) (ha : a ≤ 1) (hx : x < U32)
    (hm : m = a * U32 + M) :
    magicDiv ⟨M, a, s⟩ x = x * m / 2 ^ (32 + s) := by
  have h1 : x * M < U64 := by
    have : x * M ≤ U32 * M := Nat.mul_le_mul_right _ (by omega)
    have : U32 * M < U32 * U32 := Nat.mul_lt_mul_of_pos_left hM (by unfold U32; norm_num)
    have : U32 * U32 = U64 := by unfold U32 U64; norm_num
    omega
  have h2 : x * a ≤ x := by
    have : x * a ≤ x * 1 := Nat.mul_le_mul_left _ ha
    omega
  have h3 : x * M / 2 ^ 32 < U32 := by
    apply Nat.div_lt_of_lt_mul
    have : U32 * U32 = U64 := by unfold U32 U64; norm_num
    unfold U32 at *; omega
  simp only [magicDiv, Nat.shiftRight_eq_div_pow]
  rw [Nat.mod_eq_of_lt h1, Nat.mod_eq_of_lt (by unfold U32 U64 at *; omega : x * a < U64),
    Nat.mod_eq_of_lt (by unfold U32 U64 at *; omega)]
  have e : x * m = x * M + (x * a) * 2 ^ 32 := by rw [hm]; unfold U32; ring
  rw [e, Nat.pow_add, ← Nat.div_div_eq_div_mul, Nat.add_mul_div_right _ _ (by norm_num)]

/-- The initial values of the loop variables satisfy the loop invariant at `p = 31`. -/
theorem magic_init_inv {d nc : Nat} (hd0 : 0 < d) (hnc0 : 0 < nc) :
    MagicInv d nc
      { p := 31, q1 := 0x80000000 / nc,
        r1 := sub32 0x80000000 ((0x80000000 / nc * nc) % U32),
        q2 := 0x7FFFFFFF / d,
        r2 := sub32 0x7FFFFFFF ((0x7FFFFFFF / d * d) % U32), delta := 0, a := 0 }
      (0x80000000 / nc) (0x7FFFFFFF / d) := by
  have a1 : nc * (0x80000000 / nc) + 0x80000000 % nc = 0x80000000 := Nat.div_add_mod _ _
  have a2 : 0x80000000 % nc < nc := Nat.mod_lt _ hnc0
  have a3 : 0x80000000 / nc * nc = nc * (0x80000000 / nc) := by ring
  have b1 : d * (0x7FFFFFFF / d) + 0x7FFFFFFF % d = 0x7FFFFFFF := Nat.div_add_mod _ _
  have b2 : 0x7FFFFFFF % d < d := Nat.mod_lt _ hd0
  have b3 : 0x7FFFFFFF / d * d = d * (0x7FFFFFFF / d) := by ring
  have c1 : 0x80000000 / nc ≤ 0x80000000 := Nat.div_le_self _ _
  have c2 : 0x7FFFFFFF / d ≤ 0x7FFFFFFF := Nat.div_le_self _ _
  have r1e : sub32 0x80000000 ((0x80000000 / nc * nc) % U32) = 0x80000000 % nc := by
    unfold sub32 U32 at *; omega
  have r2e : sub32 0x7FFFFFFF ((0x7FFFFFFF / d * d) % U32) = 0x7FFFFFFF % d := by
    unfold sub32 U32 at *; omega
  refine ⟨by simp, ?_, ?_, ?_, ?_, ?_, ?_, ?_⟩
  · simp only [r1e]; norm_num; omega
  · simp only [r1e]; exact a2
  · simp only [r2e]; norm_num; omega
  · simp only [r2e]; exact b2
  · exact (Nat.mod_eq_of_lt (lt_of_le_of_lt c1 (by unfold U32; norm_num))).symm
  · exact (Nat.mod_eq_of_lt (lt_of_le_of_lt c2 (by unfold U32; norm_num))).symm
  · simp only; rw [if_neg]; unfold U32 at *; omega

/-- The triple returned for a non-zero divisor encodes a multiplier `m = a * 2^32 + M`
with `m * d = 2^(32+s) + delta` and `nc * delta < 2^(32+s)`. -/
theorem getMagicNumbers_exact {d : Nat} (hd0 : 0 < d) (hd : d < U32) :
    ∃ nc k delta, nc < U32 ∧ U32 ≤ nc + d ∧ U32 - 1 - nc ≤ nc ∧ nc + 1 = k * d ∧
      (getMagicNumbers d).M < U32 ∧ (getMagicNumbers d).a ≤ 1 ∧ (getMagicNumbers d).s ≤ 32 ∧
      ((getMagicNumbers d).a * U32 + (getMagicNumbers d).M) * d
        = 2 ^ (32 + (getMagicNumbers d).s) + delta ∧
      nc * delta < 2 ^ (32 + (getMagicNumbers d).s) := by
  obtain ⟨hnc, hU, hn, k, hk⟩ := magic_nc_facts hd0 hd
  set nc := sub32 (U32 - 1) (sub32 0 d % d) with hncdef
  have hnc0 : 0 < nc := by unfold U32 at *; omega
  have hinit := @magic_init_inv d nc hd0 hnc0
  have c2 : 0x7FFFFFFF / d ≤ 0x7FFFFFFF := Nat.div_le_self _ _
  obtain ⟨Q, hpost⟩ := magicLoop_post hd0 hd hnc hU hn hk 33 _ _ _ hinit (by simp)
    (by unfold U32 at *; omega) (by simp)
  set st := magicLoop 33 d nc
      { p := 31, q1 := 0x80000000 / nc,
        r1 := sub32 0x80000000 ((0x80000000 / nc * nc) % U32),
        q2 := 0x7FFFFFFF / d,
        r2 := sub32 0x7FFFFFFF ((0x7FFFFFFF / d * d) % U32), delta := 0, a := 0 } with hst
  obtain ⟨hp, hp', e2, l2, w2, ha, hb, hc⟩ := hpost
  have hg : getMagicNumbers d = { M := (st.q2 + 1) % U32, a := st.a, s := st.p - 32 } := by
    simp only [getMagicNumbers, if_neg (by omega : ¬ d = 0), ← hncdef, hst]
  refine ⟨nc, k, d - 1 - st.r2, hnc, hU, hn, hk, ?_⟩
  rw [hg]
  simp only
  have hps : 32 + (st.p - 32) = st.p := by omega
  rw [hps]
  refine ⟨Nat.mod_lt _ (by unfold U32; omega), ?_, by omega, ?_, hc⟩
  · rw [ha]; split_ifs <;> omega
  · have hM : st.a * U32 + (st.q2 + 1) % U32 = Q + 1 := by
      rw [ha, w2]; unfold U32 at *; split_ifs <;> omega
    rw [hM]
    have : (Q + 1) * d = Q * d + d := by ring
    omega

/-- Division by the magic numbers of `v` is exact on all 32-bit dividends. -/
theorem magicDiv_eq_div {v x : Nat} (hv0 : 0 < v) (hv : v < U32) (hx : x < U32) :
    magicDiv (getMagicNumbers v) x = x / v := by
  obtain ⟨nc, k, delta, hnc, hU, hn, hk, hM, ha, _, hm, hc⟩ := getMagicNumbers_exact hv0 hv
  have h1 : magicDiv (getMagicNumbers v) x
      = x * ((getMagicNumbers v).a * U32 + (getMagicNumbers v).M)
          / 2 ^ (32 + (getMagicNumbers v).s) :=
    magicDiv_eq (M := (getMagicNumbers v).M) (a := (getMagicNumbers v).a)
      (s := (getMagicNumbers v).s) hM ha hx rfl
  rw [h1]
  exact magic_core v nc k _ _ delta x hv0 hk hU hn hnc hm hc hx


/-- C3: for every divisor `v` with `1 ≤ v ≤ 2^32 - 1` and every dividend `x < 2^32`, the 64-bit
expression `(((x * M) >> 32) + x * a) >> s` built from `getMagicNumbers v` equals `x / v`
(this covers `v = 1` and `v = 2^32 - 1`). -/
theorem C3_magic_division_exact (v x : Nat) (hv1 : 1 ≤ v) (hv2 : v ≤ 2 ^ 32 - 1)
    (hx : x < 2 ^ 32) : magicDiv (getMagicNumbers v) x = x / v :=
  magicDiv_eq_div (by omega) (by unfold U32; omega) (by unfold U32; omega)

/-- C3 at the largest divisor and the largest dividend. -/
theorem C3_magic_division_exact_witness :
    (1 ≤ 4294967295 ∧ 4294967295 ≤ 2 ^ 32 - 1 ∧ 4294967295 < 2 ^ 32) ∧
      magicDiv (getMagicNumbers 4294967295) 4294967295 = 4294967295 / 4294967295 :=
  ⟨by decide, C3_magic_division_exact 4294967295 4294967295 (by decide) (by decide) (by decide)⟩

namespace FieldSteppingStrategy

theorem fill_limits (mn mx ix : Nat) : ∀ (sizes : List Nat) (s t : Nat),
    (fill mn mx ix s t sizes).minIndex = mn ∧ (fill mn mx ix s t sizes).maxIndex = mx ∧
      (fill mn mx ix s t sizes).index = ix := by
  intro sizes
  induction sizes with
  | nil => intro s t; simp [fill]
  | cons n ns ih => intro s t; simp only [fill]; exact ih _ _

theorem fill_magic (mn mx ix : Nat) : ∀ (sizes : List Nat) (s t : Nat),
    (fill mn mx ix s t sizes).magicStrideNumbers
        = (fill mn mx ix s t sizes).stride.map getMagicNumbers ∧
      (fill mn mx ix s t sizes).magicSizeNumbers
        = (fill mn mx ix s t sizes).size.map getMagicNumbers := by
  intro sizes
  induction sizes with
  | nil => intro s t; simp [fill]
  | cons n ns ih =>
    intro s t
    simp only [fill, List.map_cons]
    exact ⟨by rw [(ih _ _).1], by rw [(ih _ _).2]⟩

theorem fill_length (mn mx ix : Nat) : ∀ (sizes : List Nat) (s t : Nat),
    (fill mn mx ix s t sizes).stride.length = sizes.length + 1 ∧
      (fill mn mx ix s t sizes).size.length = sizes.length := by
  intro sizes
  induction sizes with
  | nil => intro s t; simp [fill]
  | cons n ns ih =>
    intro s t
    simp only [fill, List.length_cons]
    exact ⟨by rw [(ih _ _).1], by rw [(ih _ _).2]⟩

/-- Without 32-bit wrap-around the tables hold the extents, the running products and the total
product. -/
theorem fill_tables (mn mx ix : Nat) : ∀ (sizes : List Nat) (s t : Nat),
    (∀ n ∈ sizes, 1 ≤ n) → s * sizes.prod < U32 → t * sizes.prod < U64 → 0 < s →
    (fill mn mx ix s t sizes).size = sizes ∧
      (fill mn mx ix s t sizes).totalSize = t * sizes.prod ∧
      ∀ d, d ≤ sizes.length →
        (fill mn mx ix s t sizes).stride.getD d 0 = s * (sizes.take d).prod := by
  intro sizes
  induction sizes with
  | nil =>
    intro s t _ _ _ _
    refine ⟨by simp [fill], by simp [fill], ?_⟩
    intro d hd
    have : d = 0 := by simpa using hd
    subst this
    simp [fill]
  | cons n ns ih =>
    intro s t hpos hs ht hs0
    have hn1 : 1 ≤ n := hpos n (List.mem_cons_self _ _)
    have hpos' : ∀ m ∈ ns, 1 ≤ m := fun m hm => hpos m (List.mem_cons_of_mem _ hm)
    have hprod : 1 ≤ ns.prod := by
      apply Nat.one_le_iff_ne_zero.mpr
      intro h0
      obtain h := List.prod_eq_zero_iff.mp h0
      have := hpos' 0 h
      omega
    rw [List.prod_cons] at hs ht
    have hsn : s * n < U32 := by
      have : s * n * 1 ≤ s * n * ns.prod := Nat.mul_le_mul_left _ hprod
      have e : s * (n * ns.prod) = s * n * ns.prod := by ring
      omega
    have hnU : n < U32 := by
      have : 1 * n ≤ s * n := Nat.mul_le_mul_right _ hs0
      omega
    have htn : t * n < U64 := by
      have : t * n * 1 ≤ t * n * ns.prod := Nat.mul_le_mul_left _ hprod
      have e : t * (n * ns.prod) = t * n * ns.prod := by ring
      omega
    have e1 : n % U32 = n := Nat.mod_eq_of_lt hnU
    have e2 : (s * n) % U32 = s * n := Nat.mod_eq_of_lt hsn
    have e3 : (t * n) % U64 = t * n := Nat.mod_eq_of_lt htn
    obtain ⟨ih1, ih2, ih3⟩ := ih (s * n) (t * n) hpos'
      (by rw [Nat.mul_assoc]; exact hs) (by rw [Nat.mul_assoc]; exact ht)
      (Nat.mul_pos hs0 (by omega))
    simp only [fill, e1, e2, e3]
    refine ⟨by rw [ih1], by rw [ih2, List.prod_cons]; ring, ?_⟩
    intro d hd
    cases d with
    | zero => simp
    | succ d =>
      simp only [List.getD_cons_succ, List.take_succ_cons, List.prod_cons]
      rw [ih3 d (by simpa using hd)]
      ring

end FieldSteppingStrategy

theorem one_le_prod_of_pos {l : List Nat} (h : ∀ n ∈ l, 1 ≤ n) : 1 ≤ l.prod := by
  apply Nat.one_le_iff_ne_zero.mpr
  intro h0
  have := h 0 (List.prod_eq_zero_iff.mp h0)
  omega

theorem prod_take_le_prod {l : List Nat} (h : ∀ n ∈ l, 1 ≤ n) (d : Nat) :
    (l.take d).prod ≤ l.prod := by
  have h1 : 1 ≤ (l.drop d).prod := one_le_prod_of_pos fun n hn => h n (List.mem_of_mem_drop hn)
  have h2 := List.prod_take_mul_prod_drop l d
  calc (l.take d).prod = (l.take d).prod * 1 := by ring
    _ ≤ (l.take d).prod * (l.drop d).prod := Nat.mul_le_mul_left _ h1
    _ = l.prod := h2

theorem Spec.stride_pos {sizes : List Nat} (h : ∀ n ∈ sizes, 1 ≤ n) (d : Nat) :
    1 ≤ Spec.stride sizes d :=
  one_le_prod_of_pos fun n hn => h n (List.mem_of_mem_take hn)

theorem Spec.stride_succ {sizes : List Nat} {d : Nat} (hd : d < sizes.length) :
    Spec.stride sizes (d + 1) = Spec.stride sizes d * sizes.getD d 0 := by
  unfold Spec.stride
  rw [List.prod_take_succ sizes d hd, List.getD_eq_getElem _ _ hd]

theorem Spec.stride_length (sizes : List Nat) : Spec.stride sizes sizes.length = sizes.prod := by
  unfold Spec.stride; rw [List.take_length]

namespace FieldSteppingStrategy

/-- The tables built by the constructor for a field whose total size fits in 31 bits. -/
theorem new_tables {sizes : List Nat} {mn mx ix : Nat} {s : FieldSteppingStrategy}
    (hpos : ∀ n ∈ sizes, 1 ≤ n) (htot : sizes.prod < 2 ^ 31)
    (hs : FieldSteppingStrategy.new mn mx ix sizes = some s) :
    s.minIndex = mn ∧ s.maxIndex = mx ∧ s.index = ix ∧ TablesOf sizes s := by
  unfold FieldSteppingStrategy.new at hs
  split_ifs at hs
  simp only [Option.some.injEq] at hs
  subst hs
  obtain ⟨h1, h2, h3⟩ := fill_limits mn mx ix sizes 1 1
  obtain ⟨h4, h5⟩ := fill_magic mn mx ix sizes 1 1
  obtain ⟨h6, _⟩ := fill_length mn mx ix sizes 1 1
  obtain ⟨h7, h8, h9⟩ := fill_tables mn mx ix sizes 1 1 hpos
    (by unfold U32; omega) (by unfold U64; omega) (by omega)
  refine ⟨h1, h2, h3, h7, by rw [h8]; ring, h6, ?_, h4, h5⟩
  intro d hd
  rw [h9 d hd]; unfold Spec.stride; ring

/-- The constructor accepts every size array whose total size fits in 31 bits. -/
theorem new_isSome {sizes : List Nat} (mn mx ix : Nat)
    (hpos : ∀ n ∈ sizes, 1 ≤ n) (htot : sizes.prod < 2 ^ 31) :
    ∃ s, FieldSteppingStrategy.new mn mx ix sizes = some s := by
  unfold FieldSteppingStrategy.new
  rw [if_pos]
  · exact ⟨_, rfl⟩
  · rw [List.all_eq_true]
    intro n hn
    have h1 : n ∣ sizes.prod := List.dvd_prod hn
    have h2 : 1 ≤ sizes.prod := one_le_prod_of_pos hpos
    have h3 : n ≤ sizes.prod := Nat.le_of_dvd (by omega) h1
    simp only [decide_eq_true_eq]
    omega

/-- The magic-number computation of `currentIndex` agrees with native division. -/
theorem currentIndex_of_tables {sizes : List Nat}
    {s : FieldSteppingStrategy} (hpos : ∀ n ∈ sizes, 1 ≤ n) (htot : sizes.prod < 2 ^ 31)
    (ht : TablesOf sizes s)
    (hin : s.isInField = true) (hlt : s.index < s.totalSize) {d : Nat} (hd : d < sizes.length) :
    s.currentIndex d = some (Spec.coordinate sizes s.index d) := by
  obtain ⟨hsize, htotal, hlen, hstride, hms, hmz⟩ := ht
  have hU32 : U32 = 4294967296 := rfl
  have hU64 : U64 = 18446744073709551616 := rfl
  have hst1 : 1 ≤ Spec.stride sizes d := Spec.stride_pos hpos d
  have hst2 : Spec.stride sizes d ≤ sizes.prod := prod_take_le_prod hpos d
  have hsz : sizes.getD d 0 ∈ sizes := by
    rw [List.getD_eq_getElem _ _ hd]; exact List.getElem_mem _
  have hsz1 : 1 ≤ sizes.getD d 0 := hpos _ hsz
  have hsz2 : sizes.getD d 0 ≤ sizes.prod :=
    Nat.le_of_dvd (one_le_prod_of_pos hpos) (List.dvd_prod hsz)
  have e1 : s.magicStrideNumbers.getD d ⟨0, 0, 0⟩ = getMagicNumbers (Spec.stride sizes d) := by
    rw [hms, List.getD_eq_getElem _ _ (by rw [List.length_map]; omega), List.getElem_map,
      ← hstride d (by omega), List.getD_eq_getElem _ _ (by omega)]
  have e2 : s.magicSizeNumbers.getD d ⟨0, 0, 0⟩ = getMagicNumbers (sizes.getD d 0) := by
    rw [hmz, hsize, List.getD_eq_getElem _ _ (by rw [List.length_map]; omega), List.getElem_map,
      List.getD_eq_getElem _ _ hd]
  have hix : s.index < U32 := by omega
  have e3 : magicDiv (getMagicNumbers (Spec.stride sizes d)) s.index
      = s.index / Spec.stride sizes d := magicDiv_eq_div (by omega) (by omega) hix
  have hq : s.index / Spec.stride sizes d ≤ s.index := Nat.div_le_self _ _
  have e4 : magicDiv (getMagicNumbers (sizes.getD d 0)) (s.index / Spec.stride sizes d)
      = s.index / Spec.stride sizes d / sizes.getD d 0 :=
    magicDiv_eq_div (by omega) (by omega) (by omega)
  unfold currentIndex
  rw [if_pos hin]
  simp only [e1, e2, e3, e4, hsize]
  unfold Spec.coordinate
  congr 1
  have h5 := Nat.div_add_mod (s.index / Spec.stride sizes d) (sizes.getD d 0)
  have h6 := Nat.mod_lt (s.index / Spec.stride sizes d) (by omega : 0 < sizes.getD d 0)
  simp only [sub64, U64] at *
  omega

/-- The magic-number computation of `currentIndex` agrees with native division, for a strategy
made by the constructor. -/
theorem currentIndex_eq_coordinate {sizes : List Nat} {mn mx ix : Nat}
    {s : FieldSteppingStrategy} (hpos : ∀ n ∈ sizes, 1 ≤ n) (htot : sizes.prod < 2 ^ 31)
    (hs : FieldSteppingStrategy.new mn mx ix sizes = some s)
    (hin : s.isInField = true) (hlt : s.index < s.totalSize) {d : Nat} (hd : d < sizes.length) :
    s.currentIndex d = some (Spec.coordinate sizes s.index d) :=
  currentIndex_of_tables hpos htot (new_tables hpos htot hs).2.2.2 hin hlt hd

end FieldSteppingStrategy

/-- C4: for a size array with all extents at least 1 and total size below `2^31`, at every
in-field linear index and every dimension `d < D` the magic-number based `currentIndex(d)`
returns the reference value `(index / stride[d]) mod size[d]` of native division. -/
theorem C4_currentIndex_matches_reference (sizes : List Nat) (minIndex maxIndex index : Nat)
    (s : FieldSteppingStrategy) (d : Nat)
    (hpos : ∀ n ∈ sizes, 1 ≤ n) (htot : sizes.prod < 2 ^ 31)
    (hs : FieldSteppingStrategy.new minIndex maxIndex index sizes = some s)
    (hin : s.isInField = true) (hlt : s.index < s.totalSize) (hd : d < sizes.length) :
    s.currentIndex d = some (Spec.coordinate sizes s.index d) :=
  FieldSteppingStrategy.currentIndex_eq_coordinate hpos htot hs hin hlt hd

/-- C4 on the 3 x 4 x 5 field of the unit tests, at index 37 and dimension 1. -/
theorem C4_currentIndex_matches_reference_witness :
    ((∀ n ∈ [3, 4, 5], 1 ≤ n) ∧ [3, 4, 5].prod < 2 ^ 31 ∧ 1 < [3, 4, 5].length) ∧
      (FieldSteppingStrategy.fill 0 59 37 1 1 [3, 4, 5]).currentIndex 1
        = some (Spec.coordinate [3, 4, 5]
            (FieldSteppingStrategy.fill 0 59 37 1 1 [3, 4, 5]).index 1) :=
  ⟨by decide, C4_currentIndex_matches_reference [3, 4, 5] 0 59 37
    (FieldSteppingStrategy.fill 0 59 37 1 1 [3, 4, 5]) 1 (by decide) (by decide) rfl
    (by decide) (by decide) (by decide)⟩

theorem toInt32_of_lt {x : Nat} (h : x < 2147483648) : toInt32 x = (x : Int) := by
  unfold toInt32 U32
  have : x % 4294967296 = x := Nat.mod_eq_of_lt (by omega)
  rw [this, if_pos h]

theorem toU64_natCast {x : Nat} (h : x < U64) : toU64 (x : Int) = x := by
  unfold toU64 U64 at *
  omega

namespace WholeFieldStepper

/-- Limits computed by `setIndexLimits` for thread `t` of `N` on a non-empty field of total size
below `2^31`: the chunk starts at `q * t + min t r` and holds `q` (+1 when `t < r`) indices,
where `q = totalSize / N` and `r = totalSize % N`. -/
theorem setIndexLimits_limits {s : FieldSteppingStrategy} {t N : Nat}
    (h1 : 1 ≤ s.totalSize) (h31 : s.totalSize < 2 ^ 31) (hN : 0 < N) (ht : t < N) :
    (setIndexLimits t N s).minIndex = s.totalSize / N * t + min t (s.totalSize % N) ∧
    (setIndexLimits t N s).maxIndex + 1 = (setIndexLimits t N s).minIndex + s.totalSize / N
      + (if t < s.totalSize % N then 1 else 0) ∧
    (setIndexLimits t N s).maxIndex < s.totalSize := by
  have hq : s.totalSize / N ≤ s.totalSize := Nat.div_le_self _ _
  have hr : s.totalSize % N < N := Nat.mod_lt _ hN
  have hr' : s.totalSize % N ≤ s.totalSize := Nat.mod_le _ _
  have hqr : N * (s.totalSize / N) + s.totalSize % N = s.totalSize := Nat.div_add_mod _ _
  have c1 : toInt32 (s.totalSize / N) = ((s.totalSize / N : Nat) : Int) :=
    toInt32_of_lt (by omega)
  have c2 : toInt32 (s.totalSize % N) = ((s.totalSize % N : Nat) : Int) :=
    toInt32_of_lt (by omega)
  have hqt : s.totalSize / N * t ≤ s.totalSize / N * N := Nat.mul_le_mul_left _ (by omega)
  have e : s.totalSize / N * N = N * (s.totalSize / N) := by ring
  have hqt1 : s.totalSize / N * t + s.totalSize / N ≤ s.totalSize / N * N := by
    have : s.totalSize / N * (t + 1) ≤ s.totalSize / N * N := Nat.mul_le_mul_left _ (by omega)
    have e' : s.totalSize / N * (t + 1) = s.totalSize / N * t + s.totalSize / N := by ring
    omega
  simp only [setIndexLimits, c1, c2]
  generalize s.totalSize / N = q at *
  generalize s.totalSize % N = r at *
  by_cases htr : t < r
  · have htr' : (t : Int) < (r : Int) := by exact_mod_cast htr
    simp only [if_pos htr', if_pos htr]
    have e1 : ((q : Int) + 1) * (t : Int) = (((q + 1) * t : Nat) : Int) := by push_cast; ring
    have e2 : (q : Int) + 1 = ((q + 1 : Nat) : Int) := by push_cast; ring
    have e3 : (q + 1) * t = q * t + t := by ring
    rw [e1, e2, toU64_natCast (by unfold U64; omega), toU64_natCast (by unfold U64; omega)]
    have hb : (q + 1) * t + (q + 1) < 4294967296 := by omega
    have hmin : min t r = t := min_eq_left (by omega)
    simp only [sub64, U64, hmin]
    generalize (q + 1) * t = A at *
    generalize q * t = B at *
    refine ⟨by omega, by omega, by omega⟩
  · have htr' : ¬ (t : Int) < (r : Int) := by
      intro h; exact htr (by exact_mod_cast h)
    simp only [if_neg htr', if_neg htr]
    have e1 : (q : Int) * (t : Int) + (r : Int) = ((q * t + r : Nat) : Int) := by push_cast; ring
    rw [e1, toU64_natCast (by unfold U64; omega), toU64_natCast (by unfold U64; omega)]
    simp only [sub64, U64]
    have hpos : 1 ≤ q * t + r + q := by
      rcases Nat.eq_zero_or_pos q with h0 | h0
      · rw [h0] at hqr; omega
      · omega
    have hmin : min t r = r := min_eq_right (by omega)
    simp only [hmin]
    generalize q * t = B at *
    exact ⟨trivial, by omega, by omega⟩

end WholeFieldStepper

theorem Spec.stride_zero (sizes : List Nat) : Spec.stride sizes 0 = 1 := by
  simp [Spec.stride]

theorem Spec.stride_cons_succ (n : Nat) (ns : List Nat) (d : Nat) :
    Spec.stride (n :: ns) (d + 1) = n * Spec.stride ns d := by
  simp [Spec.stride]

theorem Spec.coordinate_cons_zero (n : Nat) (ns : List Nat) (i : Nat) :
    Spec.coordinate (n :: ns) i 0 = i % n := by
  simp [Spec.coordinate, Spec.stride]

theorem Spec.coordinate_cons_succ (n : Nat) (ns : List Nat) (i d : Nat) :
    Spec.coordinate (n :: ns) i (d + 1) = Spec.coordinate ns (i / n) d := by
  simp [Spec.coordinate, Spec.stride, Nat.div_div_eq_div_mul]

theorem Spec.coordinate_lt {sizes : List Nat} (hpos : ∀ n ∈ sizes, 1 ≤ n) (i : Nat) {d : Nat}
    (hd : d < sizes.length) : Spec.coordinate sizes i d < sizes.getD d 0 := by
  unfold Spec.coordinate
  apply Nat.mod_lt
  have : sizes.getD d 0 ∈ sizes := by
    rw [List.getD_eq_getElem _ _ hd]; exact List.getElem_mem _
  have := hpos _ this
  omega

/-- Mixed-radix decomposition: the coordinates weighted by the strides add up to the index. -/
theorem Spec.sum_coordinate_mul_stride : ∀ (sizes : List Nat) (i : Nat), i < sizes.prod →
    ∑ d in Finset.range sizes.length, Spec.coordinate sizes i d * Spec.stride sizes d = i := by
  intro sizes
  induction sizes with
  | nil => intro i hi; simp at hi; simp [hi]
  | cons n ns ih =>
    intro i hi
    rw [List.prod_cons] at hi
    have hn : 0 < n := by
      rcases Nat.eq_zero_or_pos n with h | h
      · rw [h] at hi; simp at hi
      · exact h
    have hdiv : i / n < ns.prod := by
      rw [Nat.div_lt_iff_lt_mul hn, Nat.mul_comm]; exact hi
    rw [List.length_cons, Finset.sum_range_succ']
    simp only [Spec.coordinate_cons_succ, Spec.stride_cons_succ, Spec.coordinate_cons_zero,
      Spec.stride_zero, Nat.mul_one]
    have e : ∀ d, Spec.coordinate ns (i / n) d * (n * Spec.stride ns d)
        = n * (Spec.coordinate ns (i / n) d * Spec.stride ns d) := by intro d; ring
    simp only [e, ← Finset.mul_sum]
    rw [ih (i / n) hdiv]
    exact Nat.div_add_mod i n

/-- Two indices of the field with the same coordinates are equal. -/
theorem Spec.coordinate_injective {sizes : List Nat} {i j : Nat} (hi : i < sizes.prod)
    (hj : j < sizes.prod)
    (h : ∀ d, d < sizes.length → Spec.coordinate sizes i d = Spec.coordinate sizes j d) :
    i = j := by
  rw [← Spec.sum_coordinate_mul_stride sizes i hi, ← Spec.sum_coordinate_mul_stride sizes j hj]
  apply Finset.sum_congr rfl
  intro d hd
  rw [h d (Finset.mem_range.mp hd)]

/-- Every coordinate tuple inside the ranges is the tuple of the index it encodes. -/
theorem Spec.coordinate_surjective : ∀ (sizes c : List Nat), c.length = sizes.length →
    (∀ d, d < sizes.length → c.getD d 0 < sizes.getD d 0) →
    (∑ d in Finset.range sizes.length, c.getD d 0 * Spec.stride sizes d) < sizes.prod ∧
    ∀ d, d < sizes.length →
      Spec.coordinate sizes (∑ e in Finset.range sizes.length, c.getD e 0 * Spec.stride sizes e) d
        = c.getD d 0 := by
  intro sizes
  induction sizes with
  | nil => intro c _ _; simp
  | cons n ns ih =>
    intro c hlen hc
    cases c with
    | nil => simp at hlen
    | cons c0 cs =>
      have hlen' : cs.length = ns.length := by simpa using hlen
      have hc0 : c0 < n := by simpa using hc 0 (by simp)
      have hcs : ∀ d, d < ns.length → cs.getD d 0 < ns.getD d 0 := by
        intro d hd
        simpa using hc (d + 1) (by simpa using hd)
      obtain ⟨ih1, ih2⟩ := ih cs hlen' hcs
      have e : ∀ d, cs.getD d 0 * (n * Spec.stride ns d)
          = n * (cs.getD d 0 * Spec.stride ns d) := by intro d; ring
      have hsum : (∑ d in Finset.range (n :: ns).length, (c0 :: cs).getD d 0 * Spec.stride (n :: ns) d)
          = n * (∑ d in Finset.range ns.length, cs.getD d 0 * Spec.stride ns d) + c0 := by
        rw [List.length_cons, Finset.sum_range_succ']
        simp only [List.getD_cons_succ, Spec.stride_cons_succ, List.getD_cons_zero,
          Spec.stride_zero, Nat.mul_one, e, ← Finset.mul_sum]
      rw [hsum]
      set i1 := ∑ d in Finset.range ns.length, cs.getD d 0 * Spec.stride ns d with hi1
      have hdiv : (n * i1 + c0) / n = i1 := by
        rw [Nat.add_comm, Nat.add_mul_div_left _ _ (by omega : 0 < n),
          Nat.div_eq_of_lt hc0, Nat.zero_add]
      have hmod : (n * i1 + c0) % n = c0 := by
        rw [Nat.add_comm, Nat.add_mul_mod_self_left, Nat.mod_eq_of_lt hc0]
      constructor
      · rw [List.prod_cons]
        have : n * (i1 + 1) ≤ n * ns.prod := Nat.mul_le_mul_left _ ih1
        have e2 : n * (i1 + 1) = n * i1 + n := by ring
        omega
      · intro d hd
        cases d with
        | zero => rw [Spec.coordinate_cons_zero, hmod]; simp
        | succ d =>
          rw [Spec.coordinate_cons_succ, hdiv, List.getD_cons_succ]
          exact ih2 d (by simpa using hd)

theorem TablesOf.of_eq {sizes : List Nat} {s s1 : FieldSteppingStrategy} (h : TablesOf sizes s)
    (h1 : s1.stride = s.stride) (h2 : s1.size = s.size) (h3 : s1.totalSize = s.totalSize)
    (h4 : s1.magicStrideNumbers = s.magicStrideNumbers)
    (h5 : s1.magicSizeNumbers = s.magicSizeNumbers) : TablesOf sizes s1 := by
  obtain ⟨a, b, c, d, e, f⟩ := h
  exact ⟨by rw [h2, a], by rw [h3, b], by rw [h1, c], by rw [h1]; exact d, by rw [h4, h1, e],
    by rw [h5, h2, f]⟩

theorem FieldSteppingStrategy.isInField_iff (s : FieldSteppingStrategy) :
    s.isInField = true ↔ s.minIndex ≤ s.index ∧ s.index ≤ s.maxIndex := by
  simp [FieldSteppingStrategy.isInField]

namespace WholeFieldStepper

/-- The stepper built for thread `t` of `N` on a non-empty field of total size below `2^31`. -/
theorem new_limits {sizes : List Nat} {t N : Nat} (hpos : ∀ n ∈ sizes, 1 ≤ n)
    (htot : sizes.prod < 2 ^ 31) (hN : 0 < N) (ht : t < N) :
    ∃ s, WholeFieldStepper.new t N sizes = some s ∧ TablesOf sizes s ∧
      s.index = s.minIndex ∧
      s.minIndex = sizes.prod / N * t + min t (sizes.prod % N) ∧
      s.maxIndex + 1 = s.minIndex + sizes.prod / N + (if t < sizes.prod % N then 1 else 0) ∧
      s.maxIndex < sizes.prod := by
  obtain ⟨s0, hs0⟩ := FieldSteppingStrategy.new_isSome 0 0 0 hpos htot
  obtain ⟨-, -, -, htab⟩ := FieldSteppingStrategy.new_tables hpos htot hs0
  have h1 : 1 ≤ s0.totalSize := by rw [htab.total_eq]; exact one_le_prod_of_pos hpos
  have h31 : s0.totalSize < 2 ^ 31 := by rw [htab.total_eq]; exact htot
  obtain ⟨a, b, c⟩ := setIndexLimits_limits h1 h31 hN ht
  rw [htab.total_eq] at a b c
  refine ⟨(setIndexLimits t N s0).first, ?_, ?_, rfl, a, b, c⟩
  · simp only [WholeFieldStepper.new, hs0]
  · exact htab.of_eq rfl rfl rfl rfl rfl

/-- The traversal of a stepper that has `k` indices left visits exactly these, in ascending
order, and then leaves the field. -/
theorem visit_eq : ∀ (k fuel : Nat) (s : FieldSteppingStrategy), k ≤ fuel →
    s.minIndex ≤ s.index → s.index + k = s.maxIndex + 1 → s.maxIndex + 1 < U64 →
    visit fuel s = some ((List.range' s.index k).map fun i => { s with index := i }) := by
  intro k
  induction k with
  | zero =>
    intro fuel s _ _ hk _
    have hout : s.isInField = false := by
      rw [← Bool.not_eq_true, FieldSteppingStrategy.isInField_iff]; omega
    cases fuel <;> simp [visit, hout]
  | succ k ih =>
    intro fuel s hf hmin hk hU
    have hin : s.isInField = true := by
      rw [FieldSteppingStrategy.isInField_iff]; omega
    cases fuel with
    | zero => omega
    | succ fuel =>
      have hnext : next s = some { s with index := s.index + 1 } := by
        simp only [next, hin, if_true]
        rw [Nat.mod_eq_of_lt (by omega)]
      have hrec := ih fuel { s with index := s.index + 1 } (by omega) (by simp; omega)
        (by simp; omega) (by simpa using hU)
      simp only [visit, hin, if_true, hnext, hrec, Option.map_some', List.range'_succ,
        List.map_cons]

end WholeFieldStepper

/-- Single-thread whole-field stepper: limits `[0, totalSize - 1]`, cursor at 0. -/
theorem WholeFieldStepper.new_single {sizes : List Nat} {s0 : FieldSteppingStrategy}
    (hpos : ∀ n ∈ sizes, 1 ≤ n) (htot : sizes.prod < 2 ^ 31)
    (hs0 : WholeFieldStepper.new 0 1 sizes = some s0) :
    TablesOf sizes s0 ∧ s0.index = 0 ∧ s0.minIndex = 0 ∧ s0.maxIndex + 1 = sizes.prod := by
  obtain ⟨s, hs, htab, h1, h2, h3, _⟩ := WholeFieldStepper.new_limits (t := 0) (N := 1) hpos htot
    (by omega) (by omega)
  rw [hs0] at hs
  simp only [Option.some.injEq] at hs
  subst hs
  have e1 : sizes.prod % 1 = 0 := Nat.mod_one _
  have e2 : sizes.prod / 1 = sizes.prod := Nat.div_one _
  rw [e1, e2] at h2 h3
  simp at h2 h3
  exact ⟨htab, by omega, h2, by omega⟩

/-- On the whole-field stepper every index of the field is in field and `currentIndex` returns
its reference coordinate. -/
theorem WholeFieldStepper.currentIndex_at {sizes : List Nat} {s0 : FieldSteppingStrategy}
    (hpos : ∀ n ∈ sizes, 1 ≤ n) (htot : sizes.prod < 2 ^ 31)
    (hs0 : WholeFieldStepper.new 0 1 sizes = some s0) {i d : Nat} (hi : i < sizes.prod)
    (hd : d < sizes.length) :
    ({ s0 with index := i }).currentIndex d = some (Spec.coordinate sizes i d) := by
  obtain ⟨htab, _, hmin, hmax⟩ := WholeFieldStepper.new_single hpos htot hs0
  have htab' : TablesOf sizes { s0 with index := i } := htab.of_eq rfl rfl rfl rfl rfl
  have hin : ({ s0 with index := i }).isInField = true := by
    rw [FieldSteppingStrategy.isInField_iff]; simp only; omega
  exact FieldSteppingStrategy.currentIndex_of_tables hpos htot htab' hin
    (by simp only; rw [htab.total_eq]; exact hi) hd

/-- C5: for a size array with all extents at least 1 and total size below `2^31`, the map
`index ↦ (currentIndex(0), …, currentIndex(D-1))` is a bijection from `[0, totalSize)` onto the
product of the ranges `[0, size[d])`: every coordinate lies in its range, the coordinates
weighted by the strides add up to the index, different indices have different tuples, and every
tuple in the product is the tuple of some index of the field. -/
theorem C5_coordinates_bijection (sizes : List Nat) (s0 : FieldSteppingStrategy)
    (hpos : ∀ n ∈ sizes, 1 ≤ n) (htot : sizes.prod < 2 ^ 31)
    (hs0 : WholeFieldStepper.new 0 1 sizes = some s0) :
    (∀ i, i < sizes.prod → ∀ d, d < sizes.length →
      ∃ c, ({ s0 with index := i }).currentIndex d = some c ∧ c < sizes.getD d 0) ∧
    (∀ i, i < sizes.prod →
      ∑ d in Finset.range sizes.length,
        (({ s0 with index := i }).currentIndex d).getD 0 * s0.stride.getD d 0 = i) ∧
    (∀ i j, i < sizes.prod → j < sizes.prod →
      (∀ d, d < sizes.length →
        ({ s0 with index := i }).currentIndex d = ({ s0 with index := j }).currentIndex d) →
      i = j) ∧
    (∀ c : List Nat, c.length = sizes.length →
      (∀ d, d < sizes.length → c.getD d 0 < sizes.getD d 0) →
      ∃ i, i < sizes.prod ∧ ∀ d, d < sizes.length →
        ({ s0 with index := i }).currentIndex d = some (c.getD d 0)) := by
  obtain ⟨htab, _, _, _⟩ := WholeFieldStepper.new_single hpos htot hs0
  refine ⟨?_, ?_, ?_, ?_⟩
  · intro i hi d hd
    exact ⟨_, WholeFieldStepper.currentIndex_at hpos htot hs0 hi hd,
      Spec.coordinate_lt hpos i hd⟩
  · intro i hi
    refine Eq.trans (Finset.sum_congr rfl ?_) (Spec.sum_coordinate_mul_stride sizes i hi)
    intro d hd
    have hd' := Finset.mem_range.mp hd
    rw [WholeFieldStepper.currentIndex_at hpos htot hs0 hi hd', htab.stride_eq d (by omega)]
    rfl
  · intro i j hi hj h
    apply Spec.coordinate_injective hi hj
    intro d hd
    have := h d hd
    rw [WholeFieldStepper.currentIndex_at hpos htot hs0 hi hd,
      WholeFieldStepper.currentIndex_at hpos htot hs0 hj hd] at this
    exact Option.some.inj this
  · intro c hlen hc
    obtain ⟨h1, h2⟩ := Spec.coordinate_surjective sizes c hlen hc
    refine ⟨_, h1, ?_⟩
    intro d hd
    rw [WholeFieldStepper.currentIndex_at hpos htot hs0 h1 hd, h2 d hd]

/-- C5 on the 3 x 4 x 5 field of the unit tests. -/
theorem C5_coordinates_bijection_witness :
    ((∀ n ∈ [3, 4, 5], 1 ≤ n) ∧ [3, 4, 5].prod < 2 ^ 31) ∧
    ∀ i j, i < [3, 4, 5].prod → j < [3, 4, 5].prod →
      (∀ d, d < [3, 4, 5].length →
        ({ (WholeFieldStepper.setIndexLimits 0 1
              (FieldSteppingStrategy.fill 0 0 0 1 1 [3, 4, 5])).first with
            index := i }).currentIndex d
          = ({ (WholeFieldStepper.setIndexLimits 0 1
              (FieldSteppingStrategy.fill 0 0 0 1 1 [3, 4, 5])).first with
            index := j }).currentIndex d) →
      i = j :=
  ⟨by decide, (C5_coordinates_bijection [3, 4, 5]
    (WholeFieldStepper.setIndexLimits 0 1 (FieldSteppingStrategy.fill 0 0 0 1 1 [3, 4, 5])).first
    (by decide) (by decide) rfl).2.2.1⟩

/-- Single-thread traversal of a non-empty field of total size below `2^31`: the loop visits
the indices `0, 1, …, totalSize - 1` in this order and `currentIndex` returns the reference
coordinate at each of them. -/
theorem WholeFieldStepper.visit_single {sizes : List Nat} {s0 : FieldSteppingStrategy}
    (hpos : ∀ n ∈ sizes, 1 ≤ n) (htot : sizes.prod < 2 ^ 31)
    (hs0 : WholeFieldStepper.new 0 1 sizes = some s0) :
    ∃ l, WholeFieldStepper.visit sizes.prod s0 = some l ∧
      l.map (fun s => s.index) = List.range sizes.prod ∧
      ∀ s ∈ l, ∀ d, d < sizes.length →
        s.currentIndex d = some (Spec.coordinate sizes s.index d) := by
  obtain ⟨htab, hix, hmin, hmax⟩ := WholeFieldStepper.new_single hpos htot hs0
  have hv := WholeFieldStepper.visit_eq sizes.prod sizes.prod s0 (le_refl _) (by omega)
    (by omega) (by unfold U64; omega)
  refine ⟨_, hv, ?_, ?_⟩
  · rw [List.map_map, hix, List.range_eq_range']
    exact List.map_id' _
  · intro s hs d hd
    rw [List.mem_map] at hs
    obtain ⟨i, hi, rfl⟩ := hs
    rw [List.mem_range'_1] at hi
    exact WholeFieldStepper.currentIndex_at hpos htot hs0 (by omega) hd

/-- A stepper that is in field never yields an empty traversal. -/
theorem WholeFieldStepper.visit_ne_nil {s : FieldSteppingStrategy} (hin : s.isInField = true)
    (fuel : Nat) : WholeFieldStepper.visit fuel s ≠ some [] := by
  cases fuel with
  | zero => simp [WholeFieldStepper.visit, hin]
  | succ n =>
    intro h
    simp only [WholeFieldStepper.visit, hin, if_true] at h
    split at h
    · simp at h
    · simp at h

/-- C6 (failing input): for the size array `{0, 0, 0}` the single-thread whole-field stepper is
built with `totalSize = 0`, `minIndex = 0` and `maxIndex = 2^64 - 1`; it is in field at index 0
and its traversal never ends with an empty list of visited indices. -/
theorem C6_empty_field_is_in_field :
    ∃ s, WholeFieldStepper.new 0 1 [0, 0, 0] = some s ∧ s.totalSize = 0 ∧ s.index = 0 ∧
      s.minIndex = 0 ∧ s.maxIndex = 18446744073709551615 ∧ s.isInField = true ∧
      ∀ fuel, WholeFieldStepper.visit fuel s ≠ some [] :=
  ⟨_, rfl, rfl, rfl, rfl, rfl, rfl, WholeFieldStepper.visit_ne_nil rfl⟩

/-- Consecutive chunks `[g t, g (t+1))` of a monotone sequence starting at 0 partition
`[0, g N)`. -/
theorem chunk_partition (g : Nat → Nat) (h0 : g 0 = 0) (hmono : ∀ t, g t ≤ g (t + 1)) (N : Nat)
    {i : Nat} (hi : i < g N) : ∃! t, t < N ∧ g t ≤ i ∧ i < g (t + 1) := by
  have hmono' : ∀ a b, a ≤ b → g a ≤ g b := by
    intro a b hab
    induction hab with
    | refl => exact le_refl _
    | step _ ih => exact le_trans ih (hmono _)
  have hex : ∀ M, i < g M → ∃ t, t < M ∧ g t ≤ i ∧ i < g (t + 1) := by
    intro M
    induction M with
    | zero => intro h; omega
    | succ M ih =>
      intro h
      by_cases hM : i < g M
      · obtain ⟨t, ht, h1, h2⟩ := ih hM
        exact ⟨t, by omega, h1, h2⟩
      · exact ⟨M, by omega, by omega, h⟩
  obtain ⟨t, ht, h1, h2⟩ := hex N hi
  refine ⟨t, ⟨ht, h1, h2⟩, ?_⟩
  rintro u ⟨_, hu1, hu2⟩
  rcases Nat.lt_trichotomy u t with h | h | h
  · have := hmono' (u + 1) t (by omega); omega
  · exact h
  · have := hmono' (t + 1) u (by omega); omega

/-- C7: for a non-empty field (`1 ≤ totalSize < 2^31`) and `N ≥ 1` threads, the ranges
`[minIndex, maxIndex]` computed by `WholeFieldStepper::setIndexLimits` for the thread ids
`0 … N-1` are contiguous (the first starts at 0, each next one starts right after the previous
one, the last ends at `totalSize - 1`), thread `t` receives `totalSize / N` indices plus one
extra iff `t < totalSize mod N`, a thread is in field at construction iff it has an index, its
traversal visits exactly the indices of its range in ascending order, and every index of the
field lies in the range of exactly one thread. -/
theorem C7_whole_field_thread_partition (sizes : List Nat) (N : Nat)
    (h1 : 1 ≤ sizes.prod) (htot : sizes.prod < 2 ^ 31) (hN : 1 ≤ N) :
    ∃ f : Nat → FieldSteppingStrategy,
      (∀ t, t < N →
        WholeFieldStepper.new t N sizes = some (f t) ∧
        (f t).index = (f t).minIndex ∧
        (f t).maxIndex + 1 = (f t).minIndex + sizes.prod / N
          + (if t < sizes.prod % N then 1 else 0) ∧
        ((f t).isInField = true ↔
          1 ≤ sizes.prod / N + (if t < sizes.prod % N then 1 else 0)) ∧
        ∃ l, WholeFieldStepper.visit sizes.prod (f t) = some l ∧
          l.map (fun s => s.index) = List.range' (f t).minIndex
            (sizes.prod / N + (if t < sizes.prod % N then 1 else 0))) ∧
      (f 0).minIndex = 0 ∧
      (∀ t, t + 1 < N → (f (t + 1)).minIndex = (f t).maxIndex + 1) ∧
      (f (N - 1)).maxIndex + 1 = sizes.prod ∧
      (∀ i, i < sizes.prod → ∃! t, t < N ∧ (f t).minIndex ≤ i ∧ i ≤ (f t).maxIndex) := by
  have hpos : ∀ n ∈ sizes, 1 ≤ n := by
    intro n hn
    rcases Nat.eq_zero_or_pos n with h | h
    · subst h
      have := List.prod_eq_zero hn
      omega
    · exact h
  have hqr : N * (sizes.prod / N) + sizes.prod % N = sizes.prod := Nat.div_add_mod _ _
  have hr : sizes.prod % N < N := Nat.mod_lt _ (by omega)
  have hspec : ∀ t, t < N → ∃ s, WholeFieldStepper.new t N sizes = some s ∧ TablesOf sizes s ∧
      s.index = s.minIndex ∧
      s.minIndex = sizes.prod / N * t + min t (sizes.prod % N) ∧
      s.maxIndex + 1 = s.minIndex + sizes.prod / N + (if t < sizes.prod % N then 1 else 0) ∧
      s.maxIndex < sizes.prod := fun t ht => WholeFieldStepper.new_limits hpos htot (by omega) ht
  let f : Nat → FieldSteppingStrategy := fun t =>
    (WholeFieldStepper.setIndexLimits t N (FieldSteppingStrategy.fill 0 0 0 1 1 sizes)).first
  have hf : ∀ t, t < N → WholeFieldStepper.new t N sizes = some (f t) := by
    intro t ht
    obtain ⟨s0, hs0⟩ := FieldSteppingStrategy.new_isSome 0 0 0 hpos htot
    have hs0' := hs0
    unfold FieldSteppingStrategy.new at hs0'
    split_ifs at hs0'
    simp only [Option.some.injEq] at hs0'
    subst hs0'
    simp only [WholeFieldStepper.new, hs0, f]
  have hfacts : ∀ t, t < N → (f t).index = (f t).minIndex ∧
      (f t).minIndex = sizes.prod / N * t + min t (sizes.prod % N) ∧
      (f t).maxIndex + 1 = (f t).minIndex + sizes.prod / N
        + (if t < sizes.prod % N then 1 else 0) ∧ (f t).maxIndex < sizes.prod := by
    intro t ht
    obtain ⟨s, hs, _, a, b, c, d⟩ := hspec t ht
    rw [hf t ht] at hs
    simp only [Option.some.injEq] at hs
    rw [hs]
    exact ⟨a, b, c, d⟩
  clear hspec
  obtain ⟨q, hq⟩ : ∃ q, q = sizes.prod / N := ⟨_, rfl⟩
  obtain ⟨r, hrdef⟩ : ∃ r, r = sizes.prod % N := ⟨_, rfl⟩
  rw [← hq, ← hrdef] at hqr hfacts
  rw [← hrdef] at hr
  simp only [← hq, ← hrdef]
  obtain ⟨g, hg⟩ : ∃ g : Nat → Nat, g = fun t => q * t + min t r := ⟨_, rfl⟩
  have hg0 : g 0 = 0 := by simp [hg]
  have hgs : ∀ t, g (t + 1) = g t + q + (if t < r then 1 else 0) := by
    intro t
    simp only [hg]
    have e : q * (t + 1) = q * t + q := by ring
    rw [e]
    split_ifs with h
    · rw [min_eq_left (by omega), min_eq_left (by omega)]; omega
    · rw [min_eq_right (by omega), min_eq_right (by omega)]; omega
  have hgN : g N = sizes.prod := by
    simp only [hg]
    rw [min_eq_right (by omega)]
    have e : q * N = N * q := by ring
    omega
  have hmono : ∀ t, g t ≤ g (t + 1) := by intro t; rw [hgs t]; omega
  have hmin : ∀ t, t < N → (f t).minIndex = g t := by
    intro t ht
    rw [(hfacts t ht).2.1, hg]
  have hmax : ∀ t, t < N → (f t).maxIndex + 1 = g (t + 1) := by
    intro t ht
    rw [hgs t, ← hmin t ht]
    exact (hfacts t ht).2.2.1
  refine ⟨f, ?_, ?_, ?_, ?_, ?_⟩
  · intro t ht
    obtain ⟨a, b, c, d⟩ := hfacts t ht
    refine ⟨hf t ht, a, c, ?_, ?_⟩
    · rw [FieldSteppingStrategy.isInField_iff, a]
      omega
    · have hcnt : q + (if t < r then 1 else 0) ≤ sizes.prod := by omega
      have hv := WholeFieldStepper.visit_eq (q + (if t < r then 1 else 0)) sizes.prod (f t)
        hcnt (by omega) (by omega) (by unfold U64; omega)
      refine ⟨_, hv, ?_⟩
      rw [List.map_map, a]
      exact List.map_id' _
  · rw [hmin 0 (by omega), hg0]
  · intro t ht
    rw [hmin (t + 1) ht, hmax t (by omega)]
  · have e : N - 1 + 1 = N := by omega
    rw [hmax (N - 1) (by omega), e, hgN]
  · intro i hi
    obtain ⟨t, ⟨ht, h1, h2⟩, huniq⟩ := chunk_partition g hg0 hmono N (hgN ▸ hi)
    refine ⟨t, ⟨ht, by rw [hmin t ht]; exact h1, ?_⟩, ?_⟩
    · have := hmax t ht; omega
    · rintro u ⟨hu, hu1, hu2⟩
      apply huniq
      refine ⟨hu, by rw [← hmin u hu]; exact hu1, ?_⟩
      have := hmax u hu; omega


/-- C7 on the 3 x 4 x 5 field of the unit tests with 8 threads. -/
theorem C7_whole_field_thread_partition_witness :
    (1 ≤ [3, 4, 5].prod ∧ [3, 4, 5].prod < 2 ^ 31 ∧ 1 ≤ 8) ∧
    ∃ f : Nat → FieldSteppingStrategy,
      WholeFieldStepper.new 3 8 [3, 4, 5] = some (f 3) ∧ (f 0).minIndex = 0 ∧
      (f (8 - 1)).maxIndex + 1 = [3, 4, 5].prod ∧
      (∀ i, i < [3, 4, 5].prod → ∃! t, t < 8 ∧ (f t).minIndex ≤ i ∧ i ≤ (f t).maxIndex) :=
  ⟨by decide, (C7_whole_field_thread_partition [3, 4, 5] 8 (by decide) (by decide)
    (by decide)).imp fun _ h => ⟨(h.1 3 (by decide)).1, h.2.1, h.2.2.2.1, h.2.2.2.2⟩⟩

/-! ### Arithmetic of the face enumeration -/

/-- Face enumeration over plain numbers: `S` is the stride of the face dimension, `n` its
extent and `c` the fixed coordinate. -/
theorem facePos_div {S : Nat} (hS : 0 < S) (n c k : Nat) :
    (S * c + k % S + k / S * (S * n)) / S = c + k / S * n := by
  have e : S * c + k % S + k / S * (S * n) = k % S + S * (c + k / S * n) := by ring
  rw [e, Nat.add_mul_div_left _ _ hS, Nat.div_eq_of_lt (Nat.mod_lt _ hS), Nat.zero_add]

theorem facePos_mod (S n c k : Nat) :
    (S * c + k % S + k / S * (S * n)) % S = k % S := by
  have e : S * c + k % S + k / S * (S * n) = k % S + S * (c + k / S * n) := by ring
  rw [e, Nat.add_mul_mod_self_left, Nat.mod_mod]

theorem facePos_coordinate {S n c : Nat} (hS : 0 < S) (hc : c < n) (k : Nat) :
    (S * c + k % S + k / S * (S * n)) / S % n = c := by
  rw [facePos_div hS, Nat.add_mul_mod_self_right, Nat.mod_eq_of_lt hc]

theorem succ_div_mod {S : Nat} (hS : 0 < S) (k : Nat) :
    (k % S + 1 < S → (k + 1) / S = k / S ∧ (k + 1) % S = k % S + 1) ∧
    (¬ k % S + 1 < S → (k + 1) / S = k / S + 1 ∧ (k + 1) % S = 0) := by
  have h1 := Nat.div_add_mod k S
  have h2 := Nat.mod_lt k hS
  constructor
  · intro h
    rw [Nat.div_mod_unique hS]
    constructor
    · omega
    · exact h
  · intro h
    rw [Nat.div_mod_unique hS]
    constructor
    · have e : S * (k / S + 1) = S * (k / S) + S := by ring
      omega
    · exact hS

theorem facePos_succ {S n : Nat} (hS : 0 < S) (hn : 0 < n) (c k : Nat) :
    S * c + (k + 1) % S + (k + 1) / S * (S * n)
      = if k % S + 1 < S then S * c + k % S + k / S * (S * n) + 1
        else S * c + k % S + k / S * (S * n) + (S * n - (S - 1)) := by
  obtain ⟨ha, hb⟩ := succ_div_mod hS k
  have h2 := Nat.mod_lt k hS
  have hSn : S * 1 ≤ S * n := Nat.mul_le_mul_left _ hn
  split_ifs with h
  · rw [(ha h).1, (ha h).2]; omega
  · rw [(hb h).1, (hb h).2]
    have e : (k / S + 1) * (S * n) = k / S * (S * n) + S * n := by ring
    rw [e]; omega

theorem facePos_lt_succ {S n : Nat} (hS : 0 < S) (hn : 0 < n) (c k : Nat) :
    S * c + k % S + k / S * (S * n) < S * c + (k + 1) % S + (k + 1) / S * (S * n) := by
  rw [facePos_succ hS hn]
  have h2 := Nat.mod_lt k hS
  have hSn : S * 1 ≤ S * n := Nat.mul_le_mul_left _ hn
  split_ifs <;> omega

theorem facePos_lt {S n H c k : Nat} (hS : 0 < S) (hc : c < n) (hk : k < S * H) :
    S * c + k % S + k / S * (S * n) < S * n * H := by
  have h2 := Nat.mod_lt k hS
  have hq : k / S < H := by rw [Nat.div_lt_iff_lt_mul hS, Nat.mul_comm]; exact hk
  have h3 : S * (c + 1) ≤ S * n := Nat.mul_le_mul_left _ hc
  have h4 : (k / S + 1) * (S * n) ≤ H * (S * n) := Nat.mul_le_mul_right _ hq
  have e1 : S * (c + 1) = S * c + S := by ring
  have e2 : (k / S + 1) * (S * n) = k / S * (S * n) + S * n := by ring
  have e3 : H * (S * n) = S * n * H := by ring
  omega

theorem facePos_surjective {S n H c i : Nat} (hS : 0 < S) (hn : 0 < n) (hi : i < S * n * H)
    (hc : i / S % n = c) :
    ∃ k, k < S * H ∧ S * c + k % S + k / S * (S * n) = i := by
  have hSn : 0 < S * n := Nat.mul_pos hS hn
  have hq : i / (S * n) < H := by rw [Nat.div_lt_iff_lt_mul hSn, Nat.mul_comm]; exact hi
  have h1 := Nat.div_add_mod i S
  have h2 := Nat.mod_lt i hS
  have h3 := Nat.div_add_mod (i / S) n
  have h4 : i / S / n = i / (S * n) := Nat.div_div_eq_div_mul _ _ _
  rw [h4, hc] at h3
  refine ⟨i % S + S * (i / (S * n)), ?_, ?_⟩
  · have : S * (i / (S * n) + 1) ≤ S * H := Nat.mul_le_mul_left _ hq
    have e : S * (i / (S * n) + 1) = S * (i / (S * n)) + S := by ring
    omega
  · have e1 : (i % S + S * (i / (S * n))) % S = i % S := by
      rw [Nat.add_mul_mod_self_left, Nat.mod_mod]
    have e2 : (i % S + S * (i / (S * n))) / S = i / (S * n) := by
      rw [Nat.add_mul_div_left _ _ hS, Nat.div_eq_of_lt h2, Nat.zero_add]
    rw [e1, e2]
    have e3 : S * (i / S) = S * c + i / (S * n) * (S * n) := by
      rw [← h3]; ring
    omega

/-! ### The face enumeration of a size array -/

theorem Spec.prod_split {sizes : List Nat} {d : Nat} (hd : d < sizes.length) :
    sizes.prod = Spec.stride sizes d * sizes.getD d 0 * (sizes.drop (d + 1)).prod := by
  rw [← Spec.stride_succ hd]
  unfold Spec.stride
  exact (List.prod_take_mul_prod_drop _ _).symm

theorem Spec.size_pos {sizes : List Nat} (hpos : ∀ n ∈ sizes, 1 ≤ n) {d : Nat}
    (hd : d < sizes.length) : 1 ≤ sizes.getD d 0 := by
  apply hpos
  rw [List.getD_eq_getElem _ _ hd]; exact List.getElem_mem _

/-- Number of cells of a face. -/
theorem Spec.face_count {sizes : List Nat} (hpos : ∀ n ∈ sizes, 1 ≤ n) {d : Nat}
    (hd : d < sizes.length) :
    sizes.prod / sizes.getD d 0 = Spec.stride sizes d * (sizes.drop (d + 1)).prod := by
  have hn := Spec.size_pos hpos hd
  rw [Spec.prod_split hd]
  have e : Spec.stride sizes d * sizes.getD d 0 * (sizes.drop (d + 1)).prod
      = sizes.getD d 0 * (Spec.stride sizes d * (sizes.drop (d + 1)).prod) := by ring
  rw [e, Nat.mul_div_cancel_left _ (by omega)]

theorem Spec.faceCoordinate_lt {sizes : List Nat} (hpos : ∀ n ∈ sizes, 1 ≤ n) {d : Nat}
    (hd : d < sizes.length) (lower : Bool) :
    Spec.faceCoordinate sizes d lower < sizes.getD d 0 := by
  have hn := Spec.size_pos hpos hd
  unfold Spec.faceCoordinate
  split_ifs <;> omega

theorem Spec.faceIndex_lt_prod {sizes : List Nat} (hpos : ∀ n ∈ sizes, 1 ≤ n) {d : Nat}
    (hd : d < sizes.length) (lower : Bool) {k : Nat} (hk : k < sizes.prod / sizes.getD d 0) :
    Spec.faceIndex sizes d lower k < sizes.prod := by
  rw [Spec.face_count hpos hd] at hk
  rw [Spec.prod_split hd]
  unfold Spec.faceIndex
  rw [Spec.stride_succ hd]
  exact facePos_lt (Spec.stride_pos hpos d) (Spec.faceCoordinate_lt hpos hd lower) hk

theorem Spec.coordinate_faceIndex {sizes : List Nat} (hpos : ∀ n ∈ sizes, 1 ≤ n) {d : Nat}
    (hd : d < sizes.length) (lower : Bool) (k : Nat) :
    Spec.coordinate sizes (Spec.faceIndex sizes d lower k) d
      = Spec.faceCoordinate sizes d lower := by
  unfold Spec.coordinate Spec.faceIndex
  rw [Spec.stride_succ hd]
  exact facePos_coordinate (Spec.stride_pos hpos d) (Spec.faceCoordinate_lt hpos hd lower) k

theorem Spec.faceIndex_succ {sizes : List Nat} (hpos : ∀ n ∈ sizes, 1 ≤ n) {d : Nat}
    (hd : d < sizes.length) (lower : Bool) (k : Nat) :
    Spec.faceIndex sizes d lower (k + 1)
      = if k % Spec.stride sizes d + 1 < Spec.stride sizes d then
          Spec.faceIndex sizes d lower k + 1
        else Spec.faceIndex sizes d lower k
          + (Spec.stride sizes (d + 1) - (Spec.stride sizes d - 1)) := by
  unfold Spec.faceIndex
  rw [Spec.stride_succ hd]
  exact facePos_succ (Spec.stride_pos hpos d) (Spec.size_pos hpos hd) _ k

theorem Spec.faceIndex_lt_succ {sizes : List Nat} (hpos : ∀ n ∈ sizes, 1 ≤ n) {d : Nat}
    (hd : d < sizes.length) (lower : Bool) (k : Nat) :
    Spec.faceIndex sizes d lower k < Spec.faceIndex sizes d lower (k + 1) := by
  unfold Spec.faceIndex
  rw [Spec.stride_succ hd]
  exact facePos_lt_succ (Spec.stride_pos hpos d) (Spec.size_pos hpos hd) _ k

theorem Spec.faceIndex_strictMono {sizes : List Nat} (hpos : ∀ n ∈ sizes, 1 ≤ n) {d : Nat}
    (hd : d < sizes.length) (lower : Bool) {j k : Nat} (hjk : j < k) :
    Spec.faceIndex sizes d lower j < Spec.faceIndex sizes d lower k := by
  induction hjk with
  | refl => exact Spec.faceIndex_lt_succ hpos hd lower j
  | step _ ih => exact lt_trans ih (Spec.faceIndex_lt_succ hpos hd lower _)

theorem Spec.faceIndex_mono {sizes : List Nat} (hpos : ∀ n ∈ sizes, 1 ≤ n) {d : Nat}
    (hd : d < sizes.length) (lower : Bool) {j k : Nat} (hjk : j ≤ k) :
    Spec.faceIndex sizes d lower j ≤ Spec.faceIndex sizes d lower k := by
  rcases Nat.lt_or_eq_of_le hjk with h | h
  · exact le_of_lt (Spec.faceIndex_strictMono hpos hd lower h)
  · rw [h]

theorem Spec.faceIndex_injective {sizes : List Nat} (hpos : ∀ n ∈ sizes, 1 ≤ n) {d : Nat}
    (hd : d < sizes.length) (lower : Bool) {j k : Nat}
    (h : Spec.faceIndex sizes d lower j = Spec.faceIndex sizes d lower k) : j = k := by
  rcases Nat.lt_trichotomy j k with h1 | h1 | h1
  · have := Spec.faceIndex_strictMono hpos hd lower h1; omega
  · exact h1
  · have := Spec.faceIndex_strictMono hpos hd lower h1; omega

/-- Every index of the field on the face is the face index of some `k`. -/
theorem Spec.faceIndex_surjective {sizes : List Nat} (hpos : ∀ n ∈ sizes, 1 ≤ n) {d : Nat}
    (hd : d < sizes.length) (lower : Bool) {i : Nat} (hi : i < sizes.prod)
    (hc : Spec.coordinate sizes i d = Spec.faceCoordinate sizes d lower) :
    ∃ k, k < sizes.prod / sizes.getD d 0 ∧ Spec.faceIndex sizes d lower k = i := by
  rw [Spec.face_count hpos hd]
  rw [Spec.prod_split hd] at hi
  unfold Spec.faceIndex
  rw [Spec.stride_succ hd]
  exact facePos_surjective (Spec.stride_pos hpos d) (Spec.size_pos hpos hd) hi hc

theorem Spec.faceIndex_le {sizes : List Nat} (hpos : ∀ n ∈ sizes, 1 ≤ n) {d : Nat}
    (hd : d < sizes.length) (lower : Bool) {k : Nat} (hk : k ≤ sizes.prod / sizes.getD d 0) :
    Spec.faceIndex sizes d lower k ≤ 2 * sizes.prod := by
  rcases Nat.lt_or_eq_of_le hk with h | h
  · have := Spec.faceIndex_lt_prod hpos hd lower h; omega
  · have hB : 1 ≤ sizes.prod / sizes.getD d 0 := by
      rw [Spec.face_count hpos hd]
      exact Nat.mul_pos (Spec.stride_pos hpos d)
        (one_le_prod_of_pos fun n hn => hpos n (List.mem_of_mem_drop hn))
    have h1 : Spec.faceIndex sizes d lower (k - 1) < sizes.prod :=
      Spec.faceIndex_lt_prod hpos hd lower (by omega)
    have h2 := Spec.faceIndex_succ hpos hd lower (k - 1)
    have e : k - 1 + 1 = k := by omega
    rw [e] at h2
    have h3 : Spec.stride sizes (d + 1) ≤ sizes.prod := prod_take_le_prod hpos _
    rw [h2]
    split_ifs <;> omega

namespace BoundaryStepper

/-- Limits computed by `setIndexLimits` for thread `t` of `N` on the face `(d, lower)` of a
non-empty field: with `B` the number of face cells, `q = B / N`, `r = B % N`, the thread starts
at face cell `q * t + min t r` and holds `q` (+1 when `t < r`) face cells. -/
theorem setIndexLimits_eq {sizes : List Nat} {s : BoundaryStepper} {t N : Nat}
    (hpos : ∀ n ∈ sizes, 1 ≤ n) (htot : sizes.prod < 2 ^ 31)
    (htab : TablesOf sizes s.toFieldSteppingStrategy) (hd : s.boundary.dimension < sizes.length)
    (hN : 0 < N) (ht : t < N) :
    setIndexLimits t N s =
      { s with
        minIndex := Spec.faceIndex sizes s.boundary.dimension s.boundary.lower
          (sizes.prod / sizes.getD s.boundary.dimension 0 / N * t
            + min t (sizes.prod / sizes.getD s.boundary.dimension 0 % N)),
        maxIndex := Spec.faceIndex sizes s.boundary.dimension s.boundary.lower
          (sizes.prod / sizes.getD s.boundary.dimension 0 / N * t
            + min t (sizes.prod / sizes.getD s.boundary.dimension 0 % N)
            + (sizes.prod / sizes.getD s.boundary.dimension 0 / N
              + if t < sizes.prod / sizes.getD s.boundary.dimension 0 % N then 1 else 0) - 1) } := by
  obtain ⟨hsize, htotal, hlen, hstride, -, -⟩ := htab
  have hp1 : 1 ≤ sizes.prod := one_le_prod_of_pos hpos
  have hn1 := Spec.size_pos hpos hd
  have hnle : sizes.getD s.boundary.dimension 0 ≤ sizes.prod := by
    have : sizes.getD s.boundary.dimension 0 ∈ sizes := by
      rw [List.getD_eq_getElem _ _ hd]; exact List.getElem_mem _
    exact Nat.le_of_dvd (by omega) (List.dvd_prod this)
  have hB1 : 1 ≤ sizes.prod / sizes.getD s.boundary.dimension 0 := by
    rw [Spec.face_count hpos hd]
    exact Nat.mul_pos (Spec.stride_pos hpos _)
      (one_le_prod_of_pos fun n hn => hpos n (List.mem_of_mem_drop hn))
  have hBle : sizes.prod / sizes.getD s.boundary.dimension 0 ≤ sizes.prod := Nat.div_le_self _ _
  have hS := hstride s.boundary.dimension (by omega)
  have hS' := hstride (s.boundary.dimension + 1) (by omega)
  have hfi := @Spec.faceIndex_le sizes hpos s.boundary.dimension hd s.boundary.lower
  generalize hBdef : sizes.prod / sizes.getD s.boundary.dimension 0 = B at *
  have hq : B / N ≤ B := Nat.div_le_self _ _
  have hr : B % N < N := Nat.mod_lt _ hN
  have hqr : N * (B / N) + B % N = B := Nat.div_add_mod _ _
  have hqt1 : B / N * t + B / N ≤ N * (B / N) := by
    have : B / N * (t + 1) ≤ B / N * N := Nat.mul_le_mul_left _ (by omega)
    have e' : B / N * (t + 1) = B / N * t + B / N := by ring
    have e'' : B / N * N = N * (B / N) := by ring
    omega
  have hmB : (if s.boundary.isLowerSide then 0
      else (Spec.stride sizes s.boundary.dimension
        * sub32 (sizes.getD s.boundary.dimension 0) 1) % U64)
      = Spec.stride sizes s.boundary.dimension
        * Spec.faceCoordinate sizes s.boundary.dimension s.boundary.lower := by
    unfold Spec.faceCoordinate BoundaryId.isLowerSide
    by_cases hl : s.boundary.lower = true
    · simp [hl]
    · simp only [hl, if_false]
      have e : sub32 (sizes.getD s.boundary.dimension 0) 1
          = sizes.getD s.boundary.dimension 0 - 1 := sub32_of_le hn1 (by unfold U32; omega)
      rw [e]
      apply Nat.mod_eq_of_lt
      have h1 : Spec.stride sizes s.boundary.dimension * (sizes.getD s.boundary.dimension 0 - 1)
          ≤ Spec.stride sizes s.boundary.dimension * sizes.getD s.boundary.dimension 0 :=
        Nat.mul_le_mul_left _ (by omega)
      have h2 := Spec.stride_succ hd
      have h3 : Spec.stride sizes (s.boundary.dimension + 1) ≤ sizes.prod :=
        prod_take_le_prod hpos _
      unfold U64; omega
  have key : ∀ k, k ≤ B →
      (Spec.stride sizes s.boundary.dimension
          * Spec.faceCoordinate sizes s.boundary.dimension s.boundary.lower
        + k % Spec.stride sizes s.boundary.dimension
        + k / Spec.stride sizes s.boundary.dimension
          * Spec.stride sizes (s.boundary.dimension + 1)) % U64
      = Spec.faceIndex sizes s.boundary.dimension s.boundary.lower k := by
    intro k hk
    have := hfi hk
    apply Nat.mod_eq_of_lt
    unfold Spec.faceIndex at this
    unfold U64; omega
  have h0 : ¬ (0 = sizes.prod) := by omega
  have hB0 : ¬ (0 = B) := by omega
  simp only [setIndexLimits, BoundaryId.getDimension, htotal, hsize, hBdef, if_neg h0, if_neg hB0,
    hS, hS', hmB]
  generalize B / N = q at *
  generalize B % N = r at *
  by_cases htr : t < r
  · have hge : ¬ t ≥ r := by omega
    have e3 : (q + 1) * t = q * t + t := by ring
    have c1 : (q + 1) % U64 = q + 1 := Nat.mod_eq_of_lt (by unfold U64; omega)
    have c2 : ((q + 1) * t) % U64 = q * t + t := by
      rw [e3]; exact Nat.mod_eq_of_lt (by unfold U64; omega)
    have c3 : sub64 ((q * t + t + (q + 1)) % U64) 1 = q * t + t + (q + 1) - 1 := by
      simp only [sub64, U64]; omega
    simp only [if_pos htr, if_neg hge, c1, c2, c3, min_eq_left (le_of_lt htr)]
    rw [key _ (by omega), key _ (by omega)]
  · have hge : t ≥ r := by omega
    have c2 : (q * t) % U64 = q * t := Nat.mod_eq_of_lt (by unfold U64; omega)
    have c2' : (q * t + r) % U64 = q * t + r := Nat.mod_eq_of_lt (by unfold U64; omega)
    have hpos' : 1 ≤ q * t + r + q := by
      rcases Nat.eq_zero_or_pos q with h0' | h0'
      · rw [h0'] at hqr; omega
      · omega
    have c3 : sub64 ((q * t + r + q) % U64) 1 = q * t + r + (q + 0) - 1 := by
      simp only [sub64, U64]; omega
    simp only [if_neg htr, if_pos hge, c2, c2', c3, min_eq_right hge]
    rw [key _ (by omega), key _ (by omega)]

end BoundaryStepper

namespace BoundaryStepper

/-- From the `k`-th face cell `next` moves to the `(k+1)`-th. -/
theorem next_eq {sizes : List Nat} {s : BoundaryStepper} {k : Nat}
    (hpos : ∀ n ∈ sizes, 1 ≤ n) (htot : sizes.prod < 2 ^ 31)
    (htab : TablesOf sizes s.toFieldSteppingStrategy) (hd : s.boundary.dimension < sizes.length)
    (hin : s.isInField = true)
    (hk : k < sizes.prod / sizes.getD s.boundary.dimension 0)
    (hix : s.index = Spec.faceIndex sizes s.boundary.dimension s.boundary.lower k) :
    next s = some { s with
      index := Spec.faceIndex sizes s.boundary.dimension s.boundary.lower (k + 1) } := by
  obtain ⟨hsize, htotal, hlen, hstride, -, -⟩ := htab
  have hS := hstride s.boundary.dimension (by omega)
  have hS' := hstride (s.boundary.dimension + 1) (by omega)
  have hS1 := Spec.stride_pos hpos s.boundary.dimension
  have hlt := Spec.faceIndex_lt_prod hpos hd s.boundary.lower hk
  have hsucc := Spec.faceIndex_succ hpos hd s.boundary.lower k
  have hSS : Spec.stride sizes s.boundary.dimension ≤ Spec.stride sizes (s.boundary.dimension + 1) := by
    rw [Spec.stride_succ hd]
    exact Nat.le_mul_of_pos_right _ (Spec.size_pos hpos hd)
  have hS'le : Spec.stride sizes (s.boundary.dimension + 1) ≤ sizes.prod :=
    prod_take_le_prod hpos _
  have hmod : s.index % Spec.stride sizes s.boundary.dimension
      = k % Spec.stride sizes s.boundary.dimension := by
    rw [hix]; unfold Spec.faceIndex; rw [Spec.stride_succ hd]; exact facePos_mod _ _ _ _
  have e1 : (s.index + 1) % U64 = s.index + 1 := Nat.mod_eq_of_lt (by unfold U64; omega)
  have hkm := Nat.mod_lt k hS1
  have hcond : ((s.index + 1) % U64 % s.stride.getD s.boundary.getDimension 0 ≠ 0)
      ↔ k % Spec.stride sizes s.boundary.dimension + 1 < Spec.stride sizes s.boundary.dimension := by
    rw [e1, BoundaryId.getDimension, hS, Nat.add_mod, hmod]
    constructor
    · intro h
      by_contra hc
      have : k % Spec.stride sizes s.boundary.dimension + 1
          = Spec.stride sizes s.boundary.dimension := by omega
      apply h
      rcases Nat.lt_or_ge 1 (Spec.stride sizes s.boundary.dimension) with h1 | h1
      · rw [Nat.mod_eq_of_lt h1, this, Nat.mod_self]
      · have : Spec.stride sizes s.boundary.dimension = 1 := by omega
        rw [this]; simp [Nat.mod_one]
    · intro h
      rcases Nat.lt_or_ge 1 (Spec.stride sizes s.boundary.dimension) with h1 | h1
      · rw [Nat.mod_eq_of_lt h1, Nat.mod_eq_of_lt h]; omega
      · omega
  unfold next
  rw [if_pos hin]
  simp only [hcond]
  by_cases hc : k % Spec.stride sizes s.boundary.dimension + 1
      < Spec.stride sizes s.boundary.dimension
  · rw [if_pos hc] at hsucc ⊢
    rw [e1, hsucc, hix]
  · rw [if_neg hc] at hsucc ⊢
    have hdl : s.boundary.getDimension < s.size.length := by
      rw [hsize]; exact hd
    rw [if_pos hdl]
    simp only [BoundaryId.getDimension, hS, hS']
    have e2 : sub64 (Spec.stride sizes s.boundary.dimension) 1
        = Spec.stride sizes s.boundary.dimension - 1 := by
      simp only [sub64, U64]; omega
    have e3 : sub64 (Spec.stride sizes (s.boundary.dimension + 1))
        (Spec.stride sizes s.boundary.dimension - 1)
        = Spec.stride sizes (s.boundary.dimension + 1)
          - (Spec.stride sizes s.boundary.dimension - 1) := by
      simp only [sub64, U64]; omega
    have hval : (s.index + (Spec.stride sizes (s.boundary.dimension + 1)
          - (Spec.stride sizes s.boundary.dimension - 1))) % U64
        = Spec.faceIndex sizes s.boundary.dimension s.boundary.lower (k + 1) := by
      rw [hsucc, ← hix]
      apply Nat.mod_eq_of_lt
      unfold U64; omega
    rw [e2, e3, hval]

/-- The traversal of a boundary stepper that stands at face cell `k` and has `c` face cells
left visits exactly these, in face order, and then leaves the field. -/
theorem visit_face {sizes : List Nat} (hpos : ∀ n ∈ sizes, 1 ≤ n) (htot : sizes.prod < 2 ^ 31) :
    ∀ (c fuel k : Nat) (s : BoundaryStepper), c ≤ fuel →
    TablesOf sizes s.toFieldSteppingStrategy → s.boundary.dimension < sizes.length →
    s.index = Spec.faceIndex sizes s.boundary.dimension s.boundary.lower k →
    s.minIndex ≤ s.index →
    s.maxIndex = Spec.faceIndex sizes s.boundary.dimension s.boundary.lower (k + c - 1) →
    1 ≤ k + c → k + c ≤ sizes.prod / sizes.getD s.boundary.dimension 0 →
    visit fuel s = some ((List.range' k c).map fun j =>
      { s with index := Spec.faceIndex sizes s.boundary.dimension s.boundary.lower j }) := by
  intro c
  induction c with
  | zero =>
    intro fuel k s _ _ hd hix _ hmax h1 _
    have hlt := Spec.faceIndex_lt_succ hpos hd s.boundary.lower (k - 1)
    have e : k - 1 + 1 = k := by omega
    rw [e] at hlt
    have hout : s.isInField = false := by
      rw [← Bool.not_eq_true, FieldSteppingStrategy.isInField_iff]
      simp only [Nat.add_zero] at hmax
      omega
    cases fuel <;> simp [visit, hout]
  | succ c ih =>
    intro fuel k s hf htab hd hix hmin hmax h1 hB
    have hmono := Spec.faceIndex_mono hpos hd s.boundary.lower (by omega : k ≤ k + (c + 1) - 1)
    have hin : s.isInField = true := by
      rw [FieldSteppingStrategy.isInField_iff]; omega
    cases fuel with
    | zero => omega
    | succ fuel =>
      have hnext := next_eq hpos htot htab hd hin (by omega) hix
      have hlt := Spec.faceIndex_lt_succ hpos hd s.boundary.lower k
      have hrec := ih fuel (k + 1)
        { s with index := Spec.faceIndex sizes s.boundary.dimension s.boundary.lower (k + 1) }
        (by omega) (htab.of_eq rfl rfl rfl rfl rfl) hd rfl (by simp only; omega)
        (by simp only; rw [hmax]; congr 1; omega) (by omega) (by simp only; omega)
      have hhead : { s with
          index := Spec.faceIndex sizes s.boundary.dimension s.boundary.lower k } = s := by
        rw [← hix]
      simp only [visit, hin, if_true, hnext, hrec, Option.map_some', List.range'_succ,
        List.map_cons, hhead]

end BoundaryStepper

theorem Spec.chunkStart_zero (B N : Nat) : Spec.chunkStart B N 0 = 0 := by
  simp [Spec.chunkStart]

theorem Spec.chunkStart_succ (B N t : Nat) :
    Spec.chunkStart B N (t + 1) = Spec.chunkStart B N t + Spec.chunkSize B N t := by
  unfold Spec.chunkStart Spec.chunkSize
  have e : B / N * (t + 1) = B / N * t + B / N := by ring
  rw [e]
  split_ifs with h
  · rw [min_eq_left (by omega), min_eq_left (by omega)]; omega
  · rw [min_eq_right (by omega), min_eq_right (by omega)]; omega

theorem Spec.chunkStart_last {B N : Nat} (hN : 0 < N) : Spec.chunkStart B N N = B := by
  unfold Spec.chunkStart
  have hr : B % N < N := Nat.mod_lt _ hN
  rw [min_eq_right (by omega)]
  have := Nat.div_add_mod B N
  have e : B / N * N = N * (B / N) := by ring
  omega

theorem Spec.chunkStart_mono (B N : Nat) {t u : Nat} (h : t ≤ u) :
    Spec.chunkStart B N t ≤ Spec.chunkStart B N u := by
  induction h with
  | refl => exact le_refl _
  | step _ ih => rw [Spec.chunkStart_succ]; omega

/-- Each of the `B` cells lies in the chunk of exactly one of the `N` threads. -/
theorem Spec.chunk_unique {B N : Nat} (hN : 0 < N) {k : Nat} (hk : k < B) :
    ∃! t, t < N ∧ Spec.chunkStart B N t ≤ k ∧ k < Spec.chunkStart B N (t + 1) :=
  chunk_partition (Spec.chunkStart B N) (Spec.chunkStart_zero B N)
    (fun t => Spec.chunkStart_mono B N (Nat.le_succ t)) N
    (by rw [Spec.chunkStart_last hN]; exact hk)

namespace BoundaryStepper

theorem new_tablesOf {sizes : List Nat} {mn mx ix : Nat} {s0 : BoundaryStepper}
    (hpos : ∀ n ∈ sizes, 1 ≤ n) (htot : sizes.prod < 2 ^ 31)
    (hs0 : BoundaryStepper.new mn mx ix sizes = some s0) :
    TablesOf sizes s0.toFieldSteppingStrategy := by
  unfold BoundaryStepper.new at hs0
  obtain ⟨s, hs⟩ := FieldSteppingStrategy.new_isSome mn mx ix hpos htot
  rw [hs] at hs0
  simp only [Option.some.injEq] at hs0
  subst hs0
  exact (FieldSteppingStrategy.new_tables hpos htot hs).2.2.2

/-- The stepper of thread `t` of `N` after `setBoundaryToIterate`: it stands at the first cell
of its chunk of the face and its traversal visits exactly the cells of the chunk, in face
order. -/
theorem setBoundaryToIterate_spec {sizes : List Nat} {s0 : BoundaryStepper} {b : BoundaryId}
    {t N : Nat} (hpos : ∀ n ∈ sizes, 1 ≤ n) (htot : sizes.prod < 2 ^ 31)
    (htab : TablesOf sizes s0.toFieldSteppingStrategy) (hb : b.dimension < sizes.length)
    (hN : 0 < N) (ht : t < N) :
    ∃ st, s0.setBoundaryToIterate t N b = some st ∧ st.boundary = b ∧
      TablesOf sizes st.toFieldSteppingStrategy ∧
      st.index = Spec.faceIndex sizes b.dimension b.lower
        (Spec.chunkStart (Spec.faceSize sizes b.dimension) N t) ∧
      st.minIndex = st.index ∧
      st.maxIndex = Spec.faceIndex sizes b.dimension b.lower
        (Spec.chunkStart (Spec.faceSize sizes b.dimension) N t
          + Spec.chunkSize (Spec.faceSize sizes b.dimension) N t - 1) ∧
      visit (Spec.faceSize sizes b.dimension) st
        = some ((List.range' (Spec.chunkStart (Spec.faceSize sizes b.dimension) N t)
            (Spec.chunkSize (Spec.faceSize sizes b.dimension) N t)).map fun j =>
          { st with index := Spec.faceIndex sizes b.dimension b.lower j }) := by
  have hlen : s0.size.length > b.getDimension := by
    rw [htab.size_eq]; exact hb
  have htab1 : TablesOf sizes ({ s0 with boundary := b } : BoundaryStepper).toFieldSteppingStrategy :=
    htab
  have heq := setIndexLimits_eq (s := { s0 with boundary := b }) (t := t) (N := N) hpos htot htab1
    hb hN ht
  have hB1 : 1 ≤ Spec.faceSize sizes b.dimension := by
    unfold Spec.faceSize
    rw [Spec.face_count hpos hb]
    exact Nat.mul_pos (Spec.stride_pos hpos _)
      (one_le_prod_of_pos fun n hn => hpos n (List.mem_of_mem_drop hn))
  have hnext : Spec.chunkStart (Spec.faceSize sizes b.dimension) N t
      + Spec.chunkSize (Spec.faceSize sizes b.dimension) N t
      ≤ Spec.faceSize sizes b.dimension := by
    rw [← Spec.chunkStart_succ, ← Spec.chunkStart_last (B := Spec.faceSize sizes b.dimension) hN]
    conv_rhs => rw [Spec.chunkStart_last hN]
    have := Spec.chunkStart_mono (Spec.faceSize sizes b.dimension) N (by omega : t + 1 ≤ N)
    rw [Spec.chunkStart_last hN] at this ⊢
    exact this
  have hpos1 : 1 ≤ Spec.chunkStart (Spec.faceSize sizes b.dimension) N t
      + Spec.chunkSize (Spec.faceSize sizes b.dimension) N t := by
    unfold Spec.chunkStart Spec.chunkSize
    have hqr := Nat.div_add_mod (Spec.faceSize sizes b.dimension) N
    rcases Nat.eq_zero_or_pos (Spec.faceSize sizes b.dimension / N) with h0 | h0
    · rw [h0] at hqr ⊢
      split_ifs with h
      · omega
      · rw [min_eq_right (by omega)]; omega
    · omega
  have heq' : setIndexLimits t N { s0 with boundary := b }
      = { s0 with
          boundary := b,
          minIndex := Spec.faceIndex sizes b.dimension b.lower
            (Spec.chunkStart (Spec.faceSize sizes b.dimension) N t),
          maxIndex := Spec.faceIndex sizes b.dimension b.lower
            (Spec.chunkStart (Spec.faceSize sizes b.dimension) N t
              + Spec.chunkSize (Spec.faceSize sizes b.dimension) N t - 1) } := by
    rw [heq]; rfl
  refine ⟨{ s0 with
      boundary := b,
      minIndex := Spec.faceIndex sizes b.dimension b.lower
        (Spec.chunkStart (Spec.faceSize sizes b.dimension) N t),
      maxIndex := Spec.faceIndex sizes b.dimension b.lower
        (Spec.chunkStart (Spec.faceSize sizes b.dimension) N t
          + Spec.chunkSize (Spec.faceSize sizes b.dimension) N t - 1),
      index := Spec.faceIndex sizes b.dimension b.lower
        (Spec.chunkStart (Spec.faceSize sizes b.dimension) N t) }, ?_, rfl, ?_, rfl, rfl, rfl, ?_⟩
  · unfold setBoundaryToIterate
    rw [if_pos hlen]
    simp only [heq', FieldSteppingStrategy.first]
  · exact htab.of_eq rfl rfl rfl rfl rfl
  · exact visit_face hpos htot _ _ _ _ (by omega) (htab.of_eq rfl rfl rfl rfl rfl) hb rfl
      (le_refl _) rfl hpos1 hnext

end BoundaryStepper

/-- One thread owns the whole face: its chunk starts at cell 0 and has all the cells. -/
theorem Spec.chunk_single (B : Nat) : Spec.chunkStart B 1 0 = 0 ∧ Spec.chunkSize B 1 0 = B := by
  unfold Spec.chunkStart Spec.chunkSize
  simp [Nat.mod_one]

/-- C8: for a size array with all extents at least 1 (total size below `2^31`) and a face
`(d, side)`, the single-thread boundary stepper visits, from `setBoundaryToIterate` until
`isInField()` becomes false, exactly `totalSize / size[d]` distinct indices; at each of them
`currentIndex(d)` is 0 (lower side) or `size[d] - 1` (upper side), the visited indices are
exactly the indices of the field with that coordinate, and every combination of coordinates
with that value along `d` is the coordinate tuple of exactly one visited index. -/
theorem C8_boundary_traversal (sizes : List Nat) (minIndex maxIndex index : Nat)
    (s0 : BoundaryStepper) (b : BoundaryId)
    (hpos : ∀ n ∈ sizes, 1 ≤ n) (htot : sizes.prod < 2 ^ 31)
    (hs0 : BoundaryStepper.new minIndex maxIndex index sizes = some s0)
    (hb : b.dimension < sizes.length) :
    ∃ st l, s0.setBoundaryToIterate 0 1 b = some st ∧
      BoundaryStepper.visit (sizes.prod / sizes.getD b.dimension 0) st = some l ∧
      l.length = sizes.prod / sizes.getD b.dimension 0 ∧
      (l.map fun s => s.index).Nodup ∧
      (∀ s ∈ l, s.currentIndex b.dimension
        = some (if b.lower then 0 else sizes.getD b.dimension 0 - 1)) ∧
      (∀ i, i ∈ (l.map fun s => s.index) ↔
        (i < sizes.prod ∧ Spec.coordinate sizes i b.dimension
          = if b.lower then 0 else sizes.getD b.dimension 0 - 1)) ∧
      (∀ c : List Nat, c.length = sizes.length →
        (∀ e, e < sizes.length → c.getD e 0 < sizes.getD e 0) →
        c.getD b.dimension 0 = (if b.lower then 0 else sizes.getD b.dimension 0 - 1) →
        ∃! i, i ∈ (l.map fun s => s.index) ∧
          ∀ e, e < sizes.length → ({ st with index := i }).currentIndex e = some (c.getD e 0)) := by
  have htab := BoundaryStepper.new_tablesOf hpos htot hs0
  obtain ⟨st, hst, hbd, htab', hix, hmin, hmax, hvisit⟩ :=
    BoundaryStepper.setBoundaryToIterate_spec (t := 0) (N := 1) hpos htot htab hb (by omega)
      (by omega)
  obtain ⟨hc0, hc1⟩ := Spec.chunk_single (Spec.faceSize sizes b.dimension)
  rw [hc0, hc1] at hvisit hmax
  rw [hc0] at hix
  have hB : Spec.faceSize sizes b.dimension = sizes.prod / sizes.getD b.dimension 0 := rfl
  have hfc : Spec.faceCoordinate sizes b.dimension b.lower
      = if b.lower then 0 else sizes.getD b.dimension 0 - 1 := rfl
  rw [hB] at hvisit hmax
  rw [← hfc]
  have hB1 : 1 ≤ sizes.prod / sizes.getD b.dimension 0 := by
    rw [Spec.face_count hpos hb]
    exact Nat.mul_pos (Spec.stride_pos hpos _)
      (one_le_prod_of_pos fun n hn => hpos n (List.mem_of_mem_drop hn))
  -- the visited indices
  have hidx : ((List.range' 0 (sizes.prod / sizes.getD b.dimension 0)).map fun j =>
        ({ st with index := Spec.faceIndex sizes b.dimension b.lower j } : BoundaryStepper)).map
        (fun s => s.index)
      = (List.range' 0 (sizes.prod / sizes.getD b.dimension 0)).map
        (Spec.faceIndex sizes b.dimension b.lower) := by
    rw [List.map_map]; rfl
  have hmem : ∀ i, i ∈ (List.range' 0 (sizes.prod / sizes.getD b.dimension 0)).map
        (Spec.faceIndex sizes b.dimension b.lower) ↔
      (i < sizes.prod ∧ Spec.coordinate sizes i b.dimension
        = Spec.faceCoordinate sizes b.dimension b.lower) := by
    intro i
    rw [List.mem_map]
    constructor
    · rintro ⟨k, hk, rfl⟩
      rw [List.mem_range'_1] at hk
      exact ⟨Spec.faceIndex_lt_prod hpos hb b.lower (by omega),
        Spec.coordinate_faceIndex hpos hb b.lower k⟩
    · rintro ⟨hi, hc⟩
      obtain ⟨k, hk, rfl⟩ := Spec.faceIndex_surjective hpos hb b.lower hi hc
      exact ⟨k, by rw [List.mem_range'_1]; omega, rfl⟩
  -- states on the face are in field
  have hinfield : ∀ k, k < sizes.prod / sizes.getD b.dimension 0 →
      ({ st with index := Spec.faceIndex sizes b.dimension b.lower k }
        : BoundaryStepper).isInField = true := by
    intro k hk
    rw [FieldSteppingStrategy.isInField_iff]
    have h1 := Spec.faceIndex_mono hpos hb b.lower (Nat.zero_le k)
    have h2 := Spec.faceIndex_mono hpos hb b.lower
      (by omega : k ≤ 0 + sizes.prod / sizes.getD b.dimension 0 - 1)
    simp only
    rw [hmin, hix, hmax]
    exact ⟨h1, h2⟩
  have hcur : ∀ k, k < sizes.prod / sizes.getD b.dimension 0 → ∀ e, e < sizes.length →
      ({ st with index := Spec.faceIndex sizes b.dimension b.lower k }
        : BoundaryStepper).currentIndex e
      = some (Spec.coordinate sizes (Spec.faceIndex sizes b.dimension b.lower k) e) := by
    intro k hk e he
    have htk : TablesOf sizes ({ st with index := Spec.faceIndex sizes b.dimension b.lower k }
        : BoundaryStepper).toFieldSteppingStrategy := htab'.of_eq rfl rfl rfl rfl rfl
    exact FieldSteppingStrategy.currentIndex_of_tables hpos htot htk (hinfield k hk)
      (by simp only; rw [htab'.total_eq]; exact Spec.faceIndex_lt_prod hpos hb b.lower hk) he
  refine ⟨st, _, hst, hvisit, ?_, ?_, ?_, ?_, ?_⟩
  · simp
  · rw [hidx]
    apply List.Nodup.map_on
    · intro j _ k _ h
      exact Spec.faceIndex_injective hpos hb b.lower h
    · exact List.nodup_range' _ _
  · intro s hs
    rw [List.mem_map] at hs
    obtain ⟨k, hk, rfl⟩ := hs
    rw [List.mem_range'_1] at hk
    rw [hcur k (by omega) _ hb, Spec.coordinate_faceIndex hpos hb]
  · intro i
    rw [hidx]
    exact hmem i
  · intro c hlen hc hcd
    rw [hidx]
    obtain ⟨h1, h2⟩ := Spec.coordinate_surjective sizes c hlen hc
    have hon : Spec.coordinate sizes
        (∑ e in Finset.range sizes.length, c.getD e 0 * Spec.stride sizes e) b.dimension
        = Spec.faceCoordinate sizes b.dimension b.lower := by
      rw [h2 _ hb, hcd]
    obtain ⟨k, hk, hki⟩ := Spec.faceIndex_surjective hpos hb b.lower h1 hon
    refine ⟨_, ⟨(hmem _).mpr ⟨h1, hon⟩, ?_⟩, ?_⟩
    · intro e he
      rw [← hki, hcur k hk e he, hki, h2 e he]
    · rintro i ⟨hi, hie⟩
      obtain ⟨hi1, hi2⟩ := (hmem i).mp hi
      obtain ⟨j, hj, hji⟩ := Spec.faceIndex_surjective hpos hb b.lower hi1 hi2
      apply Spec.coordinate_injective hi1 h1
      intro e he
      have := hie e he
      rw [← hji, hcur j hj e he, hji] at this
      rw [h2 e he]
      exact Option.some.inj this


/-- C8 on the upper face of dimension 1 of the 3 x 4 x 5 field of the unit tests. -/
theorem C8_boundary_traversal_witness :
    ((∀ n ∈ [3, 4, 5], 1 ≤ n) ∧ [3, 4, 5].prod < 2 ^ 31 ∧ 1 < [3, 4, 5].length) ∧
    ∃ st l,
      BoundaryStepper.setBoundaryToIterate 0 1
        { toFieldSteppingStrategy := FieldSteppingStrategy.fill 5 6 7 1 1 [3, 4, 5],
          boundary := BoundaryId.new } { dimension := 1, lower := false } = some st ∧
      BoundaryStepper.visit ([3, 4, 5].prod / [3, 4, 5].getD 1 0) st = some l ∧
      l.length = [3, 4, 5].prod / [3, 4, 5].getD 1 0 ∧
      (l.map fun s => s.index).Nodup :=
  ⟨by decide, (C8_boundary_traversal [3, 4, 5] 5 6 7
    { toFieldSteppingStrategy := FieldSteppingStrategy.fill 5 6 7 1 1 [3, 4, 5],
      boundary := BoundaryId.new } { dimension := 1, lower := false }
    (by decide) (by decide) rfl (by decide)).imp fun _ h =>
      h.imp fun _ h1 => ⟨h1.1, h1.2.1, h1.2.2.1, h1.2.2.2.1⟩⟩

/-- Within the size bounds of the hypotheses, where no index computation wraps around:
for a non-empty field, a face `(d, side)` with `B = totalSize / size[d]` cells and
`N ≥ 1` threads, the stepper configured by `setBoundaryToIterate` for thread `t` visits exactly
the face cells number `start t, …, start t + count t - 1` in face order, where
`count t = B / N` plus one iff `t < B mod N` and `start 0 = 0`, `start (t+1) = start t + count t`,
`start N = B`; the face cells are pairwise different indices of the field whose coordinate
along `d` is the face value, every index of the field with that coordinate is a face cell, and
every face cell belongs to the chunk of exactly one thread. -/
theorem boundary_thread_partition_bounded (sizes : List Nat) (minIndex maxIndex index : Nat)
    (s0 : BoundaryStepper) (b : BoundaryId) (N : Nat)
    (h1 : 1 ≤ sizes.prod) (htot : sizes.prod < 2 ^ 31)
    (hs0 : BoundaryStepper.new minIndex maxIndex index sizes = some s0)
    (hb : b.dimension < sizes.length) (hN : 1 ≤ N) :
    (∀ t, t < N → ∃ st l, s0.setBoundaryToIterate t N b = some st ∧
      BoundaryStepper.visit (Spec.faceSize sizes b.dimension) st = some l ∧
      (l.map fun s => s.index)
        = (List.range' (Spec.chunkStart (Spec.faceSize sizes b.dimension) N t)
            (Spec.faceSize sizes b.dimension / N
              + if t < Spec.faceSize sizes b.dimension % N then 1 else 0)).map
          (Spec.faceIndex sizes b.dimension b.lower)) ∧
    Spec.chunkStart (Spec.faceSize sizes b.dimension) N 0 = 0 ∧
    (∀ t, Spec.chunkStart (Spec.faceSize sizes b.dimension) N (t + 1)
      = Spec.chunkStart (Spec.faceSize sizes b.dimension) N t
        + (Spec.faceSize sizes b.dimension / N
          + if t < Spec.faceSize sizes b.dimension % N then 1 else 0)) ∧
    Spec.chunkStart (Spec.faceSize sizes b.dimension) N N = Spec.faceSize sizes b.dimension ∧
    (∀ k, k < Spec.faceSize sizes b.dimension →
      Spec.faceIndex sizes b.dimension b.lower k < sizes.prod ∧
      Spec.coordinate sizes (Spec.faceIndex sizes b.dimension b.lower k) b.dimension
        = (if b.lower then 0 else sizes.getD b.dimension 0 - 1)) ∧
    (∀ j k, Spec.faceIndex sizes b.dimension b.lower j
      = Spec.faceIndex sizes b.dimension b.lower k → j = k) ∧
    (∀ i, i < sizes.prod →
      Spec.coordinate sizes i b.dimension = (if b.lower then 0 else sizes.getD b.dimension 0 - 1) →
      ∃ k, k < Spec.faceSize sizes b.dimension ∧
        Spec.faceIndex sizes b.dimension b.lower k = i) ∧
    (∀ k, k < Spec.faceSize sizes b.dimension →
      ∃! t, t < N ∧ Spec.chunkStart (Spec.faceSize sizes b.dimension) N t ≤ k ∧
        k < Spec.chunkStart (Spec.faceSize sizes b.dimension) N (t + 1)) := by
  have hpos : ∀ n ∈ sizes, 1 ≤ n := by
    intro n hn
    rcases Nat.eq_zero_or_pos n with h | h
    · subst h
      have := List.prod_eq_zero hn
      omega
    · exact h
  have htab := BoundaryStepper.new_tablesOf hpos htot hs0
  refine ⟨?_, Spec.chunkStart_zero _ _, fun t => Spec.chunkStart_succ _ _ t,
    Spec.chunkStart_last (by omega), ?_, ?_, ?_, ?_⟩
  · intro t ht
    obtain ⟨st, hst, -, -, -, -, -, hvisit⟩ :=
      BoundaryStepper.setBoundaryToIterate_spec hpos htot htab hb (by omega : 0 < N) ht
    refine ⟨st, _, hst, hvisit, ?_⟩
    rw [List.map_map]
    rfl
  · intro k hk
    exact ⟨Spec.faceIndex_lt_prod hpos hb b.lower hk, Spec.coordinate_faceIndex hpos hb b.lower k⟩
  · intro j k h
    exact Spec.faceIndex_injective hpos hb b.lower h
  · intro i hi hc
    exact Spec.faceIndex_surjective hpos hb b.lower hi hc
  · intro k hk
    exact Spec.chunk_unique (by omega) hk

/-- The bounded statement on the lower face of dimension 1 of the 3 x 4 x 5 field of the unit
tests, with four threads. -/
theorem boundary_thread_partition_bounded_witness :
    (1 ≤ [3, 4, 5].prod ∧ [3, 4, 5].prod < 2 ^ 31 ∧ 1 < [3, 4, 5].length ∧ 1 ≤ 4) ∧
    ∀ t, t < 4 → ∃ st l,
      BoundaryStepper.setBoundaryToIterate t 4
        { toFieldSteppingStrategy := FieldSteppingStrategy.fill 5 6 7 1 1 [3, 4, 5],
          boundary := BoundaryId.new } { dimension := 1, lower := true } = some st ∧
      BoundaryStepper.visit (Spec.faceSize [3, 4, 5] 1) st = some l ∧
      (l.map fun s => s.index)
        = (List.range' (Spec.chunkStart (Spec.faceSize [3, 4, 5] 1) 4 t)
            (Spec.faceSize [3, 4, 5] 1 / 4
              + if t < Spec.faceSize [3, 4, 5] 1 % 4 then 1 else 0)).map
          (Spec.faceIndex [3, 4, 5] 1 true) :=
  ⟨by decide, (boundary_thread_partition_bounded [3, 4, 5] 5 6 7
    { toFieldSteppingStrategy := FieldSteppingStrategy.fill 5 6 7 1 1 [3, 4, 5],
      boundary := BoundaryId.new } { dimension := 1, lower := true } 4
    (by decide) (by decide) rfl (by decide) (by decide)).1⟩

theorem toInt64_toU64_add {off : Int} {c : Nat}
    (h1 : -9223372036854775808 ≤ off + c) (h2 : off + c < 9223372036854775808) :
    toInt64 ((toU64 off + c) % U64) = off + c := by
  unfold toInt64 toU64 U64
  split_ifs <;> omega

theorem toInt64_of_lt {x : Nat} (h : x < 9223372036854775808) : toInt64 x = (x : Int) := by
  unfold toInt64 U64
  split_ifs <;> omega

theorem toInt32_toU64 {z : Int} (h1 : -2147483648 ≤ z) (h2 : z < 2147483648) :
    toInt32 (toU64 z) = z := by
  unfold toInt32 toU64 U64 U32
  split_ifs <;> omega

theorem toInt32_sub64 {x y : Nat} (hy : y ≤ x) (hx : x < 2147483648 + y) :
    toInt32 (sub64 x y) = (x : Int) - y := by
  unfold toInt32 sub64 U64 U32
  split_ifs <;> omega

theorem toU64_of_nonneg {z : Int} (h1 : 0 ≤ z) (h2 : z < 18446744073709551616) :
    toU64 z = z.toNat := by
  unfold toU64 U64
  omega

/-- Replacing the coordinate along `d` of an index by `c1` (inside the extent) gives an index of
the field with that coordinate along `d` and unchanged coordinates elsewhere. -/
theorem Spec.coordinate_move : ∀ (sizes : List Nat) (i j d c1 : Nat),
    d < sizes.length → i < sizes.prod →
    j + Spec.coordinate sizes i d * Spec.stride sizes d = i + c1 * Spec.stride sizes d →
    c1 < sizes.getD d 0 →
    j < sizes.prod ∧ Spec.coordinate sizes j d = c1 ∧
      ∀ e, e ≠ d → Spec.coordinate sizes j e = Spec.coordinate sizes i e := by
  intro sizes
  induction sizes with
  | nil => intro i j d c1 hd; simp at hd
  | cons n ns ih =>
    intro i j d c1 hd hi hj h1
    rw [List.prod_cons] at hi ⊢
    have hn : 0 < n := by
      rcases Nat.eq_zero_or_pos n with h | h
      · rw [h] at hi; simp at hi
      · exact h
    have hdiv : i / n < ns.prod := by
      rw [Nat.div_lt_iff_lt_mul hn, Nat.mul_comm]; exact hi
    have hi1 := Nat.div_add_mod i n
    have hi2 := Nat.mod_lt i hn
    have hj1 := Nat.div_add_mod j n
    have hj2 := Nat.mod_lt j hn
    have hbound : ∀ q, q < ns.prod → j / n = q → j < n * ns.prod := by
      intro q hq hjq
      have : n * (q + 1) ≤ n * ns.prod := Nat.mul_le_mul_left _ hq
      have e : n * (q + 1) = n * q + n := by ring
      rw [hjq] at hj1
      omega
    cases d with
    | zero =>
      rw [Spec.coordinate_cons_zero] at hj ⊢
      rw [Spec.stride_zero] at hj
      simp only [List.getD_cons_zero] at h1
      have hq : j / n = i / n ∧ j % n = c1 := by
        rw [Nat.div_mod_unique hn]
        exact ⟨by omega, h1⟩
      refine ⟨hbound _ hdiv hq.1, hq.2, ?_⟩
      intro e he
      cases e with
      | zero => exact absurd rfl he
      | succ e => rw [Spec.coordinate_cons_succ, Spec.coordinate_cons_succ, hq.1]
    | succ d =>
      rw [Spec.coordinate_cons_succ] at hj ⊢
      rw [Spec.stride_cons_succ] at hj
      simp only [List.getD_cons_succ] at h1
      have hd' : d < ns.length := by simpa using hd
      have e1 : j + Spec.coordinate ns (i / n) d * (n * Spec.stride ns d)
          = j + n * (Spec.coordinate ns (i / n) d * Spec.stride ns d) := by ring
      have e2 : i + c1 * (n * Spec.stride ns d) = i + n * (c1 * Spec.stride ns d) := by ring
      rw [e1, e2] at hj
      have hmod : j % n = i % n := by
        have := congrArg (fun x => x % n) hj
        simpa [Nat.add_mul_mod_self_left] using this
      have hdv : j / n + Spec.coordinate ns (i / n) d * Spec.stride ns d
          = i / n + c1 * Spec.stride ns d := by
        have := congrArg (fun x => x / n) hj
        simpa [Nat.add_mul_div_left _ _ hn] using this
      obtain ⟨ih1, ih2, ih3⟩ := ih (i / n) (j / n) d c1 hd' hdiv hdv h1
      refine ⟨hbound _ ih1 rfl, ih2, ?_⟩
      intro e he
      cases e with
      | zero => rw [Spec.coordinate_cons_zero, Spec.coordinate_cons_zero, hmod]
      | succ e =>
        rw [Spec.coordinate_cons_succ, Spec.coordinate_cons_succ]
        exact ih3 e (by intro h; exact he (by rw [h]))

theorem Spec.coordinate_mul_stride_le (sizes : List Nat) (i d : Nat) :
    Spec.coordinate sizes i d * Spec.stride sizes d ≤ i := by
  unfold Spec.coordinate
  have h1 : i / Spec.stride sizes d % sizes.getD d 0 ≤ i / Spec.stride sizes d := Nat.mod_le _ _
  have h2 : i / Spec.stride sizes d * Spec.stride sizes d ≤ i := Nat.div_mul_le_self _ _
  exact le_trans (Nat.mul_le_mul_right _ h1) h2

namespace FieldSteppingStrategy

/-- A neighbour inside the extent: `neighborInField` holds, and `linearNeighborIndex` returns
an index of the field whose coordinate along `d` is the target and whose other coordinates are
those of the current index. -/
theorem neighbor_of_tables {sizes : List Nat} {s : FieldSteppingStrategy}
    (hpos : ∀ n ∈ sizes, 1 ≤ n) (htot : sizes.prod < 2 ^ 31) (htab : TablesOf sizes s)
    (hin : s.isInField = true) (hlt : s.index < s.totalSize) {d : Nat} (hd : d < sizes.length)
    {off : Int} {c1 : Nat} (hc : (c1 : Int) = Spec.coordinate sizes s.index d + off)
    (h1 : c1 < sizes.getD d 0) :
    s.neighborInField d off = some true ∧
    ∃ j, s.linearNeighborIndex d off = some j ∧ j < sizes.prod ∧
      (j : Int) = s.index + off * Spec.stride sizes d ∧
      Spec.coordinate sizes j d = c1 ∧
      ∀ e, e ≠ d → Spec.coordinate sizes j e = Spec.coordinate sizes s.index e := by
  have hcur := currentIndex_of_tables hpos htot htab hin hlt hd
  have hc_lt := Spec.coordinate_lt hpos s.index hd
  have hn_le : sizes.getD d 0 ≤ sizes.prod := by
    have : sizes.getD d 0 ∈ sizes := by
      rw [List.getD_eq_getElem _ _ hd]; exact List.getElem_mem _
    exact Nat.le_of_dvd (one_le_prod_of_pos hpos) (List.dvd_prod this)
  have hsz : s.size.getD d 0 = sizes.getD d 0 := by rw [htab.size_eq]
  have hS := htab.stride_eq d (by omega)
  have hS1 := Spec.stride_pos hpos d
  have hSle : Spec.stride sizes d ≤ sizes.prod := prod_take_le_prod hpos d
  have hix : s.index < sizes.prod := by rw [← htab.total_eq]; exact hlt
  have hnif : s.neighborInField d off = some true := by
    unfold neighborInField
    rw [hcur]
    simp only [hsz]
    rw [toInt64_toU64_add (by omega) (by omega), toInt64_of_lt (by omega)]
    simp only [Option.some.injEq, Bool.and_eq_true, decide_eq_true_eq]
    omega
  have hle := Spec.coordinate_mul_stride_le sizes s.index d
  -- the target index
  have hnonneg : 0 ≤ (s.index : Int) + off * Spec.stride sizes d := by
    have e : (s.index : Int) + off * Spec.stride sizes d
        = (s.index - Spec.coordinate sizes s.index d * Spec.stride sizes d : Nat)
          + (c1 : Int) * Spec.stride sizes d := by
      rw [hc]; push_cast [hle]; ring
    rw [e]; positivity
  obtain ⟨j, hj⟩ : ∃ j : Nat, (j : Int) = s.index + off * Spec.stride sizes d :=
    ⟨_, Int.toNat_of_nonneg hnonneg⟩
  have hjeq : j + Spec.coordinate sizes s.index d * Spec.stride sizes d
      = s.index + c1 * Spec.stride sizes d := by
    zify
    rw [hj, hc]; ring
  obtain ⟨m1, m2, m3⟩ := Spec.coordinate_move sizes s.index j d c1 hd hix hjeq h1
  refine ⟨hnif, j, ?_, m1, hj, m2, m3⟩
  unfold linearNeighborIndex
  rw [hnif]
  simp only [hS]
  rw [toInt32_of_lt (by omega)]
  congr 1
  generalize off * (Spec.stride sizes d : Int) = z at *
  unfold toU64 U64
  omega

end FieldSteppingStrategy

/-! ### A side region next to a face: the size array with one extent replaced -/

theorem Spec.faceCoordinate_cons_succ (n : Nat) (ns : List Nat) (d : Nat) (l : Bool) :
    Spec.faceCoordinate (n :: ns) (d + 1) l = Spec.faceCoordinate ns d l := by
  simp [Spec.faceCoordinate]

theorem Spec.faceIndex_cons_zero (n : Nat) (ns : List Nat) (l : Bool) (k : Nat) :
    Spec.faceIndex (n :: ns) 0 l k = Spec.faceCoordinate (n :: ns) 0 l + k * n := by
  simp [Spec.faceIndex, Spec.stride, Nat.mod_one]

theorem Spec.faceIndex_cons_succ (n : Nat) (ns : List Nat) (d : Nat) (l : Bool)
    (k : Nat) :
    Spec.faceIndex (n :: ns) (d + 1) l k = k % n + n * Spec.faceIndex ns d l (k / n) := by
  unfold Spec.faceIndex
  rw [Spec.stride_cons_succ, Spec.stride_cons_succ, Spec.faceCoordinate_cons_succ,
    Nat.mod_mul, ← Nat.div_div_eq_div_mul]
  ring

theorem Spec.coordinate_set_faceIndex : ∀ (sizes : List Nat) (d E : Nat) (l l1 : Bool)
    (k e : Nat), (∀ n ∈ sizes, 1 ≤ n) → 1 ≤ E → d < sizes.length → e ≠ d →
    Spec.coordinate (sizes.set d E) (Spec.faceIndex (sizes.set d E) d l1 k) e
      = Spec.coordinate sizes (Spec.faceIndex sizes d l k) e := by
  intro sizes
  induction sizes with
  | nil => intro d E l l1 k e _ _ hd; simp at hd
  | cons n ns ih =>
    intro d E l l1 k e hpos hE hd he
    have hn : 1 ≤ n := hpos n (List.mem_cons_self _ _)
    have hpos' : ∀ m ∈ ns, 1 ≤ m := fun m hm => hpos m (List.mem_cons_of_mem _ hm)
    cases d with
    | zero =>
      cases e with
      | zero => exact absurd rfl he
      | succ e =>
        rw [List.set_cons_zero, Spec.faceIndex_cons_zero, Spec.faceIndex_cons_zero,
          Spec.coordinate_cons_succ, Spec.coordinate_cons_succ]
        have hposE : ∀ m ∈ E :: ns, 1 ≤ m := by
          intro m hm
          rcases List.mem_cons.mp hm with h | h
          · omega
          · exact hpos' m h
        have h1 : Spec.faceCoordinate (E :: ns) 0 l1 < E :=
          @Spec.faceCoordinate_lt (E :: ns) hposE 0 (by simp) l1
        have h2 : Spec.faceCoordinate (n :: ns) 0 l < n :=
          @Spec.faceCoordinate_lt (n :: ns) hpos 0 (by simp) l
        have e1 : (Spec.faceCoordinate (E :: ns) 0 l1 + k * E) / E = k := by
          rw [Nat.add_mul_div_right _ _ (by omega), Nat.div_eq_of_lt h1, Nat.zero_add]
        have e2 : (Spec.faceCoordinate (n :: ns) 0 l + k * n) / n = k := by
          rw [Nat.add_mul_div_right _ _ (by omega), Nat.div_eq_of_lt h2, Nat.zero_add]
        rw [e1, e2]
    | succ d =>
      have hd' : d < ns.length := by simpa using hd
      rw [List.set_cons_succ, Spec.faceIndex_cons_succ, Spec.faceIndex_cons_succ]
      have hkm := Nat.mod_lt k (by omega : 0 < n)
      cases e with
      | zero =>
        rw [Spec.coordinate_cons_zero, Spec.coordinate_cons_zero, Nat.add_mul_mod_self_left,
          Nat.add_mul_mod_self_left]
      | succ e =>
        rw [Spec.coordinate_cons_succ, Spec.coordinate_cons_succ,
          Nat.add_mul_div_left _ _ (by omega : 0 < n), Nat.add_mul_div_left _ _ (by omega : 0 < n),
          Nat.div_eq_of_lt hkm, Nat.zero_add, Nat.zero_add]
        exact ih d E l l1 (k / n) e hpos' hE hd' (by intro h; exact he (by rw [h]))

theorem Spec.prod_set : ∀ (sizes : List Nat) (d E : Nat), d < sizes.length →
    (sizes.set d E).prod * sizes.getD d 0 = sizes.prod * E := by
  intro sizes
  induction sizes with
  | nil => intro d E hd; simp at hd
  | cons n ns ih =>
    intro d E hd
    cases d with
    | zero => simp; ring
    | succ d =>
      have hd' : d < ns.length := by simpa using hd
      simp only [List.set_cons_succ, List.prod_cons, List.getD_cons_succ]
      rw [Nat.mul_assoc, ih d E hd']; ring

theorem Spec.getD_set_self {sizes : List Nat} {d : Nat} (E : Nat) (hd : d < sizes.length) :
    (sizes.set d E).getD d 0 = E := by
  rw [List.getD_eq_getElem _ _ (by rw [List.length_set]; exact hd), List.getElem_set_self]

theorem Spec.pos_set {sizes : List Nat} (hpos : ∀ n ∈ sizes, 1 ≤ n) {E : Nat} (hE : 1 ≤ E)
    (d : Nat) : ∀ n ∈ sizes.set d E, 1 ≤ n := by
  intro n hn
  rcases List.mem_or_eq_of_mem_set hn with h | h
  · exact hpos n h
  · omega

/-- A side region has as many face cells as the main region. -/
theorem Spec.faceSize_set {sizes : List Nat} (hpos : ∀ n ∈ sizes, 1 ≤ n) {E : Nat}
    (hE : 1 ≤ E) {d : Nat} (hd : d < sizes.length) :
    Spec.faceSize (sizes.set d E) d = Spec.faceSize sizes d := by
  unfold Spec.faceSize
  rw [Spec.getD_set_self E hd]
  have h1 := Spec.prod_set sizes d E hd
  have hn := Spec.size_pos hpos hd
  have hdvd : sizes.getD d 0 ∣ sizes.prod := by
    apply List.dvd_prod
    rw [List.getD_eq_getElem _ _ hd]; exact List.getElem_mem _
  obtain ⟨Q, hQ⟩ := hdvd
  rw [hQ] at h1 ⊢
  have h2 : (sizes.set d E).prod = Q * E := by
    apply Nat.eq_of_mul_eq_mul_right (by omega : 0 < sizes.getD d 0)
    rw [h1]; ring
  rw [h2, Nat.mul_div_cancel _ (by omega), Nat.mul_div_cancel_left _ (by omega)]

namespace OnFace

variable {α : Type} {sizes : List Nat} {b : BoundaryId} {lo hi k : Nat} {vals : Nat → α}
  {it : ValueFieldBoundaryIterator α}

theorem inField_iff (h : OnFace sizes b lo hi vals k it) (hpos : ∀ n ∈ sizes, 1 ≤ n)
    (hb : b.dimension < sizes.length) (hlo : lo ≤ k) (hhi : 1 ≤ hi) :
    it.isInField = true ↔ k < hi := by
  unfold ValueFieldBoundaryIterator.isInField
  rw [FieldSteppingStrategy.isInField_iff, h.index, h.minIndex, h.maxIndex]
  constructor
  · rintro ⟨_, h2⟩
    by_contra hc
    have := Spec.faceIndex_strictMono hpos hb b.lower (by omega : hi - 1 < k)
    omega
  · intro hk
    exact ⟨Spec.faceIndex_mono hpos hb b.lower hlo,
      Spec.faceIndex_mono hpos hb b.lower (by omega)⟩

theorem next_some (h : OnFace sizes b lo hi vals k it) (hpos : ∀ n ∈ sizes, 1 ≤ n)
    (htot : sizes.prod < 2 ^ 31) (hb : b.dimension < sizes.length) (hlo : lo ≤ k)
    (hk : k < hi) (hB : hi ≤ Spec.faceSize sizes b.dimension) :
    ∃ it1, it.next = some it1 ∧ OnFace sizes b lo hi vals (k + 1) it1 := by
  have hin := (h.inField_iff hpos hb hlo (by omega)).mpr hk
  have hbd := h.boundary
  have hnext := BoundaryStepper.next_eq (s := it.stepper) (k := k) hpos htot h.tables
    (by rw [hbd]; exact hb) hin (by rw [hbd]; unfold Spec.faceSize at hB; omega)
    (by rw [hbd]; exact h.index)
  refine ⟨{ it with stepper := { it.stepper with
      index := Spec.faceIndex sizes it.stepper.boundary.dimension it.stepper.boundary.lower
        (k + 1) } }, ?_, ?_⟩
  · unfold ValueFieldBoundaryIterator.next
    rw [hnext]
  · exact ⟨h.tables.of_eq rfl rfl rfl rfl rfl, h.boundary, by simp only; rw [hbd], h.minIndex,
      h.maxIndex, h.values⟩

theorem next_none (h : OnFace sizes b lo hi vals k it) (hpos : ∀ n ∈ sizes, 1 ≤ n)
    (hb : b.dimension < sizes.length) (hlo : lo ≤ k) (hhi : 1 ≤ hi) (hk : hi ≤ k) :
    it.next = none := by
  have hout : it.stepper.isInField = false := by
    rw [← Bool.not_eq_true]
    intro hin
    have := (h.inField_iff hpos hb hlo hhi).mp hin
    omega
  unfold ValueFieldBoundaryIterator.next BoundaryStepper.next
  rw [hout]
  simp

theorem currentIndex_eq (h : OnFace sizes b lo hi vals k it) (hpos : ∀ n ∈ sizes, 1 ≤ n)
    (htot : sizes.prod < 2 ^ 31) (hb : b.dimension < sizes.length) (hlo : lo ≤ k)
    (hk : k < hi) (hB : hi ≤ Spec.faceSize sizes b.dimension) {e : Nat}
    (he : e < sizes.length) :
    it.currentIndex e
      = some (Spec.coordinate sizes (Spec.faceIndex sizes b.dimension b.lower k) e) := by
  have hin := (h.inField_iff hpos hb hlo (by omega)).mpr hk
  unfold ValueFieldBoundaryIterator.isInField at hin
  unfold ValueFieldBoundaryIterator.currentIndex PureFieldIterator.currentIndex
  rw [if_pos hin, ← h.index]
  apply FieldSteppingStrategy.currentIndex_of_tables hpos htot h.tables hin _ he
  rw [h.tables.total_eq, h.index]
  exact Spec.faceIndex_lt_prod hpos hb b.lower (by unfold Spec.faceSize at hB; omega)

/-- Reading a neighbour along the face dimension whose coordinate `c1` lies inside the extent:
the value read is the buffer element whose coordinate along the face dimension is `c1` and
whose other coordinates are those of the current cell. -/
theorem currentNeighbor_eq (h : OnFace sizes b lo hi vals k it) (hpos : ∀ n ∈ sizes, 1 ≤ n)
    (htot : sizes.prod < 2 ^ 31) (hb : b.dimension < sizes.length) (hlo : lo ≤ k)
    (hk : k < hi) (hB : hi ≤ Spec.faceSize sizes b.dimension) (off : Int) (c1 : Nat)
    (hc : (c1 : Int) = Spec.faceCoordinate sizes b.dimension b.lower + off)
    (h1 : c1 < sizes.getD b.dimension 0) :
    ∃ j, it.currentNeighbor b.dimension off = some (vals j) ∧ j < sizes.prod ∧
      Spec.coordinate sizes j b.dimension = c1 ∧
      ∀ e, e ≠ b.dimension → Spec.coordinate sizes j e
        = Spec.coordinate sizes (Spec.faceIndex sizes b.dimension b.lower k) e := by
  have hin := (h.inField_iff hpos hb hlo (by omega)).mpr hk
  unfold ValueFieldBoundaryIterator.isInField at hin
  have hlt : it.stepper.index < it.stepper.totalSize := by
    rw [h.tables.total_eq, h.index]
    exact Spec.faceIndex_lt_prod hpos hb b.lower (by unfold Spec.faceSize at hB; omega)
  have hc' : (c1 : Int) = Spec.coordinate sizes it.stepper.index b.dimension + off := by
    rw [h.index, Spec.coordinate_faceIndex hpos hb]; exact hc
  obtain ⟨hnif, j, hj, hjlt, -, hjd, hje⟩ :=
    FieldSteppingStrategy.neighbor_of_tables hpos htot h.tables hin hlt hb hc' h1
  refine ⟨j, ?_, hjlt, hjd, ?_⟩
  · unfold ValueFieldBoundaryIterator.currentNeighbor PureFieldIterator.currentNeighbor
    rw [hnif]
    simp only [hj, ValueArray.getValue, h.values]
  · intro e he
    rw [hje e he, h.index]

end OnFace

/-- After `setBoundaryToIterate` the iterator of thread `t` of `N` stands at the first cell of
its chunk of the face. -/
theorem ValueFieldBoundaryIterator.setBoundaryToIterate_onFace {α : Type} {sizes : List Nat}
    {it : ValueFieldBoundaryIterator α} {b : BoundaryId} {t N : Nat}
    (hpos : ∀ n ∈ sizes, 1 ≤ n) (htot : sizes.prod < 2 ^ 31)
    (htab : TablesOf sizes it.stepper.toFieldSteppingStrategy) (hb : b.dimension < sizes.length)
    (hN : 0 < N) (ht : t < N) :
    ∃ it1, it.setBoundaryToIterate t N b = some it1 ∧ it1.currentBoundary = b ∧
      OnFace sizes b (Spec.chunkStart (Spec.faceSize sizes b.dimension) N t)
        (Spec.chunkStart (Spec.faceSize sizes b.dimension) N (t + 1)) it.getter.values
        (Spec.chunkStart (Spec.faceSize sizes b.dimension) N t) it1 := by
  obtain ⟨st, hst, hbd, htab', hix, hmin, hmax, -⟩ :=
    BoundaryStepper.setBoundaryToIterate_spec hpos htot htab hb hN ht
  refine ⟨ValueFieldBoundaryIterator.first { it with currentBoundary := b, stepper := st },
    ?_, ?_, ?_⟩
  · unfold ValueFieldBoundaryIterator.setBoundaryToIterate
    rw [hst]
  · rfl
  · refine ⟨htab'.of_eq rfl rfl rfl rfl rfl, hbd, ?_, ?_, ?_, rfl⟩
    · simp only [ValueFieldBoundaryIterator.first, FieldSteppingStrategy.first]
      rw [hmin, hix]
    · simp only [ValueFieldBoundaryIterator.first, FieldSteppingStrategy.first]
      rw [hmin, hix]
    · simp only [ValueFieldBoundaryIterator.first, FieldSteppingStrategy.first]
      rw [hmax, Spec.chunkStart_succ]

theorem OnFace.first {α : Type} {sizes : List Nat} {b : BoundaryId} {lo hi k : Nat}
    {vals : Nat → α} {it : ValueFieldBoundaryIterator α} (h : OnFace sizes b lo hi vals k it) :
    OnFace sizes b lo hi vals lo it.first :=
  ⟨h.tables.of_eq rfl rfl rfl rfl rfl, h.boundary, h.minIndex, h.minIndex, h.maxIndex, h.values⟩

namespace ComposedFieldBoundaryIterator

variable {α : Type}

theorem sideIterator_setSideIterator (it : ComposedFieldBoundaryIterator α) (d s : Nat)
    (x : ValueFieldBoundaryIterator α) (hd : d < it.sideIterators.length) :
    (it.setSideIterator d s x).sideIterator d s = some x := by
  unfold sideIterator setSideIterator
  simp only [List.get?_eq_getElem?, List.getElem?_modify_eq]
  rw [List.getElem?_eq_getElem hd]
  by_cases hs : s = 0 <;> simp [hs]

theorem sideIterator_isSome_lt {it : ComposedFieldBoundaryIterator α} {d s : Nat}
    {x : ValueFieldBoundaryIterator α} (h : it.sideIterator d s = some x) :
    d < it.sideIterators.length := by
  unfold sideIterator at h
  rw [List.get?_eq_getElem?] at h
  by_contra hc
  rw [List.getElem?_eq_none (by omega)] at h
  simp at h

theorem next_onFace {sizes : List Nat} {E : Nat} {b : BoundaryId} {lo hi k : Nat}
    {data ghost : Nat → α} {it : ComposedFieldBoundaryIterator α}
    (h : ComposedOnFace sizes E b lo hi data ghost k it)
    (hpos : ∀ n ∈ sizes, 1 ≤ n) (htot : sizes.prod < 2 ^ 31) (hE : 1 ≤ E)
    (hgtot : (sizes.set b.dimension E).prod < 2 ^ 31)
    (hb : b.dimension < sizes.length) (hlo : lo ≤ k) (hk : k < hi)
    (hB : hi ≤ Spec.faceSize sizes b.dimension) :
    ∃ it1, it.next = some it1 ∧ ComposedOnFace sizes E b lo hi data ghost (k + 1) it1 := by
  obtain ⟨hbd, hmain, s, hs, hside⟩ := h
  obtain ⟨m1, hm1, hmain1⟩ := hmain.next_some hpos htot hb hlo hk hB
  have hgpos := Spec.pos_set hpos hE b.dimension
  have hgb : b.oppositeSide.dimension < (sizes.set b.dimension E).length := by
    rw [List.length_set]; exact hb
  have hgB : hi ≤ Spec.faceSize (sizes.set b.dimension E) b.oppositeSide.dimension := by
    show hi ≤ Spec.faceSize (sizes.set b.dimension E) b.dimension
    rw [Spec.faceSize_set hpos hE hb]; exact hB
  obtain ⟨s1, hs1, hside1⟩ := hside.next_some hgpos hgtot hgb hlo hk hgB
  have hcs : ({ it with mainIterator := m1 } : ComposedFieldBoundaryIterator α).currentSideIterator
      = some s := hs
  refine ⟨({ it with mainIterator := m1 } : ComposedFieldBoundaryIterator α).setSideIterator
    it.currentSide.1 it.currentSide.2 s1, ?_, hbd, hmain1, s1, ?_, hside1⟩
  · unfold next
    simp only [hm1, hcs, hs1]
    rfl
  · exact sideIterator_setSideIterator _ _ _ _ (sideIterator_isSome_lt hs)

theorem next_none_of_le {sizes : List Nat} {E : Nat} {b : BoundaryId} {lo hi k : Nat}
    {data ghost : Nat → α} {it : ComposedFieldBoundaryIterator α}
    (h : ComposedOnFace sizes E b lo hi data ghost k it)
    (hpos : ∀ n ∈ sizes, 1 ≤ n) (hb : b.dimension < sizes.length) (hlo : lo ≤ k)
    (hhi : 1 ≤ hi) (hk : hi ≤ k) : it.next = none := by
  unfold next
  rw [h.main.next_none hpos hb hlo hhi hk]

theorem isInField_iff_onFace {sizes : List Nat} {E : Nat} {b : BoundaryId} {lo hi k : Nat}
    {data ghost : Nat → α} {it : ComposedFieldBoundaryIterator α}
    (h : ComposedOnFace sizes E b lo hi data ghost k it)
    (hpos : ∀ n ∈ sizes, 1 ≤ n) (hb : b.dimension < sizes.length) (hlo : lo ≤ k)
    (hhi : 1 ≤ hi) : it.isInField = true ↔ k < hi :=
  h.main.inField_iff hpos hb hlo hhi

/-- `setBoundaryToIterate` puts the main iterator and the side iterator beyond the face at the
first cell of the chunk of thread `t` of `N`. -/
theorem setBoundaryToIterate_composed {sizes : List Nat} {E : Nat} {b : BoundaryId} {t N : Nat}
    {it : ComposedFieldBoundaryIterator α} {lower upper : ValueFieldBoundaryIterator α}
    (hpos : ∀ n ∈ sizes, 1 ≤ n) (htot : sizes.prod < 2 ^ 31) (hE : 1 ≤ E)
    (hgtot : (sizes.set b.dimension E).prod < 2 ^ 31)
    (hb : b.dimension < sizes.length) (hN : 0 < N) (ht : t < N)
    (hmain : TablesOf sizes it.mainIterator.stepper.toFieldSteppingStrategy)
    (hsides : it.sideIterators.get? b.dimension = some (lower, upper))
    (hlower : TablesOf (sizes.set b.dimension E) lower.stepper.toFieldSteppingStrategy)
    (hupper : TablesOf (sizes.set b.dimension E) upper.stepper.toFieldSteppingStrategy) :
    ∃ it1, it.setBoundaryToIterate t N b = some it1 ∧
      ComposedOnFace sizes E b (Spec.chunkStart (Spec.faceSize sizes b.dimension) N t)
        (Spec.chunkStart (Spec.faceSize sizes b.dimension) N (t + 1))
        it.mainIterator.getter.values
        (if b.lower then lower.getter.values else upper.getter.values)
        (Spec.chunkStart (Spec.faceSize sizes b.dimension) N t) it1 := by
  obtain ⟨m, hm, -, hmOn⟩ :=
    ValueFieldBoundaryIterator.setBoundaryToIterate_onFace hpos htot hmain hb hN ht
  have hgpos := Spec.pos_set hpos hE b.dimension
  have hgb : b.oppositeSide.dimension < (sizes.set b.dimension E).length := by
    rw [List.length_set]; exact hb
  have hfs : Spec.faceSize (sizes.set b.dimension E) b.oppositeSide.dimension
      = Spec.faceSize sizes b.dimension := Spec.faceSize_set hpos hE hb
  have hlen : b.dimension < it.sideIterators.length := by
    by_contra hc
    rw [List.get?_eq_getElem?, List.getElem?_eq_none (by omega)] at hsides
    simp at hsides
  -- the side iterator beyond the face
  obtain ⟨side, hside, hsideTab, hsideVal⟩ : ∃ side,
      ({ it with currentBoundary := b, mainIterator := m }
        : ComposedFieldBoundaryIterator α).currentSideIterator = some side ∧
      TablesOf (sizes.set b.dimension E) side.stepper.toFieldSteppingStrategy ∧
      side.getter.values = (if b.lower then lower.getter.values else upper.getter.values) := by
    unfold currentSideIterator currentSide sideIterator
    simp only [BoundaryId.getDimension, BoundaryId.isLowerSide, hsides]
    by_cases hl : b.lower = true
    · exact ⟨lower, by simp [hl], hlower, by simp [hl]⟩
    · exact ⟨upper, by simp [hl], hupper, by simp [hl]⟩
  obtain ⟨s1, hs1, -, hsOn⟩ :=
    @ValueFieldBoundaryIterator.setBoundaryToIterate_onFace α (sizes.set b.dimension E) side
      b.oppositeSide t N hgpos hgtot hsideTab hgb hN ht
  rw [hfs, hsideVal] at hsOn
  let it3 : ComposedFieldBoundaryIterator α :=
    ({ it with currentBoundary := b, mainIterator := m }
      : ComposedFieldBoundaryIterator α).setSideIterator b.dimension (if b.lower then 0 else 1) s1
  have h3 : it3.currentSideIterator = some s1 :=
    sideIterator_setSideIterator _ _ _ _ hlen
  refine ⟨{ it3 with mainIterator := it3.mainIterator.first }.setSideIterator b.dimension
    (if b.lower then 0 else 1) s1.first, ?_, rfl, hmOn.first, s1.first, ?_, hsOn.first⟩
  · unfold setBoundaryToIterate
    simp only [hm, hside, hs1]
    unfold first
    have h3' : ({ it3 with mainIterator := it3.mainIterator.first }
        : ComposedFieldBoundaryIterator α).currentSideIterator = some s1 := h3
    simp only [it3] at h3' ⊢
    simp only [currentSide, BoundaryId.getDimension, BoundaryId.isLowerSide] at h3' ⊢
    rw [h3']
    rfl
  · exact sideIterator_setSideIterator _ _ _ _ (by simpa [it3, setSideIterator] using hlen)

end ComposedFieldBoundaryIterator

theorem Spec.faceSize_pos {sizes : List Nat} (hpos : ∀ n ∈ sizes, 1 ≤ n) {d : Nat}
    (hd : d < sizes.length) : 1 ≤ Spec.faceSize sizes d := by
  unfold Spec.faceSize
  rw [Spec.face_count hpos hd]
  exact Nat.mul_pos (Spec.stride_pos hpos _)
    (one_le_prod_of_pos fun n hn => hpos n (List.mem_of_mem_drop hn))

theorem Spec.chunkStart_le {B N t : Nat} (hN : 0 < N) (ht : t ≤ N) :
    Spec.chunkStart B N t ≤ B := by
  have := Spec.chunkStart_mono B N ht
  rw [Spec.chunkStart_last hN] at this
  exact this

theorem Spec.chunkStart_succ_pos {B : Nat} (hB : 1 ≤ B) (N t : Nat) :
    1 ≤ Spec.chunkStart B N (t + 1) := by
  rw [Spec.chunkStart_succ]
  unfold Spec.chunkStart Spec.chunkSize
  have hqr := Nat.div_add_mod B N
  rcases Nat.eq_zero_or_pos (B / N) with h0 | h0
  · rw [h0] at hqr ⊢
    split_ifs with h
    · omega
    · rw [min_eq_right (by omega)]; omega
  · omega

theorem ValueFieldBoundaryIterator.new_spec {α : Type} {sizes : List Nat} {mn mx ix : Nat}
    {vals : Nat → α} {it : ValueFieldBoundaryIterator α}
    (hpos : ∀ n ∈ sizes, 1 ≤ n) (htot : sizes.prod < 2 ^ 31)
    (h : ValueFieldBoundaryIterator.new mn mx ix sizes vals = some it) :
    TablesOf sizes it.stepper.toFieldSteppingStrategy ∧ it.getter.values = vals := by
  unfold ValueFieldBoundaryIterator.new at h
  split at h
  · simp at h
  · rename_i s hs
    simp only [Option.some.injEq] at h
    subst h
    exact ⟨BoundaryStepper.new_tablesOf hpos htot hs, rfl⟩

namespace ComposedFieldBoundaryIterator

variable {α : Type}

theorem new_composed {sizes : List Nat} {mn mx ix : Nat} {data : Nat → α}
    {sides : List (ValueFieldBoundaryIterator α × ValueFieldBoundaryIterator α)}
    {it : ComposedFieldBoundaryIterator α}
    (hpos : ∀ n ∈ sizes, 1 ≤ n) (htot : sizes.prod < 2 ^ 31)
    (h : ComposedFieldBoundaryIterator.new mn mx ix sizes data sides = some it) :
    TablesOf sizes it.mainIterator.stepper.toFieldSteppingStrategy ∧
      it.mainIterator.getter.values = data ∧ it.sideIterators = sides := by
  unfold ComposedFieldBoundaryIterator.new at h
  split at h
  · simp at h
  · rename_i m hm
    simp only [Option.some.injEq] at h
    subst h
    obtain ⟨h1, h2⟩ := ValueFieldBoundaryIterator.new_spec hpos htot hm
    exact ⟨h1, h2, rfl⟩

/-- A state reached by `j` calls of `next` from face cell `k` stands at face cell `k + j`. -/
theorem nextTimes_onFace {sizes : List Nat} {E : Nat} {b : BoundaryId} {lo hi : Nat}
    {data ghost : Nat → α}
    (hpos : ∀ n ∈ sizes, 1 ≤ n) (htot : sizes.prod < 2 ^ 31) (hE : 1 ≤ E)
    (hgtot : (sizes.set b.dimension E).prod < 2 ^ 31)
    (hb : b.dimension < sizes.length) (hhi : 1 ≤ hi)
    (hB : hi ≤ Spec.faceSize sizes b.dimension) :
    ∀ (j k : Nat) (it1 it : ComposedFieldBoundaryIterator α),
      ComposedOnFace sizes E b lo hi data ghost k it1 → lo ≤ k → k ≤ hi →
      it1.nextTimes j = some it →
      k + j ≤ hi ∧ ComposedOnFace sizes E b lo hi data ghost (k + j) it := by
  intro j
  induction j with
  | zero =>
    intro k it1 it h _ hk hit
    simp only [nextTimes, Option.some.injEq] at hit
    subst hit
    exact ⟨hk, h⟩
  | succ j ih =>
    intro k it1 it h hlo hk hit
    by_cases hlt : k < hi
    · obtain ⟨it2, hn, h2⟩ := next_onFace h hpos htot hE hgtot hb hlo hlt hB
      simp only [nextTimes, hn] at hit
      obtain ⟨r1, r2⟩ := ih (k + 1) it2 it h2 (by omega) (by omega) hit
      have e : k + 1 + j = k + (j + 1) := by omega
      rw [e] at r1 r2
      exact ⟨r1, r2⟩
    · have hn := next_none_of_le h hpos hb hlo hhi (by omega)
      simp [nextTimes, hn] at hit

end ComposedFieldBoundaryIterator

namespace ComposedFieldBoundaryIterator

variable {α : Type}

/-- `currentNeighbor` of a composed boundary iterator along the face dimension, with target
coordinate `c + off` where `c` is the face coordinate: inside the main extent the main buffer
is read; below 0 on the lower face and at or above the extent on the upper face the buffer of
the side region beyond the face is read, at side coordinate `E + (c + off)` respectively
`c + off - size[d]`; the other coordinates are those of the current cell. -/
theorem currentNeighbor_onFace {sizes : List Nat} {E : Nat} {b : BoundaryId} {lo hi k : Nat}
    {data ghost : Nat → α} {it : ComposedFieldBoundaryIterator α}
    (h : ComposedOnFace sizes E b lo hi data ghost k it)
    (hpos : ∀ n ∈ sizes, 1 ≤ n) (htot : sizes.prod < 2 ^ 31) (hE : 1 ≤ E)
    (hgtot : (sizes.set b.dimension E).prod < 2 ^ 31)
    (hb : b.dimension < sizes.length) (hlo : lo ≤ k) (hk : k < hi)
    (hB : hi ≤ Spec.faceSize sizes b.dimension) (off : Int) :
    (∀ T : Nat, (T : Int) = Spec.faceCoordinate sizes b.dimension b.lower + off →
      T < sizes.getD b.dimension 0 →
      ∃ idx, it.currentNeighbor b.dimension off = some (data idx) ∧ idx < sizes.prod ∧
        Spec.coordinate sizes idx b.dimension = T ∧
        ∀ e, e ≠ b.dimension → Spec.coordinate sizes idx e
          = Spec.coordinate sizes (Spec.faceIndex sizes b.dimension b.lower k) e) ∧
    (b.lower = true → ∀ g : Nat, (g : Int) = E + off → g < E →
      ∃ idx, it.currentNeighbor b.dimension off = some (ghost idx) ∧
        idx < (sizes.set b.dimension E).prod ∧
        Spec.coordinate (sizes.set b.dimension E) idx b.dimension = g ∧
        ∀ e, e ≠ b.dimension → Spec.coordinate (sizes.set b.dimension E) idx e
          = Spec.coordinate sizes (Spec.faceIndex sizes b.dimension b.lower k) e) ∧
    (b.lower = false → ∀ g : Nat, (g : Int) = off - 1 → g < E →
      ∃ idx, it.currentNeighbor b.dimension off = some (ghost idx) ∧
        idx < (sizes.set b.dimension E).prod ∧
        Spec.coordinate (sizes.set b.dimension E) idx b.dimension = g ∧
        ∀ e, e ≠ b.dimension → Spec.coordinate (sizes.set b.dimension E) idx e
          = Spec.coordinate sizes (Spec.faceIndex sizes b.dimension b.lower k) e) := by
  obtain ⟨hbd, hmain, s, hs, hside⟩ := h
  have hcur : it.currentIndex b.dimension
      = some (Spec.faceCoordinate sizes b.dimension b.lower) := by
    unfold currentIndex
    rw [hmain.currentIndex_eq hpos htot hb hlo hk hB hb, Spec.coordinate_faceIndex hpos hb]
  have hfc := Spec.faceCoordinate_lt hpos hb b.lower
  have hn_le : sizes.getD b.dimension 0 ≤ sizes.prod := by
    have : sizes.getD b.dimension 0 ∈ sizes := by
      rw [List.getD_eq_getElem _ _ hb]; exact List.getElem_mem _
    exact Nat.le_of_dvd (one_le_prod_of_pos hpos) (List.dvd_prod this)
  have hsize : it.mainIterator.size b.dimension = sizes.getD b.dimension 0 := by
    unfold ValueFieldBoundaryIterator.size PureFieldIterator.size
    rw [hmain.tables.size_eq]
  have hgpos := Spec.pos_set hpos hE b.dimension
  have hgb : b.oppositeSide.dimension < (sizes.set b.dimension E).length := by
    rw [List.length_set]; exact hb
  have hgB : hi ≤ Spec.faceSize (sizes.set b.dimension E) b.oppositeSide.dimension := by
    show hi ≤ Spec.faceSize (sizes.set b.dimension E) b.dimension
    rw [Spec.faceSize_set hpos hE hb]; exact hB
  have hgE : (sizes.set b.dimension E).getD b.dimension 0 = E := Spec.getD_set_self E hb
  have hE_le : E ≤ (sizes.set b.dimension E).prod := by
    have hlen' : b.dimension < (sizes.set b.dimension E).length := by
      rw [List.length_set]; exact hb
    have hm : (sizes.set b.dimension E)[b.dimension] ∈ sizes.set b.dimension E :=
      List.getElem_mem hlen'
    rw [List.getElem_set_self] at hm
    exact Nat.le_of_dvd (one_le_prod_of_pos hgpos) (List.dvd_prod hm)
  have hlock : ∀ e, e ≠ b.dimension →
      Spec.coordinate (sizes.set b.dimension E)
        (Spec.faceIndex (sizes.set b.dimension E) b.dimension (!b.lower) k) e
      = Spec.coordinate sizes (Spec.faceIndex sizes b.dimension b.lower k) e :=
    fun e he => Spec.coordinate_set_faceIndex sizes b.dimension E b.lower (!b.lower) k e hpos hE
      hb he
  have hcs : it.currentSideIterator = it.sideIterator b.dimension (if b.lower then 0 else 1) := by
    unfold currentSideIterator currentSide
    rw [hbd]; rfl
  refine ⟨?_, ?_, ?_⟩
  · intro T hT hTn
    obtain ⟨j, hj, r⟩ := hmain.currentNeighbor_eq hpos htot hb hlo hk hB off T hT hTn
    refine ⟨j, ?_, r⟩
    unfold currentNeighbor
    rw [hcur]
    simp only [hsize]
    rw [toInt64_toU64_add (by omega) (by omega), toInt64_of_lt (by omega)]
    rw [if_neg (by omega), if_neg (by omega)]
    exact hj
  · intro hl g hg hgE'
    have hfc0 : Spec.faceCoordinate sizes b.dimension b.lower = 0 := by
      unfold Spec.faceCoordinate; simp [hl]
    have hgfc : Spec.faceCoordinate (sizes.set b.dimension E) b.oppositeSide.dimension
        b.oppositeSide.lower = E - 1 := by
      unfold Spec.faceCoordinate BoundaryId.oppositeSide
      simp only [hl, hgE]; simp
    have hside0 : it.sideIterator b.dimension 0 = some s := by
      rw [← hs, hcs, hl]; rfl
    obtain ⟨j, hj, r1, r2, r3⟩ := hside.currentNeighbor_eq hgpos hgtot
      hgb hlo hk hgB (off + 1) g (by rw [hgfc]; omega) (by
        show g < (sizes.set b.dimension E).getD b.dimension 0
        rw [hgE]; exact hgE')
    refine ⟨j, ?_, r1, r2, ?_⟩
    · unfold currentNeighbor
      rw [hcur]
      simp only [hsize, hfc0]
      rw [toInt64_toU64_add (by omega) (by omega)]
      rw [if_pos (by omega), hside0]
      simp only
      rw [toInt32_toU64 (by omega) (by omega)]
      have e : off + ((0 : Nat) : Int) + 1 = off + 1 := by omega
      rw [e]
      exact hj
    · intro e he
      rw [r3 e he]
      have := hlock e he
      simp only [BoundaryId.oppositeSide] at this ⊢
      exact this
  · intro hl g hg hgE'
    have hfcn : Spec.faceCoordinate sizes b.dimension b.lower = sizes.getD b.dimension 0 - 1 := by
      unfold Spec.faceCoordinate; simp [hl]
    have hn1 := Spec.size_pos hpos hb
    have hgfc : Spec.faceCoordinate (sizes.set b.dimension E) b.oppositeSide.dimension
        b.oppositeSide.lower = 0 := by
      unfold Spec.faceCoordinate BoundaryId.oppositeSide
      simp only [hl]; simp
    have hside1 : it.sideIterator b.dimension 1 = some s := by
      rw [← hs, hcs, hl]; rfl
    obtain ⟨j, hj, r1, r2, r3⟩ := hside.currentNeighbor_eq hgpos hgtot
      hgb hlo hk hgB (off - 1) g (by rw [hgfc]; push_cast; omega) (by
        show g < (sizes.set b.dimension E).getD b.dimension 0
        rw [hgE]; exact hgE')
    refine ⟨j, ?_, r1, r2, ?_⟩
    · unfold currentNeighbor
      rw [hcur]
      simp only [hsize, hfcn]
      rw [toInt64_toU64_add (by omega) (by omega), toInt64_of_lt (by omega)]
      rw [if_neg (by omega), if_pos (by omega), hside1]
      simp only
      have e1 : toU64 (off + ((sizes.getD b.dimension 0 - 1 : Nat) : Int))
          = g + sizes.getD b.dimension 0 := by
        unfold toU64 U64; omega
      have e3 : toInt32 (sub64 (g + sizes.getD b.dimension 0) (sizes.getD b.dimension 0))
          = off - 1 := by
        rw [toInt32_sub64 (by omega) (by omega)]
        push_cast; omega
      rw [e1, e3]
      exact hj
    · intro e he
      rw [r3 e he]
      have := hlock e he
      simp only [BoundaryId.oppositeSide] at this ⊢
      exact this

end ComposedFieldBoundaryIterator

theorem hvector_length (count stride : Nat) (oldtype : List Nat) :
    (hvector count stride oldtype).length = count * oldtype.length := by
  unfold hvector
  induction count with
  | zero => simp
  | succ c ih =>
    rw [List.range_succ, List.flatMap_append, List.length_append, ih]
    simp [Nat.succ_mul]

theorem hvector_getD (count stride : Nat) (oldtype : List Nat) (k : Nat)
    (hk : k < count * oldtype.length) :
    (hvector count stride oldtype).getD k 0
      = k / oldtype.length * stride + oldtype.getD (k % oldtype.length) 0 := by
  induction count with
  | zero => simp at hk
  | succ c ih =>
    have hlen := hvector_length c stride oldtype
    have hL : 0 < oldtype.length := by
      rcases Nat.eq_zero_or_pos oldtype.length with h | h
      · rw [h] at hk; simp at hk
      · exact h
    have hsplit : hvector (c + 1) stride oldtype
        = hvector c stride oldtype ++ oldtype.map fun o => c * stride + o := by
      unfold hvector
      rw [List.range_succ, List.flatMap_append]
      simp
    rw [hsplit]
    rcases Nat.lt_or_ge k (c * oldtype.length) with h | h
    · rw [List.getD_append _ _ _ _ (by rw [hlen]; exact h)]
      exact ih h
    · rw [List.getD_append_right _ _ _ _ (by rw [hlen]; exact h), hlen]
      have hr : k - c * oldtype.length < oldtype.length := by
        rw [Nat.succ_mul] at hk; omega
      have hq : k / oldtype.length = c ∧ k % oldtype.length = k - c * oldtype.length := by
        rw [Nat.div_mod_unique hL]
        constructor
        · have := Nat.mul_comm oldtype.length c
          omega
        · exact hr
      rw [hq.1, hq.2]
      rw [List.getD_eq_getElem?_getD, List.getElem?_map, List.getD_eq_getElem?_getD]
      rw [List.getElem?_eq_getElem hr]
      simp

theorem Spec.stride_factor {sizes : List Nat} {l : Nat} : ∀ (j : Nat), l < j → j ≤ sizes.length →
    ∃ m, Spec.stride sizes j = Spec.stride sizes l * (sizes.getD l 0 * m) := by
  intro j
  induction j with
  | zero => intro h; omega
  | succ j ih =>
    intro hl hj
    rcases Nat.lt_or_ge l j with h | h
    · obtain ⟨m, hm⟩ := ih h (by omega)
      refine ⟨m * sizes.getD j 0, ?_⟩
      rw [Spec.stride_succ (by omega), hm]; ring
    · have e : l = j := by omega
      subst e
      exact ⟨1, by rw [Spec.stride_succ (by omega)]; ring⟩

theorem Spec.coordinate_add_mul_stride {sizes : List Nat} (hpos : ∀ n ∈ sizes, 1 ≤ n)
    {l j : Nat} (hl : l < j) (hj : j ≤ sizes.length) (q x : Nat) :
    Spec.coordinate sizes (q * Spec.stride sizes j + x) l = Spec.coordinate sizes x l := by
  obtain ⟨m, hm⟩ := Spec.stride_factor j hl hj
  have hA := Spec.stride_pos hpos l
  unfold Spec.coordinate
  rw [hm]
  have e : q * (Spec.stride sizes l * (sizes.getD l 0 * m)) + x
      = x + Spec.stride sizes l * (sizes.getD l 0 * (m * q)) := by ring
  rw [e, Nat.add_mul_div_left _ _ hA, Nat.add_mul_mod_self_left]

theorem Spec.coordinate_mod_stride {sizes : List Nat} (hpos : ∀ n ∈ sizes, 1 ≤ n)
    {l j : Nat} (hl : l < j) (hj : j ≤ sizes.length) (k : Nat) :
    Spec.coordinate sizes (k % Spec.stride sizes j) l = Spec.coordinate sizes k l := by
  have h := Spec.coordinate_add_mul_stride hpos hl hj (k / Spec.stride sizes j)
    (k % Spec.stride sizes j)
  rw [← h]
  congr 1
  have := Nat.div_add_mod k (Spec.stride sizes j)
  rw [Nat.mul_comm] at this
  exact this

theorem Spec.stride_replicate (D n : Nat) : ∀ j, j ≤ D →
    Spec.stride (List.replicate D n) j = n ^ j := by
  intro j hj
  unfold Spec.stride
  rw [List.take_replicate, Nat.min_eq_left hj, List.prod_replicate]

theorem Spec.getD_replicate {D n j : Nat} (hj : j < D) : (List.replicate D n).getD j 0 = n := by
  rw [List.getD_eq_getElem _ _ (by rw [List.length_replicate]; exact hj)]
  simp

theorem Spec.getD_set_replicate {D n i E j : Nat} (hj : j < D) :
    ((List.replicate D n).set i E).getD j 0 = if i = j then E else n := by
  rw [List.getD_eq_getElem _ _ (by rw [List.length_set, List.length_replicate]; exact hj)]
  rw [List.getElem_set]
  split_ifs <;> simp

theorem Spec.pos_replicate {D n : Nat} (hn : 1 ≤ n) : ∀ m ∈ List.replicate D n, 1 ≤ m := by
  intro m hm
  rw [(List.mem_replicate.mp hm).2]; exact hn

namespace ComputationalComposedBlock

theorem dataTypeStride_eq (n : Nat) : ∀ j, n ^ j < U64 → dataTypeStride n j = n ^ j := by
  intro j
  induction j with
  | zero => intro _; rfl
  | succ j ih =>
    intro h
    rcases Nat.eq_zero_or_pos n with h0 | h0
    · subst h0
      unfold dataTypeStride
      simp
    · have hle : n ^ j ≤ n ^ (j + 1) := Nat.pow_le_pow_right h0 (Nat.le_succ j)
      unfold dataTypeStride
      rw [ih (by omega), ← Nat.pow_succ, Nat.mod_eq_of_lt h]

/-- The datatype of pass `i` after `j` nesting levels lists, in the order of the side region with
extents `G`, the main-region offsets of the cells with the same coordinates. -/
theorem tmpTypes_spec (D n E i : Nat) (hn : 1 ≤ n) (hE : 1 ≤ E) (hEn : E ≤ n)
    (htot : n ^ D < U64) : ∀ j, j ≤ D →
    (tmpTypes n E i j).length = Spec.stride ((List.replicate D n).set i E) j ∧
    ∀ k, k < Spec.stride ((List.replicate D n).set i E) j →
      (tmpTypes n E i j).getD k 0 < Spec.stride (List.replicate D n) j ∧
      ∀ l, l < j → Spec.coordinate (List.replicate D n) ((tmpTypes n E i j).getD k 0) l
        = Spec.coordinate ((List.replicate D n).set i E) k l := by
  have hposS : ∀ m ∈ List.replicate D n, 1 ≤ m := Spec.pos_replicate hn
  have hposG : ∀ m ∈ (List.replicate D n).set i E, 1 ≤ m := Spec.pos_set hposS hE i
  have hlenG : ((List.replicate D n).set i E).length = D := by
    rw [List.length_set, List.length_replicate]
  have hlenS : (List.replicate D n).length = D := List.length_replicate _ _
  intro j
  induction j with
  | zero =>
    intro _
    refine ⟨by simp [tmpTypes, Spec.stride], ?_⟩
    intro k hk
    have hk0 : k = 0 := by simp [Spec.stride] at hk; exact hk
    subst hk0
    refine ⟨by simp [tmpTypes, Spec.stride], ?_⟩
    intro l hl; omega
  | succ j ih =>
    intro hj
    obtain ⟨ihlen, ihk⟩ := ih (by omega)
    have hjD : j < D := by omega
    have hcount : tmpTypes n E i (j + 1)
        = hvector (((List.replicate D n).set i E).getD j 0)
            (Spec.stride (List.replicate D n) j) (tmpTypes n E i j) := by
      have hs : dataTypeStride n j = Spec.stride (List.replicate D n) j := by
        rw [Spec.stride_replicate D n j (by omega)]
        apply dataTypeStride_eq
        have : n ^ j ≤ n ^ D := Nat.pow_le_pow_right hn (by omega)
        omega
      have hdef : tmpTypes n E i (j + 1)
          = if i = j then hvector E (dataTypeStride n j) (tmpTypes n E i j)
            else hvector n (dataTypeStride n j) (tmpTypes n E i j) := rfl
      rw [Spec.getD_set_replicate hjD, hdef, hs]
      split_ifs <;> rfl
    have hGS : ((List.replicate D n).set i E).getD j 0 ≤ (List.replicate D n).getD j 0 := by
      rw [Spec.getD_set_replicate hjD, Spec.getD_replicate hjD]
      split_ifs <;> omega
    have hsG := @Spec.stride_succ ((List.replicate D n).set i E) j
      (by rw [hlenG]; exact hjD)
    have hsS := @Spec.stride_succ (List.replicate D n) j
      (by rw [hlenS]; exact hjD)
    have hGpos := Spec.stride_pos hposG j
    have hSpos := Spec.stride_pos hposS j
    refine ⟨by rw [hcount, hvector_length, ihlen, hsG, Nat.mul_comm], ?_⟩
    intro k hk
    rw [hcount, hvector_getD _ _ _ _ (by rw [ihlen, Nat.mul_comm, ← hsG]; exact hk), ihlen]
    have hr : k % Spec.stride ((List.replicate D n).set i E) j
        < Spec.stride ((List.replicate D n).set i E) j := Nat.mod_lt _ hGpos
    obtain ⟨hx, hcoord⟩ := ihk _ hr
    have hq : k / Spec.stride ((List.replicate D n).set i E) j
        < ((List.replicate D n).set i E).getD j 0 := by
      rw [Nat.div_lt_iff_lt_mul hGpos, Nat.mul_comm, ← hsG]; exact hk
    constructor
    · rw [hsS]
      calc k / Spec.stride ((List.replicate D n).set i E) j * Spec.stride (List.replicate D n) j
            + (tmpTypes n E i j).getD (k % Spec.stride ((List.replicate D n).set i E) j) 0
          < k / Spec.stride ((List.replicate D n).set i E) j * Spec.stride (List.replicate D n) j
            + Spec.stride (List.replicate D n) j := by omega
        _ = (k / Spec.stride ((List.replicate D n).set i E) j + 1)
            * Spec.stride (List.replicate D n) j := by ring
        _ ≤ (List.replicate D n).getD j 0 * Spec.stride (List.replicate D n) j :=
            Nat.mul_le_mul_right _ (by omega)
        _ = Spec.stride (List.replicate D n) j * (List.replicate D n).getD j 0 := by ring
    · intro l hl
      rcases Nat.lt_or_ge l j with h | h
      · rw [Spec.coordinate_add_mul_stride hposS h (by rw [hlenS]; omega), hcoord l h,
          Spec.coordinate_mod_stride hposG h (by rw [hlenG]; omega)]
      · have e : l = j := by omega
        subst e
        unfold Spec.coordinate
        rw [Nat.mul_comm, Nat.mul_add_div hSpos, Nat.div_eq_of_lt hx, Nat.add_zero,
          Nat.mod_eq_of_lt (by omega), Nat.mod_eq_of_lt hq]

end ComputationalComposedBlock

theorem find?_flatMap_pair_none {β : Type} (p : β → Bool) (f g : Nat → β) : ∀ (D : Nat),
    (∀ i, i < D → p (f i) = false ∧ p (g i) = false) →
    ((List.range D).flatMap fun i => [f i, g i]).find? p = none := by
  intro D
  induction D with
  | zero => intro _; rfl
  | succ D ih =>
    intro h
    rw [List.range_succ, List.flatMap_append, List.find?_append,
      ih fun i hi => h i (by omega)]
    have hD := h D (by omega)
    simp [List.flatMap, List.find?, hD.1, hD.2]

theorem find?_flatMap_pair {β : Type} (p : β → Bool) (f g : Nat → β) (d : Nat)
    (hlt : ∀ i, i < d → p (f i) = false ∧ p (g i) = false) : ∀ (D : Nat), d < D →
    ((List.range D).flatMap fun i => [f i, g i]).find? p
      = if p (f d) then some (f d) else if p (g d) then some (g d)
        else ((List.range D).flatMap fun i => [f i, g i]).find? p := by
  intro D
  induction D with
  | zero => intro h; omega
  | succ D ih =>
    intro hd
    by_cases h1 : p (f d) = true
    · rw [if_pos h1]
      rw [List.range_succ, List.flatMap_append, List.find?_append]
      rcases Nat.lt_or_ge d D with h | h
      · rw [ih h, if_pos h1]; rfl
      · have e : d = D := by omega
        subst e
        rw [find?_flatMap_pair_none p f g d hlt]
        simp [List.flatMap, List.find?, h1]
    · rw [if_neg h1]
      by_cases h2 : p (g d) = true
      · rw [if_pos h2]
        rw [List.range_succ, List.flatMap_append, List.find?_append]
        rcases Nat.lt_or_ge d D with h | h
        · rw [ih h, if_neg h1, if_pos h2]; rfl
        · have e : d = D := by omega
          subst e
          rw [find?_flatMap_pair_none p f g d hlt]
          have h1' : p (f d) = false := by simpa using h1
          simp [List.flatMap, List.find?, h1', h2]
      · rw [if_neg h2]

theorem flatMap_range_congr {β : Type} (f g : Nat → List β) : ∀ (D : Nat),
    (∀ i, i < D → f i = g i) → (List.range D).flatMap f = (List.range D).flatMap g := by
  intro D
  induction D with
  | zero => intro _; rfl
  | succ D ih =>
    intro h
    rw [List.range_succ, List.flatMap_append, List.flatMap_append, ih fun i hi => h i (by omega)]
    simp [List.flatMap, h D (by omega)]

theorem Math.power_eq (base exp : Nat) (he : exp < U32) (h : base ^ exp < U64) :
    Math.power base exp = base ^ exp := by
  unfold Math.power
  rw [Nat.mod_eq_of_lt he]
  clear he
  induction exp with
  | zero => rfl
  | succ e ih =>
    rcases Nat.eq_zero_or_pos base with h0 | h0
    · subst h0; simp
    · have hle : base ^ e ≤ base ^ (e + 1) := Nat.pow_le_pow_right h0 (Nat.le_succ e)
      show (Nat.rec 1 (fun _ result => (result * base) % U64) e * base) % U64 = base ^ (e + 1)
      rw [ih (by omega), ← Nat.pow_succ, Nat.mod_eq_of_lt h]

namespace ComputationalComposedBlock

variable {α : Type}

theorem getElem?_createGhostRegions (D n E : Nat) (fresh : Nat → Nat → Nat → α) {d : Nat}
    (hd : d < D) :
    (createGhostRegions D n E fresh).get? d
      = some (GhostRegion.new { dimension := d, lower := true } n E (fresh d 0),
          GhostRegion.new { dimension := d, lower := false } n E (fresh d 1)) := by
  unfold createGhostRegions
  rw [List.get?_eq_getElem?, List.getElem?_map, List.getElem?_range hd]
  rfl

theorem receiveRequest_startReceive (D n E : Nat) (values : Nat → α)
    (fresh : Nat → Nat → Nat → α) :
    (startReceive D (new D n E (some values) fresh)).receiveRequest
      = (List.range D).flatMap fun i =>
          [(GhostRegion.new { dimension := i, lower := false } n E
              (fresh i 1)).initializeReceive D,
           (GhostRegion.new { dimension := i, lower := true } n E
              (fresh i 0)).initializeReceive D] := by
  unfold startReceive new
  simp only
  apply flatMap_range_congr
  intro i hi
  rw [getElem?_createGhostRegions D n E fresh hi]

theorem find?_receiveRequest (D n E : Nat) (values : Nat → α) (fresh : Nat → Nat → Nat → α)
    {d : Nat} (hd : d < D) (side : Bool) :
    (startReceive D (new D n E (some values) fresh)).receiveRequest.find?
        (fun r => decide (r.buffer = { dimension := d, lower := side }))
      = some ((GhostRegion.new { dimension := d, lower := side } n E
          (fresh d (if side then 0 else 1))).initializeReceive D) := by
  rw [receiveRequest_startReceive]
  rw [find?_flatMap_pair _ _ _ d ?_ D hd]
  · cases side <;> simp [GhostRegion.initializeReceive, GhostRegion.new]
  · intro i hi
    have : i ≠ d := by omega
    simp [GhostRegion.initializeReceive, GhostRegion.new, this]

theorem startSend_eq (D n E : Nat) (values : Nat → α) (fresh : Nat → Nat → Nat → α) :
    startSend D (startReceive D (new D n E (some values) fresh))
      = (List.range D).flatMap fun d =>
          [({ tag := toInt32 ((2 * d) % U64),
              data := (tmpTypes n E d D).map fun o => values o } : Message α),
           { tag := toInt32 ((2 * d + 1) % U64),
             data := (tmpTypes n E d D).map fun o =>
               values ((sub64 n E * Math.power n d) % U64 + o) }] := by
  unfold startSend startReceive new startSendingGhostData
  simp only
  apply flatMap_range_congr
  intro i hi
  have : (initializeBlockDataTypes D n E).getD i [] = tmpTypes n E i D := by
    unfold initializeBlockDataTypes
    rw [List.getD_eq_getElem?_getD, List.getElem?_map, List.getElem?_range hi]
    rfl
  rw [this]

theorem tag_eq {x : Nat} (h : x < 2147483648) : toInt32 (x % U64) = (x : Int) := by
  rw [Nat.mod_eq_of_lt (by unfold U64; omega), toInt32_of_lt h]

theorem find?_startSend (D n E : Nat) (values : Nat → α) (fresh : Nat → Nat → Nat → α)
    (hD : 2 * D < 2147483648) {d : Nat} (hd : d < D) (side : Bool) :
    (startSend D (startReceive D (new D n E (some values) fresh))).find?
        (fun m => decide (m.tag = toInt32 ((2 * d + if side then 1 else 0) % U64)))
      = some { tag := toInt32 ((2 * d + if side then 1 else 0) % U64),
               data := (tmpTypes n E d D).map fun o =>
                 values ((if side then (sub64 n E * Math.power n d) % U64 else 0) + o) } := by
  rw [startSend_eq]
  rw [find?_flatMap_pair _ _ _ d ?_ D hd]
  · cases side
    · simp
    · have h1 : toInt32 ((2 * d) % U64) ≠ toInt32 ((2 * d + 1) % U64) := by
        rw [tag_eq (by omega), tag_eq (by omega)]; omega
      simp [h1]
  · intro i hi
    have h1 : toInt32 ((2 * i) % U64) ≠ toInt32 ((2 * d + if side then 1 else 0) % U64) := by
      rw [tag_eq (by omega), tag_eq (by split_ifs <;> omega)]; split_ifs <;> omega
    have h2 : toInt32 ((2 * i + 1) % U64)
        ≠ toInt32 ((2 * d + if side then 1 else 0) % U64) := by
      rw [tag_eq (by omega), tag_eq (by split_ifs <;> omega)]; split_ifs <;> omega
    simp [h1, h2]

end ComputationalComposedBlock

theorem Spec.prod_replicate (D n : Nat) : (List.replicate D n).prod = n ^ D :=
  List.prod_replicate D n

theorem Spec.prod_set_replicate {D n E d : Nat} (hn : 1 ≤ n) (hd : d < D) :
    ((List.replicate D n).set d E).prod = n ^ (D - 1) * E := by
  have h := Spec.prod_set (List.replicate D n) d E (by rw [List.length_replicate]; exact hd)
  rw [Spec.getD_replicate hd, Spec.prod_replicate] at h
  have e : n ^ D = n ^ (D - 1) * n := by
    have hDD : (D - 1).succ = D := by omega
    rw [← Nat.pow_succ, hDD]
  rw [e] at h
  have h2 : ((List.replicate D n).set d E).prod * n = n ^ (D - 1) * E * n := by
    rw [h]; ring
  exact Nat.eq_of_mul_eq_mul_right hn h2

namespace ComputationalComposedBlock

variable {α : Type}

/-- Content of the side regions of a block after the exchange with itself: the region below
dimension `d` holds the upper slab of the main region, the region above holds the lower slab,
both listed in the order of the datatype of dimension `d`. -/
theorem exchanged_ghost (D n E : Nat) (values : Nat → α) (fresh : Nat → Nat → Nat → α)
    (hn : 1 ≤ n) (hE : 1 ≤ E) (hEn : E ≤ n) (htot : n ^ D < 2 ^ 31)
    (hD : 2 * D < 2147483648)
    {d : Nat} (hd : d < D) :
    ((new D n E (some values) fresh).exchanged D).values = some values ∧
    ((new D n E (some values) fresh).exchanged D).smallestIndex = 0 ∧
    ((new D n E (some values) fresh).exchanged D).elementsPerDim = n ∧
    ((new D n E (some values) fresh).exchanged D).ghostRegions.length = D ∧
    ∃ lo hi, ((new D n E (some values) fresh).exchanged D).ghostRegions.get? d = some (lo, hi) ∧
      lo.getSizeArray D = (List.replicate D n).set d E ∧
      hi.getSizeArray D = (List.replicate D n).set d E ∧
      (∀ k, k < ((List.replicate D n).set d E).prod →
        lo.values k = values ((n - E) * n ^ d + (tmpTypes n E d D).getD k 0)) ∧
      (∀ k, k < ((List.replicate D n).set d E).prod →
        hi.values k = values ((tmpTypes n E d D).getD k 0)) := by
  have hcount : (Math.power n (sub64 D 1) * E) % U64 = ((List.replicate D n).set d E).prod := by
    have h1 : sub64 D 1 = D - 1 := by unfold sub64 U64; omega
    have hle : n ^ (D - 1) ≤ n ^ D := Nat.pow_le_pow_right hn (by omega)
    have hE' : n ^ (D - 1) * E ≤ n ^ (D - 1) * n := Nat.mul_le_mul_left _ hEn
    have e : n ^ (D - 1) * n = n ^ D := by
      have hDD : (D - 1).succ = D := by omega
      rw [← Nat.pow_succ, hDD]
    have hD1 : D - 1 < U32 := by unfold U32; omega
    have hp1 : n ^ (D - 1) < U64 := by unfold U64; omega
    rw [h1, Math.power_eq n (D - 1) hD1 hp1, Spec.prod_set_replicate hn hd]
    apply Nat.mod_eq_of_lt
    unfold U64; omega
  have hstart : (sub64 n E * Math.power n d) % U64 = (n - E) * n ^ d := by
    have hle : n ^ d ≤ n ^ D := Nat.pow_le_pow_right hn (by omega)
    have h1 : sub64 n E = n - E := by
      have : n ≤ n ^ D := by
        calc n = n ^ 1 := (Nat.pow_one n).symm
          _ ≤ n ^ D := Nat.pow_le_pow_right hn (by omega)
      unfold sub64 U64; omega
    have h2 : (n - E) * n ^ d ≤ n * n ^ d := Nat.mul_le_mul_right _ (by omega)
    have h3 : n * n ^ d ≤ n ^ D := by
      rw [Nat.mul_comm, ← Nat.pow_succ]
      exact Nat.pow_le_pow_right hn (by omega)
    have hd1 : d < U32 := by unfold U32; omega
    have hp1 : n ^ d < U64 := by unfold U64; omega
    rw [h1, Math.power_eq n d hd1 hp1]
    apply Nat.mod_eq_of_lt
    unfold U64; omega
  have hlen : (tmpTypes n E d D).length = ((List.replicate D n).set d E).prod := by
    have h31 : n ^ D < U64 := by unfold U64; omega
    rw [(tmpTypes_spec D n E d hn hE hEn h31 D (le_refl _)).1]
    have hl : ((List.replicate D n).set d E).length = D := by
      rw [List.length_set, List.length_replicate]
    have := Spec.stride_length ((List.replicate D n).set d E)
    rw [hl] at this
    exact this
  refine ⟨rfl, rfl, rfl, ?_, ?_⟩
  · show (List.map _ (createGhostRegions D n E fresh)).length = D
    rw [List.length_map]
    unfold createGhostRegions
    rw [List.length_map, List.length_range]
  · refine ⟨(GhostRegion.new { dimension := d, lower := true } n E (fresh d 0)).completeReceive
        (startCommunication D (new D n E (some values) fresh)).1.receiveRequest
        (startCommunication D (new D n E (some values) fresh)).2,
      (GhostRegion.new { dimension := d, lower := false } n E (fresh d 1)).completeReceive
        (startCommunication D (new D n E (some values) fresh)).1.receiveRequest
        (startCommunication D (new D n E (some values) fresh)).2, ?_, ?_, ?_, ?_, ?_⟩
    · show (List.map _ (createGhostRegions D n E fresh)).get? d = _
      rw [List.get?_eq_getElem?, List.getElem?_map, ← List.get?_eq_getElem?,
        getElem?_createGhostRegions D n E fresh hd]
      rfl
    · unfold GhostRegion.completeReceive GhostRegion.getSizeArray
      split <;> rfl
    · unfold GhostRegion.completeReceive GhostRegion.getSizeArray
      split <;> rfl
    · intro k hk
      show (GhostRegion.completeReceive _ _ _).values k = _
      unfold GhostRegion.completeReceive
      have hf := find?_receiveRequest D n E values fresh hd true
      have hf' : (startReceive D (new D n E (some values) fresh)).receiveRequest.find?
          (fun r => decide (r.buffer
            = (GhostRegion.new { dimension := d, lower := true } n E (fresh d 0)).boundary))
          = some ((GhostRegion.new { dimension := d, lower := true } n E
              (fresh d 0)).initializeReceive D) := hf
      have hs : (startCommunication D (new D n E (some values) fresh)).1.receiveRequest
          = (startReceive D (new D n E (some values) fresh)).receiveRequest := rfl
      rw [hs, hf']
      simp only
      unfold ReceiveRequest.complete
      have hm := find?_startSend D n E values fresh hD hd true
      have hm' : (startCommunication D (new D n E (some values) fresh)).2.find?
          (fun m => decide (m.tag = ((GhostRegion.new { dimension := d, lower := true } n E
              (fresh d 0)).initializeReceive D).tag))
          = _ := hm
      rw [hm']
      simp only
      have hc : ((GhostRegion.new { dimension := d, lower := true } n E
              (fresh d 0)).initializeReceive D).count
          = ((List.replicate D n).set d E).prod := hcount
      rw [hc, if_pos hk]
      simp only [if_true]
      rw [hstart]
      rw [List.getD_eq_getElem?_getD, List.getElem?_map,
        List.getElem?_eq_getElem (by rw [hlen]; exact hk)]
      simp only [Option.map_some', Option.getD_some]
      rw [List.getD_eq_getElem _ _ (by rw [hlen]; exact hk)]
    · intro k hk
      show (GhostRegion.completeReceive _ _ _).values k = _
      unfold GhostRegion.completeReceive
      have hf := find?_receiveRequest D n E values fresh hd false
      have hf' : (startReceive D (new D n E (some values) fresh)).receiveRequest.find?
          (fun r => decide (r.buffer
            = (GhostRegion.new { dimension := d, lower := false } n E (fresh d 1)).boundary))
          = some ((GhostRegion.new { dimension := d, lower := false } n E
              (fresh d 1)).initializeReceive D) := hf
      have hs : (startCommunication D (new D n E (some values) fresh)).1.receiveRequest
          = (startReceive D (new D n E (some values) fresh)).receiveRequest := rfl
      rw [hs, hf']
      simp only
      unfold ReceiveRequest.complete
      have hm := find?_startSend D n E values fresh hD hd false
      have hm' : (startCommunication D (new D n E (some values) fresh)).2.find?
          (fun m => decide (m.tag = ((GhostRegion.new { dimension := d, lower := false } n E
              (fresh d 1)).initializeReceive D).tag))
          = _ := hm
      rw [hm']
      simp only
      have hc : ((GhostRegion.new { dimension := d, lower := false } n E
              (fresh d 1)).initializeReceive D).count
          = ((List.replicate D n).set d E).prod := hcount
      rw [hc, if_pos hk]
      rw [List.getD_eq_getElem?_getD, List.getElem?_map,
        List.getElem?_eq_getElem (by rw [hlen]; exact hk)]
      simp only [Option.map_some', Option.getD_some]
      rw [List.getD_eq_getElem _ _ (by rw [hlen]; exact hk)]
      simp

end ComputationalComposedBlock

theorem ValueFieldBoundaryIterator.new_succeeds {α : Type} {sizes : List Nat} (mn mx ix : Nat)
    (vals : Nat → α) (hpos : ∀ n ∈ sizes, 1 ≤ n) (htot : sizes.prod < 2 ^ 31) :
    ∃ it, ValueFieldBoundaryIterator.new mn mx ix sizes vals = some it := by
  obtain ⟨s, hs⟩ := FieldSteppingStrategy.new_isSome mn mx ix hpos htot
  unfold ValueFieldBoundaryIterator.new BoundaryStepper.new
  rw [hs]
  exact ⟨_, rfl⟩

theorem Spec.set_replicate_lt {D n E d : Nat} (hn : 1 ≤ n) (hEn : E ≤ n) (hd : d < D)
    (htot : n ^ D < 2 ^ 31) : ((List.replicate D n).set d E).prod < 2 ^ 31 := by
  rw [Spec.prod_set_replicate hn hd]
  have hDD : (D - 1).succ = D := by omega
  have e : n ^ (D - 1) * n = n ^ D := by rw [← Nat.pow_succ, hDD]
  have := Nat.mul_le_mul_left (n ^ (D - 1)) hEn
  omega

namespace ComputationalComposedBlock

variable {α : Type}

theorem ghostIterators_spec (D : Nat) (u : Nat → Nat) :
    ∀ (gs : List (GhostRegion α × GhostRegion α)) (i : Nat),
    (∀ p ∈ gs, ((∀ m ∈ p.1.getSizeArray D, 1 ≤ m) ∧ (p.1.getSizeArray D).prod < 2 ^ 31) ∧
      ((∀ m ∈ p.2.getSizeArray D, 1 ≤ m) ∧ (p.2.getSizeArray D).prod < 2 ^ 31)) →
    ∃ sides, ghostIterators D u i gs = some sides ∧
      ∀ d lo hi, gs.get? d = some (lo, hi) →
        ∃ a b mn mx ix mn1 mx1 ix1, sides.get? d = some (a, b) ∧
          ValueFieldBoundaryIterator.new mn mx ix (lo.getSizeArray D) lo.values = some a ∧
          ValueFieldBoundaryIterator.new mn1 mx1 ix1 (hi.getSizeArray D) hi.values = some b := by
  intro gs
  induction gs with
  | nil =>
    intro i _
    exact ⟨[], rfl, by intro d lo hi h; simp at h⟩
  | cons p rest ih =>
    intro i h
    obtain ⟨lo, hi⟩ := p
    obtain ⟨⟨h1p, h1t⟩, h2p, h2t⟩ := h (lo, hi) (List.mem_cons_self _ _)
    obtain ⟨a, ha⟩ := ValueFieldBoundaryIterator.new_succeeds (u (6 * i + 3)) (u (6 * i + 4))
      (u (6 * i + 5)) lo.values h1p h1t
    obtain ⟨b, hb⟩ := ValueFieldBoundaryIterator.new_succeeds (u (6 * i + 6)) (u (6 * i + 7))
      (u (6 * i + 8)) hi.values h2p h2t
    obtain ⟨r, hr, hrest⟩ := ih (i + 1) fun q hq => h q (List.mem_cons_of_mem _ hq)
    refine ⟨(a, b) :: r, ?_, ?_⟩
    · unfold ghostIterators GhostRegion.getBoundaryIterator
      rw [ha, hb, hr]
    · intro d lo1 hi1 hd
      cases d with
      | zero =>
        simp only [List.get?_cons_zero, Option.some.injEq, Prod.mk.injEq] at hd
        obtain ⟨e1, e2⟩ := hd
        subst e1; subst e2
        exact ⟨a, b, _, _, _, _, _, _, rfl, ha, hb⟩
      | succ d =>
        simp only [List.get?_cons_succ] at hd
        obtain ⟨a1, b1, x1, x2, x3, x4, x5, x6, hs, hh⟩ := hrest d lo1 hi1 hd
        exact ⟨a1, b1, x1, x2, x3, x4, x5, x6, by simpa using hs, hh⟩

/-- The boundary iterator of a well-formed block, set to iterate the face `b` by thread `t` of
`N`, stands at the first face cell of the chunk of the thread, together with the iterator of the
side region beyond the face. -/
theorem boundaryIterator_onFace {D n E : Nat} {block : ComputationalComposedBlock α}
    (hw : WellFormed D n E block) {values : Nat → α} (hv : block.values = some values)
    (hE : 1 ≤ E) (hEn : E ≤ n) (htot : n ^ D < 2 ^ 31)
    (u : Nat → Nat) {b : BoundaryId} (hb : b.dimension < D) {t N : Nat} (ht : t < N) :
    ∃ lo hi it0 it1, block.ghostRegions.get? b.dimension = some (lo, hi) ∧
      block.getBoundaryIterator D u = some it0 ∧
      it0.setBoundaryToIterate t N b = some it1 ∧
      ComposedOnFace (List.replicate D n) E b
        (Spec.chunkStart (Spec.faceSize (List.replicate D n) b.dimension) N t)
        (Spec.chunkStart (Spec.faceSize (List.replicate D n) b.dimension) N (t + 1))
        values (if b.lower then lo.values else hi.values)
        (Spec.chunkStart (Spec.faceSize (List.replicate D n) b.dimension) N t) it1 := by
  have hn : 1 ≤ n := by omega
  have hposS : ∀ m ∈ List.replicate D n, 1 ≤ m := Spec.pos_replicate hn
  have htotS : (List.replicate D n).prod < 2 ^ 31 := by rw [Spec.prod_replicate]; exact htot
  have hlenS : (List.replicate D n).length = D := List.length_replicate _ _
  have hgood : ∀ p ∈ block.ghostRegions,
      ((∀ m ∈ p.1.getSizeArray D, 1 ≤ m) ∧ (p.1.getSizeArray D).prod < 2 ^ 31) ∧
      ((∀ m ∈ p.2.getSizeArray D, 1 ≤ m) ∧ (p.2.getSizeArray D).prod < 2 ^ 31) := by
    intro p hp
    obtain ⟨d, hd, hpd⟩ := List.getElem_of_mem hp
    rw [hw.length] at hd
    obtain ⟨lo, hi, hget, hlo, hhi⟩ := hw.ghost d hd
    rw [List.get?_eq_getElem?, List.getElem?_eq_getElem (by rw [hw.length]; exact hd),
      hpd] at hget
    simp only [Option.some.injEq] at hget
    subst hget
    simp only
    rw [hlo, hhi]
    exact ⟨⟨Spec.pos_set hposS hE d, Spec.set_replicate_lt hn hEn hd htot⟩,
      Spec.pos_set hposS hE d, Spec.set_replicate_lt hn hEn hd htot⟩
  obtain ⟨sides, hsides, hget⟩ := ghostIterators_spec D u block.ghostRegions 0 hgood
  obtain ⟨lo, hi, hlohi, hlo, hhi⟩ := hw.ghost b.dimension hb
  obtain ⟨a, c, x1, x2, x3, x4, x5, x6, hs, ha, hc⟩ := hget b.dimension lo hi hlohi
  rw [hlo] at ha
  rw [hhi] at hc
  obtain ⟨m, hm⟩ := ValueFieldBoundaryIterator.new_succeeds (u 0) (u 1) (u 2)
    (fun i => values (block.smallestIndex + i)) hposS htotS
  have hit0 : block.getBoundaryIterator D u
      = some { mainIterator := m, sideIterators := sides, currentBoundary := BoundaryId.new } := by
    unfold getBoundaryIterator
    rw [hv]
    simp only
    rw [hsides]
    simp only
    unfold ComposedFieldBoundaryIterator.new getSizeArray
    rw [hw.elements, hm]
  have hgtot := Spec.set_replicate_lt hn hEn hb htot
  have hgpos := Spec.pos_set hposS hE b.dimension
  obtain ⟨hmT, hmV⟩ := ValueFieldBoundaryIterator.new_spec hposS htotS hm
  obtain ⟨haT, haV⟩ := ValueFieldBoundaryIterator.new_spec hgpos hgtot ha
  obtain ⟨hcT, hcV⟩ := ValueFieldBoundaryIterator.new_spec hgpos hgtot hc
  have hN : 0 < N := by omega
  obtain ⟨it1, hit1, hOn⟩ := @ComposedFieldBoundaryIterator.setBoundaryToIterate_composed α
    (List.replicate D n) E b t N
    { mainIterator := m, sideIterators := sides, currentBoundary := BoundaryId.new } a c
    hposS htotS hE hgtot (by rw [hlenS]; exact hb) hN ht hmT hs haT hcT
  refine ⟨lo, hi, _, it1, hlohi, hit0, hit1, ?_⟩
  have hdata : (fun i => values (block.smallestIndex + i)) = values := by
    funext i
    rw [hw.smallest, Nat.zero_add]
  simp only [hmV, haV, hcV, hdata] at hOn
  exact hOn

end ComputationalComposedBlock

namespace ComposedFieldBoundaryIterator

variable {α : Type}

theorem nextTimes_exists {sizes : List Nat} {E : Nat} {b : BoundaryId} {lo hi : Nat}
    {data ghost : Nat → α}
    (hpos : ∀ n ∈ sizes, 1 ≤ n) (htot : sizes.prod < 2 ^ 31) (hE : 1 ≤ E)
    (hgtot : (sizes.set b.dimension E).prod < 2 ^ 31)
    (hb : b.dimension < sizes.length)
    (hB : hi ≤ Spec.faceSize sizes b.dimension) :
    ∀ (j k : Nat) (it1 : ComposedFieldBoundaryIterator α),
      ComposedOnFace sizes E b lo hi data ghost k it1 → lo ≤ k → k + j ≤ hi →
      ∃ it, it1.nextTimes j = some it ∧ ComposedOnFace sizes E b lo hi data ghost (k + j) it := by
  intro j
  induction j with
  | zero => intro k it1 h _ _; exact ⟨it1, rfl, h⟩
  | succ j ih =>
    intro k it1 h hlo hk
    obtain ⟨it2, h2, hOn2⟩ := next_onFace h hpos htot hE hgtot hb hlo (by omega) hB
    obtain ⟨it, h3, hOn3⟩ := ih (k + 1) it2 hOn2 (by omega) (by omega)
    refine ⟨it, ?_, ?_⟩
    · unfold nextTimes
      rw [h2]
      exact h3
    · have e : k + (j + 1) = k + 1 + j := by omega
      rw [e]; exact hOn3

end ComposedFieldBoundaryIterator

namespace ComputationalComposedBlock

variable {α : Type}

theorem exchanged_wellFormed (D n E : Nat) (values : Nat → α) (fresh : Nat → Nat → Nat → α)
    (hn : 1 ≤ n) (hE : 1 ≤ E) (hEn : E ≤ n) (htot : n ^ D < 2 ^ 31)
    (hD : 2 * D < 2147483648) :
    WellFormed D n E ((new D n E (some values) fresh).exchanged D) := by
  refine ⟨rfl, rfl, ?_, ?_⟩
  · show (List.map _ (createGhostRegions D n E fresh)).length = D
    rw [List.length_map]
    unfold createGhostRegions
    rw [List.length_map, List.length_range]
  · intro d hd
    obtain ⟨-, -, -, -, lo, hi, h1, h2, h3, -⟩ :=
      exchanged_ghost D n E values fresh hn hE hEn htot hD hd
    exact ⟨lo, hi, h1, h2, h3⟩

end ComputationalComposedBlock

/-- Within the size bounds of the hypotheses, where no index computation wraps around:
a composed boundary iterator with main extents `sizes` and side regions of width `E`
(the main extents with `E` along their dimension) is put on the face `b = (d, side)` by
`setBoundaryToIterate` (thread `t` of `N`) and advanced by `next`; it reaches every face cell `p`
of its chunk and is in field there, at the main index `i = faceIndex p`, whose coordinate along
`d` is the face coordinate `c`.  There `currentNeighbor(d, off)` with target `c + off` returns:
the main-buffer element with coordinate `c + off` along `d` when `0 ≤ c + off < sizes[d]`; on the
lower face, for `-E ≤ c + off < 0`, the element of the lower side buffer of dimension `d` with
side coordinate `E + (c + off)` along `d`; on the upper face, for
`sizes[d] ≤ c + off < sizes[d] + E`, the element of the upper side buffer with side coordinate
`c + off - sizes[d]`; in all cases the other coordinates are those of `i`. -/
theorem composed_currentNeighbor_bounded {α : Type} (sizes : List Nat) (E : Nat)
    (mn mx ix a1 a2 a3 b1 b2 b3 : Nat) (data glo ghi : Nat → α)
    (sides : List (ValueFieldBoundaryIterator α × ValueFieldBoundaryIterator α))
    (lowerIt upperIt : ValueFieldBoundaryIterator α) (b : BoundaryId) (t N : Nat) (off : Int)
    (hpos : ∀ n ∈ sizes, 1 ≤ n) (htot : sizes.prod < 2 ^ 31) (hE : 1 ≤ E)
    (hgtot : (sizes.set b.dimension E).prod < 2 ^ 31)
    (hb : b.dimension < sizes.length) (ht : t < N)
    (hsides : sides.get? b.dimension = some (lowerIt, upperIt))
    (hlo : ValueFieldBoundaryIterator.new a1 a2 a3 (sizes.set b.dimension E) glo = some lowerIt)
    (hhi : ValueFieldBoundaryIterator.new b1 b2 b3 (sizes.set b.dimension E) ghi = some upperIt) :
    ∃ it0 it1, ComposedFieldBoundaryIterator.new mn mx ix sizes data sides = some it0 ∧
      it0.setBoundaryToIterate t N b = some it1 ∧
      ∀ p, Spec.chunkStart (Spec.faceSize sizes b.dimension) N t ≤ p →
        p < Spec.chunkStart (Spec.faceSize sizes b.dimension) N (t + 1) →
        ∃ it, it1.nextTimes (p - Spec.chunkStart (Spec.faceSize sizes b.dimension) N t)
            = some it ∧
          it.isInField = true ∧
          it.mainIterator.stepper.index = Spec.faceIndex sizes b.dimension b.lower p ∧
          it.mainIterator.stepper.index < sizes.prod ∧
          it.currentIndex b.dimension
            = some (if b.lower then 0 else sizes.getD b.dimension 0 - 1) ∧
          (∀ T : Nat,
            (T : Int) = ((if b.lower then 0 else sizes.getD b.dimension 0 - 1 : Nat) : Int)
              + off →
            T < sizes.getD b.dimension 0 →
            ∃ idx, it.currentNeighbor b.dimension off = some (data idx) ∧ idx < sizes.prod ∧
              Spec.coordinate sizes idx b.dimension = T ∧
              ∀ e, e ≠ b.dimension → Spec.coordinate sizes idx e
                = Spec.coordinate sizes it.mainIterator.stepper.index e) ∧
          (b.lower = true → ∀ g : Nat, (g : Int) = E + (0 + off) → g < E →
            ∃ idx, it.currentNeighbor b.dimension off = some (glo idx) ∧
              idx < (sizes.set b.dimension E).prod ∧
              Spec.coordinate (sizes.set b.dimension E) idx b.dimension = g ∧
              ∀ e, e ≠ b.dimension → Spec.coordinate (sizes.set b.dimension E) idx e
                = Spec.coordinate sizes it.mainIterator.stepper.index e) ∧
          (b.lower = false → ∀ g : Nat,
            (g : Int) = ((sizes.getD b.dimension 0 - 1 : Nat) : Int) + off
              - sizes.getD b.dimension 0 →
            g < E →
            ∃ idx, it.currentNeighbor b.dimension off = some (ghi idx) ∧
              idx < (sizes.set b.dimension E).prod ∧
              Spec.coordinate (sizes.set b.dimension E) idx b.dimension = g ∧
              ∀ e, e ≠ b.dimension → Spec.coordinate (sizes.set b.dimension E) idx e
                = Spec.coordinate sizes it.mainIterator.stepper.index e) := by
  have hN : 0 < N := by omega
  obtain ⟨m, hm⟩ := ValueFieldBoundaryIterator.new_succeeds mn mx ix data hpos htot
  have hit0 : ComposedFieldBoundaryIterator.new mn mx ix sizes data sides
      = some { mainIterator := m, sideIterators := sides, currentBoundary := BoundaryId.new } := by
    unfold ComposedFieldBoundaryIterator.new
    rw [hm]
  obtain ⟨hmainTab, hdata, hsd⟩ := ComposedFieldBoundaryIterator.new_composed hpos htot hit0
  have hgpos := Spec.pos_set hpos hE b.dimension
  obtain ⟨hloTab, hloVal⟩ := ValueFieldBoundaryIterator.new_spec hgpos hgtot hlo
  obtain ⟨hhiTab, hhiVal⟩ := ValueFieldBoundaryIterator.new_spec hgpos hgtot hhi
  rw [← hsd] at hsides
  obtain ⟨it1, hit1, hOn⟩ := ComposedFieldBoundaryIterator.setBoundaryToIterate_composed hpos
    htot hE hgtot hb hN ht hmainTab hsides hloTab hhiTab
  rw [hdata, hloVal, hhiVal] at hOn
  refine ⟨_, it1, hit0, hit1, ?_⟩
  intro p hp1 hp2
  have hB1 := Spec.faceSize_pos hpos hb
  have hhi1 := Spec.chunkStart_succ_pos hB1 N t
  have hhiB := Spec.chunkStart_le (B := Spec.faceSize sizes b.dimension) hN
    (by omega : t + 1 ≤ N)
  obtain ⟨it, hit, hOnp⟩ := ComposedFieldBoundaryIterator.nextTimes_exists hpos htot hE hgtot
    hb hhiB (p - Spec.chunkStart (Spec.faceSize sizes b.dimension) N t) _ it1 hOn
    (le_refl _) (by omega)
  have ep : Spec.chunkStart (Spec.faceSize sizes b.dimension) N t
      + (p - Spec.chunkStart (Spec.faceSize sizes b.dimension) N t) = p := by
    omega
  rw [ep] at hOnp
  have hin := (ComposedFieldBoundaryIterator.isInField_iff_onFace hOnp hpos hb hp1 hhi1).mpr hp2
  obtain ⟨p1, p2, p3⟩ := ComposedFieldBoundaryIterator.currentNeighbor_onFace hOnp hpos htot hE
    hgtot hb hp1 hp2 hhiB off
  have hidx := hOnp.main.index
  have hfc : Spec.faceCoordinate sizes b.dimension b.lower
      = if b.lower then 0 else sizes.getD b.dimension 0 - 1 := rfl
  rw [← hidx] at p1 p2 p3
  rw [hfc] at p1
  refine ⟨it, hit, hin, hidx, ?_, ?_, p1, ?_, ?_⟩
  · rw [hidx]
    have hfs : Spec.faceSize sizes b.dimension = sizes.prod / sizes.getD b.dimension 0 := rfl
    exact Spec.faceIndex_lt_prod hpos hb b.lower (by rw [← hfs]; omega)
  · unfold ComposedFieldBoundaryIterator.currentIndex
    rw [hOnp.main.currentIndex_eq hpos htot hb hp1 hp2 hhiB hb,
      Spec.coordinate_faceIndex hpos hb, hfc]
  · intro hl g hg hgE
    simp only [hl, if_true] at p2
    exact p2 trivial g (by omega) hgE
  · intro hl g hg hgE
    have hn1 := Spec.size_pos hpos hb
    simp only [hl] at p3
    exact p3 trivial g (by omega) hgE

/-- The bounded statement on the fixture of `ComposedFieldBoundaryIteratorTest` (extents 5 x 5 x 5,
width 4), on the upper boundary of dimension 1 with a single thread: the iterator reaches the face
cell 7 (main index 47) by seven calls of `next`, and the neighbour at offset 3 is an element of the
upper ghost buffer of dimension 1 whose coordinate along dimension 1 is 2. -/
theorem composed_currentNeighbor_bounded_witness :
    ∃ it0 it1, ComposedFieldBoundaryIterator.new 0 0 0 [5, 5, 5] (fun i => 33 * i)
        fixtureGhostIterators = some it0 ∧
      it0.setBoundaryToIterate 0 1 { dimension := 1, lower := false } = some it1 ∧
      ∃ it, it1.nextTimes (7 - Spec.chunkStart (Spec.faceSize [5, 5, 5] 1) 1 0) = some it ∧
        it.isInField = true ∧
        it.mainIterator.stepper.index = Spec.faceIndex [5, 5, 5] 1 false 7 ∧
        ∃ idx, it.currentNeighbor 1 3 = some (1000 * 1 + 100 * 1 + idx) ∧
          idx < ([5, 5, 5].set 1 4).prod ∧
          Spec.coordinate ([5, 5, 5].set 1 4) idx 1 = 2 ∧
          ∀ e, e ≠ 1 → Spec.coordinate ([5, 5, 5].set 1 4) idx e
            = Spec.coordinate [5, 5, 5] it.mainIterator.stepper.index e := by
  obtain ⟨it0, it1, h0, h1, h⟩ := composed_currentNeighbor_bounded [5, 5, 5] 4 0 0 0 0 0 0 0 0 0
    (fun i => 33 * i) (fun k => 1000 * 1 + 100 * 0 + k) (fun k => 1000 * 1 + 100 * 1 + k)
    fixtureGhostIterators ((fixtureGhostIterator 1 0).get rfl)
    ((fixtureGhostIterator 1 1).get rfl) { dimension := 1, lower := false } 0 1 3
    (by decide) (by decide) (by decide) (by decide) (by decide) (by decide) rfl
    (Option.some_get _).symm (Option.some_get _).symm
  obtain ⟨it, h2, h3, h4, -, -, -, -, h5⟩ := h 7 (by decide) (by decide)
  exact ⟨it0, it1, h0, h1, it, h2, h3, h4, h5 rfl 2 (by decide) (by decide)⟩

theorem Spec.coordinate_ge_length {sizes : List Nat} {i e : Nat} (hi : i < sizes.prod)
    (he : sizes.length ≤ e) : Spec.coordinate sizes i e = 0 := by
  unfold Spec.coordinate Spec.stride
  rw [List.take_of_length_le he, Nat.div_eq_of_lt hi, Nat.zero_mod]

/-- Within the size bounds of the hypotheses, where no index computation wraps around:
on a single-process periodic topology, after `startCommunication` and the completion of
all receives (a strided send is the gather of the slab cells in the order of its datatype,
dimension 0 fastest, copied to the front of the receiving side buffer), the composed boundary
iterator of the block, set to the face `b = (d, side)` by thread `t` of `N`, reaches every face
cell `p` of its chunk by `next`, is in field there at the main index `faceIndex p`, and for every
`k` in `[1, E]` returns as `currentNeighbor(d, -k)` (lower face) or `currentNeighbor(d, +k)`
(upper face) the main value whose coordinate along `d` is `n - k` (lower face) or `k - 1` (upper
face) and whose other coordinates are those of the current cell. -/
theorem halo_exchange_periodic_bounded {α : Type} (D n E : Nat) (values : Nat → α)
    (fresh : Nat → Nat → Nat → α) (u : Nat → Nat) (b : BoundaryId) (t N : Nat)
    (hE : 1 ≤ E) (hEn : E ≤ n) (htot : n ^ D < 2 ^ 31) (hD : 2 * D < 2147483648)
    (hb : b.dimension < D) (ht : t < N) :
    ∃ it0 it1,
      ((ComputationalComposedBlock.new D n E (some values) fresh).exchanged D).getBoundaryIterator
        D u = some it0 ∧
      it0.setBoundaryToIterate t N b = some it1 ∧
      ∀ p, Spec.chunkStart (Spec.faceSize (List.replicate D n) b.dimension) N t ≤ p →
        p < Spec.chunkStart (Spec.faceSize (List.replicate D n) b.dimension) N (t + 1) →
        ∃ it, it1.nextTimes
            (p - Spec.chunkStart (Spec.faceSize (List.replicate D n) b.dimension) N t) = some it ∧
          it.isInField = true ∧
          it.mainIterator.stepper.index
            = Spec.faceIndex (List.replicate D n) b.dimension b.lower p ∧
          ∀ k : Nat, 1 ≤ k → k ≤ E →
            ∃ idx, it.currentNeighbor b.dimension (if b.lower then -(k : Int) else (k : Int))
                = some (values idx) ∧
              idx < n ^ D ∧
              Spec.coordinate (List.replicate D n) idx b.dimension
                = (if b.lower then n - k else k - 1) ∧
              ∀ e, e ≠ b.dimension → Spec.coordinate (List.replicate D n) idx e
                = Spec.coordinate (List.replicate D n)
                    (Spec.faceIndex (List.replicate D n) b.dimension b.lower p) e := by
  have hn : 1 ≤ n := by omega
  have hposS : ∀ m ∈ List.replicate D n, 1 ≤ m := Spec.pos_replicate hn
  have htotS : (List.replicate D n).prod < 2 ^ 31 := by rw [Spec.prod_replicate]; exact htot
  have hlenS : (List.replicate D n).length = D := List.length_replicate _ _
  have hbS : b.dimension < (List.replicate D n).length := by rw [hlenS]; exact hb
  have hgtot := Spec.set_replicate_lt hn hEn hb htot
  have hN : 0 < N := by omega
  have hw := ComputationalComposedBlock.exchanged_wellFormed D n E values fresh hn hE hEn htot hD
  obtain ⟨hval, -, -, -, lo, hi, hget, -, -, hloV, hhiV⟩ :=
    ComputationalComposedBlock.exchanged_ghost D n E values fresh hn hE hEn htot hD hb
  obtain ⟨lo1, hi1, it0, it1, hget1, hit0, hit1, hOn⟩ :=
    ComputationalComposedBlock.boundaryIterator_onFace hw hval hE hEn htot u hb ht
  rw [hget] at hget1
  simp only [Option.some.injEq, Prod.mk.injEq] at hget1
  obtain ⟨e1, e2⟩ := hget1
  subst e1; subst e2
  refine ⟨it0, it1, hit0, hit1, ?_⟩
  intro p hp1 hp2
  have hB1 := Spec.faceSize_pos hposS hbS
  have hhi1 := Spec.chunkStart_succ_pos hB1 N t
  have hhiB := Spec.chunkStart_le (B := Spec.faceSize (List.replicate D n) b.dimension) hN
    (by omega : t + 1 ≤ N)
  obtain ⟨it, hit, hOnp⟩ := ComposedFieldBoundaryIterator.nextTimes_exists hposS htotS hE hgtot
    hbS hhiB (p - Spec.chunkStart (Spec.faceSize (List.replicate D n) b.dimension) N t) _ it1 hOn
    (le_refl _) (by omega)
  have ep : Spec.chunkStart (Spec.faceSize (List.replicate D n) b.dimension) N t
      + (p - Spec.chunkStart (Spec.faceSize (List.replicate D n) b.dimension) N t) = p := by
    omega
  rw [ep] at hOnp
  have hin := (ComposedFieldBoundaryIterator.isInField_iff_onFace hOnp hposS hbS hp1 hhi1).mpr hp2
  refine ⟨it, hit, hin, hOnp.main.index, ?_⟩
  intro k hk1 hkE
  have h64 : n ^ D < U64 := by unfold U64; omega
  obtain ⟨-, hdt⟩ := ComputationalComposedBlock.tmpTypes_spec D n E b.dimension hn hE hEn h64 D
    (le_refl _)
  have hstrG : Spec.stride ((List.replicate D n).set b.dimension E) D
      = ((List.replicate D n).set b.dimension E).prod := by
    have hl : ((List.replicate D n).set b.dimension E).length = D := by
      rw [List.length_set, List.length_replicate]
    have := Spec.stride_length ((List.replicate D n).set b.dimension E)
    rw [hl] at this
    exact this
  have hstrS : Spec.stride (List.replicate D n) D = n ^ D := Spec.stride_replicate D n D (le_refl _)
  have hstrd : Spec.stride (List.replicate D n) b.dimension = n ^ b.dimension :=
    Spec.stride_replicate D n _ (by omega)
  have hnd : (List.replicate D n).getD b.dimension 0 = n := Spec.getD_replicate hb
  rw [hstrG] at hdt
  obtain ⟨-, p2, p3⟩ := ComposedFieldBoundaryIterator.currentNeighbor_onFace hOnp hposS htotS hE
    hgtot hbS hp1 hp2 hhiB (if b.lower then -(k : Int) else (k : Int))
  cases hl : b.lower with
  | true =>
    simp only [hl, if_true] at p2 ⊢
    obtain ⟨g, hg, hglt, hgd, hge⟩ := p2 trivial (E - k) (by omega) (by omega)
    obtain ⟨hx, hcoord⟩ := hdt g hglt
    rw [hstrS] at hx
    have hmove := Spec.coordinate_move (List.replicate D n)
      ((ComputationalComposedBlock.tmpTypes n E b.dimension D).getD g 0)
      ((n - E) * n ^ b.dimension
        + (ComputationalComposedBlock.tmpTypes n E b.dimension D).getD g 0)
      b.dimension (n - k) hbS (by rw [Spec.prod_replicate]; exact hx)
      (by
        rw [hcoord b.dimension hb, hgd, hstrd]
        have e1 : n - k = (n - E) + (E - k) := by omega
        rw [e1]; ring)
      (by rw [hnd]; omega)
    rw [Spec.prod_replicate] at hmove
    refine ⟨_, ?_, hmove.1, hmove.2.1, ?_⟩
    · rw [hg, hloV g hglt]
    · intro e he
      rcases Nat.lt_or_ge e D with heD | heD
      · rw [hmove.2.2 e he, hcoord e heD, hge e he]
      · rw [Spec.coordinate_ge_length (by rw [Spec.prod_replicate]; exact hmove.1)
            (by rw [hlenS]; exact heD),
          Spec.coordinate_ge_length (Spec.faceIndex_lt_prod hposS hbS _ (by
            have hfs : Spec.faceSize (List.replicate D n) b.dimension
              = (List.replicate D n).prod / (List.replicate D n).getD b.dimension 0 := rfl
            rw [← hfs]; omega)) (by rw [hlenS]; exact heD)]
  | false =>
    simp only [hl] at p3 ⊢
    simp only [Bool.false_eq_true, if_false] at p3 ⊢
    obtain ⟨g, hg, hglt, hgd, hge⟩ := p3 trivial (k - 1) (by omega) (by omega)
    obtain ⟨hx, hcoord⟩ := hdt g hglt
    rw [hstrS] at hx
    refine ⟨_, ?_, hx, ?_, ?_⟩
    · rw [hg, hhiV g hglt]
    · rw [hcoord b.dimension hb, hgd]
    · intro e he
      rcases Nat.lt_or_ge e D with heD | heD
      · rw [hcoord e heD, hge e he]
      · rw [Spec.coordinate_ge_length (by rw [Spec.prod_replicate]; exact hx)
            (by rw [hlenS]; exact heD),
          Spec.coordinate_ge_length (Spec.faceIndex_lt_prod hposS hbS _ (by
            have hfs : Spec.faceSize (List.replicate D n) b.dimension
              = (List.replicate D n).prod / (List.replicate D n).getD b.dimension 0 := rfl
            rw [← hfs]; omega)) (by rw [hlenS]; exact heD)]

/-- The bounded statement for the block of `ComputationalComposedBlockTest` (three dimensions, 10
elements per dimension, extent 4), with values `i`, on the lower face of dimension 1 with a single
thread. -/
theorem halo_exchange_periodic_bounded_witness :
    (1 ≤ 4 ∧ 4 ≤ 10 ∧ 10 ^ 3 < 2 ^ 31 ∧ 2 * 3 < 2147483648 ∧ 1 < 3 ∧ 0 < 1) ∧
    ∃ it0 it1,
      ((ComputationalComposedBlock.new 3 10 4 (some fun i => i)
          (fun _ _ _ => 0)).exchanged 3).getBoundaryIterator 3 (fun _ => 0) = some it0 ∧
      it0.setBoundaryToIterate 0 1 { dimension := 1, lower := true } = some it1 ∧
      ∀ p, Spec.chunkStart (Spec.faceSize (List.replicate 3 10) 1) 1 0 ≤ p →
        p < Spec.chunkStart (Spec.faceSize (List.replicate 3 10) 1) 1 (0 + 1) →
        ∃ it, it1.nextTimes (p - Spec.chunkStart (Spec.faceSize (List.replicate 3 10) 1) 1 0)
            = some it ∧
          it.isInField = true ∧
          it.mainIterator.stepper.index = Spec.faceIndex (List.replicate 3 10) 1 true p ∧
          ∀ k : Nat, 1 ≤ k → k ≤ 4 →
            ∃ idx, it.currentNeighbor 1 (if true then -(k : Int) else (k : Int)) = some idx ∧
              idx < 10 ^ 3 ∧
              Spec.coordinate (List.replicate 3 10) idx 1 = (if true then 10 - k else k - 1) ∧
              ∀ e, e ≠ 1 → Spec.coordinate (List.replicate 3 10) idx e
                = Spec.coordinate (List.replicate 3 10)
                    (Spec.faceIndex (List.replicate 3 10) 1 true p) e :=
  ⟨by decide, halo_exchange_periodic_bounded 3 10 4 (fun i => i) (fun _ _ _ => 0) (fun _ => 0)
    { dimension := 1, lower := true } 0 1 (by decide) (by decide) (by decide) (by decide)
    (by decide) (by decide)⟩

namespace InChunk

variable {α : Type} {sizes : List Nat} {lo hi k : Nat} {vals : Nat → α}
  {it : ValueFieldIterator α}

theorem chunk_inField_iff (h : InChunk sizes lo hi vals k it) (hlo : lo ≤ k) :
    it.isInField = true ↔ k < hi := by
  unfold ValueFieldIterator.isInField
  rw [FieldSteppingStrategy.isInField_iff, h.index, h.minIndex]
  have := h.maxIndex
  omega

theorem chunk_next (h : InChunk sizes lo hi vals k it) (hlo : lo ≤ k) (hk : k < hi)
    (hB : hi < 2 ^ 31) :
    ∃ it1, it.next = some it1 ∧ InChunk sizes lo hi vals (k + 1) it1 := by
  have hin := (h.chunk_inField_iff hlo).mpr hk
  unfold ValueFieldIterator.isInField at hin
  refine ⟨{ it with stepper := { it.stepper with index := (it.stepper.index + 1) % U64 } }, ?_, ?_⟩
  · unfold ValueFieldIterator.next WholeFieldStepper.next
    rw [if_pos hin]
  · have hidx : (it.stepper.index + 1) % U64 = k + 1 := by
      rw [h.index]; apply Nat.mod_eq_of_lt; unfold U64; omega
    exact ⟨h.tables.of_eq rfl rfl rfl rfl rfl, hidx, h.minIndex, h.maxIndex, h.values⟩

theorem chunk_currentIndex (h : InChunk sizes lo hi vals k it) (hpos : ∀ n ∈ sizes, 1 ≤ n)
    (htot : sizes.prod < 2 ^ 31) (hlo : lo ≤ k) (hk : k < hi) (hB : hi ≤ sizes.prod)
    {e : Nat} (he : e < sizes.length) :
    it.currentIndex e = some (Spec.coordinate sizes k e) := by
  have hin := (h.chunk_inField_iff hlo).mpr hk
  unfold ValueFieldIterator.isInField at hin
  unfold ValueFieldIterator.currentIndex PureFieldIterator.currentIndex
  rw [if_pos hin, FieldSteppingStrategy.currentIndex_of_tables hpos htot h.tables hin
    (by rw [h.tables.total_eq, h.index]; omega) he, h.index]

theorem chunk_currentValue (h : InChunk sizes lo hi vals k it) (hlo : lo ≤ k) (hk : k < hi) :
    it.currentValue = some (vals k) := by
  have hin := (h.chunk_inField_iff hlo).mpr hk
  unfold ValueFieldIterator.isInField at hin
  unfold ValueFieldIterator.currentValue PureFieldIterator.currentValue
  rw [if_pos hin, h.index]
  simp only [ValueArray.getValue, h.values]

theorem chunk_setCurrentValue (h : InChunk sizes lo hi vals k it) (hlo : lo ≤ k) (hk : k < hi)
    (v : α) :
    ∃ it1, it.setCurrentValue v = some it1 ∧
      InChunk sizes lo hi (fun i => if i = k then v else vals i) k it1 := by
  have hin := (h.chunk_inField_iff hlo).mpr hk
  unfold ValueFieldIterator.isInField at hin
  refine ⟨{ it with getter := it.getter.setValue it.stepper.index v }, ?_, ?_⟩
  · unfold ValueFieldIterator.setCurrentValue PureFieldIterator.setCurrentValue
    rw [if_pos hin]
  · refine ⟨h.tables, h.index, h.minIndex, h.maxIndex, ?_⟩
    simp only [ValueArray.setValue, h.index, h.values]

theorem chunk_currentNeighbor (h : InChunk sizes lo hi vals k it) (hpos : ∀ n ∈ sizes, 1 ≤ n)
    (htot : sizes.prod < 2 ^ 31) (hlo : lo ≤ k) (hk : k < hi) (hB : hi ≤ sizes.prod)
    {d : Nat} (hd : d < sizes.length) (off : Int) (c1 : Nat)
    (hc : (c1 : Int) = Spec.coordinate sizes k d + off) (h1 : c1 < sizes.getD d 0) :
    ∃ j, it.currentNeighbor d off = some (vals j) ∧ j < sizes.prod ∧
      Spec.coordinate sizes j d = c1 ∧
      ∀ e, e ≠ d → Spec.coordinate sizes j e = Spec.coordinate sizes k e := by
  have hin := (h.chunk_inField_iff hlo).mpr hk
  unfold ValueFieldIterator.isInField at hin
  have hlt : it.stepper.index < it.stepper.totalSize := by
    rw [h.tables.total_eq, h.index]; omega
  have hc' : (c1 : Int) = Spec.coordinate sizes it.stepper.index d + off := by
    rw [h.index]; exact hc
  obtain ⟨hnif, j, hj, hjlt, -, hjd, hje⟩ :=
    FieldSteppingStrategy.neighbor_of_tables hpos htot h.tables hin hlt hd hc' h1
  refine ⟨j, ?_, hjlt, hjd, ?_⟩
  · unfold ValueFieldIterator.currentNeighbor PureFieldIterator.currentNeighbor
    rw [hnif]
    simp only [hj, ValueArray.getValue, h.values]
  · intro e he
    rw [hje e he, h.index]

end InChunk

theorem ValueFieldIterator.new_inChunk {α : Type} {sizes : List Nat} {t N : Nat}
    (vals : Nat → α) (hpos : ∀ n ∈ sizes, 1 ≤ n) (htot : sizes.prod < 2 ^ 31) (hN : 0 < N)
    (ht : t < N) :
    ∃ it, ValueFieldIterator.new t N sizes vals = some it ∧
      InChunk sizes (Spec.chunkStart sizes.prod N t) (Spec.chunkStart sizes.prod N (t + 1)) vals
        (Spec.chunkStart sizes.prod N t) it := by
  obtain ⟨s, hs, htab, h1, h2, h3, -⟩ := WholeFieldStepper.new_limits hpos htot hN ht
  refine ⟨{ stepper := s, getter := { values := vals } }, ?_, ?_⟩
  · unfold ValueFieldIterator.new
    rw [hs]
  · refine ⟨htab, ?_, ?_, ?_, rfl⟩
    · show s.index = _
      rw [h1, h2]; rfl
    · show s.minIndex = _
      rw [h2]; rfl
    · show s.maxIndex + 1 = _
      rw [Spec.chunkStart_succ, h3, h2]
      unfold Spec.chunkStart Spec.chunkSize
      omega

theorem Spec.coordinates_length (sizes : List Nat) (x : Nat) :
    (Spec.coordinates sizes x).length = sizes.length := by
  unfold Spec.coordinates
  rw [List.length_map, List.length_range]

theorem Spec.coordinates_getD (sizes : List Nat) (x : Nat) {e : Nat} (he : e < sizes.length) :
    (Spec.coordinates sizes x).getD e 0 = Spec.coordinate sizes x e := by
  unfold Spec.coordinates
  rw [List.getD_eq_getElem?_getD, List.getElem?_map, List.getElem?_range he]
  rfl

theorem Spec.coordinates_set_getD (sizes : List Nat) (x d T : Nat) {e : Nat}
    (he : e < sizes.length) :
    ((Spec.coordinates sizes x).set d T).getD e 0
      = if e = d then T else Spec.coordinate sizes x e := by
  rw [List.getD_eq_getElem?_getD, List.getElem?_set]
  by_cases h1 : e = d
  · subst h1
    rw [if_pos rfl, if_pos (by rw [Spec.coordinates_length]; exact he), if_pos rfl]
    rfl
  · rw [if_neg (fun h => h1 h.symm), if_neg h1, ← List.getD_eq_getElem?_getD,
      Spec.coordinates_getD sizes x he]

/-- An index is the linear index of its coordinate tuple. -/
theorem Spec.eq_linearIndex {sizes c : List Nat} {idx : Nat} (hpos : ∀ n ∈ sizes, 1 ≤ n)
    (hlen : c.length = sizes.length) (hidx : idx < sizes.prod)
    (h : ∀ e, e < sizes.length → Spec.coordinate sizes idx e = c.getD e 0) :
    idx = Spec.linearIndex sizes c := by
  obtain ⟨h1, h2⟩ := Spec.coordinate_surjective sizes c hlen (fun d hd => by
    rw [← h d hd]; exact Spec.coordinate_lt hpos idx hd)
  apply Spec.coordinate_injective hidx h1
  intro d hd
  rw [h d hd]
  exact (h2 d hd).symm

/-- The index with coordinate `T` along `d` in a field with extents `sizes1` and the coordinates
of `x` (in a field with extents `sizes`) elsewhere. -/
theorem Spec.eq_linearIndex_set {sizes sizes1 : List Nat} {x idx d T : Nat}
    (hpos : ∀ n ∈ sizes1, 1 ≤ n) (hlen : sizes1.length = sizes.length)
    (hidx : idx < sizes1.prod) (hd : Spec.coordinate sizes1 idx d = T)
    (he : ∀ e, e ≠ d → Spec.coordinate sizes1 idx e = Spec.coordinate sizes x e) :
    idx = Spec.linearIndex sizes1 ((Spec.coordinates sizes x).set d T) := by
  apply Spec.eq_linearIndex hpos (by rw [List.length_set, Spec.coordinates_length, hlen]) hidx
  intro e hel
  rw [Spec.coordinates_set_getD sizes x d T (by rw [← hlen]; exact hel)]
  split_ifs with h1
  · rw [h1]; exact hd
  · exact he e h1

theorem Spec.linearIndex_set_lt {sizes sizes1 : List Nat} {x d T : Nat}
    (hpos : ∀ n ∈ sizes, 1 ≤ n) (hlen : sizes1.length = sizes.length)
    (hd : d < sizes.length) (hT : T < sizes1.getD d 0)
    (hsame : ∀ e, e ≠ d → sizes1.getD e 0 = sizes.getD e 0) :
    Spec.linearIndex sizes1 ((Spec.coordinates sizes x).set d T) < sizes1.prod ∧
    Spec.coordinate sizes1 (Spec.linearIndex sizes1 ((Spec.coordinates sizes x).set d T)) d
      = T ∧
    ∀ e, e ≠ d → e < sizes.length →
      Spec.coordinate sizes1 (Spec.linearIndex sizes1 ((Spec.coordinates sizes x).set d T)) e
        = Spec.coordinate sizes x e := by
  have hget : ∀ e, e < sizes1.length →
      ((Spec.coordinates sizes x).set d T).getD e 0 < sizes1.getD e 0 := by
    intro e he
    rw [Spec.coordinates_set_getD sizes x d T (by rw [← hlen]; exact he)]
    split_ifs with h1
    · rw [h1]; exact hT
    · rw [hsame e h1]; exact Spec.coordinate_lt hpos x (by rw [← hlen]; exact he)
  obtain ⟨h1, h2⟩ := Spec.coordinate_surjective sizes1 ((Spec.coordinates sizes x).set d T)
    (by rw [List.length_set, Spec.coordinates_length, hlen]) hget
  refine ⟨h1, ?_, ?_⟩
  · have := h2 d (by rw [hlen]; exact hd)
    rw [Spec.coordinates_set_getD sizes x d T hd, if_pos rfl] at this
    exact this
  · intro e he hel
    have := h2 e (by rw [hlen]; exact hel)
    rw [Spec.coordinates_set_getD sizes x d T hel, if_neg he] at this
    exact this

theorem Spec.coordinates_set_congr {sizes : List Nat} {x y d : Nat} (T : Nat)
    (h : ∀ e, e ≠ d → e < sizes.length → Spec.coordinate sizes x e = Spec.coordinate sizes y e) :
    (Spec.coordinates sizes x).set d T = (Spec.coordinates sizes y).set d T := by
  apply List.ext_getElem
  · rw [List.length_set, List.length_set, Spec.coordinates_length, Spec.coordinates_length]
  · intro e h1 h2
    have hel : e < sizes.length := by
      rw [List.length_set, Spec.coordinates_length] at h1; exact h1
    have a := Spec.coordinates_set_getD sizes x d T hel
    have b := Spec.coordinates_set_getD sizes y d T hel
    rw [List.getD_eq_getElem _ _ h1] at a
    rw [List.getD_eq_getElem _ _ h2] at b
    rw [a, b]
    split_ifs with h3
    · rfl
    · exact h e h3 hel

/-- The value `u(x + off e_d)` depends on `x` only through the target coordinate and the other
coordinates. -/
theorem Spec.neighborValue_congr {α : Type} (D n E : Nat) (main : Nat → α)
    (ghost : Nat → Nat → Nat → α) {x y d : Nat} {off off1 : Int}
    (hc : (Spec.coordinate (List.replicate D n) x d : Int) + off
      = (Spec.coordinate (List.replicate D n) y d : Int) + off1)
    (h : ∀ e, e ≠ d → e < D → Spec.coordinate (List.replicate D n) x e
      = Spec.coordinate (List.replicate D n) y e) :
    Spec.neighborValue D n E main ghost x d off = Spec.neighborValue D n E main ghost y d off1 := by
  unfold Spec.neighborValue
  simp only
  rw [hc]
  have hh : ∀ T, (Spec.coordinates (List.replicate D n) x).set d T
      = (Spec.coordinates (List.replicate D n) y).set d T := fun T =>
    Spec.coordinates_set_congr T fun e he hel => h e he (by
      rw [List.length_replicate] at hel; exact hel)
  simp only [hh]

theorem accumulate_eq_sum {α : Type} [CommRing α] (term : Nat → Option α) (f : Nat → α) :
    ∀ (count : Nat) (r : α), (∀ i, i < count → term i = some (f i)) →
    accumulate term count r = some (r + ∑ i in Finset.range count, f i) := by
  intro count
  induction count with
  | zero => intro r _; simp [accumulate]
  | succ c ih =>
    intro r h
    unfold accumulate
    rw [ih r fun i hi => h i (by omega), h c (by omega)]
    simp only [Finset.sum_range_succ, add_assoc]

theorem Spec.pow_le_of_lt {D n d : Nat} (hn : 1 ≤ n) (hd : d < D) : n ≤ n ^ D := by
  calc n = n ^ 1 := (Nat.pow_one n).symm
    _ ≤ n ^ D := Nat.pow_le_pow_right hn (by omega)

section neighborValue

variable {α : Type} (D n E : Nat) (main : Nat → α) (ghost : Nat → Nat → Nat → α)

theorem Spec.neighborValue_main {x d : Nat} {off : Int} {idx T : Nat} (hn : 1 ≤ n)
    (hT : (T : Int) = Spec.coordinate (List.replicate D n) x d + off) (hTn : T < n)
    (hidx : idx < (List.replicate D n).prod)
    (hd : Spec.coordinate (List.replicate D n) idx d = T)
    (he : ∀ e, e ≠ d → Spec.coordinate (List.replicate D n) idx e
      = Spec.coordinate (List.replicate D n) x e) :
    Spec.neighborValue D n E main ghost x d off = main idx := by
  unfold Spec.neighborValue
  simp only
  rw [← hT, if_neg (by omega), if_pos (by omega), Int.toNat_ofNat]
  rw [← Spec.eq_linearIndex_set (Spec.pos_replicate hn) rfl hidx hd he]

theorem Spec.neighborValue_lower {x d : Nat} {off : Int} {idx g : Nat} (hE : 1 ≤ E)
    (hn : 1 ≤ n)
    (hg : (g : Int) = E + (Spec.coordinate (List.replicate D n) x d + off)) (hgE : g < E)
    (hidx : idx < ((List.replicate D n).set d E).prod)
    (hd : Spec.coordinate ((List.replicate D n).set d E) idx d = g)
    (he : ∀ e, e ≠ d → Spec.coordinate ((List.replicate D n).set d E) idx e
      = Spec.coordinate (List.replicate D n) x e) :
    Spec.neighborValue D n E main ghost x d off = ghost d 0 idx := by
  unfold Spec.neighborValue
  simp only
  rw [if_pos (by omega), ← hg, Int.toNat_ofNat]
  rw [← Spec.eq_linearIndex_set (Spec.pos_set (Spec.pos_replicate hn) hE d)
    (by rw [List.length_set]) hidx hd he]

theorem Spec.neighborValue_upper {x d : Nat} {off : Int} {idx g : Nat} (hE : 1 ≤ E)
    (hn : 1 ≤ n)
    (hg : (g : Int) = Spec.coordinate (List.replicate D n) x d + off - n)
    (hidx : idx < ((List.replicate D n).set d E).prod)
    (hd : Spec.coordinate ((List.replicate D n).set d E) idx d = g)
    (he : ∀ e, e ≠ d → Spec.coordinate ((List.replicate D n).set d E) idx e
      = Spec.coordinate (List.replicate D n) x e) :
    Spec.neighborValue D n E main ghost x d off = ghost d 1 idx := by
  unfold Spec.neighborValue
  simp only
  rw [if_neg (by omega), if_neg (by omega), ← hg, Int.toNat_ofNat]
  rw [← Spec.eq_linearIndex_set (Spec.pos_set (Spec.pos_replicate hn) hE d)
    (by rw [List.length_set]) hidx hd he]

theorem Spec.neighborValue_zero {x d : Nat} (hn : 1 ≤ n) (hx : x < (List.replicate D n).prod)
    (hd : d < D) : Spec.neighborValue D n E main ghost x d 0 = main x := by
  have hc := Spec.coordinate_lt (Spec.pos_replicate hn) x
    (by rw [List.length_replicate]; exact hd : d < (List.replicate D n).length)
  rw [Spec.getD_replicate hd] at hc
  exact Spec.neighborValue_main D n E main ghost hn (by omega) hc hx rfl fun e _ => rfl

end neighborValue

namespace MultuncialStencil

theorem chunk_neighborValue {α : Type} {D n E : Nat} {main : Nat → α} (ghost : Nat → Nat → Nat → α)
    {lo hi k : Nat} {it : ValueFieldIterator α}
    (h : InChunk (List.replicate D n) lo hi main k it) (hn : 1 ≤ n) (htot : n ^ D < 2 ^ 31)
    (hlo : lo ≤ k) (hk : k < hi) (hB : hi ≤ n ^ D) {d : Nat} (hd : d < D) (off : Int) (T : Nat)
    (hT : (T : Int) = Spec.coordinate (List.replicate D n) k d + off) (hTn : T < n) :
    it.currentNeighbor d off = some (Spec.neighborValue D n E main ghost k d off) := by
  have hposS : ∀ m ∈ List.replicate D n, 1 ≤ m := Spec.pos_replicate hn
  have hprod : (List.replicate D n).prod = n ^ D := Spec.prod_replicate D n
  obtain ⟨j, hj, hjlt, hjd, hje⟩ := h.chunk_currentNeighbor hposS (by rw [hprod]; exact htot) hlo
    hk (by rw [hprod]; exact hB) (by rw [List.length_replicate]; exact hd) off T hT
    (by rw [Spec.getD_replicate hd]; exact hTn)
  rw [hj, Spec.neighborValue_main D n E main ghost hn hT hTn hjlt hjd hje]

variable {α : Type} [CommRing α]

theorem toInt32_left {E i : Nat} (hi : i < E) (hE : E < 2147483648) :
    toInt32 ((sub32 0 E + i) % U64) = (i : Int) - (E : Int) := by
  unfold toInt32 sub32 U64 U32
  have h1 : (0 + 4294967296 - E) % 4294967296 = 4294967296 - E := by omega
  rw [h1]
  have h2 : (4294967296 - E + i) % 18446744073709551616 = 4294967296 - E + i := by omega
  rw [h2]
  have h3 : (4294967296 - E + i) % 4294967296 = 4294967296 - E + i := by omega
  rw [h3, if_neg (by omega)]
  omega

theorem toInt32_mod {x : Nat} (h : x < 2147483648) : toInt32 (x % U64) = (x : Int) := by
  rw [Nat.mod_eq_of_lt (by unfold U64; omega), toInt32_of_lt h]

/-- The body of the loop over `d` in `applyInInnerRegion` adds the inner term of dimension
`d`. -/
theorem innerDimension_eq {D n E : Nat} {main : Nat → α} (w : Nat → Int → α)
    (ghost : Nat → Nat → Nat → α) {lo hi k : Nat} {it : ValueFieldIterator α}
    (h : InChunk (List.replicate D n) lo hi main k it) (hE : 1 ≤ E) (hEn : E ≤ n)
    (hE2 : 2 * E < 2147483648)
    (htot : n ^ D < 2 ^ 31) (hlo : lo ≤ k) (hk : k < hi) (hB : hi ≤ n ^ D) {d : Nat}
    (hd : d < D) (r : α) :
    innerDimension E n w it d r = some (r + Spec.innerTerm D n E w main ghost k d) := by
  have hn : 1 ≤ n := by omega
  have hposS : ∀ m ∈ List.replicate D n, 1 ≤ m := Spec.pos_replicate hn
  have hprod : (List.replicate D n).prod = n ^ D := Spec.prod_replicate D n
  have hlenS : (List.replicate D n).length = D := List.length_replicate _ _
  have hn31 : n < 2147483648 := by
    have := Spec.pow_le_of_lt hn hd
    omega
  have hc := Spec.coordinate_lt hposS k (by rw [hlenS]; exact hd : d < (List.replicate D n).length)
  rw [Spec.getD_replicate hd] at hc
  unfold innerDimension
  rw [h.chunk_currentIndex hposS (by rw [hprod]; exact htot) hlo hk (by rw [hprod]; exact hB)
    (by rw [hlenS]; exact hd)]
  simp only
  have hterm : ∀ (T : Nat) (off : Int),
      (T : Int) = Spec.coordinate (List.replicate D n) k d + off → T < n →
      it.currentNeighbor d off = some (Spec.neighborValue D n E main ghost k d off) :=
    fun T off h1 h2 => chunk_neighborValue ghost h hn htot hlo hk hB hd off T h1 h2
  have hmod : (Spec.coordinate (List.replicate D n) k d + E) % U64
      = Spec.coordinate (List.replicate D n) k d + E :=
    Nat.mod_eq_of_lt (by unfold U64; omega)
  rw [h.chunk_currentValue hlo hk, hmod, toInt32_of_lt (by omega : E < 2147483648)]
  unfold Spec.innerTerm
  rw [Spec.neighborValue_zero D n E main ghost hn (by rw [hprod]; omega) hd]
  have hL : ∀ i, i < E → E ≤ Spec.coordinate (List.replicate D n) k d →
      (it.currentNeighbor d (toInt32 ((sub32 0 E + i) % U64))).map
        (fun v => w d (toInt32 i) * v)
      = some (w d (i : Int)
          * Spec.neighborValue D n E main ghost k d ((i : Int) - (E : Int))) := by
    intro i hiE hcE
    rw [toInt32_left hiE (by omega), @toInt32_of_lt i (by omega),
      hterm (Spec.coordinate (List.replicate D n) k d - E + i) _ (by omega) (by omega)]
    rfl
  have hR : ∀ i, i < E → Spec.coordinate (List.replicate D n) k d + E < n →
      (it.currentNeighbor d (toInt32 (i + 1))).map
        (fun v1 => w d (toInt32 ((E + (i + 1)) % U64)) * v1)
      = some (w d ((E : Int) + 1 + (i : Int))
          * Spec.neighborValue D n E main ghost k d ((i : Int) + 1)) := by
    intro i hiE hcR
    have e1 : toInt32 (i + 1) = (i : Int) + 1 := by
      rw [@toInt32_of_lt (i + 1) (by omega)]; push_cast; rfl
    have e2 : toInt32 ((E + (i + 1)) % U64) = (E : Int) + 1 + (i : Int) := by
      rw [@toInt32_mod (E + (i + 1)) (by omega)]; push_cast; ring
    have e3 := hterm (Spec.coordinate (List.replicate D n) k d + i + 1) ((i : Int) + 1)
      (by push_cast; ring) (by omega)
    rw [e1, e2, e3]
    rfl
  by_cases hcE : E ≤ Spec.coordinate (List.replicate D n) k d
  · rw [if_pos hcE, if_pos hcE]
    rw [accumulate_eq_sum _ (fun i => w d (i : Int)
      * Spec.neighborValue D n E main ghost k d ((i : Int) - (E : Int))) E r
      (fun i hiE => hL i hiE hcE)]
    simp only
    by_cases hcR : Spec.coordinate (List.replicate D n) k d + E < n
    · rw [if_pos hcR, if_pos hcR]
      rw [accumulate_eq_sum _ (fun i => w d ((E : Int) + 1 + (i : Int))
        * Spec.neighborValue D n E main ghost k d ((i : Int) + 1)) E _
        (fun i hiE => hR i hiE hcR)]
      unfold Spec.leftTaps Spec.rightTaps
      simp only [add_assoc, add_zero, zero_add]
    · rw [if_neg hcR, if_neg hcR]
      unfold Spec.leftTaps
      simp only [add_assoc, add_zero, zero_add]
  · rw [if_neg hcE, if_neg hcE]
    simp only
    by_cases hcR : Spec.coordinate (List.replicate D n) k d + E < n
    · rw [if_pos hcR, if_pos hcR]
      rw [accumulate_eq_sum _ (fun i => w d ((E : Int) + 1 + (i : Int))
        * Spec.neighborValue D n E main ghost k d ((i : Int) + 1)) E _
        (fun i hiE => hR i hiE hcR)]
      unfold Spec.rightTaps
      simp only [add_assoc, add_zero, zero_add]
    · rw [if_neg hcR, if_neg hcR]
      simp only [add_assoc, add_zero, zero_add]

theorem innerValue_eq {D n E : Nat} {main : Nat → α} (w : Nat → Int → α)
    (ghost : Nat → Nat → Nat → α) {lo hi k : Nat} {it : ValueFieldIterator α}
    (h : InChunk (List.replicate D n) lo hi main k it) (hE : 1 ≤ E) (hEn : E ≤ n)
    (hE2 : 2 * E < 2147483648)
    (htot : n ^ D < 2 ^ 31) (hlo : lo ≤ k) (hk : k < hi) (hB : hi ≤ n ^ D) :
    ∀ count, count ≤ D →
    innerValue E n w it count
      = some (∑ d in Finset.range count, Spec.innerTerm D n E w main ghost k d) := by
  intro count
  induction count with
  | zero => intro _; simp [innerValue]
  | succ c ih =>
    intro hc
    unfold innerValue
    rw [ih (by omega)]
    simp only
    rw [innerDimension_eq w ghost h hE hEn hE2 htot hlo hk hB (by omega : c < D),
      Finset.sum_range_succ]

end MultuncialStencil

theorem ComputationalPureBlock.written_new {α : Type} (n : Nat) (out buffer : Nat → α) :
    (ComputationalPureBlock.new n out).written buffer = ComputationalPureBlock.new n buffer := by
  unfold ComputationalPureBlock.written ComputationalPureBlock.new
  simp

namespace MultuncialStencil

variable {α : Type} [CommRing α]

/-- The `while` loop of `applyInInnerRegion`, entered at the cell `k` of the chunk, ends and has
written the inner value to every remaining cell of the chunk. -/
theorem innerLoop_spec {D n E : Nat} {main : Nat → α} (w : Nat → Int → α)
    (ghost : Nat → Nat → Nat → α) {lo hi : Nat} (hE : 1 ≤ E) (hEn : E ≤ n)
    (hE2 : 2 * E < 2147483648) (htot : n ^ D < 2 ^ 31) (hB : hi ≤ n ^ D) :
    ∀ (fuel k : Nat) (inputIterator resultIterator : ValueFieldIterator α) (out : Nat → α),
      InChunk (List.replicate D n) lo hi main k inputIterator →
      InChunk (List.replicate D n) lo hi out k resultIterator →
      lo ≤ k → k ≤ hi → hi - k ≤ fuel →
      ∃ r, innerLoop D E n w fuel inputIterator resultIterator = some r ∧
        r.getter.values
          = fun i => if k ≤ i ∧ i < hi then Spec.innerValue D n E w main ghost i else out i := by
  intro fuel
  induction fuel with
  | zero =>
    intro k inputIterator resultIterator out hin hres hlo hk hf
    have hkk : k = hi := by omega
    have h1 : ¬ inputIterator.isInField = true := by
      rw [hin.chunk_inField_iff hlo]; omega
    have h2 : ¬ resultIterator.isInField = true := by
      rw [hres.chunk_inField_iff hlo]; omega
    refine ⟨resultIterator, ?_, ?_⟩
    · unfold innerLoop
      rw [if_neg h1, if_neg h2]
    · rw [hres.values]
      funext i
      rw [if_neg (by omega)]
  | succ f ih =>
    intro k inputIterator resultIterator out hin hres hlo hk hf
    rcases Nat.lt_or_ge k hi with hlt | hge
    · have h1 : inputIterator.isInField = true := (hin.chunk_inField_iff hlo).mpr hlt
      obtain ⟨r1, hr1, hres1⟩ := hres.chunk_setCurrentValue hlo hlt
        (∑ d in Finset.range D, Spec.innerTerm D n E w main ghost k d)
      obtain ⟨i2, hi2, hin2⟩ := hin.chunk_next hlo hlt (by omega)
      obtain ⟨r2, hr2, hres2⟩ := hres1.chunk_next hlo hlt (by omega)
      obtain ⟨r, hr, hrv⟩ := ih (k + 1) i2 r2 _ hin2 hres2 (by omega) (by omega) (by omega)
      refine ⟨r, ?_, ?_⟩
      · unfold innerLoop
        rw [if_pos h1, innerValue_eq w ghost hin hE hEn hE2 htot hlo hlt hB D (le_refl _)]
        simp only
        rw [hr1]
        simp only
        rw [hi2, hr2]
        exact hr
      · rw [hrv]
        funext i
        by_cases hik : i = k
        · subst hik
          rw [if_neg (by omega), if_pos rfl, if_pos ⟨le_refl _, hlt⟩]
          rfl
        · by_cases hc : k + 1 ≤ i ∧ i < hi
          · rw [if_pos hc, if_pos ⟨by omega, hc.2⟩]
          · rw [if_neg hc, if_neg hik, if_neg (by omega)]
    · have hkk : k = hi := by omega
      have h1 : ¬ inputIterator.isInField = true := by
        rw [hin.chunk_inField_iff hlo]; omega
      have h2 : ¬ resultIterator.isInField = true := by
        rw [hres.chunk_inField_iff hlo]; omega
      refine ⟨resultIterator, ?_, ?_⟩
      · unfold innerLoop
        rw [if_neg h1, if_neg h2]
      · rw [hres.values]
        funext i
        rw [if_neg (by omega)]

/-- Thread `t` of `N` of `applyInInnerRegion` writes the inner value to the cells of its
chunk. -/
theorem innerThread_spec {D n E : Nat} {main : Nat → α} (w : Nat → Int → α)
    (ghost : Nat → Nat → Nat → α) {input : ComputationalComposedBlock α}
    (hw : ComputationalComposedBlock.WellFormed D n E input) (hv : input.values = some main)
    (hE : 1 ≤ E) (hEn : E ≤ n) (hE2 : 2 * E < 2147483648) (htot : n ^ D < 2 ^ 31)
    {fuel t N : Nat} (ht : t < N) (hf : n ^ D ≤ fuel) (out : Nat → α) :
    innerThread D E w fuel N input t (ComputationalPureBlock.new n out)
      = some (ComputationalPureBlock.new n fun i =>
          if Spec.chunkStart (n ^ D) N t ≤ i ∧ i < Spec.chunkStart (n ^ D) N (t + 1) then
            Spec.innerValue D n E w main ghost i
          else out i) := by
  have hn : 1 ≤ n := by omega
  have hN : 0 < N := by omega
  have hposS : ∀ m ∈ List.replicate D n, 1 ≤ m := Spec.pos_replicate hn
  have hprod : (List.replicate D n).prod = n ^ D := Spec.prod_replicate D n
  have htotS : (List.replicate D n).prod < 2 ^ 31 := by rw [hprod]; exact htot
  obtain ⟨i0, hi0, hin⟩ := ValueFieldIterator.new_inChunk (fun i => main (input.smallestIndex + i))
    hposS htotS hN ht
  obtain ⟨r0, hr0, hres⟩ := ValueFieldIterator.new_inChunk (fun i => out (0 + i))
    hposS htotS hN ht
  have hmain : (fun i => main (input.smallestIndex + i)) = main := by
    funext i; rw [hw.smallest, Nat.zero_add]
  have hout : (fun i => out (0 + i)) = out := by
    funext i; rw [Nat.zero_add]
  rw [hmain, hprod] at hin
  rw [hout, hprod] at hres
  have hhi := Spec.chunkStart_le (B := n ^ D) hN (by omega : t + 1 ≤ N)
  have hlohi := Spec.chunkStart_mono (n ^ D) N (by omega : t ≤ t + 1)
  obtain ⟨r, hr, hrv⟩ := innerLoop_spec w ghost hE hEn hE2 htot hhi fuel _ i0 r0 out hin hres
    (le_refl _) hlohi (by omega)
  unfold innerThread ComputationalComposedBlock.getInnerIterator
    ComputationalPureBlock.getInnerIterator
  rw [hv]
  simp only [ComputationalComposedBlock.getSizeArray, ComputationalPureBlock.getSizeArray,
    hw.elements]
  have e1 : (ComputationalPureBlock.new n out).values = some out := rfl
  have e2 : (ComputationalPureBlock.new n out).elementsPerDim = n := rfl
  have e3 : (ComputationalPureBlock.new n out).smallestIndex = 0 := rfl
  rw [e1]
  simp only [e2, e3]
  rw [hmain] at hi0
  rw [hmain, hi0, hr0]
  simp only
  rw [hr]
  simp only
  rw [ComputationalPureBlock.written_new, hrv]

/-- After the parallel region of `applyInInnerRegion` every cell holds its inner value. -/
theorem applyInInnerRegion_spec {D n E : Nat} {main : Nat → α} (w : Nat → Int → α)
    (ghost : Nat → Nat → Nat → α) {input : ComputationalComposedBlock α}
    (hw : ComputationalComposedBlock.WellFormed D n E input) (hv : input.values = some main)
    (hE : 1 ≤ E) (hEn : E ≤ n) (hE2 : 2 * E < 2147483648) (htot : n ^ D < 2 ^ 31)
    {fuel N : Nat} (hN : 1 ≤ N) (hf : n ^ D ≤ fuel) (out : Nat → α) :
    applyInInnerRegion D E w fuel N input (ComputationalPureBlock.new n out)
      = some (ComputationalPureBlock.new n fun i =>
          if i < n ^ D then Spec.innerValue D n E w main ghost i else out i) := by
  have key : ∀ count, count ≤ N →
      parallelRegion (innerThread D E w fuel N input) count (ComputationalPureBlock.new n out)
        = some (ComputationalPureBlock.new n fun i =>
            if i < Spec.chunkStart (n ^ D) N count then Spec.innerValue D n E w main ghost i
            else out i) := by
    intro count
    induction count with
    | zero =>
      intro _
      unfold parallelRegion
      rw [Spec.chunkStart_zero]
      simp
    | succ c ih =>
      intro hc
      unfold parallelRegion
      rw [ih (by omega)]
      simp only
      rw [innerThread_spec w ghost hw hv hE hEn hE2 htot (by omega : c < N) hf]
      have hmono := Spec.chunkStart_mono (n ^ D) N (by omega : c ≤ c + 1)
      congr 2
      funext i
      by_cases h1 : i < Spec.chunkStart (n ^ D) N c
      · rw [if_neg (by omega), if_pos h1, if_pos (by omega)]
      · by_cases h2 : i < Spec.chunkStart (n ^ D) N (c + 1)
        · rw [if_pos ⟨by omega, h2⟩, if_pos h2]
        · rw [if_neg (by omega), if_neg h1, if_neg h2]
  unfold applyInInnerRegion
  rw [key N (le_refl _), Spec.chunkStart_last (by omega)]

end MultuncialStencil

theorem Spec.stripCell_spec {D n : Nat} (hn : 1 ≤ n) {b : BoundaryId} (hb : b.dimension < D)
    (p : Nat) {s : Nat} (hs : s < n) :
    Spec.stripCell D n b p s < n ^ D ∧
    Spec.coordinate (List.replicate D n) (Spec.stripCell D n b p s) b.dimension
      = (if b.lower then s else n - 1 - s) ∧
    ∀ e, e ≠ b.dimension → e < D →
      Spec.coordinate (List.replicate D n) (Spec.stripCell D n b p s) e
        = Spec.coordinate (List.replicate D n)
            (Spec.faceIndex (List.replicate D n) b.dimension b.lower p) e := by
  have hlenS : (List.replicate D n).length = D := List.length_replicate _ _
  obtain ⟨h1, h2, h3⟩ := @Spec.linearIndex_set_lt (List.replicate D n) (List.replicate D n)
    (Spec.faceIndex (List.replicate D n) b.dimension b.lower p) b.dimension
    (if b.lower then s else n - 1 - s) (Spec.pos_replicate hn) rfl (by rw [hlenS]; exact hb)
    (by rw [Spec.getD_replicate hb]; split_ifs <;> omega) (fun _ _ => rfl)
  rw [Spec.prod_replicate] at h1
  exact ⟨h1, h2, fun e he hel => h3 e he (by rw [hlenS]; exact hel)⟩

namespace OnFace

variable {α : Type} {sizes : List Nat} {b : BoundaryId} {lo hi k : Nat} {vals : Nat → α}
  {it : ValueFieldBoundaryIterator α}

/-- Writing a neighbour along the face dimension whose coordinate `c1` lies inside the extent:
the element written is the one `currentNeighbor` reads. -/
theorem setCurrentNeighbor_eq (h : OnFace sizes b lo hi vals k it) (hpos : ∀ n ∈ sizes, 1 ≤ n)
    (htot : sizes.prod < 2 ^ 31) (hb : b.dimension < sizes.length) (hlo : lo ≤ k)
    (hk : k < hi) (hB : hi ≤ Spec.faceSize sizes b.dimension) (off : Int) (c1 : Nat)
    (hc : (c1 : Int) = Spec.faceCoordinate sizes b.dimension b.lower + off)
    (h1 : c1 < sizes.getD b.dimension 0) (v : α) :
    ∃ j it1, it.currentNeighbor b.dimension off = some (vals j) ∧
      it.setCurrentNeighbor b.dimension off v = some it1 ∧
      OnFace sizes b lo hi (fun y => if y = j then v else vals y) k it1 ∧
      j < sizes.prod ∧ Spec.coordinate sizes j b.dimension = c1 ∧
      ∀ e, e ≠ b.dimension → Spec.coordinate sizes j e
        = Spec.coordinate sizes (Spec.faceIndex sizes b.dimension b.lower k) e := by
  have hin := (h.inField_iff hpos hb hlo (by omega)).mpr hk
  unfold ValueFieldBoundaryIterator.isInField at hin
  have hlt : it.stepper.index < it.stepper.totalSize := by
    rw [h.tables.total_eq, h.index]
    exact Spec.faceIndex_lt_prod hpos hb b.lower (by unfold Spec.faceSize at hB; omega)
  have hc' : (c1 : Int) = Spec.coordinate sizes it.stepper.index b.dimension + off := by
    rw [h.index, Spec.coordinate_faceIndex hpos hb]; exact hc
  obtain ⟨hnif, j, hj, hjlt, -, hjd, hje⟩ :=
    FieldSteppingStrategy.neighbor_of_tables hpos htot h.tables hin hlt hb hc' h1
  refine ⟨j, { it with getter := it.getter.setValue j v }, ?_, ?_, ?_, hjlt, hjd, ?_⟩
  · unfold ValueFieldBoundaryIterator.currentNeighbor PureFieldIterator.currentNeighbor
    rw [hnif]
    simp only [hj, ValueArray.getValue, h.values]
  · unfold ValueFieldBoundaryIterator.setCurrentNeighbor PureFieldIterator.setCurrentNeighbor
    rw [hnif]
    simp only [hj]
  · refine ⟨h.tables, h.boundary, h.index, h.minIndex, h.maxIndex, ?_⟩
    simp only [ValueArray.setValue, h.values]
  · intro e he
    rw [hje e he, h.index]

end OnFace

namespace MultuncialStencil

variable {α : Type}

/-- What the composed boundary iterator reads at offset `off` along the face dimension is the
value `u(x + off e_d)` of the specification at the current face cell `x`. -/
theorem composed_neighborValue {D n E : Nat} {main : Nat → α} (ghost : Nat → Nat → Nat → α)
    {b : BoundaryId} {lo hi p : Nat} {it : ComposedFieldBoundaryIterator α}
    (h : ComposedOnFace (List.replicate D n) E b lo hi main
      (ghost b.dimension (if b.lower then 0 else 1)) p it)
    (hE : 1 ≤ E) (hEn : E ≤ n) (htot : n ^ D < 2 ^ 31) (hb : b.dimension < D) (hlo : lo ≤ p)
    (hk : p < hi) (hB : hi ≤ Spec.faceSize (List.replicate D n) b.dimension) (off : Int)
    (h1 : -(E : Int) ≤ (Spec.faceCoordinate (List.replicate D n) b.dimension b.lower : Int) + off)
    (h2 : (Spec.faceCoordinate (List.replicate D n) b.dimension b.lower : Int) + off
      < (n : Int) + (E : Int))
    (h3 : b.lower = true →
      (Spec.faceCoordinate (List.replicate D n) b.dimension b.lower : Int) + off < n)
    (h4 : b.lower = false →
      0 ≤ (Spec.faceCoordinate (List.replicate D n) b.dimension b.lower : Int) + off) :
    it.currentNeighbor b.dimension off
      = some (Spec.neighborValue D n E main ghost
          (Spec.faceIndex (List.replicate D n) b.dimension b.lower p) b.dimension off) := by
  have hn : 1 ≤ n := by omega
  have hposS : ∀ m ∈ List.replicate D n, 1 ≤ m := Spec.pos_replicate hn
  have hprod : (List.replicate D n).prod = n ^ D := Spec.prod_replicate D n
  have htotS : (List.replicate D n).prod < 2 ^ 31 := by rw [hprod]; exact htot
  have hlenS : (List.replicate D n).length = D := List.length_replicate _ _
  have hbS : b.dimension < (List.replicate D n).length := by rw [hlenS]; exact hb
  have hgtot := Spec.set_replicate_lt hn hEn hb htot
  have hnd : (List.replicate D n).getD b.dimension 0 = n := Spec.getD_replicate hb
  have hcf := Spec.coordinate_faceIndex hposS hbS b.lower p
  obtain ⟨p1, p2, p3⟩ := ComposedFieldBoundaryIterator.currentNeighbor_onFace h hposS htotS hE
    hgtot hbS hlo hk hB off
  have hfc : Spec.faceCoordinate (List.replicate D n) b.dimension b.lower
      = if b.lower then 0 else n - 1 := by
    unfold Spec.faceCoordinate; rw [hnd]
  by_cases hmain : 0 ≤ (Spec.faceCoordinate (List.replicate D n) b.dimension b.lower : Int) + off
      ∧ (Spec.faceCoordinate (List.replicate D n) b.dimension b.lower : Int) + off < n
  · obtain ⟨idx, hidx, hlt, hd, he⟩ := p1
      ((Spec.faceCoordinate (List.replicate D n) b.dimension b.lower : Int) + off).toNat
      (by omega) (by rw [hnd]; omega)
    rw [hidx, Spec.neighborValue_main D n E main ghost hn
      (T := ((Spec.faceCoordinate (List.replicate D n) b.dimension b.lower : Int) + off).toNat)
      (by rw [hcf]; omega) (by omega) hlt hd he]
  · by_cases hl : b.lower = true
    · have h3' := h3 hl
      have hfc0 : Spec.faceCoordinate (List.replicate D n) b.dimension b.lower = 0 := by
        rw [hfc, if_pos hl]
      rw [hfc0] at h1 h3' hmain hcf
      obtain ⟨idx, hidx, hlt, hd, he⟩ := p2 hl ((E : Int) + off).toNat (by omega) (by omega)
      rw [if_pos hl] at hidx
      rw [hidx, Spec.neighborValue_lower D n E main ghost hE hn
        (g := ((E : Int) + off).toNat) (by rw [hcf]; omega) (by omega) hlt hd he]
    · have hl' : b.lower = false := by simpa using hl
      have h4' := h4 hl'
      have hfc0 : Spec.faceCoordinate (List.replicate D n) b.dimension b.lower = n - 1 := by
        rw [hfc, if_neg hl]
      rw [hfc0] at h2 h4' hmain hcf
      obtain ⟨idx, hidx, hlt, hd, he⟩ := p3 hl' (off - 1).toNat (by omega) (by omega)
      rw [if_neg hl] at hidx
      rw [hidx, Spec.neighborValue_upper D n E main ghost hE hn
        (g := (off - 1).toNat) (by rw [hcf]; omega) hlt hd he]

end MultuncialStencil

namespace MultuncialStencil

theorem weightIndex_lower {i : Nat} (hi : i < 2147483648) :
    toInt32 ((toU64 0 + i) % U64) = (i : Int) := by
  unfold toInt32 toU64 U64 U32
  split_ifs <;> omega

theorem offset_lower {E s i : Nat} (hs : s < E) (hi : i < E) (hE : E < 2147483648) :
    toInt32 (((sub32 (toU32 0) E + toU32 (1 * (s : Int))) % U32 + i) % U64)
      = (s : Int) + (i : Int) - (E : Int) := by
  unfold toInt32 sub32 toU32 U64 U32
  split_ifs <;> omega

theorem lowest_upper {E : Nat} (hE : E + 1 < 2147483648) :
    toInt32 ((E + 1) % U32) = (E : Int) + 1 := by
  unfold toInt32 U32
  split_ifs <;> omega

theorem weightIndex_upper {E i : Nat} (hE : E + 1 + i < 2147483648) :
    toInt32 ((toU64 ((E : Int) + 1) + i) % U64) = (E : Int) + 1 + (i : Int) := by
  unfold toInt32 toU64 U64 U32
  split_ifs <;> omega

theorem offset_upper {E s i : Nat} (hs : s < E) (hi : i < E) (hE : E + 1 < 2147483648) :
    toInt32 (((sub32 (toU32 ((E : Int) + 1)) E + toU32 (-1 * (s : Int))) % U32 + i) % U64)
      = 1 - (s : Int) + (i : Int) := by
  unfold toInt32 sub32 toU32 U64 U32
  split_ifs <;> omega

end MultuncialStencil

namespace MultuncialStencil

variable {α : Type} [CommRing α]

/-- One pass of the loop over `distanceFromBoundary`: the taps that point towards the face are
added to the cell at distance `s` behind the current face cell; no other cell changes. -/
theorem boundaryDistance_spec {D n E : Nat} {main : Nat → α} (w : Nat → Int → α)
    (ghost : Nat → Nat → Nat → α) {b : BoundaryId} {lo hi p : Nat}
    {inputIterator : ComposedFieldBoundaryIterator α}
    {resultIterator : ValueFieldBoundaryIterator α} {out : Nat → α}
    (hin : ComposedOnFace (List.replicate D n) E b lo hi main
      (ghost b.dimension (if b.lower then 0 else 1)) p inputIterator)
    (hres : OnFace (List.replicate D n) b lo hi out p resultIterator)
    (hE : 1 ≤ E) (hEn : E ≤ n) (hE2 : 2 * E < 2147483648) (htot : n ^ D < 2 ^ 31)
    (hb : b.dimension < D) (hlo : lo ≤ p) (hk : p < hi)
    (hB : hi ≤ Spec.faceSize (List.replicate D n) b.dimension) {s : Nat} (hs : s < E) :
    ∃ r, boundaryDistance E w b inputIterator
        ((if b.isLowerSide then 1 else -1) * (s : Int)) resultIterator = some r ∧
      OnFace (List.replicate D n) b lo hi
        (fun y => if y = Spec.stripCell D n b p s then
            out y + Spec.faceTaps D n E w main ghost b y
          else out y) p r := by
  have hn : 1 ≤ n := by omega
  have hposS : ∀ m ∈ List.replicate D n, 1 ≤ m := Spec.pos_replicate hn
  have hprod : (List.replicate D n).prod = n ^ D := Spec.prod_replicate D n
  have htotS : (List.replicate D n).prod < 2 ^ 31 := by rw [hprod]; exact htot
  have hlenS : (List.replicate D n).length = D := List.length_replicate _ _
  have hbS : b.dimension < (List.replicate D n).length := by rw [hlenS]; exact hb
  have hnd : (List.replicate D n).getD b.dimension 0 = n := Spec.getD_replicate hb
  have hcf := Spec.coordinate_faceIndex hposS hbS b.lower p
  have hfc : Spec.faceCoordinate (List.replicate D n) b.dimension b.lower
      = if b.lower then 0 else n - 1 := by
    unfold Spec.faceCoordinate; rw [hnd]
  obtain ⟨hc1, hc2, hc3⟩ := Spec.stripCell_spec hn hb p (by omega : s < n)
  -- the cell read and written through the result iterator
  have hdist : (((if b.lower then s else n - 1 - s : Nat) : Nat) : Int)
      = Spec.faceCoordinate (List.replicate D n) b.dimension b.lower
        + (if b.isLowerSide then 1 else -1) * (s : Int) := by
    unfold BoundaryId.isLowerSide
    rw [hfc]
    split_ifs <;> omega
  obtain ⟨j, r, hcur, hset, hOn, hjlt, hjd, hje⟩ := hres.setCurrentNeighbor_eq hposS htotS hbS hlo
    hk hB ((if b.isLowerSide then 1 else -1) * (s : Int)) (if b.lower then s else n - 1 - s)
    hdist (by rw [hnd]; split_ifs <;> omega)
    (out (Spec.stripCell D n b p s)
      + Spec.faceTaps D n E w main ghost b (Spec.stripCell D n b p s))
  have hj : j = Spec.stripCell D n b p s :=
    Spec.eq_linearIndex_set hposS rfl hjlt hjd hje
  subst hj
  -- the taps read through the input iterator
  have hnv : ∀ (off off1 : Int),
      (Spec.faceCoordinate (List.replicate D n) b.dimension b.lower : Int) + off
        = ((if b.lower then s else n - 1 - s : Nat) : Int) + off1 →
      -(E : Int) ≤ (Spec.faceCoordinate (List.replicate D n) b.dimension b.lower : Int) + off →
      (Spec.faceCoordinate (List.replicate D n) b.dimension b.lower : Int) + off
        < (n : Int) + (E : Int) →
      (b.lower = true →
        (Spec.faceCoordinate (List.replicate D n) b.dimension b.lower : Int) + off < n) →
      (b.lower = false →
        0 ≤ (Spec.faceCoordinate (List.replicate D n) b.dimension b.lower : Int) + off) →
      inputIterator.currentNeighbor b.dimension off
        = some (Spec.neighborValue D n E main ghost (Spec.stripCell D n b p s) b.dimension
            off1) := by
    intro off off1 e1 e2 e3 e4 e5
    rw [composed_neighborValue ghost hin hE hEn htot hb hlo hk hB off e2 e3 e4 e5]
    congr 1
    apply Spec.neighborValue_congr
    · rw [hcf, hc2]; exact e1
    · intro e he hel
      exact (hc3 e he hel).symm
  refine ⟨r, ?_, ?_⟩
  · unfold boundaryDistance
    simp only [BoundaryId.getDimension]
    rw [hcur]
    simp only
    by_cases hl : b.lower = true
    · have hl1 : b.isLowerSide = true := hl
      simp only [hl1, if_true]
      rw [accumulate_eq_sum _ (fun i => w b.dimension (i : Int)
        * Spec.neighborValue D n E main ghost (Spec.stripCell D n b p s) b.dimension
            ((i : Int) - (E : Int)))]
      · simp only
        rw [← hset]
        unfold Spec.faceTaps Spec.leftTaps
        simp only [hl, hl1, if_true]
      · intro i hiE
        rw [weightIndex_lower (by omega), offset_lower hs hiE (by omega)]
        rw [hnv ((s : Int) + (i : Int) - (E : Int)) ((i : Int) - (E : Int))
          (by rw [hfc]; simp only [hl, if_true]; omega)
          (by rw [hfc]; simp only [hl, if_true]; omega)
          (by rw [hfc]; simp only [hl, if_true]; omega)
          (by intro _; rw [hfc]; simp only [hl, if_true]; omega)
          (by intro h0; rw [hl] at h0; exact absurd h0 (by decide))]
        rfl
    · have hl0 : b.lower = false := by simpa using hl
      have hl1 : b.isLowerSide = false := hl0
      simp only [hl1, Bool.false_eq_true, if_false]
      rw [lowest_upper (by omega)]
      rw [accumulate_eq_sum _ (fun i => w b.dimension ((E : Int) + 1 + (i : Int))
        * Spec.neighborValue D n E main ghost (Spec.stripCell D n b p s) b.dimension
            ((i : Int) + 1))]
      · simp only
        rw [← hset]
        unfold Spec.faceTaps Spec.rightTaps
        simp only [hl0, hl1, Bool.false_eq_true, if_false]
      · intro i hiE
        rw [weightIndex_upper (by omega), offset_upper hs hiE (by omega)]
        rw [hnv (1 - (s : Int) + (i : Int)) ((i : Int) + 1)
          (by rw [hfc]; simp only [hl0, Bool.false_eq_true, if_false]; omega)
          (by rw [hfc]; simp only [hl0, Bool.false_eq_true, if_false]; omega)
          (by rw [hfc]; simp only [hl0, Bool.false_eq_true, if_false]; omega)
          (by intro h0; rw [hl0] at h0; exact absurd h0 (by decide))
          (by intro _; rw [hfc]; simp only [hl0, Bool.false_eq_true, if_false]; omega)]
        rfl
  · have hf : (fun y => if y = Spec.stripCell D n b p s then
          out (Spec.stripCell D n b p s)
            + Spec.faceTaps D n E w main ghost b (Spec.stripCell D n b p s)
        else out y)
        = fun y => if y = Spec.stripCell D n b p s then
            out y + Spec.faceTaps D n E w main ghost b y
          else out y := by
      funext y
      by_cases hy : y = Spec.stripCell D n b p s
      · rw [if_pos hy, if_pos hy, hy]
      · rw [if_neg hy, if_neg hy]
    rw [hf] at hOn
    exact hOn

end MultuncialStencil

namespace Adds

variable {α : Type} [Add α] {P Q : Nat → Prop} {f out out1 out2 : Nat → α}

theorem refl_of_false (h : ∀ y, ¬ P y) : Adds P f out out :=
  fun y => ⟨fun hy => absurd hy (h y), fun _ => rfl⟩

theorem comp (h1 : Adds P f out out1) (h2 : Adds Q f out1 out2)
    (hd : ∀ y, P y → Q y → False) : Adds (fun y => P y ∨ Q y) f out out2 := by
  intro y
  constructor
  · rintro (hp | hq)
    · rw [(h2 y).2 (fun hq => hd y hp hq), (h1 y).1 hp]
    · rw [(h2 y).1 hq, (h1 y).2 (fun hp => hd y hp hq)]
  · intro hn
    rw [(h2 y).2 (fun hq => hn (Or.inr hq)), (h1 y).2 (fun hp => hn (Or.inl hp))]

theorem congr (h : Adds P f out out1) (hPQ : ∀ y, P y ↔ Q y) : Adds Q f out out1 := by
  intro y
  exact ⟨fun hq => (h y).1 ((hPQ y).mpr hq), fun hq => (h y).2 (fun hp => hq ((hPQ y).mp hp))⟩

theorem of_update (c : Nat) :
    Adds (fun y => y = c) f out (fun y => if y = c then out y + f y else out y) := by
  intro y
  constructor
  · intro hy; exact if_pos hy
  · intro hy; exact if_neg hy

end Adds

theorem Spec.stripCell_injective {D n : Nat} (hn : 1 ≤ n) {b : BoundaryId}
    (hb : b.dimension < D) {p q s r : Nat}
    (hp : p < Spec.faceSize (List.replicate D n) b.dimension)
    (hq : q < Spec.faceSize (List.replicate D n) b.dimension) (hs : s < n) (hr : r < n)
    (h : Spec.stripCell D n b p s = Spec.stripCell D n b q r) : p = q ∧ s = r := by
  have hposS : ∀ m ∈ List.replicate D n, 1 ≤ m := Spec.pos_replicate hn
  have hlenS : (List.replicate D n).length = D := List.length_replicate _ _
  have hbS : b.dimension < (List.replicate D n).length := by rw [hlenS]; exact hb
  have hfs : Spec.faceSize (List.replicate D n) b.dimension
      = (List.replicate D n).prod / (List.replicate D n).getD b.dimension 0 := rfl
  obtain ⟨-, a2, a3⟩ := Spec.stripCell_spec hn hb p hs
  obtain ⟨-, b2, b3⟩ := Spec.stripCell_spec hn hb q hr
  rw [h] at a2 a3
  constructor
  · apply Spec.faceIndex_injective hposS hbS b.lower
    apply Spec.coordinate_injective
      (Spec.faceIndex_lt_prod hposS hbS b.lower (by rw [← hfs]; exact hp))
      (Spec.faceIndex_lt_prod hposS hbS b.lower (by rw [← hfs]; exact hq))
    intro e he
    rw [hlenS] at he
    by_cases hed : e = b.dimension
    · rw [hed, Spec.coordinate_faceIndex hposS hbS, Spec.coordinate_faceIndex hposS hbS]
    · rw [← a3 e hed he, b3 e hed he]
  · rw [a2] at b2
    split_ifs at b2 <;> omega

namespace MultuncialStencil

variable {α : Type} [CommRing α]

/-- The loop over `distanceFromBoundary` at the face cell `p`: after `count` passes the taps
towards the face have been added to the `count` cells nearest to the face behind `p`. -/
theorem boundaryDistances_spec {D n E : Nat} {main : Nat → α} (w : Nat → Int → α)
    (ghost : Nat → Nat → Nat → α) {b : BoundaryId} {lo hi p : Nat}
    {inputIterator : ComposedFieldBoundaryIterator α}
    {resultIterator : ValueFieldBoundaryIterator α} {out : Nat → α}
    (hin : ComposedOnFace (List.replicate D n) E b lo hi main
      (ghost b.dimension (if b.lower then 0 else 1)) p inputIterator)
    (hres : OnFace (List.replicate D n) b lo hi out p resultIterator)
    (hE : 1 ≤ E) (hEn : E ≤ n) (hE2 : 2 * E < 2147483648) (htot : n ^ D < 2 ^ 31)
    (hb : b.dimension < D) (hlo : lo ≤ p) (hk : p < hi)
    (hB : hi ≤ Spec.faceSize (List.replicate D n) b.dimension) :
    ∀ count, count ≤ E →
    ∃ r out1, boundaryDistances E w b inputIterator count resultIterator = some r ∧
      OnFace (List.replicate D n) b lo hi out1 p r ∧
      Adds (fun y => ∃ s, s < count ∧ y = Spec.stripCell D n b p s)
        (Spec.faceTaps D n E w main ghost b) out out1 := by
  have hn : 1 ≤ n := by omega
  intro count
  induction count with
  | zero =>
    intro _
    exact ⟨resultIterator, out, rfl, hres, Adds.refl_of_false (by rintro y ⟨s, hs, -⟩; omega)⟩
  | succ c ih =>
    intro hc
    obtain ⟨r1, out1, hr1, hOn1, hA1⟩ := ih (by omega)
    obtain ⟨r, hr, hOn⟩ := boundaryDistance_spec w ghost hin hOn1 hE hEn hE2 htot hb hlo hk hB
      (by omega : c < E)
    refine ⟨r, _, ?_, hOn, ?_⟩
    · unfold boundaryDistances
      simp only
      rw [hr1]
      exact hr
    · apply (hA1.comp (Adds.of_update (Spec.stripCell D n b p c)) ?_).congr
      · intro y
        constructor
        · rintro (⟨s, hs, hy⟩ | hy)
          · exact ⟨s, by omega, hy⟩
          · exact ⟨c, by omega, hy⟩
        · rintro ⟨s, hs, hy⟩
          rcases Nat.lt_or_ge s c with h | h
          · exact Or.inl ⟨s, h, hy⟩
          · have : s = c := by omega
            subst this
            exact Or.inr hy
      · rintro y ⟨s, hs, hy⟩ hy2
        rw [hy] at hy2
        have := (Spec.stripCell_injective hn hb (by omega) (by omega) (by omega : s < n)
          (by omega : c < n) hy2).2
        omega

end MultuncialStencil

namespace MultuncialStencil

variable {α : Type} [CommRing α]

/-- The `while` loop of `applyInBoundaryRegion`, entered at the face cell `p` of the chunk, ends
and has added the taps towards the face to the `E` cells behind every remaining face cell of the
chunk. -/
theorem boundaryLoop_spec {D n E : Nat} {main : Nat → α} (w : Nat → Int → α)
    (ghost : Nat → Nat → Nat → α) {b : BoundaryId} {lo hi : Nat}
    (hE : 1 ≤ E) (hEn : E ≤ n) (hE2 : 2 * E < 2147483648) (htot : n ^ D < 2 ^ 31)
    (hb : b.dimension < D) (hhi : 1 ≤ hi)
    (hB : hi ≤ Spec.faceSize (List.replicate D n) b.dimension) :
    ∀ (fuel p : Nat) (inputIterator : ComposedFieldBoundaryIterator α)
      (resultIterator : ValueFieldBoundaryIterator α) (out : Nat → α),
      ComposedOnFace (List.replicate D n) E b lo hi main
        (ghost b.dimension (if b.lower then 0 else 1)) p inputIterator →
      OnFace (List.replicate D n) b lo hi out p resultIterator →
      lo ≤ p → p ≤ hi → hi - p ≤ fuel →
      ∃ r, boundaryLoop E w b fuel inputIterator resultIterator = some r ∧
        Adds (fun y => ∃ q s, p ≤ q ∧ q < hi ∧ s < E ∧ y = Spec.stripCell D n b q s)
          (Spec.faceTaps D n E w main ghost b) out r.getter.values := by
  have hn : 1 ≤ n := by omega
  have hposS : ∀ m ∈ List.replicate D n, 1 ≤ m := Spec.pos_replicate hn
  have hprod : (List.replicate D n).prod = n ^ D := Spec.prod_replicate D n
  have htotS : (List.replicate D n).prod < 2 ^ 31 := by rw [hprod]; exact htot
  have hlenS : (List.replicate D n).length = D := List.length_replicate _ _
  have hbS : b.dimension < (List.replicate D n).length := by rw [hlenS]; exact hb
  have hgtot := Spec.set_replicate_lt hn hEn hb htot
  have hend : ∀ (fuel p : Nat) (inputIterator : ComposedFieldBoundaryIterator α)
      (resultIterator : ValueFieldBoundaryIterator α) (out : Nat → α),
      ComposedOnFace (List.replicate D n) E b lo hi main
        (ghost b.dimension (if b.lower then 0 else 1)) p inputIterator →
      OnFace (List.replicate D n) b lo hi out p resultIterator →
      lo ≤ p → hi ≤ p →
      ∃ r, boundaryLoop E w b fuel inputIterator resultIterator = some r ∧
        Adds (fun y => ∃ q s, p ≤ q ∧ q < hi ∧ s < E ∧ y = Spec.stripCell D n b q s)
          (Spec.faceTaps D n E w main ghost b) out r.getter.values := by
    intro fuel p inputIterator resultIterator out hin hres hlo hge
    have h1 : ¬ inputIterator.isInField = true := by
      rw [ComposedFieldBoundaryIterator.isInField_iff_onFace hin hposS hbS hlo hhi]; omega
    have h2 : ¬ resultIterator.isInField = true := by
      rw [hres.inField_iff hposS hbS hlo hhi]; omega
    refine ⟨resultIterator, ?_, ?_⟩
    · cases fuel with
      | zero => unfold boundaryLoop; rw [if_neg h1, if_neg h2]
      | succ f => unfold boundaryLoop; rw [if_neg h1, if_neg h2]
    · rw [hres.values]
      exact Adds.refl_of_false (by rintro y ⟨q, s, h3, h4, -⟩; omega)
  intro fuel
  induction fuel with
  | zero =>
    intro p inputIterator resultIterator out hin hres hlo hp hf
    exact hend 0 p inputIterator resultIterator out hin hres hlo (by omega)
  | succ f ih =>
    intro p inputIterator resultIterator out hin hres hlo hp hf
    rcases Nat.lt_or_ge p hi with hlt | hge
    · have h1 : inputIterator.isInField = true :=
        (ComposedFieldBoundaryIterator.isInField_iff_onFace hin hposS hbS hlo hhi).mpr hlt
      obtain ⟨r1, out1, hr1, hOn1, hA1⟩ := boundaryDistances_spec w ghost hin hres hE hEn hE2
        htot hb hlo hlt hB E (le_refl _)
      obtain ⟨i2, hi2, hin2⟩ := ComposedFieldBoundaryIterator.next_onFace hin hposS htotS hE
        hgtot hbS hlo hlt hB
      obtain ⟨r2, hr2, hres2⟩ := hOn1.next_some hposS htotS hbS hlo hlt hB
      obtain ⟨r, hr, hA⟩ := ih (p + 1) i2 r2 out1 hin2 hres2 (by omega) (by omega) (by omega)
      refine ⟨r, ?_, ?_⟩
      · unfold boundaryLoop
        rw [if_pos h1, hr1]
        simp only
        rw [hi2, hr2]
        exact hr
      · apply (hA1.comp hA ?_).congr
        · intro y
          constructor
          · rintro (⟨s, hs, hy⟩ | ⟨q, s, h3, h4, hs, hy⟩)
            · exact ⟨p, s, le_refl _, hlt, hs, hy⟩
            · exact ⟨q, s, by omega, h4, hs, hy⟩
          · rintro ⟨q, s, h3, h4, hs, hy⟩
            rcases Nat.lt_or_ge p q with h | h
            · exact Or.inr ⟨q, s, h, h4, hs, hy⟩
            · have : q = p := by omega
              subst this
              exact Or.inl ⟨s, hs, hy⟩
        · rintro y ⟨s, hs, hy⟩ ⟨q, s1, h3, h4, hs1, hy1⟩
          rw [hy] at hy1
          have := (Spec.stripCell_injective hn hb (by omega) (by omega) (by omega : s < n)
            (by omega : s1 < n) hy1).1
          omega
    · exact hend (f + 1) p inputIterator resultIterator out hin hres hlo hge

end MultuncialStencil

theorem ComputationalComposedBlock.new_wellFormed {α : Type} (D n E : Nat)
    (values : Option (Nat → α)) (ghost : Nat → Nat → Nat → α) :
    ComputationalComposedBlock.WellFormed D n E
      (ComputationalComposedBlock.new D n E values ghost) := by
  refine ⟨rfl, rfl, ?_, ?_⟩
  · show (ComputationalComposedBlock.createGhostRegions D n E ghost).length = D
    unfold ComputationalComposedBlock.createGhostRegions
    rw [List.length_map, List.length_range]
  · intro d hd
    exact ⟨_, _, ComputationalComposedBlock.getElem?_createGhostRegions D n E ghost hd, rfl, rfl⟩

namespace MultuncialStencil

variable {α : Type} [CommRing α]

/-- Thread `t` of `N` of `applyInBoundaryRegion` adds the taps towards the face to the `E` cells
behind every face cell of its chunk. -/
theorem boundaryThread_spec {D n E : Nat} (main : Nat → α) (w : Nat → Int → α)
    (ghost : Nat → Nat → Nat → α) {b : BoundaryId}
    (hE : 1 ≤ E) (hEn : E ≤ n) (hE2 : 2 * E < 2147483648) (htot : n ^ D < 2 ^ 31)
    (hb : b.dimension < D) {fuel t N : Nat} (ht : t < N) (hf : n ^ D ≤ fuel)
    (u : Nat → Nat → Nat) (out : Nat → α) :
    ∃ out1, boundaryThread D E w fuel N u
        (ComputationalComposedBlock.new D n E (some main) ghost) b t
        (ComputationalPureBlock.new n out) = some (ComputationalPureBlock.new n out1) ∧
      Adds (fun y => ∃ q s,
          Spec.chunkStart (Spec.faceSize (List.replicate D n) b.dimension) N t ≤ q ∧
          q < Spec.chunkStart (Spec.faceSize (List.replicate D n) b.dimension) N (t + 1) ∧
          s < E ∧ y = Spec.stripCell D n b q s)
        (Spec.faceTaps D n E w main ghost b) out out1 := by
  have hn : 1 ≤ n := by omega
  have hN : 0 < N := by omega
  have hposS : ∀ m ∈ List.replicate D n, 1 ≤ m := Spec.pos_replicate hn
  have hprod : (List.replicate D n).prod = n ^ D := Spec.prod_replicate D n
  have htotS : (List.replicate D n).prod < 2 ^ 31 := by rw [hprod]; exact htot
  have hlenS : (List.replicate D n).length = D := List.length_replicate _ _
  have hbS : b.dimension < (List.replicate D n).length := by rw [hlenS]; exact hb
  have hw := ComputationalComposedBlock.new_wellFormed D n E (some main) ghost
  obtain ⟨glo, ghi, i0, i1, hget, hi0, hi1, hOnIn⟩ :=
    ComputationalComposedBlock.boundaryIterator_onFace hw rfl hE hEn htot (u t) hb ht
  have hget2 := ComputationalComposedBlock.getElem?_createGhostRegions D n E ghost hb
  have hget3 : (ComputationalComposedBlock.new D n E (some main) ghost).ghostRegions.get?
      b.dimension = some (glo, ghi) := hget
  have hget4 : (ComputationalComposedBlock.new D n E (some main) ghost).ghostRegions
      = ComputationalComposedBlock.createGhostRegions D n E ghost := rfl
  rw [hget4, hget2] at hget3
  simp only [Option.some.injEq, Prod.mk.injEq] at hget3
  obtain ⟨e1, e2⟩ := hget3
  subst e1; subst e2
  have hghost : (if b.lower then
        (GhostRegion.new { dimension := b.dimension, lower := true } n E
          (ghost b.dimension 0)).values
      else (GhostRegion.new { dimension := b.dimension, lower := false } n E
          (ghost b.dimension 1)).values)
      = ghost b.dimension (if b.lower then 0 else 1) := by
    split_ifs <;> rfl
  rw [hghost] at hOnIn
  -- the result iterator
  obtain ⟨r0, hr0⟩ := ValueFieldBoundaryIterator.new_succeeds (u t (6 * D + 3))
    (u t (6 * D + 4)) (u t (6 * D + 5)) (fun i => out (0 + i)) hposS htotS
  obtain ⟨hr0T, hr0V⟩ := ValueFieldBoundaryIterator.new_spec hposS htotS hr0
  obtain ⟨r1, hr1, -, hOnRes⟩ := ValueFieldBoundaryIterator.setBoundaryToIterate_onFace hposS
    htotS hr0T hbS hN ht
  have hout : (fun i => out (0 + i)) = out := by
    funext i; rw [Nat.zero_add]
  rw [hr0V, hout] at hOnRes
  have hB1 := Spec.faceSize_pos hposS hbS
  have hhi1 := Spec.chunkStart_succ_pos hB1 N t
  have hhiB := Spec.chunkStart_le (B := Spec.faceSize (List.replicate D n) b.dimension) hN
    (by omega : t + 1 ≤ N)
  have hlohi := Spec.chunkStart_mono (Spec.faceSize (List.replicate D n) b.dimension) N
    (by omega : t ≤ t + 1)
  have hBle : Spec.faceSize (List.replicate D n) b.dimension ≤ n ^ D := by
    unfold Spec.faceSize
    rw [hprod]
    exact Nat.div_le_self _ _
  obtain ⟨r, hr, hA⟩ := boundaryLoop_spec w ghost hE hEn hE2 htot hb hhi1 hhiB fuel _ i1 r1 out
    hOnIn hOnRes (le_refl _) hlohi (by omega)
  refine ⟨r.getter.values, ?_, hA⟩
  unfold boundaryThread
  rw [hi0]
  simp only
  rw [hi1]
  unfold ComputationalPureBlock.getBoundaryIterator
  have e1 : (ComputationalPureBlock.new n out).values = some out := rfl
  have e2 : (ComputationalPureBlock.new n out).getSizeArray D = List.replicate D n := rfl
  have e3 : (ComputationalPureBlock.new n out).smallestIndex = 0 := rfl
  rw [e1]
  simp only [e2, e3]
  rw [hr0]
  simp only
  rw [hr1]
  simp only
  rw [hr]
  simp only
  rw [ComputationalPureBlock.written_new]

/-- `applyInBoundaryRegion` adds the taps towards the face `b` to the `E` cells behind every face
cell. -/
theorem applyInBoundaryRegion_adds {D n E : Nat} (main : Nat → α) (w : Nat → Int → α)
    (ghost : Nat → Nat → Nat → α) {b : BoundaryId}
    (hE : 1 ≤ E) (hEn : E ≤ n) (hE2 : 2 * E < 2147483648) (htot : n ^ D < 2 ^ 31)
    (hb : b.dimension < D) {fuel N : Nat} (hN : 1 ≤ N) (hf : n ^ D ≤ fuel)
    (u : Nat → Nat → Nat) (out : Nat → α) :
    ∃ out1, applyInBoundaryRegion D E w fuel N u
        (ComputationalComposedBlock.new D n E (some main) ghost)
        (ComputationalPureBlock.new n out) b = some (ComputationalPureBlock.new n out1) ∧
      Adds (fun y => ∃ q s, q < Spec.faceSize (List.replicate D n) b.dimension ∧
          s < E ∧ y = Spec.stripCell D n b q s)
        (Spec.faceTaps D n E w main ghost b) out out1 := by
  have hn : 1 ≤ n := by omega
  have key : ∀ count, count ≤ N →
      ∃ out1, parallelRegion (boundaryThread D E w fuel N u
          (ComputationalComposedBlock.new D n E (some main) ghost) b) count
          (ComputationalPureBlock.new n out) = some (ComputationalPureBlock.new n out1) ∧
        Adds (fun y => ∃ q s,
            q < Spec.chunkStart (Spec.faceSize (List.replicate D n) b.dimension) N count ∧
            s < E ∧ y = Spec.stripCell D n b q s)
          (Spec.faceTaps D n E w main ghost b) out out1 := by
    intro count
    induction count with
    | zero =>
      intro _
      refine ⟨out, rfl, Adds.refl_of_false ?_⟩
      rintro y ⟨q, s, hq, -⟩
      rw [Spec.chunkStart_zero] at hq
      omega
    | succ c ih =>
      intro hc
      obtain ⟨out1, h1, hA1⟩ := ih (by omega)
      obtain ⟨out2, h2, hA2⟩ := boundaryThread_spec main w ghost hE hEn hE2 htot hb
        (by omega : c < N) hf u out1
      refine ⟨out2, ?_, ?_⟩
      · unfold parallelRegion
        rw [h1]
        exact h2
      · have hmono := Spec.chunkStart_mono (Spec.faceSize (List.replicate D n) b.dimension) N
          (by omega : c ≤ c + 1)
        have hle := Spec.chunkStart_le (B := Spec.faceSize (List.replicate D n) b.dimension)
          (by omega : 0 < N) hc
        apply (hA1.comp hA2 ?_).congr
        · intro y
          constructor
          · rintro (⟨q, s, hq, hs, hy⟩ | ⟨q, s, hq1, hq2, hs, hy⟩)
            · exact ⟨q, s, by omega, hs, hy⟩
            · exact ⟨q, s, hq2, hs, hy⟩
          · rintro ⟨q, s, hq, hs, hy⟩
            rcases Nat.lt_or_ge q
              (Spec.chunkStart (Spec.faceSize (List.replicate D n) b.dimension) N c) with h | h
            · exact Or.inl ⟨q, s, h, hs, hy⟩
            · exact Or.inr ⟨q, s, h, hq, hs, hy⟩
        · rintro y ⟨q, s, hq, hs, hy⟩ ⟨q1, s1, hq1, hq2, hs1, hy1⟩
          rw [hy] at hy1
          have := (Spec.stripCell_injective hn hb (by omega) (by omega) (by omega : s < n)
            (by omega : s1 < n) hy1).1
          omega
  obtain ⟨out1, h1, hA1⟩ := key N (le_refl _)
  rw [Spec.chunkStart_last (by omega)] at hA1
  exact ⟨out1, h1, hA1⟩

end MultuncialStencil

/-- The cells behind the face cells of the face `b`, up to distance `E`, are the cells whose
coordinate along the face dimension is within `E` of the face. -/
theorem Spec.stripCell_iff {D n E : Nat} (hE : 1 ≤ E) (hEn : E ≤ n) {b : BoundaryId}
    (hb : b.dimension < D) {y : Nat} (hy : y < n ^ D) :
    (∃ q s, q < Spec.faceSize (List.replicate D n) b.dimension ∧ s < E ∧
      y = Spec.stripCell D n b q s) ↔
    (if b.lower then Spec.coordinate (List.replicate D n) y b.dimension < E
      else n ≤ Spec.coordinate (List.replicate D n) y b.dimension + E) := by
  have hn : 1 ≤ n := by omega
  have hposS : ∀ m ∈ List.replicate D n, 1 ≤ m := Spec.pos_replicate hn
  have hprod : (List.replicate D n).prod = n ^ D := Spec.prod_replicate D n
  have hlenS : (List.replicate D n).length = D := List.length_replicate _ _
  have hbS : b.dimension < (List.replicate D n).length := by rw [hlenS]; exact hb
  have hnd : (List.replicate D n).getD b.dimension 0 = n := Spec.getD_replicate hb
  have hc := Spec.coordinate_lt hposS y hbS
  rw [hnd] at hc
  constructor
  · rintro ⟨q, s, hq, hs, rfl⟩
    obtain ⟨-, h2, -⟩ := Spec.stripCell_spec hn hb q (by omega : s < n)
    rw [h2]
    split_ifs <;> omega
  · intro hstrip
    obtain ⟨i1, i2, i3⟩ := @Spec.linearIndex_set_lt (List.replicate D n) (List.replicate D n) y
      b.dimension (Spec.faceCoordinate (List.replicate D n) b.dimension b.lower) hposS rfl hbS
      (Spec.faceCoordinate_lt hposS hbS b.lower) (fun _ _ => rfl)
    obtain ⟨q, hq, hqi⟩ := Spec.faceIndex_surjective hposS hbS b.lower i1 i2
    refine ⟨q, if b.lower then Spec.coordinate (List.replicate D n) y b.dimension
      else n - 1 - Spec.coordinate (List.replicate D n) y b.dimension, hq, ?_, ?_⟩
    · split_ifs at hstrip ⊢ <;> omega
    · unfold Spec.stripCell
      apply Spec.eq_linearIndex hposS
        (by rw [List.length_set, Spec.coordinates_length]) (by rw [hprod]; exact hy)
      intro e he
      rw [Spec.coordinates_set_getD _ _ _ _ he]
      by_cases hed : e = b.dimension
      · rw [if_pos hed, hed]
        split_ifs <;> omega
      · rw [if_neg hed, hqi, i3 e hed he]

namespace MultuncialStencil

variable {α : Type} [CommRing α]

theorem boundaryTerm_eq {D n E : Nat} (main : Nat → α) (w : Nat → Int → α)
    (ghost : Nat → Nat → Nat → α) (b : BoundaryId) (y : Nat) :
    Spec.boundaryTerm D n E w main ghost b y
      = if (if b.lower then Spec.coordinate (List.replicate D n) y b.dimension < E
          else n ≤ Spec.coordinate (List.replicate D n) y b.dimension + E) then
          Spec.faceTaps D n E w main ghost b y
        else 0 := by
  unfold Spec.boundaryTerm Spec.faceTaps
  by_cases hl : b.lower = true
  · simp only [hl, if_true]
  · have hl0 : b.lower = false := by simpa using hl
    simp only [hl0, Bool.false_eq_true, if_false]

/-- `applyInBoundaryRegion` adds the boundary term of the face `b` to every cell of the output
block. -/
theorem applyInBoundaryRegion_spec {D n E : Nat} (main : Nat → α) (w : Nat → Int → α)
    (ghost : Nat → Nat → Nat → α) {b : BoundaryId}
    (hE : 1 ≤ E) (hEn : E ≤ n) (hE2 : 2 * E < 2147483648) (htot : n ^ D < 2 ^ 31)
    (hb : b.dimension < D) {fuel N : Nat} (hN : 1 ≤ N) (hf : n ^ D ≤ fuel)
    (u : Nat → Nat → Nat) (out : Nat → α) :
    applyInBoundaryRegion D E w fuel N u
        (ComputationalComposedBlock.new D n E (some main) ghost)
        (ComputationalPureBlock.new n out) b
      = some (ComputationalPureBlock.new n fun y =>
          if y < n ^ D then out y + Spec.boundaryTerm D n E w main ghost b y else out y) := by
  have hn : 1 ≤ n := by omega
  obtain ⟨out1, h1, hA⟩ := applyInBoundaryRegion_adds main w ghost hE hEn hE2 htot hb hN hf u out
  rw [h1]
  congr 2
  funext y
  by_cases hy : y < n ^ D
  · rw [if_pos hy, boundaryTerm_eq]
    by_cases hs : (if b.lower then Spec.coordinate (List.replicate D n) y b.dimension < E
        else n ≤ Spec.coordinate (List.replicate D n) y b.dimension + E)
    · rw [if_pos hs]
      exact (hA y).1 ((Spec.stripCell_iff hE hEn hb hy).mpr hs)
    · rw [if_neg hs, add_zero]
      exact (hA y).2 (fun h => hs ((Spec.stripCell_iff hE hEn hb hy).mp h))
  · rw [if_neg hy]
    apply (hA y).2
    rintro ⟨q, s, -, hs, rfl⟩
    exact hy (Spec.stripCell_spec hn hb q (by omega : s < n)).1

end MultuncialStencil

theorem sum_range_getD {α : Type} [AddCommMonoid α] (g : Nat → α) : ∀ (l : List Nat),
    ∑ k in Finset.range l.length, g (l.getD k 0) = (l.map g).sum := by
  intro l
  induction l with
  | nil => simp
  | cons a l ih =>
    rw [List.length_cons, Finset.sum_range_succ', List.map_cons, List.sum_cons, ← ih, add_comm]
    rfl

theorem sum_map_range {α : Type} [AddCommMonoid α] (g : Nat → α) : ∀ (m : Nat),
    ((List.range m).map g).sum = ∑ j in Finset.range m, g j := by
  intro m
  induction m with
  | zero => simp
  | succ m ih =>
    rw [List.range_succ, List.map_append, List.sum_append, ih, Finset.sum_range_succ]
    simp

theorem sum_range_two_mul {α : Type} [AddCommMonoid α] (g : Nat → α) : ∀ (D : Nat),
    ∑ j in Finset.range (2 * D), g j = ∑ d in Finset.range D, (g (2 * d) + g (2 * d + 1)) := by
  intro D
  induction D with
  | zero => simp
  | succ D ih =>
    have e : 2 * (D + 1) = 2 * D + 1 + 1 := by ring
    rw [e, Finset.sum_range_succ, Finset.sum_range_succ, ih, Finset.sum_range_succ, add_assoc]

/-- A sum over the completion order of the receive requests is the sum over the `2 D` request
slots, two per dimension. -/
theorem sum_completions {α : Type} [AddCommMonoid α] (g : Nat → α) {D : Nat}
    {completions : List Nat} (hperm : completions.Perm (List.range (2 * D))) :
    ∑ k in Finset.range (2 * D), g (completions.getD k 0)
      = ∑ d in Finset.range D, (g (2 * d) + g (2 * d + 1)) := by
  have hlen : completions.length = 2 * D := by
    rw [hperm.length_eq, List.length_range]
  rw [← hlen, sum_range_getD, (hperm.map g).sum_eq, sum_map_range, sum_range_two_mul]

namespace BlockOperator

variable {α : Type} [CommRing α]

/-- After `count` passes of the loop of `applyInBoundaryRegions` every cell has received the
boundary terms of the faces reported so far. -/
theorem applyInBoundaryRegions_spec {D n E : Nat} (main : Nat → α) (w : Nat → Int → α)
    (ghost : Nat → Nat → Nat → α)
    (hE : 1 ≤ E) (hEn : E ≤ n) (hE2 : 2 * E < 2147483648) (htot : n ^ D < 2 ^ 31)
    {fuel N : Nat} (hN : 1 ≤ N) (hf : n ^ D ≤ fuel)
    (u : Nat → Nat → Nat → Nat) {completions : List Nat}
    (hlt : ∀ idx ∈ completions, idx < 2 * D) (out : Nat → α) :
    ∀ count, count ≤ completions.length →
    applyInBoundaryRegions D E w fuel N u completions
        (ComputationalComposedBlock.new D n E (some main) ghost) count
        (ComputationalPureBlock.new n out)
      = some (ComputationalPureBlock.new n fun y =>
          if y < n ^ D then
            out y + ∑ k in Finset.range count, Spec.boundaryTerm D n E w main ghost
              (ComputationalComposedBlock.receiveDoneAt (completions.getD k 0)) y
          else out y) := by
  intro count
  induction count with
  | zero =>
    intro _
    unfold applyInBoundaryRegions
    simp
  | succ c ih =>
    intro hc
    have hget : completions.get? c = some (completions.getD c 0) := by
      rw [List.get?_eq_getElem?, List.getD_eq_getElem _ _ (by omega),
        List.getElem?_eq_getElem (by omega)]
    have hidx : completions.getD c 0 < 2 * D := by
      apply hlt
      rw [List.getD_eq_getElem _ _ (by omega)]
      exact List.getElem_mem _
    have hb : (ComputationalComposedBlock.receiveDoneAt (completions.getD c 0)).dimension < D := by
      show completions.getD c 0 / 2 < D
      omega
    unfold applyInBoundaryRegions
    rw [ih (by omega), hget]
    simp only
    rw [MultuncialStencil.applyInBoundaryRegion_spec main w ghost hE hEn hE2 htot hb hN hf]
    congr 2
    funext y
    by_cases hy : y < n ^ D
    · simp only [if_pos hy, Finset.sum_range_succ, add_assoc]
    · simp only [if_neg hy]

end BlockOperator

/-- The taps of one dimension split into the taps below the centre, the centre tap and the taps
above the centre. -/
theorem Spec.taps_split {α : Type} [CommRing α] (D n E : Nat) (w : Nat → Int → α)
    (main : Nat → α) (ghost : Nat → Nat → Nat → α) (x d : Nat) :
    ∑ k in Finset.range (2 * E + 1),
        w d (k : Int) * Spec.neighborValue D n E main ghost x d ((k : Int) - (E : Int))
      = Spec.leftTaps D n E w main ghost x d
        + w d (E : Int) * Spec.neighborValue D n E main ghost x d 0
        + Spec.rightTaps D n E w main ghost x d := by
  have e : 2 * E + 1 = E + 1 + E := by ring
  rw [e, Finset.sum_range_add, Finset.sum_range_succ]
  unfold Spec.leftTaps Spec.rightTaps
  congr 1
  · congr 2
    rw [sub_self]
  · apply Finset.sum_congr rfl
    intro i _
    have e1 : (((E + 1 + i : Nat) : Nat) : Int) = (E : Int) + 1 + (i : Int) := by push_cast; ring
    have e2 : (E : Int) + 1 + (i : Int) - (E : Int) = (i : Int) + 1 := by ring
    rw [e1, e2]

/-- The inner term and the two boundary terms of a dimension add up to all its taps. -/
theorem Spec.terms_add {α : Type} [CommRing α] (D n E : Nat) (w : Nat → Int → α)
    (main : Nat → α) (ghost : Nat → Nat → Nat → α) (x d : Nat) :
    Spec.innerTerm D n E w main ghost x d
      + (Spec.boundaryTerm D n E w main ghost
          (ComputationalComposedBlock.receiveDoneAt (2 * d)) x
        + Spec.boundaryTerm D n E w main ghost
          (ComputationalComposedBlock.receiveDoneAt (2 * d + 1)) x)
      = ∑ k in Finset.range (2 * E + 1),
          w d (k : Int) * Spec.neighborValue D n E main ghost x d ((k : Int) - (E : Int)) := by
  have h0 : ComputationalComposedBlock.receiveDoneAt (2 * d)
      = { dimension := d, lower := false } := by
    unfold ComputationalComposedBlock.receiveDoneAt
    have e1 : 2 * d / 2 = d := by omega
    have e2 : ¬ (1 = 2 * d % 2) := by omega
    rw [e1, decide_eq_false e2]
  have h1 : ComputationalComposedBlock.receiveDoneAt (2 * d + 1)
      = { dimension := d, lower := true } := by
    unfold ComputationalComposedBlock.receiveDoneAt
    have e1 : (2 * d + 1) / 2 = d := by omega
    have e2 : 1 = (2 * d + 1) % 2 := by omega
    rw [e1, decide_eq_true e2]
  rw [h0, h1, Spec.taps_split]
  unfold Spec.innerTerm Spec.boundaryTerm
  simp only [Bool.false_eq_true, if_false, if_true]
  by_cases hL : E ≤ Spec.coordinate (List.replicate D n) x d
  · by_cases hR : Spec.coordinate (List.replicate D n) x d + E < n
    · rw [if_pos hL, if_pos hR, if_neg (by omega), if_neg (by omega)]
      ring
    · rw [if_pos hL, if_neg hR, if_pos (by omega), if_neg (by omega)]
      ring
  · by_cases hR : Spec.coordinate (List.replicate D n) x d + E < n
    · rw [if_neg hL, if_pos hR, if_neg (by omega), if_pos (by omega)]
      ring
    · rw [if_neg hL, if_neg hR, if_pos (by omega), if_pos (by omega)]
      ring

/-- Within the size bounds of the hypotheses, where no index computation wraps around:
for every dimensionality `D`, extent `E ≥ 1`, block width `n ≥ E`, weight table `w`,
main buffer and side buffers, `apply` (the inner pass, then one boundary pass for each of the
`2 D` faces in the order in which the receives complete, any order) returns, and every cell `x`
of the output block then holds the sum over the dimensions `d` and the taps `k` in `[0, 2 E]`
of `w[d][k] * u(x + (k - E) e_d)`, where `u` reads the main buffer for a coordinate in `[0, n)`
and the side region below or above dimension `d` for a coordinate in `[-E, 0)` or `[n, n + E)`;
the arithmetic is that of a commutative ring. -/
theorem apply_full_stencil_bounded {α : Type} [CommRing α] (D n E N fuel : Nat)
    (w : Nat → Int → α) (main : Nat → α) (ghost : Nat → Nat → Nat → α) (out : Nat → α)
    (u : Nat → Nat → Nat → Nat) (completions : List Nat)
    (hE : 1 ≤ E) (hEn : E ≤ n) (hE2 : 2 * E < 2147483648) (htot : n ^ D < 2 ^ 31)
    (hN : 1 ≤ N) (hf : n ^ D ≤ fuel) (hperm : completions.Perm (List.range (2 * D))) :
    ∃ result, BlockOperator.apply D E w fuel N u completions
        (ComputationalComposedBlock.new D n E (some main) ghost)
        (ComputationalPureBlock.new n out) = some (ComputationalPureBlock.new n result) ∧
      (∀ x, x < n ^ D → result x = Spec.stencil D n E w main ghost x) ∧
      ∀ x, n ^ D ≤ x → result x = out x := by
  have hlen : completions.length = 2 * D := by
    rw [hperm.length_eq, List.length_range]
  have hlt : ∀ idx ∈ completions, idx < 2 * D := by
    intro idx hidx
    exact List.mem_range.mp (hperm.mem_iff.mp hidx)
  have hw := ComputationalComposedBlock.new_wellFormed D n E (some main) ghost
  refine ⟨fun y =>
      if y < n ^ D then
        (fun i => if i < n ^ D then Spec.innerValue D n E w main ghost i else out i) y
          + ∑ k in Finset.range (2 * D), Spec.boundaryTerm D n E w main ghost
              (ComputationalComposedBlock.receiveDoneAt (completions.getD k 0)) y
      else (fun i => if i < n ^ D then Spec.innerValue D n E w main ghost i else out i) y,
    ?_, ?_, ?_⟩
  · unfold BlockOperator.apply
    rw [MultuncialStencil.applyInInnerRegion_spec w ghost hw rfl hE hEn hE2 htot hN hf]
    simp only
    rw [BlockOperator.applyInBoundaryRegions_spec main w ghost hE hEn hE2 htot hN hf u hlt _
      (2 * D) (by omega)]
  · intro x hx
    simp only [if_pos hx]
    rw [sum_completions (fun idx => Spec.boundaryTerm D n E w main ghost
      (ComputationalComposedBlock.receiveDoneAt idx) x) hperm]
    unfold Spec.stencil Spec.innerValue
    rw [← Finset.sum_add_distrib]
    apply Finset.sum_congr rfl
    intro d _
    exact Spec.terms_add D n E w main ghost x d
  · intro x hx
    simp only [if_neg (by omega : ¬ x < n ^ D)]

/-- The bounded statement for a block of three dimensions with 8 elements per dimension and the
eighth-order weights of `ConstFD8Stencil` for unit step length (extent 4), four threads, and the
receives completing in the order 5, 3, 1, 2, 0, 4. -/
theorem apply_full_stencil_bounded_witness :
    (1 ≤ 4 ∧ 4 ≤ 8 ∧ 2 * 4 < 2147483648 ∧ 8 ^ 3 < 2 ^ 31 ∧ 1 ≤ 4 ∧ 8 ^ 3 ≤ 512 ∧
      [5, 3, 1, 2, 0, 4].Perm (List.range (2 * 3))) ∧
    ∃ result, BlockOperator.apply 3 4
        (fun _ k => ([-1 / 560, 8 / 315, -1 / 5, 8 / 5, -205 / 72, 8 / 5, -1 / 5, 8 / 315,
          -1 / 560] : List ℚ).getD k.toNat 0) 512 4 (fun _ _ _ => 0) [5, 3, 1, 2, 0, 4]
        (ComputationalComposedBlock.new 3 8 4 (some fun i => (i : ℚ))
          (fun d j k => (1000 * d + 100 * j + k : ℚ)))
        (ComputationalPureBlock.new 8 fun _ => 0) = some (ComputationalPureBlock.new 8 result) ∧
      (∀ x, x < 8 ^ 3 → result x = Spec.stencil 3 8 4
        (fun _ k => ([-1 / 560, 8 / 315, -1 / 5, 8 / 5, -205 / 72, 8 / 5, -1 / 5, 8 / 315,
          -1 / 560] : List ℚ).getD k.toNat 0) (fun i => (i : ℚ))
        (fun d j k => (1000 * d + 100 * j + k : ℚ)) x) ∧
      ∀ x, 8 ^ 3 ≤ x → result x = (fun _ => 0) x :=
  ⟨by decide, apply_full_stencil_bounded 3 8 4 4 512 _ _ _ _ _ _ (by decide) (by decide)
    (by decide) (by decide) (by decide) (by decide) (by decide)⟩

namespace FieldSteppingStrategy

/-- With exact tables `neighborInField` decides whether the moved coordinate stays inside the
extent, for every offset of the range of `int`. -/
theorem neighborInField_of_tables {sizes : List Nat} {s : FieldSteppingStrategy}
    (hpos : ∀ n ∈ sizes, 1 ≤ n) (htot : sizes.prod < 2 ^ 31) (htab : TablesOf sizes s)
    (hin : s.isInField = true) (hlt : s.index < s.totalSize) {d : Nat} (hd : d < sizes.length)
    {off : Int} (h1 : -2147483648 ≤ off) (h2 : off < 2147483648) :
    s.neighborInField d off
      = some (decide (0 ≤ (Spec.coordinate sizes s.index d : Int) + off ∧
          (Spec.coordinate sizes s.index d : Int) + off < (sizes.getD d 0 : Nat))) := by
  have hcur := currentIndex_of_tables hpos htot htab hin hlt hd
  have hc_lt := Spec.coordinate_lt hpos s.index hd
  have hn_le : sizes.getD d 0 ≤ sizes.prod := by
    have : sizes.getD d 0 ∈ sizes := by
      rw [List.getD_eq_getElem _ _ hd]; exact List.getElem_mem _
    exact Nat.le_of_dvd (one_le_prod_of_pos hpos) (List.dvd_prod this)
  have hsz : s.size.getD d 0 = sizes.getD d 0 := by rw [htab.size_eq]
  unfold neighborInField
  rw [hcur]
  simp only [hsz]
  rw [toInt64_toU64_add (by omega) (by omega), toInt64_of_lt (by omega)]
  congr 1
  rw [Bool.decide_and]
  congr 2
  · apply propext; omega
  · apply propext; omega

/-- When `neighborInField` does not return true, `linearNeighborIndex` fails. -/
theorem linearNeighborIndex_none {s : FieldSteppingStrategy} {d : Nat} {off : Int}
    (h : s.neighborInField d off ≠ some true) : s.linearNeighborIndex d off = none := by
  unfold linearNeighborIndex
  split
  · next h1 => exact absurd h1 h
  · rfl

end FieldSteppingStrategy

/-- C15: for a size array with all extents at least 1 and total size below `2^31`, at every
in-field linear index, every dimension `d < D` and every offset of the range of `int`:
`neighborInField(d, offset)` returns a truth value; when it is true
`linearNeighborIndex(d, offset)` returns exactly `index + offset * stride[d]`, computed over the
integers, and when it is false the call fails on its assertion. -/
theorem C15_linearNeighborIndex_exact (sizes : List Nat) (minIndex maxIndex index : Nat)
    (s : FieldSteppingStrategy) (d : Nat) (offset : Int)
    (hpos : ∀ n ∈ sizes, 1 ≤ n) (htot : sizes.prod < 2 ^ 31)
    (hs : FieldSteppingStrategy.new minIndex maxIndex index sizes = some s)
    (hin : s.isInField = true) (hlt : s.index < s.totalSize) (hd : d < sizes.length)
    (h1 : -2147483648 ≤ offset) (h2 : offset < 2147483648) :
    (∃ b, s.neighborInField d offset = some b) ∧
    (s.neighborInField d offset = some true →
      ∃ j : Nat, s.linearNeighborIndex d offset = some j ∧
        (j : Int) = (s.index : Int) + offset * (s.stride.getD d 0 : Nat)) ∧
    (s.neighborInField d offset = some false → s.linearNeighborIndex d offset = none) := by
  have htab := (FieldSteppingStrategy.new_tables hpos htot hs).2.2.2
  have hn := FieldSteppingStrategy.neighborInField_of_tables hpos htot htab hin hlt hd h1 h2
  refine ⟨⟨_, hn⟩, ?_, ?_⟩
  · intro ht
    rw [hn] at ht
    have hdec := of_decide_eq_true (Option.some.inj ht)
    obtain ⟨c1, hc1⟩ : ∃ c1 : Nat,
        (c1 : Int) = (Spec.coordinate sizes s.index d : Int) + offset :=
      ⟨_, Int.toNat_of_nonneg hdec.1⟩
    obtain ⟨_, j, hj, _, hje, _⟩ :=
      @FieldSteppingStrategy.neighbor_of_tables sizes s hpos htot htab hin hlt d hd offset c1 hc1
        (by have := hdec.2; omega)
    exact ⟨j, hj, by rw [hje, htab.stride_eq d (by omega)]⟩
  · intro hf
    exact FieldSteppingStrategy.linearNeighborIndex_none (by rw [hf]; simp)

/-- C15 on the 3 x 4 x 5 field of the unit tests, at index 37, dimension 2 and offset -3. -/
theorem C15_linearNeighborIndex_exact_witness :
    ((∀ n ∈ [3, 4, 5], 1 ≤ n) ∧ [3, 4, 5].prod < 2 ^ 31 ∧ 2 < [3, 4, 5].length ∧
      (FieldSteppingStrategy.fill 0 59 37 1 1 [3, 4, 5]).isInField = true) ∧
    ((∃ b, (FieldSteppingStrategy.fill 0 59 37 1 1 [3, 4, 5]).neighborInField 2 (-3) = some b) ∧
    ((FieldSteppingStrategy.fill 0 59 37 1 1 [3, 4, 5]).neighborInField 2 (-3) = some true →
      ∃ j : Nat, (FieldSteppingStrategy.fill 0 59 37 1 1 [3, 4, 5]).linearNeighborIndex 2 (-3)
          = some j ∧
        (j : Int) = ((FieldSteppingStrategy.fill 0 59 37 1 1 [3, 4, 5]).index : Int)
          + (-3) * ((FieldSteppingStrategy.fill 0 59 37 1 1 [3, 4, 5]).stride.getD 2 0 : Nat)) ∧
    ((FieldSteppingStrategy.fill 0 59 37 1 1 [3, 4, 5]).neighborInField 2 (-3) = some false →
      (FieldSteppingStrategy.fill 0 59 37 1 1 [3, 4, 5]).linearNeighborIndex 2 (-3) = none)) :=
  ⟨by decide, C15_linearNeighborIndex_exact [3, 4, 5] 0 59 37
    (FieldSteppingStrategy.fill 0 59 37 1 1 [3, 4, 5]) 2 (-3) (by decide) (by decide) rfl
    (by decide) (by decide) (by decide) (by decide) (by decide)⟩

/-- Within the size bounds of the hypotheses, where no index computation wraps around:
for a size array with all extents at least 1 and total size below `2^31`, at every
in-field linear index, every dimension `d < D` and every offset of the range of `int`
(negative offsets of large magnitude included), `neighborInField(d, offset)` is true exactly
when `0 <= currentIndex(d) + offset < size[d]`, the sum being taken over the integers. -/
theorem neighborInField_iff_bounded (sizes : List Nat) (minIndex maxIndex index : Nat)
    (s : FieldSteppingStrategy) (d : Nat) (offset : Int)
    (hpos : ∀ n ∈ sizes, 1 ≤ n) (htot : sizes.prod < 2 ^ 31)
    (hs : FieldSteppingStrategy.new minIndex maxIndex index sizes = some s)
    (hin : s.isInField = true) (hlt : s.index < s.totalSize) (hd : d < sizes.length)
    (h1 : -2147483648 ≤ offset) (h2 : offset < 2147483648) :
    ∃ c : Nat, s.currentIndex d = some c ∧
      s.neighborInField d offset
        = some (decide (0 ≤ (c : Int) + offset ∧ (c : Int) + offset < (s.size.getD d 0 : Nat))) := by
  have htab := (FieldSteppingStrategy.new_tables hpos htot hs).2.2.2
  refine ⟨_, FieldSteppingStrategy.currentIndex_of_tables hpos htot htab hin hlt hd, ?_⟩
  rw [htab.size_eq]
  exact FieldSteppingStrategy.neighborInField_of_tables hpos htot htab hin hlt hd h1 h2

/-- The bounded statement on the 3 x 4 x 5 field of the unit tests, at index 37, dimension 1 and
the most negative offset of `int`. -/
theorem neighborInField_iff_bounded_witness :
    ((∀ n ∈ [3, 4, 5], 1 ≤ n) ∧ [3, 4, 5].prod < 2 ^ 31 ∧ 1 < [3, 4, 5].length ∧
      (FieldSteppingStrategy.fill 0 59 37 1 1 [3, 4, 5]).isInField = true) ∧
    ∃ c : Nat, (FieldSteppingStrategy.fill 0 59 37 1 1 [3, 4, 5]).currentIndex 1 = some c ∧
      (FieldSteppingStrategy.fill 0 59 37 1 1 [3, 4, 5]).neighborInField 1 (-2147483648)
        = some (decide (0 ≤ (c : Int) + (-2147483648) ∧ (c : Int) + (-2147483648)
            < ((FieldSteppingStrategy.fill 0 59 37 1 1 [3, 4, 5]).size.getD 1 0 : Nat))) :=
  ⟨by decide, neighborInField_iff_bounded [3, 4, 5] 0 59 37
    (FieldSteppingStrategy.fill 0 59 37 1 1 [3, 4, 5]) 1 (-2147483648) (by decide) (by decide)
    rfl (by decide) (by decide) (by decide) (by decide) (by decide)⟩

/-- Within the size bounds of the hypotheses, where no index computation wraps around:
a plain field iterator that is out of field fails in `currentIndex`, `currentValue`,
`currentNeighbor`, `setCurrentValue` and `setCurrentNeighbor`; an iterator that is in field (of
a size array with all extents at least 1 and total size below `2^31`) fails in
`currentNeighbor` and `setCurrentNeighbor` when `currentIndex(d) + offset` lies outside
`[0, size[d])`.  A failing call returns neither a value read from the buffer nor a written
buffer. -/
theorem plain_iterator_failures_bounded {α : Type} (sizes : List Nat) (minIndex maxIndex index : Nat)
    (stepper : FieldSteppingStrategy) (getter : ValueArray α) (d : Nat) (offset : Int) (v : α)
    (hpos : ∀ n ∈ sizes, 1 ≤ n) (htot : sizes.prod < 2 ^ 31)
    (hs : FieldSteppingStrategy.new minIndex maxIndex index sizes = some stepper)
    (hd : d < sizes.length) (h1 : -2147483648 ≤ offset) (h2 : offset < 2147483648) :
    (stepper.isInField = false →
      PureFieldIterator.currentIndex stepper d = none ∧
      PureFieldIterator.currentValue stepper getter = none ∧
      PureFieldIterator.currentNeighbor stepper getter d offset = none ∧
      PureFieldIterator.setCurrentValue stepper getter v = none ∧
      PureFieldIterator.setCurrentNeighbor stepper getter d offset v = none) ∧
    (stepper.isInField = true → stepper.index < stepper.totalSize →
      ∃ c : Nat, PureFieldIterator.currentIndex stepper d = some c ∧
        (¬ (0 ≤ (c : Int) + offset ∧ (c : Int) + offset < (stepper.size.getD d 0 : Nat)) →
          PureFieldIterator.currentNeighbor stepper getter d offset = none ∧
          PureFieldIterator.setCurrentNeighbor stepper getter d offset v = none)) := by
  constructor
  · intro hout
    have hc : stepper.currentIndex d = none := by
      unfold FieldSteppingStrategy.currentIndex; rw [hout]; rfl
    have hn : stepper.neighborInField d offset = none := by
      unfold FieldSteppingStrategy.neighborInField; rw [hc]
    refine ⟨?_, ?_, ?_, ?_, ?_⟩
    · unfold PureFieldIterator.currentIndex; rw [hout]; rfl
    · unfold PureFieldIterator.currentValue; rw [hout]; rfl
    · unfold PureFieldIterator.currentNeighbor; rw [hn]
    · unfold PureFieldIterator.setCurrentValue; rw [hout]; rfl
    · unfold PureFieldIterator.setCurrentNeighbor; rw [hn]
  · intro hin hlt
    have htab := (FieldSteppingStrategy.new_tables hpos htot hs).2.2.2
    have hc := FieldSteppingStrategy.currentIndex_of_tables hpos htot htab hin hlt hd
    have hn := FieldSteppingStrategy.neighborInField_of_tables hpos htot htab hin hlt hd h1 h2
    refine ⟨_, by unfold PureFieldIterator.currentIndex; rw [hin]; exact hc, ?_⟩
    intro hout
    rw [htab.size_eq] at hout
    rw [decide_eq_false hout] at hn
    constructor
    · unfold PureFieldIterator.currentNeighbor; rw [hn]
    · unfold PureFieldIterator.setCurrentNeighbor; rw [hn]

/-- The bounded statement on the 3 x 4 x 5 field of the unit tests, at index 37 (coordinates 1, 0,
3), dimension 1 and offset -1. -/
theorem plain_iterator_failures_bounded_witness :
    ((∀ n ∈ [3, 4, 5], 1 ≤ n) ∧ [3, 4, 5].prod < 2 ^ 31 ∧ 1 < [3, 4, 5].length) ∧
    (((FieldSteppingStrategy.fill 0 59 37 1 1 [3, 4, 5]).isInField = false →
      PureFieldIterator.currentIndex (FieldSteppingStrategy.fill 0 59 37 1 1 [3, 4, 5]) 1 = none ∧
      PureFieldIterator.currentValue (FieldSteppingStrategy.fill 0 59 37 1 1 [3, 4, 5])
        (⟨fun k => k⟩ : ValueArray Nat) = none ∧
      PureFieldIterator.currentNeighbor (FieldSteppingStrategy.fill 0 59 37 1 1 [3, 4, 5])
        (⟨fun k => k⟩ : ValueArray Nat) 1 (-1) = none ∧
      PureFieldIterator.setCurrentValue (FieldSteppingStrategy.fill 0 59 37 1 1 [3, 4, 5])
        (⟨fun k => k⟩ : ValueArray Nat) 7 = none ∧
      PureFieldIterator.setCurrentNeighbor (FieldSteppingStrategy.fill 0 59 37 1 1 [3, 4, 5])
        (⟨fun k => k⟩ : ValueArray Nat) 1 (-1) 7 = none) ∧
    ((FieldSteppingStrategy.fill 0 59 37 1 1 [3, 4, 5]).isInField = true →
      (FieldSteppingStrategy.fill 0 59 37 1 1 [3, 4, 5]).index
        < (FieldSteppingStrategy.fill 0 59 37 1 1 [3, 4, 5]).totalSize →
      ∃ c : Nat,
        PureFieldIterator.currentIndex (FieldSteppingStrategy.fill 0 59 37 1 1 [3, 4, 5]) 1
          = some c ∧
        (¬ (0 ≤ (c : Int) + (-1) ∧ (c : Int) + (-1)
            < ((FieldSteppingStrategy.fill 0 59 37 1 1 [3, 4, 5]).size.getD 1 0 : Nat)) →
          PureFieldIterator.currentNeighbor (FieldSteppingStrategy.fill 0 59 37 1 1 [3, 4, 5])
            (⟨fun k => k⟩ : ValueArray Nat) 1 (-1) = none ∧
          PureFieldIterator.setCurrentNeighbor (FieldSteppingStrategy.fill 0 59 37 1 1 [3, 4, 5])
            (⟨fun k => k⟩ : ValueArray Nat) 1 (-1) 7 = none))) :=
  ⟨by decide, plain_iterator_failures_bounded [3, 4, 5] 0 59 37
    (FieldSteppingStrategy.fill 0 59 37 1 1 [3, 4, 5]) ⟨fun k => k⟩ 1 (-1) 7 (by decide)
    (by decide) rfl (by decide) (by decide) (by decide)⟩

/-- C14: for both stepping strategies `next()` succeeds exactly when the stepper is in field
(`minIndex <= index <= maxIndex`); in particular a call made after the visiting range has been
left fails on `assert(isInField())`, before the index is touched.  For the boundary stepper the
boundary dimension is below `D` and the stride along it is nonzero. -/
theorem C14_next_iff_in_field (w : FieldSteppingStrategy) (s : BoundaryStepper)
    (hdim : s.boundary.getDimension < s.size.length)
    (_hstride : 0 < s.stride.getD s.boundary.getDimension 0) :
    (w.isInField = true ↔ w.minIndex ≤ w.index ∧ w.index ≤ w.maxIndex) ∧
    (s.isInField = true ↔ s.minIndex ≤ s.index ∧ s.index ≤ s.maxIndex) ∧
    ((WholeFieldStepper.next w).isSome = w.isInField) ∧
    ((BoundaryStepper.next s).isSome = s.isInField) ∧
    (w.isInField = false → WholeFieldStepper.next w = none) ∧
    (s.isInField = false → BoundaryStepper.next s = none) := by
  refine ⟨FieldSteppingStrategy.isInField_iff w,
    FieldSteppingStrategy.isInField_iff s.toFieldSteppingStrategy, ?_, ?_, ?_, ?_⟩
  · unfold WholeFieldStepper.next
    by_cases h : w.isInField = true
    · rw [if_pos h, h]; rfl
    · rw [if_neg h]; simp at h; rw [h]; rfl
  · unfold BoundaryStepper.next
    by_cases h : s.isInField = true
    · rw [if_pos h, h]
      simp only [if_pos hdim]
      split_ifs <;> rfl
    · rw [if_neg h]; simp at h; rw [h]; rfl
  · intro h; unfold WholeFieldStepper.next; rw [h]; rfl
  · intro h; unfold BoundaryStepper.next; rw [h]; rfl

namespace FieldSteppingStrategy

/-- The constructor copies every accepted extent unchanged. -/
theorem fill_size (mn mx ix : Nat) : ∀ (sizes : List Nat) (s t : Nat),
    (∀ n ∈ sizes, n ≤ 4294967295) → (fill mn mx ix s t sizes).size = sizes := by
  intro sizes
  induction sizes with
  | nil => intro s t _; simp [fill]
  | cons n ns ih =>
    intro s t h
    simp only [fill]
    rw [ih _ _ (fun m hm => h m (List.mem_cons_of_mem _ hm))]
    have := h n (List.mem_cons_self _ _)
    rw [Nat.mod_eq_of_lt (by unfold U32; omega)]

/-- A zero extent makes the total size zero. -/
theorem fill_totalSize_zero (mn mx ix : Nat) : ∀ (sizes : List Nat) (s t : Nat),
    (t = 0 ∨ 0 ∈ sizes) → (fill mn mx ix s t sizes).totalSize = 0 := by
  intro sizes
  induction sizes with
  | nil =>
    intro s t h
    rcases h with h | h
    · simp [fill, h]
    · simp at h
  | cons n ns ih =>
    intro s t h
    simp only [fill]
    apply ih
    rcases h with h | h
    · left; rw [h]; simp
    · rcases List.mem_cons.mp h with h | h
      · left; rw [← h]; simp
      · right; exact h

end FieldSteppingStrategy

/-- Where no divisor is zero, the guarded rendering of `setIndexLimits` returns the result of
`setIndexLimits`. -/
theorem BoundaryStepper.setIndexLimitsDefined_eq {t N : Nat} {s st : BoundaryStepper}
    (h : s.setIndexLimitsDefined t N = some st) : s.setIndexLimits t N = st := by
  unfold setIndexLimitsDefined at h
  unfold setIndexLimits
  by_cases h1 : 0 ≠ s.totalSize ∧ s.size.getD s.boundary.getDimension 0 = 0
  · rw [if_pos h1] at h; exact absurd h (by simp)
  · rw [if_neg h1] at h
    dsimp only at h ⊢
    generalize (if 0 = s.totalSize then 0
      else s.totalSize / s.size.getD s.boundary.getDimension 0) = B at h ⊢
    by_cases hN : N = 0
    · rw [if_pos hN] at h; exact absurd h (by simp)
    · rw [if_neg hN] at h
      by_cases hB : 0 = B
      · rw [if_pos hB] at h ⊢
        exact Option.some.inj h
      · rw [if_neg hB] at h ⊢
        by_cases hs : s.stride.getD s.boundary.getDimension 0 = 0
        · rw [if_pos hs] at h; exact absurd h (by simp)
        · rw [if_neg hs] at h
          exact Option.some.inj h

/-- C17: for every size array with a zero extent (each extent at most `2^32 - 1`, so that the
constructor accepts it), every face `(d, side)` with `d < D` and every thread, the total size
is 0, `setIndexLimits` runs without a division by zero, and the boundary stepper is out of
field immediately after `setBoundaryToIterate`. -/
theorem C17_empty_field_boundary_out_of_field (sizes : List Nat)
    (minIndex maxIndex index : Nat) (b : BoundaryId) (threadId numThreads : Nat)
    (hmax : ∀ n ∈ sizes, n ≤ 4294967295) (hzero : 0 ∈ sizes)
    (hb : b.getDimension < sizes.length) (ht : threadId < numThreads) :
    ∃ s0 st, BoundaryStepper.new minIndex maxIndex index sizes = some s0 ∧
      s0.totalSize = 0 ∧
      (∃ s1, BoundaryStepper.setIndexLimitsDefined threadId numThreads
        { s0 with boundary := b } = some s1) ∧
      s0.setBoundaryToIterate threadId numThreads b = some st ∧
      st.isInField = false := by
  have hall : sizes.all (fun n => decide (n ≤ 4294967295)) = true := by
    rw [List.all_eq_true]
    intro n hn
    exact decide_eq_true (hmax n hn)
  have htot : (FieldSteppingStrategy.fill minIndex maxIndex index 1 1 sizes).totalSize = 0 :=
    FieldSteppingStrategy.fill_totalSize_zero _ _ _ sizes 1 1 (Or.inr hzero)
  have hlen : (FieldSteppingStrategy.fill minIndex maxIndex index 1 1 sizes).size.length
      = sizes.length := by
    rw [FieldSteppingStrategy.fill_size _ _ _ sizes 1 1 hmax]
  have hnew : BoundaryStepper.new minIndex maxIndex index sizes
      = some ⟨FieldSteppingStrategy.fill minIndex maxIndex index 1 1 sizes, BoundaryId.new⟩ := by
    unfold BoundaryStepper.new FieldSteppingStrategy.new
    rw [if_pos hall]
  have hN : numThreads ≠ 0 := by omega
  have hset : ∃ st, BoundaryStepper.setBoundaryToIterate threadId numThreads
      ⟨FieldSteppingStrategy.fill minIndex maxIndex index 1 1 sizes, BoundaryId.new⟩ b = some st ∧
      st.isInField = false := by
    unfold BoundaryStepper.setBoundaryToIterate
    dsimp only
    rw [if_pos (by rw [hlen]; exact hb)]
    refine ⟨_, rfl, ?_⟩
    unfold BoundaryStepper.setIndexLimits
    dsimp only
    rw [if_pos htot.symm, if_pos rfl]
    rfl
  obtain ⟨st, hst1, hst2⟩ := hset
  refine ⟨_, st, hnew, htot, ?_, hst1, hst2⟩
  unfold BoundaryStepper.setIndexLimitsDefined
  dsimp only
  rw [if_neg (by rw [htot]; simp), if_pos htot.symm, if_neg hN, if_pos rfl]
  exact ⟨_, rfl⟩

/-- C17 on the empty field of the unit tests, extents 0 x 0 x 0, on the upper face of
dimension 1. -/
theorem C17_empty_field_boundary_out_of_field_witness :
    ((∀ n ∈ [0, 0, 0], n ≤ 4294967295) ∧ 0 ∈ [0, 0, 0] ∧
      (⟨1, false⟩ : BoundaryId).getDimension < [0, 0, 0].length ∧ 0 < 1) ∧
    ∃ s0 st, BoundaryStepper.new 5 7 6 [0, 0, 0] = some s0 ∧
      s0.totalSize = 0 ∧
      (∃ s1, BoundaryStepper.setIndexLimitsDefined 0 1
        { s0 with boundary := ⟨1, false⟩ } = some s1) ∧
      s0.setBoundaryToIterate 0 1 ⟨1, false⟩ = some st ∧
      st.isInField = false :=
  ⟨by decide, C17_empty_field_boundary_out_of_field [0, 0, 0] 5 7 6 ⟨1, false⟩ 0 1
    (by decide) (by decide) (by decide) (by decide)⟩

/-- C14 at the two steppers of the 3 x 4 x 5 field of the unit tests when the single thread has
left the visiting range: the whole-field stepper at index 60 and the boundary stepper of the
lower face of dimension 0 beyond its last cell 57. -/
theorem C14_next_iff_in_field_witness :
    ((⟨FieldSteppingStrategy.fill 0 57 60 1 1 [3, 4, 5], ⟨0, true⟩⟩ : BoundaryStepper)
        |>.boundary.getDimension)
      < (FieldSteppingStrategy.fill 0 57 60 1 1 [3, 4, 5]).size.length ∧
    WholeFieldStepper.next (FieldSteppingStrategy.fill 0 59 60 1 1 [3, 4, 5]) = none ∧
    BoundaryStepper.next ⟨FieldSteppingStrategy.fill 0 57 60 1 1 [3, 4, 5], ⟨0, true⟩⟩ = none :=
  ⟨by decide,
   (C14_next_iff_in_field (FieldSteppingStrategy.fill 0 59 60 1 1 [3, 4, 5])
      ⟨FieldSteppingStrategy.fill 0 57 60 1 1 [3, 4, 5], ⟨0, true⟩⟩ (by decide)
      (by decide)).2.2.2.2.1 (by decide),
   (C14_next_iff_in_field (FieldSteppingStrategy.fill 0 59 60 1 1 [3, 4, 5])
      ⟨FieldSteppingStrategy.fill 0 57 60 1 1 [3, 4, 5], ⟨0, true⟩⟩ (by decide)
      (by decide)).2.2.2.2.2 (by decide)⟩

namespace OnFace

variable {α : Type} {sizes : List Nat} {b : BoundaryId} {lo hi k : Nat} {vals : Nat → α}
  {it : ValueFieldBoundaryIterator α}

/-- Reading or writing a neighbour along the face dimension whose coordinate lies outside the
extent fails. -/
theorem currentNeighbor_none (h : OnFace sizes b lo hi vals k it) (hpos : ∀ n ∈ sizes, 1 ≤ n)
    (htot : sizes.prod < 2 ^ 31) (hb : b.dimension < sizes.length) (hlo : lo ≤ k)
    (hk : k < hi) (hB : hi ≤ Spec.faceSize sizes b.dimension) (off : Int)
    (h1 : -2147483648 ≤ off) (h2 : off < 2147483648)
    (hout : (Spec.faceCoordinate sizes b.dimension b.lower : Int) + off < 0 ∨
      (sizes.getD b.dimension 0 : Int) ≤ (Spec.faceCoordinate sizes b.dimension b.lower : Int)
        + off) (v : α) :
    it.currentNeighbor b.dimension off = none ∧
      it.setCurrentNeighbor b.dimension off v = none := by
  have hin := (h.inField_iff hpos hb hlo (by omega)).mpr hk
  unfold ValueFieldBoundaryIterator.isInField at hin
  have hlt : it.stepper.index < it.stepper.totalSize := by
    rw [h.tables.total_eq, h.index]
    exact Spec.faceIndex_lt_prod hpos hb b.lower (by unfold Spec.faceSize at hB; omega)
  have hn := FieldSteppingStrategy.neighborInField_of_tables hpos htot h.tables hin hlt hb h1 h2
  rw [h.index, Spec.coordinate_faceIndex hpos hb, decide_eq_false (by omega)] at hn
  constructor
  · unfold ValueFieldBoundaryIterator.currentNeighbor PureFieldIterator.currentNeighbor
    rw [hn]
  · unfold ValueFieldBoundaryIterator.setCurrentNeighbor PureFieldIterator.setCurrentNeighbor
    rw [hn]

end OnFace

namespace ComposedFieldBoundaryIterator

variable {α : Type}

/-- `setCurrentNeighbor` of a composed boundary iterator along the face dimension, with target
coordinate `c + off` where `c` is the face coordinate: inside the main extent one element of
the main buffer is overwritten and the side iterators are untouched; beyond the face one element
of the buffer of the side region beyond the face is overwritten and the main iterator is
untouched.  The element written has the coordinates of the element `currentNeighbor` reads. -/
theorem setCurrentNeighbor_onFace {sizes : List Nat} {E : Nat} {b : BoundaryId} {lo hi k : Nat}
    {data ghost : Nat → α} {it : ComposedFieldBoundaryIterator α}
    (h : ComposedOnFace sizes E b lo hi data ghost k it)
    (hpos : ∀ n ∈ sizes, 1 ≤ n) (htot : sizes.prod < 2 ^ 31) (hE : 1 ≤ E)
    (hgtot : (sizes.set b.dimension E).prod < 2 ^ 31)
    (hb : b.dimension < sizes.length) (hlo : lo ≤ k) (hk : k < hi)
    (hB : hi ≤ Spec.faceSize sizes b.dimension) (off : Int) (v : α) :
    (∀ T : Nat, (T : Int) = Spec.faceCoordinate sizes b.dimension b.lower + off →
      T < sizes.getD b.dimension 0 →
      ∃ idx it1, it.setCurrentNeighbor b.dimension off v = some it1 ∧
        ComposedOnFace sizes E b lo hi (fun y => if y = idx then v else data y) ghost k it1 ∧
        it1.sideIterators = it.sideIterators ∧ idx < sizes.prod ∧
        Spec.coordinate sizes idx b.dimension = T ∧
        ∀ e, e ≠ b.dimension → Spec.coordinate sizes idx e
          = Spec.coordinate sizes (Spec.faceIndex sizes b.dimension b.lower k) e) ∧
    (b.lower = true → ∀ g : Nat, (g : Int) = E + off → g < E →
      ∃ idx it1, it.setCurrentNeighbor b.dimension off v = some it1 ∧
        ComposedOnFace sizes E b lo hi data (fun y => if y = idx then v else ghost y) k it1 ∧
        it1.mainIterator = it.mainIterator ∧
        idx < (sizes.set b.dimension E).prod ∧
        Spec.coordinate (sizes.set b.dimension E) idx b.dimension = g ∧
        ∀ e, e ≠ b.dimension → Spec.coordinate (sizes.set b.dimension E) idx e
          = Spec.coordinate sizes (Spec.faceIndex sizes b.dimension b.lower k) e) ∧
    (b.lower = false → ∀ g : Nat, (g : Int) = off - 1 → g < E →
      ∃ idx it1, it.setCurrentNeighbor b.dimension off v = some it1 ∧
        ComposedOnFace sizes E b lo hi data (fun y => if y = idx then v else ghost y) k it1 ∧
        it1.mainIterator = it.mainIterator ∧
        idx < (sizes.set b.dimension E).prod ∧
        Spec.coordinate (sizes.set b.dimension E) idx b.dimension = g ∧
        ∀ e, e ≠ b.dimension → Spec.coordinate (sizes.set b.dimension E) idx e
          = Spec.coordinate sizes (Spec.faceIndex sizes b.dimension b.lower k) e) := by
  obtain ⟨hbd, hmain, s, hs, hside⟩ := h
  have hcur : it.currentIndex b.dimension
      = some (Spec.faceCoordinate sizes b.dimension b.lower) := by
    unfold currentIndex
    rw [hmain.currentIndex_eq hpos htot hb hlo hk hB hb, Spec.coordinate_faceIndex hpos hb]
  have hfc := Spec.faceCoordinate_lt hpos hb b.lower
  have hn_le : sizes.getD b.dimension 0 ≤ sizes.prod := by
    have : sizes.getD b.dimension 0 ∈ sizes := by
      rw [List.getD_eq_getElem _ _ hb]; exact List.getElem_mem _
    exact Nat.le_of_dvd (one_le_prod_of_pos hpos) (List.dvd_prod this)
  have hsize : it.mainIterator.size b.dimension = sizes.getD b.dimension 0 := by
    unfold ValueFieldBoundaryIterator.size PureFieldIterator.size
    rw [hmain.tables.size_eq]
  have hgpos := Spec.pos_set hpos hE b.dimension
  have hgb : b.oppositeSide.dimension < (sizes.set b.dimension E).length := by
    rw [List.length_set]; exact hb
  have hgB : hi ≤ Spec.faceSize (sizes.set b.dimension E) b.oppositeSide.dimension := by
    show hi ≤ Spec.faceSize (sizes.set b.dimension E) b.dimension
    rw [Spec.faceSize_set hpos hE hb]; exact hB
  have hgE : (sizes.set b.dimension E).getD b.dimension 0 = E := Spec.getD_set_self E hb
  have hE_le : E ≤ (sizes.set b.dimension E).prod := by
    have hlen' : b.dimension < (sizes.set b.dimension E).length := by
      rw [List.length_set]; exact hb
    have hm : (sizes.set b.dimension E)[b.dimension] ∈ sizes.set b.dimension E :=
      List.getElem_mem hlen'
    rw [List.getElem_set_self] at hm
    exact Nat.le_of_dvd (one_le_prod_of_pos hgpos) (List.dvd_prod hm)
  have hlock : ∀ e, e ≠ b.dimension →
      Spec.coordinate (sizes.set b.dimension E)
        (Spec.faceIndex (sizes.set b.dimension E) b.dimension (!b.lower) k) e
      = Spec.coordinate sizes (Spec.faceIndex sizes b.dimension b.lower k) e :=
    fun e he => Spec.coordinate_set_faceIndex sizes b.dimension E b.lower (!b.lower) k e hpos hE
      hb he
  have hcs : it.currentSideIterator = it.sideIterator b.dimension (if b.lower then 0 else 1) := by
    unfold currentSideIterator currentSide
    rw [hbd]; rfl
  refine ⟨?_, ?_, ?_⟩
  · intro T hT hTn
    obtain ⟨j, m1, -, hj, hOn1, r⟩ :=
      hmain.setCurrentNeighbor_eq hpos htot hb hlo hk hB off T hT hTn v
    refine ⟨j, { it with mainIterator := m1 }, ?_, ⟨hbd, hOn1, s, hs, hside⟩, rfl, r⟩
    unfold setCurrentNeighbor
    rw [hcur]
    simp only [hsize]
    rw [toInt64_toU64_add (by omega) (by omega), toInt64_of_lt (by omega)]
    rw [if_neg (by omega), if_neg (by omega), hj]
  · intro hl g hg hgE'
    have hfc0 : Spec.faceCoordinate sizes b.dimension b.lower = 0 := by
      unfold Spec.faceCoordinate; simp [hl]
    have hgfc : Spec.faceCoordinate (sizes.set b.dimension E) b.oppositeSide.dimension
        b.oppositeSide.lower = E - 1 := by
      unfold Spec.faceCoordinate BoundaryId.oppositeSide
      simp only [hl, hgE]; simp
    have hside0 : it.sideIterator b.dimension 0 = some s := by
      rw [← hs, hcs, hl]; rfl
    obtain ⟨j, s1, -, hj, hOn1, r1, r2, r3⟩ := hside.setCurrentNeighbor_eq hgpos hgtot
      hgb hlo hk hgB (off + 1) g (by rw [hgfc]; omega) (by
        show g < (sizes.set b.dimension E).getD b.dimension 0
        rw [hgE]; exact hgE') v
    refine ⟨j, it.setSideIterator b.dimension 0 s1, ?_, ⟨hbd, hmain, s1, ?_, hOn1⟩, rfl,
      r1, r2, ?_⟩
    · unfold setCurrentNeighbor
      rw [hcur]
      simp only [hsize, hfc0]
      rw [toInt64_toU64_add (by omega) (by omega)]
      rw [if_pos (by omega), hside0]
      simp only
      rw [toInt32_toU64 (by omega) (by omega)]
      have e : off + ((0 : Nat) : Int) + 1 = off + 1 := by omega
      rw [e]
      have hj' : s.setCurrentNeighbor b.dimension (off + 1) v = some s1 := hj
      rw [hj']
    · have : (it.setSideIterator b.dimension 0 s1).currentSideIterator
          = (it.setSideIterator b.dimension 0 s1).sideIterator b.dimension 0 := by
        unfold currentSideIterator currentSide
        show (it.setSideIterator b.dimension 0 s1).sideIterator it.currentBoundary.getDimension
          (if it.currentBoundary.isLowerSide then 0 else 1) = _
        rw [hbd]
        simp only [BoundaryId.getDimension, BoundaryId.isLowerSide, hl, if_true]
      rw [this]
      exact sideIterator_setSideIterator _ _ _ _ (sideIterator_isSome_lt hside0)
    · intro e he
      rw [r3 e he]
      have := hlock e he
      simp only [BoundaryId.oppositeSide] at this ⊢
      exact this
  · intro hl g hg hgE'
    have hfcn : Spec.faceCoordinate sizes b.dimension b.lower = sizes.getD b.dimension 0 - 1 := by
      unfold Spec.faceCoordinate; simp [hl]
    have hn1 := Spec.size_pos hpos hb
    have hgfc : Spec.faceCoordinate (sizes.set b.dimension E) b.oppositeSide.dimension
        b.oppositeSide.lower = 0 := by
      unfold Spec.faceCoordinate BoundaryId.oppositeSide
      simp only [hl]; simp
    have hside1 : it.sideIterator b.dimension 1 = some s := by
      rw [← hs, hcs, hl]; rfl
    obtain ⟨j, s1, -, hj, hOn1, r1, r2, r3⟩ := hside.setCurrentNeighbor_eq hgpos hgtot
      hgb hlo hk hgB (off - 1) g (by rw [hgfc]; push_cast; omega) (by
        show g < (sizes.set b.dimension E).getD b.dimension 0
        rw [hgE]; exact hgE') v
    refine ⟨j, it.setSideIterator b.dimension 1 s1, ?_, ⟨hbd, hmain, s1, ?_, hOn1⟩, rfl,
      r1, r2, ?_⟩
    · unfold setCurrentNeighbor
      rw [hcur]
      simp only [hsize, hfcn]
      rw [toInt64_toU64_add (by omega) (by omega), toInt64_of_lt (by omega)]
      rw [if_neg (by omega), if_pos (by omega), hside1]
      simp only
      have e1 : toU64 (off + ((sizes.getD b.dimension 0 - 1 : Nat) : Int))
          = g + sizes.getD b.dimension 0 := by
        unfold toU64 U64; omega
      have e3 : toInt32 (sub64 (g + sizes.getD b.dimension 0) (sizes.getD b.dimension 0))
          = off - 1 := by
        rw [toInt32_sub64 (by omega) (by omega)]
        push_cast; omega
      rw [e1, e3]
      have hj' : s.setCurrentNeighbor b.dimension (off - 1) v = some s1 := hj
      rw [hj']
    · have : (it.setSideIterator b.dimension 1 s1).currentSideIterator
          = (it.setSideIterator b.dimension 1 s1).sideIterator b.dimension 1 := by
        unfold currentSideIterator currentSide
        show (it.setSideIterator b.dimension 1 s1).sideIterator it.currentBoundary.getDimension
          (if it.currentBoundary.isLowerSide then 0 else 1) = _
        rw [hbd]
        simp only [BoundaryId.getDimension, BoundaryId.isLowerSide, hl]
        rfl
      rw [this]
      exact sideIterator_setSideIterator _ _ _ _ (sideIterator_isSome_lt hside1)
    · intro e he
      rw [r3 e he]
      have := hlock e he
      simp only [BoundaryId.oppositeSide] at this ⊢
      exact this

end ComposedFieldBoundaryIterator

namespace ComposedFieldBoundaryIterator

variable {α : Type}

/-- Two cells with the same coordinate along `d` and the same other coordinates as a third cell
are the same cell. -/
theorem index_unique {sizes : List Nat} {d T i j : Nat} {ref : Nat → Nat}
    (hi : i < sizes.prod) (hj : j < sizes.prod)
    (hid : Spec.coordinate sizes i d = T) (hjd : Spec.coordinate sizes j d = T)
    (hie : ∀ e, e ≠ d → Spec.coordinate sizes i e = ref e)
    (hje : ∀ e, e ≠ d → Spec.coordinate sizes j e = ref e) : i = j := by
  apply Spec.coordinate_injective hi hj
  intro e _
  by_cases he : e = d
  · rw [he, hid, hjd]
  · rw [hie e he, hje e he]

/-- Round trip: after `setCurrentNeighbor(d, off, v)` at a reachable offset,
`currentNeighbor(d, off)` returns `v`. -/
theorem roundTrip_onFace {sizes : List Nat} {E : Nat} {b : BoundaryId} {lo hi k : Nat}
    {data ghost : Nat → α} {it : ComposedFieldBoundaryIterator α}
    (h : ComposedOnFace sizes E b lo hi data ghost k it)
    (hpos : ∀ n ∈ sizes, 1 ≤ n) (htot : sizes.prod < 2 ^ 31) (hE : 1 ≤ E)
    (hgtot : (sizes.set b.dimension E).prod < 2 ^ 31)
    (hb : b.dimension < sizes.length) (hlo : lo ≤ k) (hk : k < hi)
    (hB : hi ≤ Spec.faceSize sizes b.dimension) (off : Int) (v : α) :
    (∀ T : Nat, (T : Int) = Spec.faceCoordinate sizes b.dimension b.lower + off →
      T < sizes.getD b.dimension 0 →
      ∃ idx it1, it.setCurrentNeighbor b.dimension off v = some it1 ∧
        it1.currentNeighbor b.dimension off = some v ∧
        ComposedOnFace sizes E b lo hi (fun y => if y = idx then v else data y) ghost k it1 ∧
        it1.sideIterators = it.sideIterators ∧ idx < sizes.prod ∧
        Spec.coordinate sizes idx b.dimension = T) ∧
    (b.lower = true → ∀ g : Nat, (g : Int) = E + off → g < E →
      ∃ idx it1, it.setCurrentNeighbor b.dimension off v = some it1 ∧
        it1.currentNeighbor b.dimension off = some v ∧
        ComposedOnFace sizes E b lo hi data (fun y => if y = idx then v else ghost y) k it1 ∧
        it1.mainIterator = it.mainIterator ∧
        idx < (sizes.set b.dimension E).prod ∧
        Spec.coordinate (sizes.set b.dimension E) idx b.dimension = g) ∧
    (b.lower = false → ∀ g : Nat, (g : Int) = off - 1 → g < E →
      ∃ idx it1, it.setCurrentNeighbor b.dimension off v = some it1 ∧
        it1.currentNeighbor b.dimension off = some v ∧
        ComposedOnFace sizes E b lo hi data (fun y => if y = idx then v else ghost y) k it1 ∧
        it1.mainIterator = it.mainIterator ∧
        idx < (sizes.set b.dimension E).prod ∧
        Spec.coordinate (sizes.set b.dimension E) idx b.dimension = g) := by
  obtain ⟨s1, s2, s3⟩ := setCurrentNeighbor_onFace h hpos htot hE hgtot hb hlo hk hB off v
  refine ⟨?_, ?_, ?_⟩
  · intro T hT hTn
    obtain ⟨idx, it1, hset, hOn1, hsd, hlt, hd, he⟩ := s1 T hT hTn
    obtain ⟨j, hj, hjlt, hjd, hje⟩ :=
      (currentNeighbor_onFace hOn1 hpos htot hE hgtot hb hlo hk hB off).1 T hT hTn
    have : j = idx := index_unique hjlt hlt hjd hd hje he
    refine ⟨idx, it1, hset, ?_, hOn1, hsd, hlt, hd⟩
    rw [hj, this, if_pos rfl]
  · intro hl g hg hgE
    obtain ⟨idx, it1, hset, hOn1, hm, hlt, hd, he⟩ := s2 hl g hg hgE
    obtain ⟨j, hj, hjlt, hjd, hje⟩ :=
      (currentNeighbor_onFace hOn1 hpos htot hE hgtot hb hlo hk hB off).2.1 hl g hg hgE
    have : j = idx := index_unique hjlt hlt hjd hd hje he
    refine ⟨idx, it1, hset, ?_, hOn1, hm, hlt, hd⟩
    rw [hj, this, if_pos rfl]
  · intro hl g hg hgE
    obtain ⟨idx, it1, hset, hOn1, hm, hlt, hd, he⟩ := s3 hl g hg hgE
    obtain ⟨j, hj, hjlt, hjd, hje⟩ :=
      (currentNeighbor_onFace hOn1 hpos htot hE hgtot hb hlo hk hB off).2.2 hl g hg hgE
    have : j = idx := index_unique hjlt hlt hjd hd hje he
    refine ⟨idx, it1, hset, ?_, hOn1, hm, hlt, hd⟩
    rw [hj, this, if_pos rfl]

/-- One step beyond the side region: on the lower face the offset `-(E + 1)`, on the upper face
the offset `E + 1`, makes `currentNeighbor` and `setCurrentNeighbor` fail. -/
theorem beyond_onFace {sizes : List Nat} {E : Nat} {b : BoundaryId} {lo hi k : Nat}
    {data ghost : Nat → α} {it : ComposedFieldBoundaryIterator α}
    (h : ComposedOnFace sizes E b lo hi data ghost k it)
    (hpos : ∀ n ∈ sizes, 1 ≤ n) (htot : sizes.prod < 2 ^ 31) (hE : 1 ≤ E)
    (hgtot : (sizes.set b.dimension E).prod < 2 ^ 31)
    (hb : b.dimension < sizes.length) (hlo : lo ≤ k) (hk : k < hi)
    (hB : hi ≤ Spec.faceSize sizes b.dimension) (v : α) :
    it.currentNeighbor b.dimension (if b.lower then -((E : Int) + 1) else (E : Int) + 1) = none ∧
    it.setCurrentNeighbor b.dimension (if b.lower then -((E : Int) + 1) else (E : Int) + 1) v
      = none := by
  obtain ⟨hbd, hmain, s, hs, hside⟩ := h
  have hcur : it.currentIndex b.dimension
      = some (Spec.faceCoordinate sizes b.dimension b.lower) := by
    unfold currentIndex
    rw [hmain.currentIndex_eq hpos htot hb hlo hk hB hb, Spec.coordinate_faceIndex hpos hb]
  have hfc := Spec.faceCoordinate_lt hpos hb b.lower
  have hn_le : sizes.getD b.dimension 0 ≤ sizes.prod := by
    have : sizes.getD b.dimension 0 ∈ sizes := by
      rw [List.getD_eq_getElem _ _ hb]; exact List.getElem_mem _
    exact Nat.le_of_dvd (one_le_prod_of_pos hpos) (List.dvd_prod this)
  have hsize : it.mainIterator.size b.dimension = sizes.getD b.dimension 0 := by
    unfold ValueFieldBoundaryIterator.size PureFieldIterator.size
    rw [hmain.tables.size_eq]
  have hgpos := Spec.pos_set hpos hE b.dimension
  have hgb : b.oppositeSide.dimension < (sizes.set b.dimension E).length := by
    rw [List.length_set]; exact hb
  have hgB : hi ≤ Spec.faceSize (sizes.set b.dimension E) b.oppositeSide.dimension := by
    show hi ≤ Spec.faceSize (sizes.set b.dimension E) b.dimension
    rw [Spec.faceSize_set hpos hE hb]; exact hB
  have hgE : (sizes.set b.dimension E).getD b.dimension 0 = E := Spec.getD_set_self E hb
  have hE_le : E ≤ (sizes.set b.dimension E).prod := by
    have hlen' : b.dimension < (sizes.set b.dimension E).length := by
      rw [List.length_set]; exact hb
    have hm : (sizes.set b.dimension E)[b.dimension] ∈ sizes.set b.dimension E :=
      List.getElem_mem hlen'
    rw [List.getElem_set_self] at hm
    exact Nat.le_of_dvd (one_le_prod_of_pos hgpos) (List.dvd_prod hm)
  have hcs : it.currentSideIterator = it.sideIterator b.dimension (if b.lower then 0 else 1) := by
    unfold currentSideIterator currentSide
    rw [hbd]; rfl
  by_cases hl : b.lower = true
  · have hfc0 : Spec.faceCoordinate sizes b.dimension b.lower = 0 := by
      unfold Spec.faceCoordinate; simp [hl]
    have hgfc : Spec.faceCoordinate (sizes.set b.dimension E) b.oppositeSide.dimension
        b.oppositeSide.lower = E - 1 := by
      unfold Spec.faceCoordinate BoundaryId.oppositeSide
      simp only [hl, hgE]; simp
    have hside0 : it.sideIterator b.dimension 0 = some s := by
      rw [← hs, hcs, hl]; rfl
    obtain ⟨f1, f2⟩ := hside.currentNeighbor_none hgpos hgtot hgb hlo hk hgB (-(E : Int))
      (by omega) (by omega) (Or.inl (by rw [hgfc]; omega)) v
    have f1' : s.currentNeighbor b.dimension (-(E : Int)) = none := f1
    have f2' : s.setCurrentNeighbor b.dimension (-(E : Int)) v = none := f2
    have e : -((E : Int) + 1) + ((0 : Nat) : Int) + 1 = -(E : Int) := by omega
    rw [if_pos hl]
    constructor
    · unfold currentNeighbor
      rw [hcur]
      simp only [hsize, hfc0]
      rw [toInt64_toU64_add (by omega) (by omega)]
      rw [if_pos (by omega), hside0]
      simp only
      rw [toInt32_toU64 (by omega) (by omega), e]
      exact f1'
    · unfold setCurrentNeighbor
      rw [hcur]
      simp only [hsize, hfc0]
      rw [toInt64_toU64_add (by omega) (by omega)]
      rw [if_pos (by omega), hside0]
      simp only
      rw [toInt32_toU64 (by omega) (by omega), e, f2']
  · have hl' : b.lower = false := by simpa using hl
    have hfcn : Spec.faceCoordinate sizes b.dimension b.lower = sizes.getD b.dimension 0 - 1 := by
      unfold Spec.faceCoordinate; simp [hl']
    have hn1 := Spec.size_pos hpos hb
    have hgfc : Spec.faceCoordinate (sizes.set b.dimension E) b.oppositeSide.dimension
        b.oppositeSide.lower = 0 := by
      unfold Spec.faceCoordinate BoundaryId.oppositeSide
      simp only [hl']; simp
    have hside1 : it.sideIterator b.dimension 1 = some s := by
      rw [← hs, hcs, hl']; rfl
    obtain ⟨f1, f2⟩ := hside.currentNeighbor_none hgpos hgtot hgb hlo hk hgB (E : Int)
      (by omega) (by omega) (Or.inr (by
        show (((sizes.set b.dimension E).getD b.dimension 0 : Nat) : Int) ≤ _
        rw [hgfc, hgE]; omega)) v
    have f1' : s.currentNeighbor b.dimension (E : Int) = none := f1
    have f2' : s.setCurrentNeighbor b.dimension (E : Int) v = none := f2
    have e1 : toU64 ((E : Int) + 1 + ((sizes.getD b.dimension 0 - 1 : Nat) : Int))
        = E + sizes.getD b.dimension 0 := by
      unfold toU64 U64; omega
    have e3 : toInt32 (sub64 (E + sizes.getD b.dimension 0) (sizes.getD b.dimension 0))
        = (E : Int) := by
      rw [toInt32_sub64 (by omega) (by omega)]
      push_cast; omega
    rw [if_neg hl]
    constructor
    · unfold currentNeighbor
      rw [hcur]
      simp only [hsize, hfcn]
      rw [toInt64_toU64_add (by omega) (by omega), toInt64_of_lt (by omega)]
      rw [if_neg (by omega), if_pos (by omega), hside1]
      simp only
      rw [e1, e3]
      exact f1'
    · unfold setCurrentNeighbor
      rw [hcur]
      simp only [hsize, hfcn]
      rw [toInt64_toU64_add (by omega) (by omega), toInt64_of_lt (by omega)]
      rw [if_neg (by omega), if_pos (by omega), hside1]
      simp only
      rw [e1, e3, f2']

/-- A composed boundary iterator built from its parts and put on the face `b` reaches every face
cell of the chunk of thread `t` of `N` by calls of `next`. -/
theorem reach_onFace (sizes : List Nat) (E : Nat)
    (mn mx ix a1 a2 a3 b1 b2 b3 : Nat) (data glo ghi : Nat → α)
    (sides : List (ValueFieldBoundaryIterator α × ValueFieldBoundaryIterator α))
    (lowerIt upperIt : ValueFieldBoundaryIterator α) (b : BoundaryId) (t N : Nat)
    (hpos : ∀ n ∈ sizes, 1 ≤ n) (htot : sizes.prod < 2 ^ 31) (hE : 1 ≤ E)
    (hgtot : (sizes.set b.dimension E).prod < 2 ^ 31)
    (hb : b.dimension < sizes.length) (ht : t < N)
    (hsides : sides.get? b.dimension = some (lowerIt, upperIt))
    (hlo : ValueFieldBoundaryIterator.new a1 a2 a3 (sizes.set b.dimension E) glo = some lowerIt)
    (hhi : ValueFieldBoundaryIterator.new b1 b2 b3 (sizes.set b.dimension E) ghi = some upperIt) :
    Spec.chunkStart (Spec.faceSize sizes b.dimension) N (t + 1)
      ≤ Spec.faceSize sizes b.dimension ∧
    ∃ it0 it1, ComposedFieldBoundaryIterator.new mn mx ix sizes data sides = some it0 ∧
      it0.setBoundaryToIterate t N b = some it1 ∧
      ∀ p, Spec.chunkStart (Spec.faceSize sizes b.dimension) N t ≤ p →
        p < Spec.chunkStart (Spec.faceSize sizes b.dimension) N (t + 1) →
        ∃ it, it1.nextTimes (p - Spec.chunkStart (Spec.faceSize sizes b.dimension) N t)
            = some it ∧
          it.isInField = true ∧
          ComposedOnFace sizes E b (Spec.chunkStart (Spec.faceSize sizes b.dimension) N t)
            (Spec.chunkStart (Spec.faceSize sizes b.dimension) N (t + 1)) data
            (if b.lower then glo else ghi) p it := by
  have hN : 0 < N := by omega
  obtain ⟨m, hm⟩ := ValueFieldBoundaryIterator.new_succeeds mn mx ix data hpos htot
  have hit0 : ComposedFieldBoundaryIterator.new mn mx ix sizes data sides
      = some { mainIterator := m, sideIterators := sides, currentBoundary := BoundaryId.new } := by
    unfold ComposedFieldBoundaryIterator.new
    rw [hm]
  obtain ⟨hmainTab, hdata, hsd⟩ := ComposedFieldBoundaryIterator.new_composed hpos htot hit0
  have hgpos := Spec.pos_set hpos hE b.dimension
  obtain ⟨hloTab, hloVal⟩ := ValueFieldBoundaryIterator.new_spec hgpos hgtot hlo
  obtain ⟨hhiTab, hhiVal⟩ := ValueFieldBoundaryIterator.new_spec hgpos hgtot hhi
  rw [← hsd] at hsides
  obtain ⟨it1, hit1, hOn⟩ := ComposedFieldBoundaryIterator.setBoundaryToIterate_composed hpos
    htot hE hgtot hb hN ht hmainTab hsides hloTab hhiTab
  rw [hdata, hloVal, hhiVal] at hOn
  have hB1 := Spec.faceSize_pos hpos hb
  have hhi1 := Spec.chunkStart_succ_pos hB1 N t
  have hhiB := Spec.chunkStart_le (B := Spec.faceSize sizes b.dimension) hN
    (by omega : t + 1 ≤ N)
  refine ⟨hhiB, _, it1, hit0, hit1, ?_⟩
  intro p hp1 hp2
  obtain ⟨it, hit, hOnp⟩ := ComposedFieldBoundaryIterator.nextTimes_exists hpos htot hE hgtot
    hb hhiB (p - Spec.chunkStart (Spec.faceSize sizes b.dimension) N t) _ it1 hOn
    (le_refl _) (by omega)
  have ep : Spec.chunkStart (Spec.faceSize sizes b.dimension) N t
      + (p - Spec.chunkStart (Spec.faceSize sizes b.dimension) N t) = p := by
    omega
  rw [ep] at hOnp
  exact ⟨it, hit,
    (ComposedFieldBoundaryIterator.isInField_iff_onFace hOnp hpos hb hp1 hhi1).mpr hp2, hOnp⟩

end ComposedFieldBoundaryIterator

/-- Within the size bounds of the hypotheses, where no index computation wraps around:
a composed boundary iterator with main extents `sizes` and side regions of width `E` is
put on the face `b = (d, side)` by `setBoundaryToIterate` (thread `t` of `N`) and advanced by
`next` to a face cell `p` of its chunk, where it is in field with face coordinate `c` along `d`.
There, for every reachable offset, `setCurrentNeighbor(d, off, v)` followed by
`currentNeighbor(d, off)` returns `v`.  When the target `c + off` lies in `[0, sizes[d])` the
value is stored in one element of the main buffer and the side iterators are untouched; when it
lies below 0 on the lower face (down to `-E`) or at or above `sizes[d]` on the upper face (up to
`sizes[d] + E - 1`) it is stored in one element of the buffer of the side region beyond the face
and the main iterator, with the main buffer, is untouched. -/
theorem composed_setCurrentNeighbor_roundTrip_bounded {α : Type} (sizes : List Nat) (E : Nat)
    (mn mx ix a1 a2 a3 b1 b2 b3 : Nat) (data glo ghi : Nat → α)
    (sides : List (ValueFieldBoundaryIterator α × ValueFieldBoundaryIterator α))
    (lowerIt upperIt : ValueFieldBoundaryIterator α) (b : BoundaryId) (t N : Nat) (off : Int)
    (v : α)
    (hpos : ∀ n ∈ sizes, 1 ≤ n) (htot : sizes.prod < 2 ^ 31) (hE : 1 ≤ E)
    (hgtot : (sizes.set b.dimension E).prod < 2 ^ 31)
    (hb : b.dimension < sizes.length) (ht : t < N)
    (hsides : sides.get? b.dimension = some (lowerIt, upperIt))
    (hlo : ValueFieldBoundaryIterator.new a1 a2 a3 (sizes.set b.dimension E) glo = some lowerIt)
    (hhi : ValueFieldBoundaryIterator.new b1 b2 b3 (sizes.set b.dimension E) ghi = some upperIt) :
    ∃ it0 it1, ComposedFieldBoundaryIterator.new mn mx ix sizes data sides = some it0 ∧
      it0.setBoundaryToIterate t N b = some it1 ∧
      ∀ p, Spec.chunkStart (Spec.faceSize sizes b.dimension) N t ≤ p →
        p < Spec.chunkStart (Spec.faceSize sizes b.dimension) N (t + 1) →
        ∃ it, it1.nextTimes (p - Spec.chunkStart (Spec.faceSize sizes b.dimension) N t)
            = some it ∧
          it.isInField = true ∧
          it.currentIndex b.dimension
            = some (if b.lower then 0 else sizes.getD b.dimension 0 - 1) ∧
          it.mainIterator.getter.values = data ∧
          (∃ s, it.currentSideIterator = some s ∧
            s.getter.values = if b.lower then glo else ghi) ∧
          (∀ T : Nat,
            (T : Int) = ((if b.lower then 0 else sizes.getD b.dimension 0 - 1 : Nat) : Int)
              + off →
            T < sizes.getD b.dimension 0 →
            ∃ idx it2, it.setCurrentNeighbor b.dimension off v = some it2 ∧
              it2.currentNeighbor b.dimension off = some v ∧
              idx < sizes.prod ∧ Spec.coordinate sizes idx b.dimension = T ∧
              it2.mainIterator.getter.values = (fun y => if y = idx then v else data y) ∧
              it2.sideIterators = it.sideIterators) ∧
          (b.lower = true → ∀ g : Nat, (g : Int) = E + (0 + off) → g < E →
            ∃ idx it2 s2, it.setCurrentNeighbor b.dimension off v = some it2 ∧
              it2.currentNeighbor b.dimension off = some v ∧
              idx < (sizes.set b.dimension E).prod ∧
              Spec.coordinate (sizes.set b.dimension E) idx b.dimension = g ∧
              it2.mainIterator = it.mainIterator ∧
              it2.currentSideIterator = some s2 ∧
              s2.getter.values = (fun y => if y = idx then v else glo y)) ∧
          (b.lower = false → ∀ g : Nat,
            (g : Int) = ((sizes.getD b.dimension 0 - 1 : Nat) : Int) + off
              - sizes.getD b.dimension 0 →
            g < E →
            ∃ idx it2 s2, it.setCurrentNeighbor b.dimension off v = some it2 ∧
              it2.currentNeighbor b.dimension off = some v ∧
              idx < (sizes.set b.dimension E).prod ∧
              Spec.coordinate (sizes.set b.dimension E) idx b.dimension = g ∧
              it2.mainIterator = it.mainIterator ∧
              it2.currentSideIterator = some s2 ∧
              s2.getter.values = (fun y => if y = idx then v else ghi y)) := by
  obtain ⟨hhiB, it0, it1, h0, h1, hreach⟩ := ComposedFieldBoundaryIterator.reach_onFace sizes E
    mn mx ix a1 a2 a3 b1 b2 b3 data glo ghi sides lowerIt upperIt b t N hpos htot hE hgtot hb ht
    hsides hlo hhi
  refine ⟨it0, it1, h0, h1, ?_⟩
  intro p hp1 hp2
  obtain ⟨it, hit, hin, hOn⟩ := hreach p hp1 hp2
  obtain ⟨r1, r2, r3⟩ := ComposedFieldBoundaryIterator.roundTrip_onFace hOn hpos htot hE hgtot
    hb hp1 hp2 hhiB off v
  have hfc : Spec.faceCoordinate sizes b.dimension b.lower
      = if b.lower then 0 else sizes.getD b.dimension 0 - 1 := rfl
  rw [hfc] at r1
  obtain ⟨s, hs, hsOn⟩ := hOn.side
  refine ⟨it, hit, hin, ?_, hOn.main.values, ⟨s, hs, hsOn.values⟩, ?_, ?_, ?_⟩
  · unfold ComposedFieldBoundaryIterator.currentIndex
    rw [hOn.main.currentIndex_eq hpos htot hb hp1 hp2 hhiB hb,
      Spec.coordinate_faceIndex hpos hb, hfc]
  · intro T hT hTn
    obtain ⟨idx, it2, q1, q2, q3, q4, q5, q6⟩ := r1 T hT hTn
    exact ⟨idx, it2, q1, q2, q5, q6, q3.main.values, q4⟩
  · intro hl g hg hgE
    obtain ⟨idx, it2, q1, q2, q3, q4, q5, q6⟩ := r2 hl g (by omega) hgE
    obtain ⟨s2, hs2, hs2On⟩ := q3.side
    refine ⟨idx, it2, s2, q1, q2, q5, q6, q4, hs2, ?_⟩
    rw [hs2On.values]
    simp only [hl, if_true]
  · intro hl g hg hgE
    have hn1 := Spec.size_pos hpos hb
    obtain ⟨idx, it2, q1, q2, q3, q4, q5, q6⟩ := r3 hl g (by omega) hgE
    obtain ⟨s2, hs2, hs2On⟩ := q3.side
    refine ⟨idx, it2, s2, q1, q2, q5, q6, q4, hs2, ?_⟩
    rw [hs2On.values]
    simp only [hl]
    rfl

/-- The bounded statement on the fixture of `ComposedFieldBoundaryIteratorTest` (extents 5 x 5 x 5,
width 4), on the upper boundary of dimension 1 with a single thread, at the face cell 7: the value
76 written at offset 3 is read back at offset 3, and it is stored in the upper ghost buffer of
dimension 1 at an element whose coordinate along dimension 1 is 2. -/
theorem composed_setCurrentNeighbor_roundTrip_bounded_witness :
    ∃ it0 it1, ComposedFieldBoundaryIterator.new 0 0 0 [5, 5, 5] (fun i => 33 * i)
        fixtureGhostIterators = some it0 ∧
      it0.setBoundaryToIterate 0 1 { dimension := 1, lower := false } = some it1 ∧
      ∃ it, it1.nextTimes (7 - Spec.chunkStart (Spec.faceSize [5, 5, 5] 1) 1 0) = some it ∧
        it.isInField = true ∧
        ∃ idx it2 s2, it.setCurrentNeighbor 1 3 76 = some it2 ∧
          it2.currentNeighbor 1 3 = some 76 ∧
          idx < ([5, 5, 5].set 1 4).prod ∧
          Spec.coordinate ([5, 5, 5].set 1 4) idx 1 = 2 ∧
          it2.mainIterator = it.mainIterator ∧
          it2.currentSideIterator = some s2 ∧
          s2.getter.values = (fun y => if y = idx then 76 else 1000 * 1 + 100 * 1 + y) := by
  obtain ⟨it0, it1, h0, h1, h⟩ := composed_setCurrentNeighbor_roundTrip_bounded [5, 5, 5] 4
    0 0 0 0 0 0 0 0 0
    (fun i => 33 * i) (fun k => 1000 * 1 + 100 * 0 + k) (fun k => 1000 * 1 + 100 * 1 + k)
    fixtureGhostIterators ((fixtureGhostIterator 1 0).get rfl)
    ((fixtureGhostIterator 1 1).get rfl) { dimension := 1, lower := false } 0 1 3 76
    (by decide) (by decide) (by decide) (by decide) (by decide) (by decide) rfl
    (Option.some_get _).symm (Option.some_get _).symm
  obtain ⟨it, h2, h3, -, -, -, -, -, h5⟩ := h 7 (by decide) (by decide)
  exact ⟨it0, it1, h0, h1, it, h2, h3, h5 rfl 2 (by decide) (by decide)⟩

/-- Within the size bounds of the hypotheses, where no index computation wraps around:
a composed boundary iterator with main extents `sizes` and side regions of width `E` is
put on the face `b = (d, side)` by `setBoundaryToIterate` (thread `t` of `N`) and advanced by
`next` to a face cell `p` of its chunk, where it is in field.  There `currentNeighbor` and
`setCurrentNeighbor` fail for the offset one beyond the side region, `-(E + 1)` on the lower
face and `E + 1` on the upper face, while they succeed for every offset of magnitude `1..E` in
that direction. -/
theorem composed_neighbor_beyond_ghost_bounded {α : Type} (sizes : List Nat) (E : Nat)
    (mn mx ix a1 a2 a3 b1 b2 b3 : Nat) (data glo ghi : Nat → α)
    (sides : List (ValueFieldBoundaryIterator α × ValueFieldBoundaryIterator α))
    (lowerIt upperIt : ValueFieldBoundaryIterator α) (b : BoundaryId) (t N : Nat) (v : α)
    (hpos : ∀ n ∈ sizes, 1 ≤ n) (htot : sizes.prod < 2 ^ 31) (hE : 1 ≤ E)
    (hgtot : (sizes.set b.dimension E).prod < 2 ^ 31)
    (hb : b.dimension < sizes.length) (ht : t < N)
    (hsides : sides.get? b.dimension = some (lowerIt, upperIt))
    (hlo : ValueFieldBoundaryIterator.new a1 a2 a3 (sizes.set b.dimension E) glo = some lowerIt)
    (hhi : ValueFieldBoundaryIterator.new b1 b2 b3 (sizes.set b.dimension E) ghi = some upperIt) :
    ∃ it0 it1, ComposedFieldBoundaryIterator.new mn mx ix sizes data sides = some it0 ∧
      it0.setBoundaryToIterate t N b = some it1 ∧
      ∀ p, Spec.chunkStart (Spec.faceSize sizes b.dimension) N t ≤ p →
        p < Spec.chunkStart (Spec.faceSize sizes b.dimension) N (t + 1) →
        ∃ it, it1.nextTimes (p - Spec.chunkStart (Spec.faceSize sizes b.dimension) N t)
            = some it ∧
          it.isInField = true ∧
          it.currentNeighbor b.dimension (if b.lower then -((E : Int) + 1) else (E : Int) + 1)
            = none ∧
          it.setCurrentNeighbor b.dimension
            (if b.lower then -((E : Int) + 1) else (E : Int) + 1) v = none ∧
          ∀ m : Nat, 1 ≤ m → m ≤ E →
            (∃ x, it.currentNeighbor b.dimension (if b.lower then -(m : Int) else (m : Int))
              = some x) ∧
            (∃ it2, it.setCurrentNeighbor b.dimension
              (if b.lower then -(m : Int) else (m : Int)) v = some it2) := by
  obtain ⟨hhiB, it0, it1, h0, h1, hreach⟩ := ComposedFieldBoundaryIterator.reach_onFace sizes E
    mn mx ix a1 a2 a3 b1 b2 b3 data glo ghi sides lowerIt upperIt b t N hpos htot hE hgtot hb ht
    hsides hlo hhi
  refine ⟨it0, it1, h0, h1, ?_⟩
  intro p hp1 hp2
  obtain ⟨it, hit, hin, hOn⟩ := hreach p hp1 hp2
  obtain ⟨f1, f2⟩ := ComposedFieldBoundaryIterator.beyond_onFace hOn hpos htot hE hgtot hb hp1
    hp2 hhiB v
  refine ⟨it, hit, hin, f1, f2, ?_⟩
  intro m hm1 hm2
  by_cases hl : b.lower = true
  · rw [if_pos hl]
    obtain ⟨idx, hc, -⟩ := (ComposedFieldBoundaryIterator.currentNeighbor_onFace hOn hpos htot
      hE hgtot hb hp1 hp2 hhiB (-(m : Int))).2.1 hl (E - m) (by omega) (by omega)
    obtain ⟨idx2, it2, hset, -⟩ := (ComposedFieldBoundaryIterator.roundTrip_onFace hOn hpos htot
      hE hgtot hb hp1 hp2 hhiB (-(m : Int)) v).2.1 hl (E - m) (by omega) (by omega)
    exact ⟨⟨_, hc⟩, ⟨it2, hset⟩⟩
  · have hl' : b.lower = false := by simpa using hl
    rw [if_neg hl]
    obtain ⟨idx, hc, -⟩ := (ComposedFieldBoundaryIterator.currentNeighbor_onFace hOn hpos htot
      hE hgtot hb hp1 hp2 hhiB (m : Int)).2.2 hl' (m - 1) (by omega) (by omega)
    obtain ⟨idx2, it2, hset, -⟩ := (ComposedFieldBoundaryIterator.roundTrip_onFace hOn hpos htot
      hE hgtot hb hp1 hp2 hhiB (m : Int) v).2.2 hl' (m - 1) (by omega) (by omega)
    exact ⟨⟨_, hc⟩, ⟨it2, hset⟩⟩

/-- The bounded statement on the fixture of `ComposedFieldBoundaryIteratorTest` (extents 5 x 5 x 5,
width 4), on the lower boundary of dimension 0 with a single thread, at the middle face cell 12:
the offset -5 fails for reading and for writing, the offset -4 succeeds. -/
theorem composed_neighbor_beyond_ghost_bounded_witness :
    ∃ it0 it1, ComposedFieldBoundaryIterator.new 0 0 0 [5, 5, 5] (fun i => 33 * i)
        fixtureGhostIterators = some it0 ∧
      it0.setBoundaryToIterate 0 1 { dimension := 0, lower := true } = some it1 ∧
      ∃ it, it1.nextTimes (12 - Spec.chunkStart (Spec.faceSize [5, 5, 5] 0) 1 0) = some it ∧
        it.isInField = true ∧
        it.currentNeighbor 0 (-((4 : Nat) + 1 : Int)) = none ∧
        it.setCurrentNeighbor 0 (-((4 : Nat) + 1 : Int)) 76 = none ∧
        (∃ x, it.currentNeighbor 0 (-((4 : Nat) : Int)) = some x) ∧
        (∃ it2, it.setCurrentNeighbor 0 (-((4 : Nat) : Int)) 76 = some it2) := by
  obtain ⟨it0, it1, h0, h1, h⟩ := composed_neighbor_beyond_ghost_bounded [5, 5, 5] 4
    0 0 0 0 0 0 0 0 0
    (fun i => 33 * i) (fun k => 1000 * 0 + 100 * 0 + k) (fun k => 1000 * 0 + 100 * 1 + k)
    fixtureGhostIterators ((fixtureGhostIterator 0 0).get rfl)
    ((fixtureGhostIterator 0 1).get rfl) { dimension := 0, lower := true } 0 1 76
    (by decide) (by decide) (by decide) (by decide) (by decide) (by decide) rfl
    (Option.some_get _).symm (Option.some_get _).symm
  obtain ⟨it, h2, h3, h4, h5, h6⟩ := h 12 (by decide) (by decide)
  exact ⟨it0, it1, h0, h1, it, h2, h3, h4, h5, h6 4 (by decide) (by decide)⟩

/-- C18 fails on an accepted size array: the constructor accepts the extents 65536 x 65536
(each at most `2^32 - 1`), and the 32-bit entry `stride[2]` wraps around to 0 although
`stride[1] * size[1] = 2^32`; the 64-bit `totalSize` is `2^32`, so `totalSize` differs from
`stride[D]`. -/
theorem C18_stride_wraps_around :
    ∃ s, FieldSteppingStrategy.new 0 0 0 [65536, 65536] = some s ∧
      s.size = [65536, 65536] ∧
      s.stride.getD 0 0 = 1 ∧ s.stride.getD 1 0 = s.stride.getD 0 0 * s.size.getD 0 0 ∧
      s.stride.getD 2 0 = 0 ∧ s.stride.getD 1 0 * s.size.getD 1 0 = 4294967296 ∧
      s.totalSize = 4294967296 ∧ s.totalSize ≠ s.stride.getD 2 0 :=
  ⟨_, rfl, by decide, by decide, by decide, by decide, by decide, by decide, by decide⟩

namespace ValueFieldBoundaryIterator

/-- The constructor accepts every size array with extents at most `2^32 - 1` and keeps the
extents and the buffer. -/
theorem new_accepts {α : Type} {sizes : List Nat} (mn mx ix : Nat) (vals : Nat → α)
    (hmax : ∀ n ∈ sizes, n ≤ 4294967295) :
    ∃ it, ValueFieldBoundaryIterator.new mn mx ix sizes vals = some it ∧
      it.stepper.size = sizes ∧ it.getter.values = vals := by
  have hall : sizes.all (fun n => decide (n ≤ 4294967295)) = true := by
    rw [List.all_eq_true]
    intro n hn
    exact decide_eq_true (hmax n hn)
  refine ⟨⟨⟨FieldSteppingStrategy.fill mn mx ix 1 1 sizes, BoundaryId.new⟩, ⟨vals⟩,
    BoundaryId.new⟩, ?_, FieldSteppingStrategy.fill_size _ _ _ sizes 1 1 hmax, rfl⟩
  unfold ValueFieldBoundaryIterator.new BoundaryStepper.new FieldSteppingStrategy.new
  rw [if_pos hall]

end ValueFieldBoundaryIterator

/-- The constructor of the whole-field iterator accepts every size array with extents at most
`2^32 - 1` and keeps the extents and the buffer. -/
theorem ValueFieldIterator.new_accepts_whole {α : Type} {sizes : List Nat} (t N : Nat)
    (vals : Nat → α) (hmax : ∀ n ∈ sizes, n ≤ 4294967295) :
    ∃ it, ValueFieldIterator.new t N sizes vals = some it ∧
      it.stepper.size = sizes ∧ it.getter.values = vals := by
  have hall : sizes.all (fun n => decide (n ≤ 4294967295)) = true := by
    rw [List.all_eq_true]
    intro n hn
    exact decide_eq_true (hmax n hn)
  have hnew : FieldSteppingStrategy.new 0 0 0 sizes
      = some (FieldSteppingStrategy.fill 0 0 0 1 1 sizes) := by
    unfold FieldSteppingStrategy.new
    rw [if_pos hall]
  refine ⟨⟨(WholeFieldStepper.setIndexLimits t N
    (FieldSteppingStrategy.fill 0 0 0 1 1 sizes)).first, ⟨vals⟩⟩, ?_, ?_, rfl⟩
  · unfold ValueFieldIterator.new WholeFieldStepper.new
    rw [hnew]
  · exact FieldSteppingStrategy.fill_size _ _ _ sizes 1 1 hmax

namespace ComputationalComposedBlock

variable {α : Type}

/-- The loop that builds the ghost iterators succeeds when every extent is at most `2^32 - 1`,
and every ghost iterator has the size array and the buffer of its ghost region. -/
theorem ghostIterators_sizes (D : Nat) (u : Nat → Nat) :
    ∀ (gs : List (GhostRegion α × GhostRegion α)) (i : Nat),
    (∀ p ∈ gs, (∀ m ∈ p.1.getSizeArray D, m ≤ 4294967295) ∧
      (∀ m ∈ p.2.getSizeArray D, m ≤ 4294967295)) →
    ∃ sides, ghostIterators D u i gs = some sides ∧
      ∀ d lo hi, gs.get? d = some (lo, hi) →
        ∃ a b, sides.get? d = some (a, b) ∧
          a.stepper.size = lo.getSizeArray D ∧ a.getter.values = lo.values ∧
          b.stepper.size = hi.getSizeArray D ∧ b.getter.values = hi.values := by
  intro gs
  induction gs with
  | nil =>
    intro i _
    exact ⟨[], rfl, by intro d lo hi h; simp at h⟩
  | cons p rest ih =>
    intro i h
    obtain ⟨lo, hi⟩ := p
    obtain ⟨h1, h2⟩ := h (lo, hi) (List.mem_cons_self _ _)
    obtain ⟨a, ha, ha1, ha2⟩ := ValueFieldBoundaryIterator.new_accepts (u (6 * i + 3))
      (u (6 * i + 4)) (u (6 * i + 5)) lo.values h1
    obtain ⟨b, hb, hb1, hb2⟩ := ValueFieldBoundaryIterator.new_accepts (u (6 * i + 6))
      (u (6 * i + 7)) (u (6 * i + 8)) hi.values h2
    obtain ⟨r, hr, hrest⟩ := ih (i + 1) fun q hq => h q (List.mem_cons_of_mem _ hq)
    refine ⟨(a, b) :: r, ?_, ?_⟩
    · unfold ghostIterators GhostRegion.getBoundaryIterator
      rw [ha, hb, hr]
    · intro d lo1 hi1 hd
      cases d with
      | zero =>
        simp only [List.get?_cons_zero, Option.some.injEq, Prod.mk.injEq] at hd
        obtain ⟨e1, e2⟩ := hd
        subst e1; subst e2
        exact ⟨a, b, rfl, ha1, ha2, hb1, hb2⟩
      | succ d =>
        simp only [List.get?_cons_succ] at hd
        obtain ⟨a1, b1, hs, hh⟩ := hrest d lo1 hi1 hd
        exact ⟨a1, b1, by simpa using hs, hh⟩

end ComputationalComposedBlock

/-- Every entry of a size array with `n` everywhere except `E` at one place is at most the
larger of the two. -/
theorem Spec.set_replicate_le {D n E d B : Nat} (hn : n ≤ B) (hE : E ≤ B) :
    ∀ m ∈ (List.replicate D n).set d E, m ≤ B := by
  intro m hm
  rcases List.mem_or_eq_of_mem_set hm with h | h
  · rw [List.eq_of_mem_replicate h]; exact hn
  · rw [h]; exact hE

/-- C19: the size of a composed iterator along `d` is the sum of the sizes of its main iterator
and of the two side iterators of dimension `d` (each a 32-bit extent).  For the boundary
iterator of a composed block with `n` elements per dimension and side regions of width `E` this
is `n + 2 E` in every dimension `d < D`, while the inner iterator of the block reports `n`. -/
theorem C19_composed_size {α : Type} (D n E : Nat) (values : Nat → α)
    (fresh : Nat → Nat → Nat → α) (u : Nat → Nat) (t N d : Nat)
    (hn : n ≤ 4294967295) (hE : E ≤ 4294967295) (hd : d < D) (_ht : t < N) :
    (∀ (it : ComposedFieldBoundaryIterator α) (lo hi : ValueFieldBoundaryIterator α),
      it.sideIterator d 0 = some lo → it.sideIterator d 1 = some hi →
      it.mainIterator.size d < U32 → lo.size d < U32 → hi.size d < U32 →
      it.size d = some (it.mainIterator.size d + lo.size d + hi.size d)) ∧
    ∃ it0 inner lo hi,
      (ComputationalComposedBlock.new D n E (some values) fresh).getBoundaryIterator D u
        = some it0 ∧
      it0.sideIterator d 0 = some lo ∧ it0.sideIterator d 1 = some hi ∧
      it0.mainIterator.size d = n ∧ lo.size d = E ∧ hi.size d = E ∧
      it0.size d = some (n + 2 * E) ∧
      (ComputationalComposedBlock.new D n E (some values) fresh).getInnerIterator D t N
        = some inner ∧
      inner.size d = n := by
  have hgen : ∀ (it : ComposedFieldBoundaryIterator α) (lo hi : ValueFieldBoundaryIterator α),
      it.sideIterator d 0 = some lo → it.sideIterator d 1 = some hi →
      it.mainIterator.size d < U32 → lo.size d < U32 → hi.size d < U32 →
      it.size d = some (it.mainIterator.size d + lo.size d + hi.size d) := by
    intro it lo hi h0 h1 b0 b1 b2
    unfold ComposedFieldBoundaryIterator.size
    rw [h0, h1]
    simp only
    rw [Nat.mod_eq_of_lt (by unfold U32 at b0 b1 b2; unfold U64; omega)]
  refine ⟨hgen, ?_⟩
  have hmaxMain : ∀ m ∈ List.replicate D n, m ≤ 4294967295 := by
    intro m hm
    rw [List.eq_of_mem_replicate hm]; exact hn
  have hgs : ∀ p ∈ ComputationalComposedBlock.createGhostRegions D n E fresh,
      (∀ m ∈ p.1.getSizeArray D, m ≤ 4294967295) ∧
      (∀ m ∈ p.2.getSizeArray D, m ≤ 4294967295) := by
    intro p hp
    unfold ComputationalComposedBlock.createGhostRegions at hp
    obtain ⟨i, -, rfl⟩ := List.mem_map.mp hp
    exact ⟨Spec.set_replicate_le hn hE, Spec.set_replicate_le hn hE⟩
  obtain ⟨sides, hsides, hsz⟩ := ComputationalComposedBlock.ghostIterators_sizes D u
    (ComputationalComposedBlock.createGhostRegions D n E fresh) 0 hgs
  obtain ⟨a, b, hab, ha, -, hb, -⟩ := hsz d _ _
    (ComputationalComposedBlock.getElem?_createGhostRegions D n E fresh hd)
  obtain ⟨m, hm, hmsize, -⟩ := ValueFieldBoundaryIterator.new_accepts (u 0) (u 1) (u 2)
    (fun i => values (0 + i)) hmaxMain
  obtain ⟨inner, hinner, hisize, -⟩ := ValueFieldIterator.new_accepts_whole t N
    (fun i => values (0 + i)) hmaxMain
  have hs0 : (⟨m, sides, BoundaryId.new⟩ : ComposedFieldBoundaryIterator α).sideIterator d 0
      = some a := by
    unfold ComposedFieldBoundaryIterator.sideIterator
    simp only [hab, if_true]
  have hs1 : (⟨m, sides, BoundaryId.new⟩ : ComposedFieldBoundaryIterator α).sideIterator d 1
      = some b := by
    unfold ComposedFieldBoundaryIterator.sideIterator
    simp only [hab]
    rfl
  have hmain : m.size d = n := by
    unfold ValueFieldBoundaryIterator.size PureFieldIterator.size
    rw [hmsize, Spec.getD_replicate hd]
  have hlo : a.size d = E := by
    unfold ValueFieldBoundaryIterator.size PureFieldIterator.size
    rw [ha]
    exact Spec.getD_set_self E (by rw [List.length_replicate]; exact hd)
  have hhi : b.size d = E := by
    unfold ValueFieldBoundaryIterator.size PureFieldIterator.size
    rw [hb]
    exact Spec.getD_set_self E (by rw [List.length_replicate]; exact hd)
  refine ⟨⟨m, sides, BoundaryId.new⟩, inner, a, b, ?_, hs0, hs1, hmain, hlo, hhi, ?_, ?_, ?_⟩
  · unfold ComputationalComposedBlock.getBoundaryIterator ComputationalComposedBlock.new
    simp only [hsides]
    unfold ComposedFieldBoundaryIterator.new
    have : ValueFieldBoundaryIterator.new (u 0) (u 1) (u 2)
        (ComputationalComposedBlock.getSizeArray D
          (⟨0, n, some values, ComputationalComposedBlock.createGhostRegions D n E fresh, E,
            ComputationalComposedBlock.initializeBlockDataTypes D n E, []⟩ :
            ComputationalComposedBlock α))
        (fun i => values (0 + i)) = some m := hm
    rw [this]
  · rw [hgen _ a b hs0 hs1 (by show m.size d < U32; rw [hmain]; unfold U32; omega)
      (by rw [hlo]; unfold U32; omega) (by rw [hhi]; unfold U32; omega)]
    show some (m.size d + a.size d + b.size d) = _
    rw [hmain, hlo, hhi]
    congr 1
    omega
  · unfold ComputationalComposedBlock.getInnerIterator ComputationalComposedBlock.new
    exact hinner
  · unfold ValueFieldIterator.size PureFieldIterator.size
    rw [hisize, Spec.getD_replicate hd]

/-- C19 on the block of `ComputationalComposedBlockTest`: dimensionality 3, 10 elements per
dimension, extent 4; the boundary iterator reports 18 and the inner iterator 10 along
dimension 1. -/
theorem C19_composed_size_witness :
    ∃ it0 inner,
      (ComputationalComposedBlock.new 3 10 4 (some fun i => 7 * i)
        fun _ _ _ => 0).getBoundaryIterator 3 (fun _ => 0) = some it0 ∧
      it0.size 1 = some (10 + 2 * 4) ∧
      (ComputationalComposedBlock.new 3 10 4 (some fun i => 7 * i)
        fun _ _ _ => 0).getInnerIterator 3 0 1 = some inner ∧
      inner.size 1 = 10 := by
  obtain ⟨-, it0, inner, -, -, h1, -, -, -, -, -, h2, h3, h4⟩ :=
    C19_composed_size 3 10 4 (fun i => 7 * i) (fun _ _ _ => 0) (fun _ => 0) 0 1 1
      (by decide) (by decide) (by decide) (by decide)
  exact ⟨it0, inner, h1, h2, h3, h4⟩

theorem Spec.faceIndex_lower_zero (sizes : List Nat) (d : Nat) :
    Spec.faceIndex sizes d true 0 = 0 := by
  simp [Spec.faceIndex, Spec.faceCoordinate]

/-- The current value of a boundary iterator that stands at a face cell of its chunk is the
buffer element at the linear index of the cell. -/
theorem OnFace.currentValue_eq {α : Type} {sizes : List Nat} {b : BoundaryId} {lo hi k : Nat}
    {vals : Nat → α} {it : ValueFieldBoundaryIterator α}
    (h : OnFace sizes b lo hi vals k it) (hpos : ∀ n ∈ sizes, 1 ≤ n)
    (hb : b.dimension < sizes.length) (hlo : lo ≤ k) (hk : k < hi) :
    it.currentValue = some (vals (Spec.faceIndex sizes b.dimension b.lower k)) := by
  have hin := (h.inField_iff hpos hb hlo (by omega)).mpr hk
  unfold ValueFieldBoundaryIterator.isInField at hin
  unfold ValueFieldBoundaryIterator.currentValue PureFieldIterator.currentValue
  rw [if_pos hin, h.index]
  simp only [ValueArray.getValue, h.values]

/-- Within the size bounds of the hypotheses, where no index computation wraps around:
a ghost region at the face `(d, side)` of a block of dimensionality `D` with `n`
elements per dimension and width `E` (`1 ≤ n`, `1 ≤ E`, `d < D`, no overflow) allocates a buffer
of exactly `n^(D-1) * E` values; its boundary iterator and its inner iterator have that total
size, report size `E` along `d` and size `n` along every other dimension, and iterate the
buffer from its element 0: the inner iterator of thread 0 starts at `values[0]`, and so does the
boundary iterator on every lower face. -/
theorem ghost_region_layout_bounded {α : Type} (D n E : Nat) (b : BoundaryId) (values : Nat → α)
    (mn mx ix N : Nat)
    (hn : 1 ≤ n) (hE : 1 ≤ E) (hb : b.getDimension < D) (hD : D ≤ 4294967296)
    (htot : n ^ (D - 1) * E < 2 ^ 31) (hN : 0 < N) :
    GhostRegion.totalSize D n E = n ^ (D - 1) * E ∧
    ∃ bit iit,
      (GhostRegion.new b n E values).getBoundaryIterator D mn mx ix = some bit ∧
      (GhostRegion.new b n E values).getInnerIterator D 0 N = some iit ∧
      bit.stepper.totalSize = n ^ (D - 1) * E ∧ iit.stepper.totalSize = n ^ (D - 1) * E ∧
      bit.getter.values = values ∧ iit.getter.values = values ∧
      (∀ e, e < D → bit.size e = if b.getDimension = e then E else n) ∧
      (∀ e, e < D → iit.size e = if b.getDimension = e then E else n) ∧
      iit.stepper.index = 0 ∧ iit.currentValue = some (values 0) ∧
      ∀ e, e < D → ∃ bit1, bit.setBoundaryToIterate 0 N ⟨e, true⟩ = some bit1 ∧
        bit1.stepper.index = 0 ∧ bit1.currentValue = some (values 0) := by
  have hd : b.dimension < D := hb
  have hpos : ∀ m ∈ (List.replicate D n).set b.dimension E, 1 ≤ m :=
    Spec.pos_set (Spec.pos_replicate hn) hE b.dimension
  have hprod : ((List.replicate D n).set b.dimension E).prod = n ^ (D - 1) * E :=
    Spec.prod_set_replicate hn hd
  have hlt : ((List.replicate D n).set b.dimension E).prod < 2 ^ 31 := by rw [hprod]; exact htot
  have hlen : ((List.replicate D n).set b.dimension E).length = D := by
    rw [List.length_set, List.length_replicate]
  have hpow : n ^ (D - 1) < 2 ^ 31 := by
    have : n ^ (D - 1) * 1 ≤ n ^ (D - 1) * E := Nat.mul_le_mul_left _ hE
    omega
  constructor
  · unfold GhostRegion.totalSize
    have e1 : sub64 D 1 = D - 1 := by unfold sub64 U64; omega
    rw [e1, Math.power_eq n (D - 1) (by unfold U32; omega) (by unfold U64; omega)]
    exact Nat.mod_eq_of_lt (by unfold U64; omega)
  · obtain ⟨bit, hbit⟩ := ValueFieldBoundaryIterator.new_succeeds mn mx ix values hpos hlt
    obtain ⟨hbtab, hbval⟩ := ValueFieldBoundaryIterator.new_spec hpos hlt hbit
    obtain ⟨iit, hiit, hch⟩ := ValueFieldIterator.new_inChunk values hpos hlt hN hN
    rw [Spec.chunkStart_zero] at hch
    have h1 : 1 ≤ ((List.replicate D n).set b.dimension E).prod := one_le_prod_of_pos hpos
    have hc1 := Spec.chunkStart_succ_pos h1 N 0
    refine ⟨bit, iit, hbit, hiit, ?_, ?_, hbval, hch.values, ?_, ?_, hch.index,
      hch.chunk_currentValue (le_refl _) (by omega), ?_⟩
    · rw [hbtab.total_eq, hprod]
    · rw [hch.tables.total_eq, hprod]
    · intro e he
      unfold ValueFieldBoundaryIterator.size PureFieldIterator.size
      rw [hbtab.size_eq]
      exact Spec.getD_set_replicate he
    · intro e he
      unfold ValueFieldIterator.size PureFieldIterator.size
      rw [hch.tables.size_eq]
      exact Spec.getD_set_replicate he
    · intro e he
      obtain ⟨bit1, hb1, -, hOn⟩ := @ValueFieldBoundaryIterator.setBoundaryToIterate_onFace α
        ((List.replicate D n).set b.dimension E) bit ⟨e, true⟩ 0 N hpos hlt hbtab
        (by rw [hlen]; exact he) hN hN
      rw [Spec.chunkStart_zero] at hOn
      have hf1 := Spec.faceSize_pos hpos (by rw [hlen]; exact he :
        e < ((List.replicate D n).set b.dimension E).length)
      have hc2 := Spec.chunkStart_succ_pos hf1 N 0
      refine ⟨bit1, hb1, ?_, ?_⟩
      · rw [hOn.index]; exact Spec.faceIndex_lower_zero _ _
      · rw [hOn.currentValue_eq hpos (by rw [hlen]; exact he) (le_refl _) hc2,
          hbval]
        show some (values (Spec.faceIndex _ e true 0)) = _
        rw [Spec.faceIndex_lower_zero]

/-- The bounded statement on the ghost region of `GhostRegionTest`: dimensionality 3, 8 elements
per dimension, width 2, at the lower face of dimension 0, with a single thread. -/
theorem ghost_region_layout_bounded_witness :
    (1 ≤ 8 ∧ 1 ≤ 2 ∧ (⟨0, true⟩ : BoundaryId).getDimension < 3 ∧ 8 ^ (3 - 1) * 2 < 2 ^ 31) ∧
    GhostRegion.totalSize 3 8 2 = 8 ^ (3 - 1) * 2 ∧
    ∃ bit iit,
      (GhostRegion.new ⟨0, true⟩ 8 2 fun i => 12 * i).getBoundaryIterator 3 0 0 0 = some bit ∧
      (GhostRegion.new ⟨0, true⟩ 8 2 fun i => 12 * i).getInnerIterator 3 0 1 = some iit ∧
      bit.size 0 = 2 ∧ bit.size 1 = 8 ∧ bit.size 2 = 8 ∧
      iit.size 0 = 2 ∧ iit.size 1 = 8 ∧ iit.size 2 = 8 ∧
      iit.currentValue = some 0 := by
  obtain ⟨h0, bit, iit, h1, h2, -, -, -, -, h3, h4, -, h5, -⟩ :=
    ghost_region_layout_bounded 3 8 2 ⟨0, true⟩ (fun i => 12 * i) 0 0 0 1
      (by decide) (by decide) (by decide) (by decide) (by decide) (by decide)
  exact ⟨by decide, h0, bit, iit, h1, h2, h3 0 (by decide), h3 1 (by decide),
    h3 2 (by decide), h4 0 (by decide), h4 1 (by decide), h4 2 (by decide), h5⟩

/-- The state of a `BoundaryId` after `k` applications of `operator++` to the default id. -/
theorem BoundaryId.iterate_advance (k : Nat) (hk : k / 2 < 18446744073709551616) :
    BoundaryId.advance^[k] BoundaryId.new = ⟨k / 2, decide (k % 2 = 0)⟩ := by
  induction k with
  | zero => rfl
  | succ k ih =>
    rw [Function.iterate_succ_apply', ih (by omega)]
    unfold BoundaryId.advance
    rcases Nat.mod_two_eq_zero_or_one k with h | h
    · have h1 : (k + 1) % 2 = 1 := by omega
      have h2 : (k + 1) / 2 = k / 2 := by omega
      simp [h, h1, h2]
    · have h1 : (k + 1) % 2 = 0 := by omega
      have h2 : (k + 1) / 2 = k / 2 + 1 := by omega
      have h3 : (k / 2 + 1) % U64 = k / 2 + 1 := Nat.mod_eq_of_lt (by unfold U64; omega)
      simp [h, h1, h2, h3]

/-- The faces of a box of dimensionality `D` in the order `(0, lower), (0, upper), (1, lower),
...`, as a list indexed by the number of steps. -/
theorem BoundaryId.faces_eq (D : Nat) :
    ((List.range D).flatMap fun d => [(⟨d, true⟩ : BoundaryId), ⟨d, false⟩])
      = (List.range (2 * D)).map fun j => (⟨j / 2, decide (j % 2 = 0)⟩ : BoundaryId) := by
  induction D with
  | zero => rfl
  | succ D ih =>
    rw [List.range_succ, List.flatMap_append, ih]
    have e : 2 * (D + 1) = 2 * D + 1 + 1 := by ring
    rw [e, List.range_succ, List.range_succ, List.map_append, List.map_append, List.append_assoc]
    congr 1
    have h1 : (2 * D) / 2 = D := by omega
    have h2 : (2 * D) % 2 = 0 := by omega
    have h3 : (2 * D + 1) / 2 = D := by omega
    have h4 : (2 * D + 1) % 2 = 1 := by omega
    simp [h1, h2, h3, h4]

/-- C22: the default `BoundaryId` is `(0, lower)`; `k` applications of `operator++` to it yield
`(floor(k / 2), lower iff k is even)` (while `floor(k / 2)` is in the range of `std::size_t`); so
the first `2 D` values are the faces `(0, lower), (0, upper), (1, lower), (1, upper), ...` of a
box of dimensionality `D`, every face exactly once; and `reset()` returns any id to
`(0, lower)`. -/
theorem C22_boundaryId_enumeration (k D : Nat) (b : BoundaryId)
    (hk : k / 2 < 18446744073709551616) (hD : D ≤ 18446744073709551616) :
    BoundaryId.new = ⟨0, true⟩ ∧
    BoundaryId.advance^[k] BoundaryId.new = ⟨k / 2, decide (k % 2 = 0)⟩ ∧
    (List.range (2 * D)).map (fun j => BoundaryId.advance^[j] BoundaryId.new)
      = (List.range D).flatMap (fun d => [(⟨d, true⟩ : BoundaryId), ⟨d, false⟩]) ∧
    ((List.range (2 * D)).map (fun j => BoundaryId.advance^[j] BoundaryId.new)).Nodup ∧
    (∀ f : BoundaryId, f.getDimension < D →
      f ∈ (List.range (2 * D)).map (fun j => BoundaryId.advance^[j] BoundaryId.new)) ∧
    b.reset = ⟨0, true⟩ := by
  have hmap : (List.range (2 * D)).map (fun j => BoundaryId.advance^[j] BoundaryId.new)
      = (List.range (2 * D)).map fun j => (⟨j / 2, decide (j % 2 = 0)⟩ : BoundaryId) := by
    apply List.map_congr_left
    intro j hj
    have := List.mem_range.mp hj
    exact BoundaryId.iterate_advance j (by omega)
  refine ⟨rfl, BoundaryId.iterate_advance k hk, ?_, ?_, ?_, rfl⟩
  · rw [hmap, BoundaryId.faces_eq]
  · rw [hmap]
    apply List.Nodup.map_on _ (List.nodup_range _)
    intro x _ y _ h
    simp only [BoundaryId.mk.injEq, decide_eq_decide] at h
    omega
  · intro f hf
    rw [hmap, List.mem_map]
    obtain ⟨d, l⟩ := f
    have hd : d < D := hf
    refine ⟨2 * d + if l then 0 else 1, List.mem_range.mpr (by split <;> omega), ?_⟩
    cases l
    · have h1 : (2 * d + 1) / 2 = d := by omega
      have h2 : (2 * d + 1) % 2 = 1 := by omega
      simp [h1, h2]
    · have h1 : (2 * d + 0) / 2 = d := by omega
      have h2 : (2 * d + 0) % 2 = 0 := by omega
      simp [h1, h2]

/-- C22 for three steps and a box of dimensionality 3, as in `BoundaryIdTest`. -/
theorem C22_boundaryId_enumeration_witness :
    (3 / 2 < 18446744073709551616 ∧ 3 ≤ 18446744073709551616) ∧
    BoundaryId.advance^[3] BoundaryId.new = ⟨1, false⟩ ∧
    (List.range (2 * 3)).map (fun j => BoundaryId.advance^[j] BoundaryId.new)
      = [⟨0, true⟩, ⟨0, false⟩, ⟨1, true⟩, ⟨1, false⟩, ⟨2, true⟩, ⟨2, false⟩] ∧
    BoundaryId.reset ⟨13, false⟩ = ⟨0, true⟩ :=
  ⟨by decide,
    (C22_boundaryId_enumeration 3 3 ⟨13, false⟩ (by decide) (by decide)).2.1,
    (C22_boundaryId_enumeration 3 3 ⟨13, false⟩ (by decide) (by decide)).2.2.1,
    (C22_boundaryId_enumeration 3 3 ⟨13, false⟩ (by decide) (by decide)).2.2.2.2.2⟩

/-- C23: for every `BoundaryId` `b`, `oppositeSide()` returns an id with the dimension of `b`
and the other side (a new value: `b` itself is not modified by the pure function); the opposite
of the opposite is `b`, and the opposite never equals `b`. -/
theorem C23_oppositeSide_involution (b : BoundaryId) :
    b.oppositeSide.getDimension = b.getDimension ∧
    b.oppositeSide.isLowerSide = !b.isLowerSide ∧
    b.oppositeSide.oppositeSide = b ∧
    b.oppositeSide ≠ b := by
  obtain ⟨d, l⟩ := b
  refine ⟨rfl, rfl, ?_, ?_⟩
  · simp [BoundaryId.oppositeSide]
  · simp [BoundaryId.oppositeSide]

namespace BoundaryStepper

/-- `setIndexLimits` writes `minIndex` and `maxIndex` only. -/
theorem setIndexLimits_frame (t N : Nat) (s : BoundaryStepper) :
    (setIndexLimits t N s).index = s.index ∧ (setIndexLimits t N s).stride = s.stride ∧
    (setIndexLimits t N s).size = s.size ∧ (setIndexLimits t N s).totalSize = s.totalSize ∧
    (setIndexLimits t N s).magicStrideNumbers = s.magicStrideNumbers ∧
    (setIndexLimits t N s).magicSizeNumbers = s.magicSizeNumbers ∧
    (setIndexLimits t N s).boundary = s.boundary := by
  unfold setIndexLimits
  dsimp only
  split_ifs <;> exact ⟨rfl, rfl, rfl, rfl, rfl, rfl, rfl⟩

/-- The limits `setIndexLimits` computes depend on the tables and the boundary only. -/
theorem setIndexLimits_congr (t N : Nat) {s1 s2 : BoundaryStepper}
    (hstride : s1.stride = s2.stride) (hsize : s1.size = s2.size)
    (htotal : s1.totalSize = s2.totalSize) (hb : s1.boundary = s2.boundary) :
    (setIndexLimits t N s1).minIndex = (setIndexLimits t N s2).minIndex ∧
    (setIndexLimits t N s1).maxIndex = (setIndexLimits t N s2).maxIndex := by
  unfold setIndexLimits
  dsimp only
  rw [hstride, hsize, htotal, hb]
  split_ifs <;> exact ⟨rfl, rfl⟩

/-- The state `setBoundaryToIterate` leaves, field by field. -/
theorem setBoundaryToIterate_normal (t N : Nat) (s : BoundaryStepper) (b : BoundaryId)
    (h : b.getDimension < s.size.length) :
    s.setBoundaryToIterate t N b
      = some ⟨⟨(setIndexLimits t N { s with boundary := b }).minIndex,
          (setIndexLimits t N { s with boundary := b }).maxIndex,
          (setIndexLimits t N { s with boundary := b }).minIndex,
          s.stride, s.size, s.totalSize, s.magicStrideNumbers, s.magicSizeNumbers⟩, b⟩ := by
  obtain ⟨f1, f2, f3, f4, f5, f6, f7⟩ := setIndexLimits_frame t N { s with boundary := b }
  unfold setBoundaryToIterate
  rw [if_pos h]
  simp only [FieldSteppingStrategy.first, Option.some.injEq]
  have f7' : (setIndexLimits t N { s with boundary := b }).boundary = b := f7
  rw [f7']
  exact congrArg (fun x : FieldSteppingStrategy => (⟨x, b⟩ : BoundaryStepper))
    (by rw [← f2, ← f3, ← f4, ← f5, ← f6])

end BoundaryStepper

/-- C29: two boundary steppers with the same tables (the tables the constructor builds from one
size array), whatever their boundary, index and limits, are left in the same state by
`setBoundaryToIterate(b)` run with the same thread id and thread count; that state has boundary
`b` and index `minIndex`, and a second call in a row returns the same state. -/
theorem C29_setBoundaryToIterate_state_independent (s1 s2 : BoundaryStepper) (b : BoundaryId)
    (t N : Nat)
    (hstride : s1.stride = s2.stride) (hsize : s1.size = s2.size)
    (htotal : s1.totalSize = s2.totalSize)
    (hmstride : s1.magicStrideNumbers = s2.magicStrideNumbers)
    (hmsize : s1.magicSizeNumbers = s2.magicSizeNumbers) :
    s1.setBoundaryToIterate t N b = s2.setBoundaryToIterate t N b ∧
    ∀ st, s1.setBoundaryToIterate t N b = some st →
      st.boundary = b ∧ st.index = st.minIndex ∧
      st.stride = s1.stride ∧ st.size = s1.size ∧ st.totalSize = s1.totalSize ∧
      st.setBoundaryToIterate t N b = some st := by
  by_cases h : b.getDimension < s1.size.length
  · have h2 : b.getDimension < s2.size.length := by rw [← hsize]; exact h
    obtain ⟨c1, c2⟩ := @BoundaryStepper.setIndexLimits_congr t N
      { s1 with boundary := b } { s2 with boundary := b } hstride hsize htotal rfl
    have e1 := BoundaryStepper.setBoundaryToIterate_normal t N s1 b h
    have e2 := BoundaryStepper.setBoundaryToIterate_normal t N s2 b h2
    constructor
    · rw [e1, e2, c1, c2, hstride, hsize, htotal, hmstride, hmsize]
    · intro st hst
      rw [e1] at hst
      have hst' := (Option.some.inj hst).symm
      subst hst'
      refine ⟨rfl, rfl, rfl, rfl, rfl, ?_⟩
      obtain ⟨d1, d2⟩ := @BoundaryStepper.setIndexLimits_congr t N
        { (⟨⟨(BoundaryStepper.setIndexLimits t N { s1 with boundary := b }).minIndex,
          (BoundaryStepper.setIndexLimits t N { s1 with boundary := b }).maxIndex,
          (BoundaryStepper.setIndexLimits t N { s1 with boundary := b }).minIndex,
          s1.stride, s1.size, s1.totalSize, s1.magicStrideNumbers, s1.magicSizeNumbers⟩,
          b⟩ : BoundaryStepper) with boundary := b }
        { s1 with boundary := b } rfl rfl rfl rfl
      have e3 := BoundaryStepper.setBoundaryToIterate_normal t N
        (⟨⟨(BoundaryStepper.setIndexLimits t N { s1 with boundary := b }).minIndex,
          (BoundaryStepper.setIndexLimits t N { s1 with boundary := b }).maxIndex,
          (BoundaryStepper.setIndexLimits t N { s1 with boundary := b }).minIndex,
          s1.stride, s1.size, s1.totalSize, s1.magicStrideNumbers, s1.magicSizeNumbers⟩,
          b⟩ : BoundaryStepper) b h
      rw [e3, d1, d2]
  · have h2 : ¬ b.getDimension < s2.size.length := by rw [← hsize]; exact h
    have n1 : s1.setBoundaryToIterate t N b = none := by
      unfold BoundaryStepper.setBoundaryToIterate; rw [if_neg h]
    have n2 : s2.setBoundaryToIterate t N b = none := by
      unfold BoundaryStepper.setBoundaryToIterate; rw [if_neg h2]
    constructor
    · rw [n1, n2]
    · intro st hst
      rw [n1] at hst
      exact absurd hst (by simp)

/-- C29 on the 3 x 4 x 5 field of the unit tests: a stepper with junk limits on the default
boundary and a stepper that has left the upper boundary of dimension 2 are left in the same
state by `setBoundaryToIterate` of the upper boundary of dimension 1. -/
theorem C29_setBoundaryToIterate_state_independent_witness :
    BoundaryStepper.setBoundaryToIterate 0 1
        ⟨FieldSteppingStrategy.fill 5 7 6 1 1 [3, 4, 5], ⟨0, true⟩⟩ ⟨1, false⟩
      = BoundaryStepper.setBoundaryToIterate 0 1
        ⟨FieldSteppingStrategy.fill 48 59 60 1 1 [3, 4, 5], ⟨2, false⟩⟩ ⟨1, false⟩ :=
  (C29_setBoundaryToIterate_state_independent
    ⟨FieldSteppingStrategy.fill 5 7 6 1 1 [3, 4, 5], ⟨0, true⟩⟩
    ⟨FieldSteppingStrategy.fill 48 59 60 1 1 [3, 4, 5], ⟨2, false⟩⟩ ⟨1, false⟩ 0 1
    rfl rfl rfl rfl rfl).1

/-- C24: for every step-length array (of fewer than 65536 dimensions) with non-zero entries,
in the exact arithmetic of a field, the constructor of `ConstFD8Stencil` returns, and for every
dimension `i` the weight row `weights[i][0..8]` is
`[-1/560, 8/315, -1/5, 8/5, -205/72, 8/5, -1/5, 8/315, -1/560]` divided by `h_i^2` (so each
weight times `h_i^2` is the coefficient), the row is symmetric, `weights[i][k] = weights[i][8-k]`,
and `getWeight(iterator, i, k)` returns `weights[i][k]` whatever the iterator. -/
theorem C24_constFD8_weights {α ι : Type} [Field α] (stepLength : List α) (i : Nat)
    (hlen : stepLength.length < 65536) (hi : i < stepLength.length)
    (hh : stepLength.getD i 0 ≠ 0) :
    ∃ s, ConstFD8Stencil.new stepLength = some s ∧
      s.weights.length = stepLength.length ∧
      s.weights.getD i []
        = ([-1 / 560, 8 / 315, -1 / 5, 8 / 5, -205 / 72, 8 / 5, -1 / 5, 8 / 315, -1 / 560] :
            List α).map (fun c => c / stepLength.getD i 0 ^ 2) ∧
      (s.weights.getD i []).map (fun w => w * stepLength.getD i 0 ^ 2)
        = [-1 / 560, 8 / 315, -1 / 5, 8 / 5, -205 / 72, 8 / 5, -1 / 5, 8 / 315, -1 / 560] ∧
      (∀ k, k ≤ 8 → (s.weights.getD i []).getD k 0 = (s.weights.getD i []).getD (8 - k) 0) ∧
      ∀ (it1 it2 : ι) (k : Nat),
        s.getWeight it1 i (k : Int) = (s.weights.getD i []).getD k 0 ∧
        s.getWeight it1 i (k : Int) = s.getWeight it2 i (k : Int) := by
  have hrow : ((stepLength.map fun h : α =>
      [-1 / (560 * (h * h)), 8 / (315 * (h * h)), -1 / (5 * (h * h)), 8 / (5 * (h * h)),
        -205 / (72 * (h * h)), 8 / (5 * (h * h)), -1 / (5 * (h * h)), 8 / (315 * (h * h)),
        -1 / (560 * (h * h))]).getD i [])
      = ([-1 / 560, 8 / 315, -1 / 5, 8 / 5, -205 / 72, 8 / 5, -1 / 5, 8 / 315, -1 / 560] :
            List α).map (fun c => c / stepLength.getD i 0 ^ 2) := by
    rw [List.getD_eq_getElem _ _ (by rw [List.length_map]; exact hi), List.getElem_map,
      List.getD_eq_getElem _ _ hi]
    simp only [List.map_cons, List.map_nil, pow_two, div_mul_eq_div_div]
  refine ⟨_, if_pos hlen, by simp, hrow, ?_, ?_, ?_⟩
  · show List.map _ ((stepLength.map _).getD i []) = _
    rw [hrow]
    have h2 : stepLength.getD i 0 ^ 2 ≠ 0 := pow_ne_zero 2 hh
    simp only [List.map_cons, List.map_nil, div_mul_cancel₀ _ h2]
  · intro k hk
    show ((stepLength.map _).getD i []).getD k 0 = ((stepLength.map _).getD i []).getD (8 - k) 0
    rw [hrow]
    interval_cases k <;> rfl
  · intro it1 it2 k
    exact ⟨rfl, rfl⟩

/-- C24 for the step lengths `1/10` and `1/20` over the rationals, in dimension 1. -/
theorem C24_constFD8_weights_witness :
    ([(1 : ℚ) / 10, 1 / 20].length < 65536 ∧ 1 < [(1 : ℚ) / 10, 1 / 20].length ∧
      [(1 : ℚ) / 10, 1 / 20].getD 1 0 ≠ 0) ∧
    ∃ s, ConstFD8Stencil.new [(1 : ℚ) / 10, 1 / 20] = some s ∧
      s.weights.getD 1 []
        = ([-1 / 560, 8 / 315, -1 / 5, 8 / 5, -205 / 72, 8 / 5, -1 / 5, 8 / 315, -1 / 560] :
            List ℚ).map (fun c => c / [(1 : ℚ) / 10, 1 / 20].getD 1 0 ^ 2) := by
  obtain ⟨s, h1, -, h2, -⟩ := @C24_constFD8_weights ℚ Unit _ [(1 : ℚ) / 10, 1 / 20] 1
    (by decide) (by decide) (by simp)
  exact ⟨⟨by decide, by decide, by simp⟩, s, h1, h2⟩

/-- A list of consecutive pairs, indexed by position. -/
theorem flatMap_pair_eq_map {β : Type} (f g : Nat → β) (D : Nat) :
    ((List.range D).flatMap fun i => [f i, g i])
      = (List.range (2 * D)).map fun j => if j % 2 = 0 then f (j / 2) else g (j / 2) := by
  induction D with
  | zero => rfl
  | succ D ih =>
    rw [List.range_succ, List.flatMap_append, ih]
    have e : 2 * (D + 1) = 2 * D + 1 + 1 := by ring
    rw [e, List.range_succ, List.range_succ, List.map_append, List.map_append, List.append_assoc]
    congr 1
    have h1 : (2 * D) / 2 = D := by omega
    have h2 : (2 * D) % 2 = 0 := by omega
    have h3 : (2 * D + 1) / 2 = D := by omega
    have h4 : (2 * D + 1) % 2 = 1 := by omega
    simp [h1, h2, h3, h4]

theorem getElem?_flatMap_pair {β : Type} (f g : Nat → β) {D j : Nat} (hj : j < 2 * D) :
    ((List.range D).flatMap fun i => [f i, g i]).get? j
      = some (if j % 2 = 0 then f (j / 2) else g (j / 2)) := by
  rw [flatMap_pair_eq_map, List.get?_eq_getElem?, List.getElem?_map, List.getElem?_range hj]
  rfl

theorem mem_flatMap_pair {β : Type} (f g : Nat → β) {D : Nat} {x : β} :
    x ∈ ((List.range D).flatMap fun i => [f i, g i]) ↔ ∃ i, i < D ∧ (x = f i ∨ x = g i) := by
  rw [List.mem_flatMap]
  constructor
  · rintro ⟨i, hi, hx⟩
    refine ⟨i, List.mem_range.mp hi, ?_⟩
    simpa using hx
  · rintro ⟨i, hi, hx⟩
    exact ⟨i, List.mem_range.mpr hi, by simpa using hx⟩

namespace ComputationalComposedBlock

variable {α : Type}

theorem startReceiveCalls_new (D n E : Nat) (values : Nat → α) (fresh : Nat → Nat → Nat → α) :
    startReceiveCalls D (new D n E (some values) fresh)
      = (List.range D).flatMap fun i =>
          [({ slot := (2 * i + 1) % U64, rank := (i, 0),
              request := (GhostRegion.new { dimension := i, lower := true } n E
                (fresh i 0)).initializeReceive D } : ReceiveCall),
           { slot := (2 * i) % U64, rank := (i, 1),
             request := (GhostRegion.new { dimension := i, lower := false } n E
                (fresh i 1)).initializeReceive D }] := by
  unfold startReceiveCalls new
  simp only
  apply flatMap_range_congr
  intro i hi
  rw [getElem?_createGhostRegions D n E fresh hi]

theorem startSendingGhostDataCalls_new (D n E : Nat) (values : Nat → α)
    (fresh : Nat → Nat → Nat → α) :
    startSendingGhostDataCalls D (new D n E (some values) fresh)
      = (List.range D).flatMap fun d =>
          [({ slot := (2 * d) % U64, startIndex := 0, rank := (d, 0),
              tag := toInt32 ((2 * d) % U64) } : SendCall),
           { slot := (2 * d + 1) % U64,
             startIndex := (sub64 n E * Math.power n d) % U64, rank := (d, 1),
             tag := toInt32 ((2 * d + 1) % U64) }] := rfl

end ComputationalComposedBlock

/-- C30: after `startReceive` on a block with values, the array `receiveRequest` has `2 D`
entries; the request of the ghost region on the face `b = (d, side)` is in slot
`slot(b) = 2 d + (1 if lower else 0)`, and `receiveDoneAt` maps a completed slot `i` to the face
`(floor(i / 2), lower iff i mod 2 = 1)`.  The two maps are mutually inverse on the `2 D` faces
and the slots `[0, 2 D)`, so the face reported for slot `i` is the face of the ghost region
whose request is in slot `i`. -/
theorem C30_receive_slot_inverse {α : Type} (D n E : Nat) (values : Nat → α)
    (fresh : Nat → Nat → Nat → α) (b : BoundaryId) (i : Nat)
    (hb : b.dimension < D) (hi : i < 2 * D) :
    (ComputationalComposedBlock.startReceive D
      (ComputationalComposedBlock.new D n E (some values) fresh)).receiveRequest.length
        = 2 * D ∧
    (ComputationalComposedBlock.startReceive D
      (ComputationalComposedBlock.new D n E (some values) fresh)).receiveRequest.get?
        (Spec.slot b)
      = some ((GhostRegion.new b n E
          (fresh b.dimension (if b.lower then 0 else 1))).initializeReceive D) ∧
    ((GhostRegion.new b n E
      (fresh b.dimension (if b.lower then 0 else 1))).initializeReceive D).buffer = b ∧
    Spec.slot b < 2 * D ∧
    ComputationalComposedBlock.receiveDoneAt (Spec.slot b) = b ∧
    (ComputationalComposedBlock.receiveDoneAt i).dimension < D ∧
    Spec.slot (ComputationalComposedBlock.receiveDoneAt i) = i ∧
    ∃ r, (ComputationalComposedBlock.startReceive D
        (ComputationalComposedBlock.new D n E (some values) fresh)).receiveRequest.get? i
        = some r ∧
      r.buffer = ComputationalComposedBlock.receiveDoneAt i := by
  obtain ⟨d, l⟩ := b
  have hd : d < D := hb
  have hslot : Spec.slot ⟨d, l⟩ < 2 * D := by
    unfold Spec.slot; simp only; split <;> omega
  refine ⟨?_, ?_, rfl, hslot, ?_, ?_, ?_, ?_⟩
  · rw [ComputationalComposedBlock.receiveRequest_startReceive, flatMap_pair_eq_map,
      List.length_map, List.length_range]
  · rw [ComputationalComposedBlock.receiveRequest_startReceive, getElem?_flatMap_pair _ _ hslot]
    cases l
    · have h1 : Spec.slot ⟨d, false⟩ = 2 * d := by simp [Spec.slot]
      rw [h1]
      have h2 : (2 * d) % 2 = 0 := by omega
      have h3 : (2 * d) / 2 = d := by omega
      simp [h2, h3]
    · have h1 : Spec.slot ⟨d, true⟩ = 2 * d + 1 := by simp [Spec.slot]
      rw [h1]
      have h2 : (2 * d + 1) % 2 = 1 := by omega
      have h3 : (2 * d + 1) / 2 = d := by omega
      simp [h2, h3]
  · unfold ComputationalComposedBlock.receiveDoneAt Spec.slot
    cases l
    · have h2 : (2 * d) % 2 = 0 := by omega
      have h3 : (2 * d) / 2 = d := by omega
      simp [h2, h3]
    · have h2 : (2 * d + 1) % 2 = 1 := by omega
      have h3 : (2 * d + 1) / 2 = d := by omega
      simp [h2, h3]
  · show i / 2 < D
    omega
  · unfold ComputationalComposedBlock.receiveDoneAt Spec.slot
    simp only
    rcases Nat.mod_two_eq_zero_or_one i with h | h
    · simp [h]; omega
    · simp [h]; omega
  · rw [ComputationalComposedBlock.receiveRequest_startReceive, getElem?_flatMap_pair _ _ hi]
    refine ⟨_, rfl, ?_⟩
    unfold ComputationalComposedBlock.receiveDoneAt
    rcases Nat.mod_two_eq_zero_or_one i with h | h
    · simp [h, GhostRegion.initializeReceive, GhostRegion.new]
    · simp [h, GhostRegion.initializeReceive, GhostRegion.new]

/-- C30 for a block of three dimensions: the lower face of dimension 1 has slot 3, and slot 4
is reported as the upper face of dimension 2. -/
theorem C30_receive_slot_inverse_witness :
    ((⟨1, true⟩ : BoundaryId).dimension < 3 ∧ 4 < 2 * 3) ∧
    Spec.slot ⟨1, true⟩ = 3 ∧
    ComputationalComposedBlock.receiveDoneAt (Spec.slot ⟨1, true⟩) = ⟨1, true⟩ ∧
    ComputationalComposedBlock.receiveDoneAt 4 = ⟨2, false⟩ ∧
    Spec.slot (ComputationalComposedBlock.receiveDoneAt 4) = 4 :=
  ⟨by decide, by decide,
    (C30_receive_slot_inverse 3 10 4 (fun k => k) (fun _ _ k => k) ⟨1, true⟩ 4
      (by decide) (by decide)).2.2.2.2.1,
    by decide,
    (C30_receive_slot_inverse 3 10 4 (fun k => k) (fun _ _ k => k) ⟨1, true⟩ 4
      (by decide) (by decide)).2.2.2.2.2.2.1⟩

namespace ComputationalComposedBlock

variable {α : Type}

/-- The request a ghost region of the block makes, in closed form. -/
theorem initializeReceive_new {D n E : Nat} (b : BoundaryId) (v : Nat → α) (hb : b.dimension < D)
    (hD : 2 * D < 2147483648) (hEn : E ≤ n) (htot : n ^ D < 2 ^ 31) :
    (GhostRegion.new b n E v).initializeReceive D
      = { buffer := b, count := n ^ (D - 1) * E,
          tag := ((2 * b.dimension + if b.lower then 1 else 0 : Nat) : Int) } := by
  have hDD : (D - 1).succ = D := by omega
  have hle : n ^ (D - 1) * E ≤ n ^ D := by
    calc n ^ (D - 1) * E ≤ n ^ (D - 1) * n := Nat.mul_le_mul_left _ hEn
      _ = n ^ D := by rw [← Nat.pow_succ, hDD]
  have hpw : n ^ (D - 1) < 2 ^ 31 := by
    rcases Nat.eq_zero_or_pos n with h0 | h0
    · subst h0
      rcases Nat.eq_zero_or_pos (D - 1) with h1 | h1
      · rw [h1]; norm_num
      · rw [Nat.zero_pow h1]; norm_num
    · have : n ^ (D - 1) ≤ n ^ D := Nat.pow_le_pow_right h0 (by omega)
      omega
  unfold GhostRegion.initializeReceive GhostRegion.new
  simp only [BoundaryId.getDimension, BoundaryId.isLowerSide]
  have e1 : sub64 D 1 = D - 1 := by unfold sub64 U64; omega
  rw [e1, Math.power_eq n (D - 1) (by unfold U32; omega) (by unfold U64; omega),
    Nat.mod_eq_of_lt (by unfold U64; omega), tag_eq (by split <;> omega)]

/-- The first element of the upper slab, in closed form. -/
theorem startIndex_eq {D n E d : Nat} (hd : d < D) (hD : 2 * D < 2147483648) (hEn : E ≤ n)
    (htot : n ^ D < 2 ^ 31) :
    (sub64 n E * Math.power n d) % U64 = (n - E) * n ^ d := by
  rcases Nat.eq_zero_or_pos n with h0 | h0
  · subst h0
    have : E = 0 := by omega
    subst this
    simp [sub64, U64]
  · have h1 : n ^ d ≤ n ^ D := Nat.pow_le_pow_right h0 (by omega)
    have h2 : n ^ (d + 1) ≤ n ^ D := Nat.pow_le_pow_right h0 (by omega)
    have h3 : n ≤ n ^ D := Spec.pow_le_of_lt h0 hd
    have e1 : sub64 n E = n - E := by unfold sub64 U64; omega
    have h4 : (n - E) * n ^ d ≤ n ^ (d + 1) := by
      rw [Nat.pow_succ, Nat.mul_comm (n ^ d) n]
      exact Nat.mul_le_mul_right _ (Nat.sub_le _ _)
    rw [e1, Math.power_eq n d (by unfold U32; omega) (by unfold U64; omega)]
    exact Nat.mod_eq_of_lt (by unfold U64; omega)

theorem mem_startReceiveCalls {D n E : Nat} (values : Nat → α) (fresh : Nat → Nat → Nat → α)
    (hD : 2 * D < 2147483648) (hEn : E ≤ n) (htot : n ^ D < 2 ^ 31) (c : ReceiveCall) :
    c ∈ startReceiveCalls D (new D n E (some values) fresh) ↔
      ∃ i, i < D ∧
        (c = { slot := 2 * i + 1, rank := (i, 0),
               request := { buffer := ⟨i, true⟩, count := n ^ (D - 1) * E,
                            tag := ((2 * i + 1 : Nat) : Int) } } ∨
         c = { slot := 2 * i, rank := (i, 1),
               request := { buffer := ⟨i, false⟩, count := n ^ (D - 1) * E,
                            tag := ((2 * i : Nat) : Int) } }) := by
  rw [startReceiveCalls_new, mem_flatMap_pair]
  constructor
  · rintro ⟨i, hi, h⟩
    refine ⟨i, hi, ?_⟩
    rw [initializeReceive_new ⟨i, true⟩ _ hi hD hEn htot,
      initializeReceive_new ⟨i, false⟩ _ hi hD hEn htot,
      Nat.mod_eq_of_lt (by unfold U64; omega), Nat.mod_eq_of_lt (by unfold U64; omega)] at h
    simpa using h
  · rintro ⟨i, hi, h⟩
    refine ⟨i, hi, ?_⟩
    rw [initializeReceive_new ⟨i, true⟩ _ hi hD hEn htot,
      initializeReceive_new ⟨i, false⟩ _ hi hD hEn htot,
      Nat.mod_eq_of_lt (by unfold U64; omega), Nat.mod_eq_of_lt (by unfold U64; omega)]
    simpa using h

theorem mem_startSendingGhostDataCalls {D n E : Nat} (values : Nat → α)
    (fresh : Nat → Nat → Nat → α)
    (hD : 2 * D < 2147483648) (hEn : E ≤ n) (htot : n ^ D < 2 ^ 31) (s : SendCall) :
    s ∈ startSendingGhostDataCalls D (new D n E (some values) fresh) ↔
      ∃ d, d < D ∧
        (s = { slot := 2 * d, startIndex := 0, rank := (d, 0), tag := ((2 * d : Nat) : Int) } ∨
         s = { slot := 2 * d + 1, startIndex := (n - E) * n ^ d, rank := (d, 1),
               tag := ((2 * d + 1 : Nat) : Int) }) := by
  rw [startSendingGhostDataCalls_new, mem_flatMap_pair]
  constructor
  · rintro ⟨d, hd, h⟩
    refine ⟨d, hd, ?_⟩
    rw [startIndex_eq hd hD hEn htot, tag_eq (by omega), tag_eq (by omega),
      Nat.mod_eq_of_lt (by unfold U64; omega), Nat.mod_eq_of_lt (by unfold U64; omega)] at h
    exact h
  · rintro ⟨d, hd, h⟩
    refine ⟨d, hd, ?_⟩
    rw [startIndex_eq hd hD hEn htot, tag_eq (by omega), tag_eq (by omega),
      Nat.mod_eq_of_lt (by unfold U64; omega), Nat.mod_eq_of_lt (by unfold U64; omega)]
    exact h

end ComputationalComposedBlock

/-- C21: for a block with values, `n` elements per dimension and extent `E`, and every dimension
`d < D`: `startReceive` posts the receive of the ghost region on the face `(d, lower)` with tag
`2 d + 1` from `neighborRank[d][0]` (the lower neighbour) and that of the ghost region on
`(d, upper)` with tag `2 d` from `neighborRank[d][1]` (the upper neighbour), the tag being
`2 * dimension + isLowerSide`; `startSendingGhostData` sends the lower slab (from element 0) to
the lower neighbour with tag `2 d` and the upper slab (from element `(n - E) n^d`) to the upper
neighbour with tag `2 d + 1`.  A send and a receive carry the same tag exactly when they are
for the same dimension and opposite neighbours, which is the send towards a neighbour and the
receive of the ghost region that faces the sender on that neighbour; the receives of distinct
faces carry distinct tags.  The requests and tags are those of the exchange model
(`startReceive`, `startSend`). -/
theorem C21_tags_match {α : Type} (D n E : Nat) (values : Nat → α)
    (fresh : Nat → Nat → Nat → α) (d : Nat)
    (hd : d < D) (hD : 2 * D < 2147483648) (hEn : E ≤ n) (htot : n ^ D < 2 ^ 31) :
    ({ slot := 2 * d + 1, rank := (d, 0),
       request := { buffer := ⟨d, true⟩, count := n ^ (D - 1) * E,
                    tag := ((2 * d + 1 : Nat) : Int) } } : ReceiveCall)
      ∈ ComputationalComposedBlock.startReceiveCalls D
          (ComputationalComposedBlock.new D n E (some values) fresh) ∧
    ({ slot := 2 * d, rank := (d, 1),
       request := { buffer := ⟨d, false⟩, count := n ^ (D - 1) * E,
                    tag := ((2 * d : Nat) : Int) } } : ReceiveCall)
      ∈ ComputationalComposedBlock.startReceiveCalls D
          (ComputationalComposedBlock.new D n E (some values) fresh) ∧
    ({ slot := 2 * d, startIndex := 0, rank := (d, 0), tag := ((2 * d : Nat) : Int) } : SendCall)
      ∈ ComputationalComposedBlock.startSendingGhostDataCalls D
          (ComputationalComposedBlock.new D n E (some values) fresh) ∧
    ({ slot := 2 * d + 1, startIndex := (n - E) * n ^ d, rank := (d, 1),
       tag := ((2 * d + 1 : Nat) : Int) } : SendCall)
      ∈ ComputationalComposedBlock.startSendingGhostDataCalls D
          (ComputationalComposedBlock.new D n E (some values) fresh) ∧
    (∀ c ∈ ComputationalComposedBlock.startReceiveCalls D
        (ComputationalComposedBlock.new D n E (some values) fresh),
      c.rank.1 < D ∧ c.request.buffer.dimension = c.rank.1 ∧
      c.rank.2 = (if c.request.buffer.lower then 0 else 1) ∧
      c.request.tag = ((2 * c.request.buffer.getDimension
        + (if c.request.buffer.isLowerSide then 1 else 0) : Nat) : Int) ∧
      (ComputationalComposedBlock.startReceive D
        (ComputationalComposedBlock.new D n E (some values) fresh)).receiveRequest.get? c.slot
        = some c.request) ∧
    (∀ s ∈ ComputationalComposedBlock.startSendingGhostDataCalls D
        (ComputationalComposedBlock.new D n E (some values) fresh),
      s.rank.1 < D ∧ s.rank.2 ≤ 1 ∧ s.tag = ((2 * s.rank.1 + s.rank.2 : Nat) : Int)) ∧
    (∀ s ∈ ComputationalComposedBlock.startSendingGhostDataCalls D
        (ComputationalComposedBlock.new D n E (some values) fresh),
      ∀ c ∈ ComputationalComposedBlock.startReceiveCalls D
        (ComputationalComposedBlock.new D n E (some values) fresh),
      (s.tag = c.request.tag ↔ s.rank.1 = c.rank.1 ∧ s.rank.2 + c.rank.2 = 1)) ∧
    (∀ c1 ∈ ComputationalComposedBlock.startReceiveCalls D
        (ComputationalComposedBlock.new D n E (some values) fresh),
      ∀ c2 ∈ ComputationalComposedBlock.startReceiveCalls D
        (ComputationalComposedBlock.new D n E (some values) fresh),
      c1.request.tag = c2.request.tag → c1.request.buffer = c2.request.buffer) ∧
    (ComputationalComposedBlock.startSendingGhostDataCalls D
        (ComputationalComposedBlock.new D n E (some values) fresh)).map (fun s => s.tag)
      = (ComputationalComposedBlock.startSend D (ComputationalComposedBlock.startReceive D
          (ComputationalComposedBlock.new D n E (some values) fresh))).map (fun m => m.tag) := by
  have hr := ComputationalComposedBlock.mem_startReceiveCalls values fresh hD hEn htot
  have hs := ComputationalComposedBlock.mem_startSendingGhostDataCalls values fresh hD hEn htot
  refine ⟨(hr _).mpr ⟨d, hd, Or.inl rfl⟩, (hr _).mpr ⟨d, hd, Or.inr rfl⟩,
    (hs _).mpr ⟨d, hd, Or.inl rfl⟩, (hs _).mpr ⟨d, hd, Or.inr rfl⟩, ?_, ?_, ?_, ?_, ?_⟩
  · intro c hc
    obtain ⟨i, hi, h | h⟩ := (hr c).mp hc
    · subst h
      refine ⟨hi, rfl, rfl, rfl, ?_⟩
      rw [ComputationalComposedBlock.receiveRequest_startReceive,
        getElem?_flatMap_pair _ _ (by show 2 * i + 1 < 2 * D; omega)]
      have h2 : (2 * i + 1) % 2 = 1 := by omega
      have h3 : (2 * i + 1) / 2 = i := by omega
      simp only [h2, h3]
      rw [ComputationalComposedBlock.initializeReceive_new ⟨i, true⟩ _ hi hD hEn htot]
      simp
    · subst h
      refine ⟨hi, rfl, rfl, rfl, ?_⟩
      rw [ComputationalComposedBlock.receiveRequest_startReceive,
        getElem?_flatMap_pair _ _ (by show 2 * i < 2 * D; omega)]
      have h2 : (2 * i) % 2 = 0 := by omega
      have h3 : (2 * i) / 2 = i := by omega
      simp only [h2, h3]
      rw [ComputationalComposedBlock.initializeReceive_new ⟨i, false⟩ _ hi hD hEn htot]
      simp
  · intro s hsm
    obtain ⟨i, hi, h | h⟩ := (hs s).mp hsm
    · subst h; exact ⟨hi, by simp, rfl⟩
    · subst h; exact ⟨hi, le_refl _, rfl⟩
  · intro s hsm c hc
    obtain ⟨i, hi, h | h⟩ := (hs s).mp hsm <;> obtain ⟨j, hj, h' | h'⟩ := (hr c).mp hc <;>
      subst h <;> subst h' <;> dsimp only <;> constructor <;> intro hx <;> omega
  · intro c1 hc1 c2 hc2 ht
    obtain ⟨i, hi, h | h⟩ := (hr c1).mp hc1 <;> obtain ⟨j, hj, h' | h'⟩ := (hr c2).mp hc2 <;>
      subst h <;> subst h' <;> dsimp only at ht ⊢
    · have : i = j := by omega
      rw [this]
    · omega
    · omega
    · have : i = j := by omega
      rw [this]
  · rw [ComputationalComposedBlock.startSendingGhostDataCalls_new,
      ComputationalComposedBlock.startSend_eq, List.map_flatMap, List.map_flatMap]
    rfl

/-- C21 for a block of three dimensions with 10 elements per dimension and extent 4, in
dimension 1: the receive of the lower ghost region has tag 3 and comes from the lower neighbour,
the send to the upper neighbour starts at element 60 and has tag 3. -/
theorem C21_tags_match_witness :
    (1 < 3 ∧ 2 * 3 < 2147483648 ∧ 4 ≤ 10 ∧ 10 ^ 3 < 2 ^ 31) ∧
    ({ slot := 2 * 1 + 1, rank := (1, 0),
       request := { buffer := ⟨1, true⟩, count := 10 ^ (3 - 1) * 4,
                    tag := ((2 * 1 + 1 : Nat) : Int) } } : ReceiveCall)
      ∈ ComputationalComposedBlock.startReceiveCalls 3
          (ComputationalComposedBlock.new 3 10 4 (some fun k => k) fun _ _ k => k) ∧
    ({ slot := 2 * 1 + 1, startIndex := (10 - 4) * 10 ^ 1, rank := (1, 1),
       tag := ((2 * 1 + 1 : Nat) : Int) } : SendCall)
      ∈ ComputationalComposedBlock.startSendingGhostDataCalls 3
          (ComputationalComposedBlock.new 3 10 4 (some fun k => k) fun _ _ k => k) :=
  ⟨by decide,
    (C21_tags_match 3 10 4 (fun k => k) (fun _ _ k => k) 1 (by decide) (by decide) (by decide)
      (by decide)).1,
    (C21_tags_match 3 10 4 (fun k => k) (fun _ _ k => k) 1 (by decide) (by decide) (by decide)
      (by decide)).2.2.2.1⟩

namespace InChunk

variable {α : Type} {sizes : List Nat} {lo hi k : Nat} {vals : Nat → α}
  {it : ValueFieldIterator α}

theorem chunk_first (h : InChunk sizes lo hi vals k it) : InChunk sizes lo hi vals lo it.first :=
  ⟨h.tables.of_eq rfl rfl rfl rfl rfl, h.minIndex, h.minIndex, h.maxIndex, h.values⟩

/-- The writing loop started at the first cell of the chunk: after `count` passes the first
`count` cells of the chunk hold the values written and the iterator stands behind them. -/
theorem chunk_writeLoop (value : Nat → α) (hB : hi < 2 ^ 31) :
    ∀ (count : Nat) (it : ValueFieldIterator α), InChunk sizes lo hi vals lo it →
      lo + count ≤ hi →
      ∃ it1, ValueFieldIterator.writeLoop value count it = some it1 ∧
        InChunk sizes lo hi
          (fun j => if lo ≤ j ∧ j < lo + count then value (j - lo) else vals j)
          (lo + count) it1 := by
  intro count
  induction count with
  | zero =>
    intro it h _
    refine ⟨it, rfl, ?_⟩
    have e : (fun j => if lo ≤ j ∧ j < lo + 0 then value (j - lo) else vals j) = vals := by
      funext j
      rw [if_neg (by omega)]
    rw [e]
    exact h
  | succ c ih =>
    intro it h hc
    obtain ⟨it1, h1, hOn1⟩ := ih it h (by omega)
    obtain ⟨it2, h2, hOn2⟩ := hOn1.chunk_setCurrentValue (by omega) (by omega) (value c)
    obtain ⟨it3, h3, hOn3⟩ := hOn2.chunk_next (by omega) (by omega) hB
    refine ⟨it3, ?_, ?_⟩
    · show (match ValueFieldIterator.writeLoop value c it with
        | none => none
        | some it1 =>
          match it1.setCurrentValue (value c) with
          | none => none
          | some it2 => it2.next) = some it3
      rw [h1]
      simp only
      rw [h2]
      exact h3
    · have e : (fun i => if i = lo + c then value c
          else if lo ≤ i ∧ i < lo + c then value (i - lo) else vals i)
          = fun j => if lo ≤ j ∧ j < lo + (c + 1) then value (j - lo) else vals j := by
        funext j
        by_cases hj : j = lo + c
        · rw [if_pos hj, if_pos (by omega)]
          congr 1
          omega
        · rw [if_neg hj]
          by_cases hj2 : lo ≤ j ∧ j < lo + c
          · rw [if_pos hj2, if_pos (by omega)]
          · rw [if_neg hj2, if_neg (by omega)]
      rw [e] at hOn3
      exact hOn3

/-- The reading loop started at the first cell of the chunk returns the first `count` cells of
the chunk, in order. -/
theorem chunk_readLoop (hB : hi < 2 ^ 31) :
    ∀ (count : Nat) (it : ValueFieldIterator α), InChunk sizes lo hi vals lo it →
      lo + count ≤ hi →
      ∃ it1, ValueFieldIterator.readLoop count it
          = some ((List.range count).map (fun i => vals (lo + i)), it1) ∧
        InChunk sizes lo hi vals (lo + count) it1 := by
  intro count
  induction count with
  | zero =>
    intro it h _
    exact ⟨it, rfl, h⟩
  | succ c ih =>
    intro it h hc
    obtain ⟨it1, h1, hOn1⟩ := ih it h (by omega)
    have h2 := hOn1.chunk_currentValue (by omega) (by omega)
    obtain ⟨it3, h3, hOn3⟩ := hOn1.chunk_next (by omega) (by omega) hB
    refine ⟨it3, ?_, hOn3⟩
    show (match ValueFieldIterator.readLoop c it with
      | none => none
      | some (read, it1) =>
        match it1.currentValue with
        | none => none
        | some v => it1.next.map fun it2 => (read ++ [v], it2)) = _
    rw [h1]
    simp only
    rw [h2]
    simp only
    rw [h3, List.range_succ, List.map_append]
    rfl

end InChunk

/-- Within the size bounds of the hypotheses, where no index computation wraps around:
`ValueArray::setValue(i, v)` followed by `getValue(i)` returns `v` and no other element
changes.  For a whole-field iterator of thread `t` of `N` (a single thread owns the whole
field) over a buffer with extents `sizes`: the loop `setCurrentValue(v_i); next()` over the
cells the iterator owns stores `v_i` at the `i`-th cell it owns, which for a single thread is
buffer element `i`, and changes no other element; after `first()` the loop
`currentValue(); next()` reads `v_0, v_1, ...` in order and leaves the iterator out of field. -/
theorem set_then_get_bounded {α : Type} (sizes : List Nat) (t N : Nat) (buffer value : Nat → α)
    (hpos : ∀ n ∈ sizes, 1 ≤ n) (htot : sizes.prod < 2 ^ 31) (ht : t < N) :
    (∀ (g : ValueArray α) (i : Nat) (v : α),
      (g.setValue i v).getValue i = v ∧
      ∀ j, j ≠ i → (g.setValue i v).getValue j = g.getValue j) ∧
    ∃ it0 it1 it2, ValueFieldIterator.new t N sizes buffer = some it0 ∧
      ValueFieldIterator.writeLoop value
        (Spec.chunkStart sizes.prod N (t + 1) - Spec.chunkStart sizes.prod N t) it0.first
        = some it1 ∧
      it1.getter.values = (fun j =>
        if Spec.chunkStart sizes.prod N t ≤ j ∧ j < Spec.chunkStart sizes.prod N (t + 1) then
          value (j - Spec.chunkStart sizes.prod N t)
        else buffer j) ∧
      ValueFieldIterator.readLoop
        (Spec.chunkStart sizes.prod N (t + 1) - Spec.chunkStart sizes.prod N t) it1.first
        = some ((List.range
            (Spec.chunkStart sizes.prod N (t + 1) - Spec.chunkStart sizes.prod N t)).map value,
          it2) ∧
      it2.isInField = false ∧
      (N = 1 → Spec.chunkStart sizes.prod N t = 0 ∧
        Spec.chunkStart sizes.prod N (t + 1) = sizes.prod) := by
  constructor
  · intro g i v
    constructor
    · simp [ValueArray.setValue, ValueArray.getValue]
    · intro j hj
      simp [ValueArray.setValue, ValueArray.getValue, hj]
  have hN : 0 < N := by omega
  obtain ⟨it0, h0, hOn0⟩ := ValueFieldIterator.new_inChunk buffer hpos htot hN ht
  have hmono := Spec.chunkStart_mono sizes.prod N (by omega : t ≤ t + 1)
  have hle := Spec.chunkStart_le (B := sizes.prod) hN (by omega : t + 1 ≤ N)
  have hB : Spec.chunkStart sizes.prod N (t + 1) < 2 ^ 31 := by omega
  have hsum : Spec.chunkStart sizes.prod N t
      + (Spec.chunkStart sizes.prod N (t + 1) - Spec.chunkStart sizes.prod N t)
      = Spec.chunkStart sizes.prod N (t + 1) := by omega
  obtain ⟨it1, h1, hOn1⟩ := InChunk.chunk_writeLoop value hB
    (Spec.chunkStart sizes.prod N (t + 1) - Spec.chunkStart sizes.prod N t) it0.first
    hOn0.chunk_first (by omega)
  rw [hsum] at hOn1
  obtain ⟨it2, h2, hOn2⟩ := InChunk.chunk_readLoop hB
    (Spec.chunkStart sizes.prod N (t + 1) - Spec.chunkStart sizes.prod N t) it1.first
    hOn1.chunk_first (by omega)
  rw [hsum] at hOn2
  refine ⟨it0, it1, it2, h0, h1, hOn1.values, ?_, ?_, ?_⟩
  · rw [h2]
    congr 2
    apply List.map_congr_left
    intro i hi
    have := List.mem_range.mp hi
    show (if Spec.chunkStart sizes.prod N t ≤ Spec.chunkStart sizes.prod N t + i ∧
        Spec.chunkStart sizes.prod N t + i < Spec.chunkStart sizes.prod N (t + 1) then
        value (Spec.chunkStart sizes.prod N t + i - Spec.chunkStart sizes.prod N t)
      else buffer (Spec.chunkStart sizes.prod N t + i)) = value i
    rw [if_pos (by omega)]
    congr 1
    omega
  · rw [← Bool.not_eq_true]
    intro hin
    have := (hOn2.chunk_inField_iff hmono).mp hin
    omega
  · intro h1N
    subst h1N
    have : t = 0 := by omega
    subst this
    exact ⟨Spec.chunkStart_zero _ _, Spec.chunkStart_last (by omega)⟩

/-- The bounded statement on the 3 x 4 x 5 field of `ValueFieldIteratorTest` with a single thread:
every one of the 60 elements is written and read back. -/
theorem set_then_get_bounded_witness :
    ((∀ n ∈ [3, 4, 5], 1 ≤ n) ∧ [3, 4, 5].prod < 2 ^ 31 ∧ 0 < 1) ∧
    ∃ it0 it1 it2, ValueFieldIterator.new 0 1 [3, 4, 5] (fun i => 7 * i) = some it0 ∧
      ValueFieldIterator.writeLoop (fun i => 935 * i)
        (Spec.chunkStart [3, 4, 5].prod 1 (0 + 1) - Spec.chunkStart [3, 4, 5].prod 1 0) it0.first
        = some it1 ∧
      ValueFieldIterator.readLoop
        (Spec.chunkStart [3, 4, 5].prod 1 (0 + 1) - Spec.chunkStart [3, 4, 5].prod 1 0) it1.first
        = some ((List.range
            (Spec.chunkStart [3, 4, 5].prod 1 (0 + 1)
              - Spec.chunkStart [3, 4, 5].prod 1 0)).map (fun i => 935 * i), it2) := by
  obtain ⟨-, it0, it1, it2, h0, h1, -, h2, -⟩ := set_then_get_bounded [3, 4, 5] 0 1
    (fun i => 7 * i) (fun i => 935 * i) (by decide) (by decide) (by decide)
  exact ⟨by decide, it0, it1, it2, h0, h1, h2⟩

/-- Within the size bounds of the hypotheses, where no index computation wraps around:
for block width `n`, extent `E` (`1 ≤ E ≤ n`) and any number of threads,
`applyInInnerRegion` alone returns, and every output cell `x` then holds the sum over the
dimensions `d` of: the `E` taps below the centre if `x_d ≥ E`, plus the centre tap
`w[d][E] * u(x)`, plus the `E` taps above the centre if `x_d + E < n` (the arithmetic is that of
a commutative ring).  Every cell with `E ≤ x_d < n - E` for all `d` holds its complete stencil
value.  No side region is read: the result is the same for every content `ghost1` of the side
regions of the input block, and the value written is the same whatever side content `ghost2` the
reference reads. -/
theorem inner_pass_bounded {α : Type} [CommRing α] (D n E N fuel : Nat)
    (w : Nat → Int → α) (main : Nat → α) (ghost ghost1 ghost2 : Nat → Nat → Nat → α)
    (out : Nat → α)
    (hE : 1 ≤ E) (hEn : E ≤ n) (hE2 : 2 * E < 2147483648) (htot : n ^ D < 2 ^ 31)
    (hN : 1 ≤ N) (hf : n ^ D ≤ fuel) :
    ∃ result, MultuncialStencil.applyInInnerRegion D E w fuel N
        (ComputationalComposedBlock.new D n E (some main) ghost)
        (ComputationalPureBlock.new n out) = some (ComputationalPureBlock.new n result) ∧
      (∀ x, x < n ^ D → result x = ∑ d in Finset.range D,
        ((if E ≤ Spec.coordinate (List.replicate D n) x d then
            Spec.leftTaps D n E w main ghost x d else 0)
          + w d (E : Int) * main x
          + (if Spec.coordinate (List.replicate D n) x d + E < n then
            Spec.rightTaps D n E w main ghost x d else 0))) ∧
      (∀ x, x < n ^ D →
        (∀ d, d < D → E ≤ Spec.coordinate (List.replicate D n) x d ∧
          Spec.coordinate (List.replicate D n) x d + E < n) →
        result x = Spec.stencil D n E w main ghost x) ∧
      (∀ x, n ^ D ≤ x → result x = out x) ∧
      MultuncialStencil.applyInInnerRegion D E w fuel N
        (ComputationalComposedBlock.new D n E (some main) ghost1)
        (ComputationalPureBlock.new n out) = some (ComputationalPureBlock.new n result) ∧
      ∀ x, x < n ^ D → result x = Spec.innerValue D n E w main ghost2 x := by
  have hw := ComputationalComposedBlock.new_wellFormed D n E (some main) ghost
  have hw1 := ComputationalComposedBlock.new_wellFormed D n E (some main) ghost1
  have h0 := MultuncialStencil.applyInInnerRegion_spec w ghost hw rfl hE hEn hE2 htot hN hf out
  have h1 := MultuncialStencil.applyInInnerRegion_spec w ghost hw1 rfl hE hEn hE2 htot hN hf out
  have h2 := MultuncialStencil.applyInInnerRegion_spec w ghost2 hw rfl hE hEn hE2 htot hN hf out
  have hval : ∀ x, x < n ^ D →
      Spec.innerValue D n E w main ghost x = Spec.innerValue D n E w main ghost2 x := by
    intro x hx
    have e := h0.symm.trans h2
    have e1 := congrArg ComputationalPureBlock.values (Option.some.inj e)
    have e2 := congrFun (Option.some.inj e1) x
    simp only [if_pos hx] at e2
    exact e2
  have hn1 : 1 ≤ n := by omega
  refine ⟨_, h0, ?_, ?_, ?_, h1, ?_⟩
  · intro x hx
    simp only [if_pos hx]
    unfold Spec.innerValue Spec.innerTerm
    apply Finset.sum_congr rfl
    intro d hd
    rw [Spec.neighborValue_zero D n E main ghost hn1 (by rw [Spec.prod_replicate]; exact hx)
      (Finset.mem_range.mp hd)]
  · intro x hx hint
    simp only [if_pos hx]
    unfold Spec.innerValue Spec.stencil
    apply Finset.sum_congr rfl
    intro d hd
    obtain ⟨a, b⟩ := hint d (Finset.mem_range.mp hd)
    unfold Spec.innerTerm
    rw [if_pos a, if_pos b, Spec.taps_split]
  · intro x hx
    simp only [if_neg (by omega : ¬ x < n ^ D)]
  · intro x hx
    simp only [if_pos hx]
    exact hval x hx

/-- The bounded statement for a block of two dimensions with 10 elements per dimension and the
eighth-order weights of `ConstFD8Stencil` for unit step length (extent 4), two threads: the inner
pass returns, and the interior cell 44 (coordinates 4, 4) holds its complete stencil value. -/
theorem inner_pass_bounded_witness :
    (1 ≤ 4 ∧ 4 ≤ 10 ∧ 2 * 4 < 2147483648 ∧ 10 ^ 2 < 2 ^ 31 ∧ 1 ≤ 2 ∧ 10 ^ 2 ≤ 100) ∧
    ∃ result, MultuncialStencil.applyInInnerRegion 2 4
        (fun _ k => ([-1 / 560, 8 / 315, -1 / 5, 8 / 5, -205 / 72, 8 / 5, -1 / 5, 8 / 315,
          -1 / 560] : List ℚ).getD k.toNat 0) 100 2
        (ComputationalComposedBlock.new 2 10 4 (some fun i => (i : ℚ))
          (fun d j k => (1000 * d + 100 * j + k : ℚ)))
        (ComputationalPureBlock.new 10 fun _ => 0) = some (ComputationalPureBlock.new 10 result) ∧
      result 44 = Spec.stencil 2 10 4
        (fun _ k => ([-1 / 560, 8 / 315, -1 / 5, 8 / 5, -205 / 72, 8 / 5, -1 / 5, 8 / 315,
          -1 / 560] : List ℚ).getD k.toNat 0) (fun i => (i : ℚ))
        (fun d j k => (1000 * d + 100 * j + k : ℚ)) 44 := by
  obtain ⟨result, h1, -, h2, -⟩ := inner_pass_bounded 2 10 4 2 100
    (fun _ k => ([-1 / 560, 8 / 315, -1 / 5, 8 / 5, -205 / 72, 8 / 5, -1 / 5, 8 / 315,
      -1 / 560] : List ℚ).getD k.toNat 0) (fun i => (i : ℚ))
    (fun d j k => (1000 * d + 100 * j + k : ℚ)) (fun _ _ _ => 0) (fun _ _ _ => 1)
    (fun _ => 0) (by decide) (by decide) (by decide) (by decide) (by decide) (by decide)
  exact ⟨by decide, result, h1, h2 44 (by decide) (by decide)⟩

/-- Within the size bounds of the hypotheses, where no index computation wraps around:
for every non-empty field (extents at least 1, total size below `2^31`), every face
`b = (d, side)` and a single-thread boundary stepper set to iterate `b`: at every in-field
index `i` on the face, `next()` returns and moves the index beyond `i`.  When some linear index
of the field greater than `i` has the face value as coordinate along `d`, the new index is the
smallest such index and is in field; when there is none, the new index is greater than
`maxIndex`, out of field.  Consequently the traversal visits the face in ascending order of the
linear index. -/
theorem boundary_next_jump_bounded (sizes : List Nat) (minIndex maxIndex index : Nat)
    (b : BoundaryId)
    (hpos : ∀ n ∈ sizes, 1 ≤ n) (htot : sizes.prod < 2 ^ 31)
    (hb : b.dimension < sizes.length) :
    ∃ s0 st, BoundaryStepper.new minIndex maxIndex index sizes = some s0 ∧
      s0.setBoundaryToIterate 0 1 b = some st ∧
      (∀ i, st.minIndex ≤ i → i ≤ st.maxIndex →
        Spec.coordinate sizes i b.dimension
          = (if b.lower then 0 else sizes.getD b.dimension 0 - 1) →
        ∃ s1, BoundaryStepper.next { st with index := i } = some s1 ∧ i < s1.index ∧
          ((∃ j, i < j ∧ j < sizes.prod ∧ Spec.coordinate sizes j b.dimension
              = (if b.lower then 0 else sizes.getD b.dimension 0 - 1)) →
            s1.isInField = true ∧ s1.index < sizes.prod ∧
            Spec.coordinate sizes s1.index b.dimension
              = (if b.lower then 0 else sizes.getD b.dimension 0 - 1) ∧
            ∀ j, i < j → j < sizes.prod →
              Spec.coordinate sizes j b.dimension
                = (if b.lower then 0 else sizes.getD b.dimension 0 - 1) →
              s1.index ≤ j) ∧
          ((¬ ∃ j, i < j ∧ j < sizes.prod ∧ Spec.coordinate sizes j b.dimension
              = (if b.lower then 0 else sizes.getD b.dimension 0 - 1)) →
            st.maxIndex < s1.index ∧ s1.isInField = false)) ∧
      ∃ l, BoundaryStepper.visit (sizes.prod / sizes.getD b.dimension 0) st = some l ∧
        (l.map fun s => s.index).Pairwise (fun x y => x < y) := by
  obtain ⟨s0, hs0⟩ : ∃ s0, BoundaryStepper.new minIndex maxIndex index sizes = some s0 := by
    obtain ⟨s, hs⟩ := FieldSteppingStrategy.new_isSome minIndex maxIndex index hpos htot
    exact ⟨_, by unfold BoundaryStepper.new; rw [hs]⟩
  have htab0 := BoundaryStepper.new_tablesOf hpos htot hs0
  obtain ⟨st, hst, hbd, htab, hix, hmin, hmax, hvisit⟩ :=
    @BoundaryStepper.setBoundaryToIterate_spec sizes s0 b 0 1 hpos htot htab0 hb (by omega)
      (by omega)
  subst hbd
  have hB1 := Spec.faceSize_pos hpos hb
  have hfs : Spec.faceSize sizes st.boundary.dimension = sizes.prod / sizes.getD st.boundary.dimension 0 := rfl
  have hcs : Spec.chunkSize (Spec.faceSize sizes st.boundary.dimension) 1 0
      = Spec.faceSize sizes st.boundary.dimension := by
    unfold Spec.chunkSize
    rw [Nat.div_one, Nat.mod_one]
    simp
  rw [Spec.chunkStart_zero] at hix hmax hvisit
  rw [hcs] at hmax hvisit
  rw [hix] at hmin
  have hfc : Spec.faceCoordinate sizes st.boundary.dimension st.boundary.lower
      = if st.boundary.lower then 0 else sizes.getD st.boundary.dimension 0 - 1 := rfl
  refine ⟨s0, st, hs0, hst, ?_, ?_⟩
  · intro i hi1 hi2 hic
    rw [hmin] at hi1
    rw [hmax] at hi2
    have hmaxlt : Spec.faceIndex sizes st.boundary.dimension st.boundary.lower
        (0 + Spec.faceSize sizes st.boundary.dimension - 1) < sizes.prod :=
      Spec.faceIndex_lt_prod hpos hb st.boundary.lower (by rw [← hfs]; omega)
    obtain ⟨k, hk, hki⟩ := Spec.faceIndex_surjective hpos hb st.boundary.lower
      (by omega : i < sizes.prod) (by rw [hfc]; exact hic)
    have hin : ({ st with index := i } : BoundaryStepper).isInField = true := by
      rw [FieldSteppingStrategy.isInField_iff]
      show st.minIndex ≤ i ∧ i ≤ st.maxIndex
      rw [hmin, hmax]
      exact ⟨hi1, hi2⟩
    have hnext := @BoundaryStepper.next_eq sizes { st with index := i } k hpos htot
      (htab.of_eq rfl rfl rfl rfl rfl) hb hin hk hki.symm
    have hlt := Spec.faceIndex_lt_succ hpos hb st.boundary.lower k
    rw [hki] at hlt
    have hex : (∃ j, i < j ∧ j < sizes.prod ∧ Spec.coordinate sizes j st.boundary.dimension
        = (if st.boundary.lower then 0 else sizes.getD st.boundary.dimension 0 - 1))
        ↔ k + 1 < sizes.prod / sizes.getD st.boundary.dimension 0 := by
      constructor
      · rintro ⟨j, hj1, hj2, hj3⟩
        obtain ⟨m, hm, hmj⟩ := Spec.faceIndex_surjective hpos hb st.boundary.lower hj2
          (by rw [hfc]; exact hj3)
        by_contra hc
        have : m ≤ k := by omega
        have := Spec.faceIndex_mono hpos hb st.boundary.lower this
        omega
      · intro hk1
        exact ⟨_, hlt, Spec.faceIndex_lt_prod hpos hb st.boundary.lower hk1,
          by rw [Spec.coordinate_faceIndex hpos hb, hfc]⟩
    refine ⟨_, hnext, hlt, ?_, ?_⟩
    · intro hj
      have hk1 := hex.mp hj
      refine ⟨?_, Spec.faceIndex_lt_prod hpos hb st.boundary.lower hk1,
        by rw [← hfc]; exact Spec.coordinate_faceIndex hpos hb st.boundary.lower (k + 1), ?_⟩
      · rw [FieldSteppingStrategy.isInField_iff]
        show st.minIndex ≤ Spec.faceIndex sizes st.boundary.dimension st.boundary.lower (k + 1) ∧
          Spec.faceIndex sizes st.boundary.dimension st.boundary.lower (k + 1) ≤ st.maxIndex
        rw [hmin, hmax]
        exact ⟨Spec.faceIndex_mono hpos hb st.boundary.lower (by omega),
          Spec.faceIndex_mono hpos hb st.boundary.lower (by rw [hfs]; omega)⟩
      · intro j hj1 hj2 hj3
        obtain ⟨m, hm, hmj⟩ := Spec.faceIndex_surjective hpos hb st.boundary.lower hj2
          (by rw [hfc]; exact hj3)
        show Spec.faceIndex sizes st.boundary.dimension st.boundary.lower (k + 1) ≤ j
        rw [← hmj]
        apply Spec.faceIndex_mono hpos hb st.boundary.lower
        by_contra hc
        have : m ≤ k := by omega
        have := Spec.faceIndex_mono hpos hb st.boundary.lower this
        omega
    · intro hj
      have hk1 : ¬ k + 1 < sizes.prod / sizes.getD st.boundary.dimension 0 := fun h => hj (hex.mpr h)
      have hgt : st.maxIndex < Spec.faceIndex sizes st.boundary.dimension st.boundary.lower (k + 1) := by
        rw [hmax]
        exact Spec.faceIndex_strictMono hpos hb st.boundary.lower (by rw [hfs]; omega)
      refine ⟨hgt, ?_⟩
      rw [← Bool.not_eq_true, FieldSteppingStrategy.isInField_iff]
      show ¬ (st.minIndex ≤ Spec.faceIndex sizes st.boundary.dimension st.boundary.lower (k + 1) ∧
        Spec.faceIndex sizes st.boundary.dimension st.boundary.lower (k + 1) ≤ st.maxIndex)
      omega
  · refine ⟨_, hvisit, ?_⟩
    rw [List.map_map]
    apply List.Pairwise.map _ _ (List.pairwise_lt_range' 0 _)
    intro x y hxy
    exact Spec.faceIndex_strictMono hpos hb st.boundary.lower hxy

/-- The bounded statement on the 3 x 4 x 5 field of the unit tests, on the upper face of dimension
1: the stepper is built and set to the face, and its traversal visits the face in ascending order.
-/
theorem boundary_next_jump_bounded_witness :
    ((∀ n ∈ [3, 4, 5], 1 ≤ n) ∧ [3, 4, 5].prod < 2 ^ 31 ∧
      (⟨1, false⟩ : BoundaryId).dimension < [3, 4, 5].length) ∧
    ∃ s0 st, BoundaryStepper.new 0 0 0 [3, 4, 5] = some s0 ∧
      s0.setBoundaryToIterate 0 1 ⟨1, false⟩ = some st ∧
      ∃ l, BoundaryStepper.visit ([3, 4, 5].prod / [3, 4, 5].getD 1 0) st = some l ∧
        (l.map fun s => s.index).Pairwise (fun x y => x < y) := by
  obtain ⟨s0, st, h0, h1, -, h2⟩ := boundary_next_jump_bounded [3, 4, 5] 0 0 0 ⟨1, false⟩
    (by decide) (by decide) (by decide)
  exact ⟨by decide, s0, st, h0, h1, h2⟩

namespace ComputationalComposedBlock

variable {α : Type}

/-- Without values `startReceive` leaves the block as it is. -/
theorem startReceive_none (D : Nat) {block : ComputationalComposedBlock α}
    (hv : block.values = none) : startReceive D block = block := by
  unfold startReceive
  rw [hv]

/-- Without values `startSend` sends nothing. -/
theorem startSend_none (D : Nat) {block : ComputationalComposedBlock α}
    (hv : block.values = none) : startSend D block = [] := by
  unfold startSend
  rw [hv]

/-- With no message in transit the completion of the receives leaves every side region as it
is. -/
theorem completeReceives_nil (block : ComputationalComposedBlock α) :
    block.completeReceives [] = block := by
  have hg : ∀ (rs : List ReceiveRequest) (g : GhostRegion α),
      g.completeReceive rs ([] : List (Message α)) = g := by
    intro rs g
    unfold GhostRegion.completeReceive
    split
    · rfl
    · rfl
  unfold completeReceives
  have hm : (block.ghostRegions.map fun p =>
      (p.1.completeReceive block.receiveRequest ([] : List (Message α)),
       p.2.completeReceive block.receiveRequest ([] : List (Message α))))
      = block.ghostRegions := by
    conv_rhs => rw [← List.map_id block.ghostRegions]
    apply List.map_congr_left
    intro p _
    rw [hg, hg]
    rfl
  rw [hm]

end ComputationalComposedBlock

/-- C31: for a composed block without a value array, `startCommunication` returns the block as
it was (receive requests, ghost regions and all other members unchanged) and sends no message;
`startReceive` makes no call of `initializeReceive`, `startSend` makes no call of `Isend`, so no
slot of `receiveRequest` or `sendRequest` is written; and on the single-process topology the
block after the exchange is the block before it. -/
theorem C31_no_values_no_communication {α : Type} (D : Nat)
    (block : ComputationalComposedBlock α) (hv : block.values = none) :
    block.startCommunication D = (block, []) ∧
    (block.startCommunication D).1.receiveRequest = block.receiveRequest ∧
    (block.startCommunication D).1.ghostRegions = block.ghostRegions ∧
    block.startReceiveCalls D = [] ∧
    block.startSendingGhostDataCalls D = [] ∧
    block.exchanged D = block := by
  have h1 : block.startCommunication D = (block, []) := by
    unfold ComputationalComposedBlock.startCommunication
    simp only [ComputationalComposedBlock.startReceive_none D hv,
      ComputationalComposedBlock.startSend_none D hv]
  refine ⟨h1, by rw [h1], by rw [h1], ?_, ?_, ?_⟩
  · unfold ComputationalComposedBlock.startReceiveCalls
    rw [hv]
  · unfold ComputationalComposedBlock.startSendingGhostDataCalls
    rw [hv]
  · unfold ComputationalComposedBlock.exchanged
    simp only [h1]
    exact ComputationalComposedBlock.completeReceives_nil block

/-- C31 for the block of three dimensions with 8 elements per dimension and side regions of
width 4 that the constructor without values makes. -/
theorem C31_no_values_no_communication_witness :
    (ComputationalComposedBlock.new 3 8 4 (none : Option (Nat → ℚ)) (fun _ _ _ => 0)).values
      = none ∧
    (ComputationalComposedBlock.new 3 8 4 (none : Option (Nat → ℚ))
        (fun _ _ _ => 0)).startCommunication 3
      = (ComputationalComposedBlock.new 3 8 4 (none : Option (Nat → ℚ)) (fun _ _ _ => 0), []) :=
  ⟨rfl, (C31_no_values_no_communication 3
    (ComputationalComposedBlock.new 3 8 4 (none : Option (Nat → ℚ)) (fun _ _ _ => 0)) rfl).1⟩

/-- C32 (failing input): `setValues` writes the member `values` and nothing else: it makes no
call of `startReceive` or `startSend`.  For the block of one dimension with 2 elements and side
regions of width 1 made without values, after `setValues` the array of receive requests is
still empty and the side regions still hold their old content, whereas a call of
`startCommunication` registers two receives and sends two messages, after which the side
regions hold the boundary values of the new array. -/
theorem C32_setValues_starts_no_exchange :
    (∀ (α : Type) (block : ComputationalComposedBlock α) (v : Nat → α),
      (block.setValues v).values = some v ∧
      (block.setValues v).receiveRequest = block.receiveRequest ∧
      (block.setValues v).ghostRegions = block.ghostRegions ∧
      (block.setValues v).smallestIndex = block.smallestIndex ∧
      (block.setValues v).elementsPerDim = block.elementsPerDim) ∧
    ((ComputationalComposedBlock.new 1 2 1 none (fun _ _ _ => 0)).setValues
      (fun i => i + 10)).receiveRequest = [] ∧
    (((ComputationalComposedBlock.new 1 2 1 none (fun _ _ _ => 0)).setValues
      (fun i => i + 10)).ghostRegions.map fun p => (p.1.values 0, p.2.values 0)) = [(0, 0)] ∧
    ((((ComputationalComposedBlock.new 1 2 1 none (fun _ _ _ => 0)).setValues
      (fun i => i + 10)).startCommunication 1).1.receiveRequest.length = 2) ∧
    ((((ComputationalComposedBlock.new 1 2 1 none (fun _ _ _ => 0)).setValues
      (fun i => i + 10)).startCommunication 1).2.map fun m => (m.tag, m.data))
        = [(0, [10]), (1, [11])] ∧
    ((((ComputationalComposedBlock.new 1 2 1 none (fun _ _ _ => 0)).setValues
      (fun i => i + 10)).exchanged 1).ghostRegions.map fun p => (p.1.values 0, p.2.values 0))
        = [(11, 10)] :=
  ⟨fun _ _ _ => ⟨rfl, rfl, rfl, rfl, rfl⟩, by decide, by decide, by decide, by decide, by decide⟩

namespace ComputationalComposedBlock

variable {α : Type}

/-- A second `startReceive` makes the requests of the first one again. -/
theorem startReceive_idem (D : Nat) (block : ComputationalComposedBlock α) :
    startReceive D (startReceive D block) = startReceive D block := by
  unfold startReceive
  cases hv : block.values with
  | none => simp only [hv]
  | some v => simp only [hv]

/-- The calls of `initializeReceive` do not depend on the requests stored before. -/
theorem startReceiveCalls_startReceive (D : Nat) (block : ComputationalComposedBlock α) :
    startReceiveCalls D (startReceive D block) = startReceiveCalls D block := by
  unfold startReceiveCalls startReceive
  cases hv : block.values with
  | none => simp only [hv]
  | some v => simp only [hv]

/-- After `k` rounds the block is the block after one `startReceive` (for `k ≥ 1`), and every
round has made the calls of `initializeReceive` of the first round once more. -/
theorem communicationRounds_eq (D : Nat) (block : ComputationalComposedBlock α) :
    ∀ k, communicationRounds D k block
      = (if k = 0 then block else startReceive D block,
          (List.replicate k (startReceiveCalls D block)).flatten) := by
  intro k
  induction k with
  | zero => rfl
  | succ k ih =>
    unfold communicationRounds
    simp only [ih, startCommunication, finishCommunication]
    have h1 : startReceive D (if k = 0 then block else startReceive D block)
        = startReceive D block := by
      split_ifs
      · rfl
      · exact startReceive_idem D block
    have h2 : startReceiveCalls D (if k = 0 then block else startReceive D block)
        = startReceiveCalls D block := by
      split_ifs
      · rfl
      · exact startReceiveCalls_startReceive D block
    rw [h1, h2, if_neg (Nat.succ_ne_zero k), List.replicate_succ']
    simp

/-- Each round calls `initializeReceive` once for the ghost region of every face. -/
theorem count_startReceiveCalls (n E : Nat) (values : Nat → α) (fresh : Nat → Nat → Nat → α)
    (b : BoundaryId) : ∀ D,
    ((startReceiveCalls D (new D n E (some values) fresh)).filter
      fun c => decide (c.request.buffer = b)).length = if b.dimension < D then 1 else 0 := by
  intro D
  rw [startReceiveCalls_new]
  generalize hD : D = D0
  obtain ⟨bd, bl⟩ := b
  have key : ∀ m, (((List.range m).flatMap fun i =>
      [({ slot := (2 * i + 1) % U64, rank := (i, 0),
          request := (GhostRegion.new { dimension := i, lower := true } n E
            (fresh i 0)).initializeReceive D0 } : ReceiveCall),
       { slot := (2 * i) % U64, rank := (i, 1),
         request := (GhostRegion.new { dimension := i, lower := false } n E
            (fresh i 1)).initializeReceive D0 }]).filter
      fun c => decide (c.request.buffer = ⟨bd, bl⟩)).length = if bd < m then 1 else 0 := by
    intro m
    induction m with
    | zero => simp
    | succ m ih =>
      rw [List.range_succ, List.flatMap_append, List.filter_append, List.length_append, ih]
      simp only [List.flatMap_cons, List.flatMap_nil, List.append_nil, GhostRegion.initializeReceive,
        GhostRegion.new, List.filter_cons, List.filter_nil, BoundaryId.mk.injEq]
      by_cases h1 : bd < m
      · have h2 : ¬ m = bd := by omega
        have h3 : bd < m + 1 := by omega
        simp [h1, h2, h3]
      · by_cases h2 : m = bd
        · subst h2
          cases bl <;> simp
        · have h3 : ¬ bd < m + 1 := by omega
          simp [h1, h2, h3]
  exact key D0

/-- Count over several rounds that make the same calls. -/
theorem length_filter_flatten_replicate {β : Type} (p : β → Bool) (l : List β) :
    ∀ k, ((List.replicate k l).flatten.filter p).length = k * (l.filter p).length := by
  intro k
  induction k with
  | zero => simp
  | succ k ih =>
    rw [List.replicate_succ, List.flatten_cons, List.filter_append, List.length_append, ih]
    ring

/-- One round makes `2 D` calls of `initializeReceive`. -/
theorem length_startReceiveCalls (D n E : Nat) (values : Nat → α)
    (fresh : Nat → Nat → Nat → α) :
    (startReceiveCalls D (new D n E (some values) fresh)).length = 2 * D := by
  rw [startReceiveCalls_new, flatMap_pair_eq_map, List.length_map, List.length_range]

/-- The array `receiveRequest` holds `2 D` requests after `startReceive`. -/
theorem length_receiveRequest (D n E : Nat) (values : Nat → α)
    (fresh : Nat → Nat → Nat → α) :
    (startReceive D (new D n E (some values) fresh)).receiveRequest.length = 2 * D := by
  rw [receiveRequest_startReceive, flatMap_pair_eq_map, List.length_map, List.length_range]

end ComputationalComposedBlock

/-- C33 (failing input): for the block of one dimension with 2 elements and side regions of
width 1, two rounds of `startCommunication(); finishCommunication();` call `initializeReceive`
(and with it `Recv_init`) four times, twice for the ghost region of the lower face and twice
for that of the upper face: the receive of a ghost region is registered in every round, not
once. -/
theorem C33_receive_registered_in_every_round :
    (ComputationalComposedBlock.communicationRounds 1 2
      (ComputationalComposedBlock.new 1 2 1 (some fun i => i) (fun _ _ _ => 0))).2.length = 4 ∧
    ((ComputationalComposedBlock.communicationRounds 1 2
      (ComputationalComposedBlock.new 1 2 1 (some fun i => i) (fun _ _ _ => 0))).2.filter
        fun c => decide (c.request.buffer = { dimension := 0, lower := true })).length = 2 ∧
    ((ComputationalComposedBlock.communicationRounds 1 2
      (ComputationalComposedBlock.new 1 2 1 (some fun i => i) (fun _ _ _ => 0))).2.filter
        fun c => decide (c.request.buffer = { dimension := 0, lower := false })).length = 2 ∧
    (ComputationalComposedBlock.communicationRounds 1 2
      (ComputationalComposedBlock.new 1 2 1 (some fun i => i) (fun _ _ _ => 0))).2
      = [{ slot := 1, rank := (0, 0), request := { buffer := ⟨0, true⟩, count := 1, tag := 1 } },
         { slot := 0, rank := (0, 1), request := { buffer := ⟨0, false⟩, count := 1, tag := 0 } },
         { slot := 1, rank := (0, 0), request := { buffer := ⟨0, true⟩, count := 1, tag := 1 } },
         { slot := 0, rank := (0, 1),
           request := { buffer := ⟨0, false⟩, count := 1, tag := 0 } }] :=
  ⟨by decide, by decide, by decide, by decide⟩

/-- Over `k` rounds of `startCommunication(); finishCommunication();` on a
composed block with values, every round calls `initializeReceive` once for each of the `2 D`
ghost regions, with the same slot, rank, buffer, count and tag as in the first round: after
`k` rounds `2 D k` receives have been registered, `k` of them for the ghost region of each
face.  The array `receiveRequest` holds `2 D` requests after every round, those that the
first `startReceive` stored. -/
theorem startReceive_registers_in_each_round {α : Type} (D n E k : Nat) (values : Nat → α)
    (fresh : Nat → Nat → Nat → α) (b : BoundaryId) (hb : b.dimension < D) (hk : 1 ≤ k) :
    (ComputationalComposedBlock.communicationRounds D k
        (ComputationalComposedBlock.new D n E (some values) fresh)).2
      = (List.replicate k (ComputationalComposedBlock.startReceiveCalls D
          (ComputationalComposedBlock.new D n E (some values) fresh))).flatten ∧
    (ComputationalComposedBlock.startReceiveCalls D
      (ComputationalComposedBlock.new D n E (some values) fresh)).length = 2 * D ∧
    (ComputationalComposedBlock.communicationRounds D k
      (ComputationalComposedBlock.new D n E (some values) fresh)).2.length = 2 * D * k ∧
    ((ComputationalComposedBlock.communicationRounds D k
      (ComputationalComposedBlock.new D n E (some values) fresh)).2.filter
        fun c => decide (c.request.buffer = b)).length = k ∧
    (ComputationalComposedBlock.communicationRounds D k
      (ComputationalComposedBlock.new D n E (some values) fresh)).1.receiveRequest.length
        = 2 * D ∧
    (ComputationalComposedBlock.communicationRounds D k
      (ComputationalComposedBlock.new D n E (some values) fresh)).1
      = ComputationalComposedBlock.startReceive D
          (ComputationalComposedBlock.new D n E (some values) fresh) := by
  have e := ComputationalComposedBlock.communicationRounds_eq D
    (ComputationalComposedBlock.new D n E (some values) fresh) k
  rw [if_neg (by omega : ¬ k = 0)] at e
  rw [e]
  dsimp only
  refine ⟨rfl, ComputationalComposedBlock.length_startReceiveCalls D n E values fresh, ?_, ?_,
    ComputationalComposedBlock.length_receiveRequest D n E values fresh, rfl⟩
  · have h := ComputationalComposedBlock.length_filter_flatten_replicate (fun _ => true)
      (ComputationalComposedBlock.startReceiveCalls D
        (ComputationalComposedBlock.new D n E (some values) fresh)) k
    simp only [List.filter_true] at h
    rw [h, ComputationalComposedBlock.length_startReceiveCalls]
    ring
  · rw [ComputationalComposedBlock.length_filter_flatten_replicate,
      ComputationalComposedBlock.count_startReceiveCalls, if_pos hb]
    ring

/-- The count of registered receives for three rounds on a block of two dimensions with 4 elements
per dimension and side regions of width 2, counted for the ghost region of the upper face of
dimension 1. -/
theorem startReceive_registers_in_each_round_witness :
    ((1 : Nat) < 2 ∧ 1 ≤ 3) ∧
    (ComputationalComposedBlock.communicationRounds 2 3
      (ComputationalComposedBlock.new 2 4 2 (some fun i => (i : ℚ)) (fun _ _ _ => 0))).2.length
        = 2 * 2 * 3 ∧
    ((ComputationalComposedBlock.communicationRounds 2 3
      (ComputationalComposedBlock.new 2 4 2 (some fun i => (i : ℚ)) (fun _ _ _ => 0))).2.filter
        fun c => decide (c.request.buffer = { dimension := 1, lower := false })).length = 3 ∧
    (ComputationalComposedBlock.communicationRounds 2 3
      (ComputationalComposedBlock.new 2 4 2 (some fun i => (i : ℚ))
        (fun _ _ _ => 0))).1.receiveRequest.length = 2 * 2 :=
  ⟨by decide,
    (startReceive_registers_in_each_round 2 4 2 3 (fun i => (i : ℚ)) (fun _ _ _ => 0)
      { dimension := 1, lower := false } (by decide) (by decide)).2.2.1,
    (startReceive_registers_in_each_round 2 4 2 3 (fun i => (i : ℚ)) (fun _ _ _ => 0)
      { dimension := 1, lower := false } (by decide) (by decide)).2.2.2.1,
    (startReceive_registers_in_each_round 2 4 2 3 (fun i => (i : ℚ)) (fun _ _ _ => 0)
      { dimension := 1, lower := false } (by decide) (by decide)).2.2.2.2.1⟩

/-- The fallback triple divides by the formula to the predecessor. -/
theorem magicDiv_fallback {x : Nat} (hx : x < U32) :
    magicDiv { M := U32 - 1, a := 0, s := 0 } x = x - 1 := by
  rw [magicDiv_eq (m := U32 - 1) (by unfold U32; omega) (by omega) hx (by simp)]
  unfold U32 at *
  norm_num
  omega

/-- The guarded rendering agrees with `getMagicNumbers` whenever the intermediate `nc` is not
zero. -/
theorem getMagicNumbersDefined_eq {d : Nat}
    (hnc : sub32 (U32 - 1) (sub32 0 d % d) ≠ 0) :
    getMagicNumbersDefined d = some (getMagicNumbers d) := by
  unfold getMagicNumbersDefined getMagicNumbers
  by_cases hd : d = 0
  · rw [if_pos hd, if_pos hd]
  · rw [if_neg hd, if_neg hd]
    dsimp only
    rw [if_neg hnc]

/-- The loop of `getMagicNumbers` is left after at most `64 - p` passes: there is a first pass
after which the continuation test fails. -/
theorem magicLoop_first_exit (d nc : Nat) : ∀ (n : Nat) (st : MagicLoopState),
    st.p ≤ 63 → 64 - st.p ≤ n →
    ∃ k, 1 ≤ k ∧ k ≤ 64 - st.p ∧
      magicLoopCond ((magicLoopBody d nc)^[k] st) = false ∧
      (∀ j, 1 ≤ j → j < k → magicLoopCond ((magicLoopBody d nc)^[j] st) = true) ∧
      ((magicLoopBody d nc)^[k] st).p = st.p + k := by
  intro n
  induction n with
  | zero => intro st h1 h2; omega
  | succ n ih =>
    intro st h1 h2
    have hp : (magicLoopBody d nc st).p = st.p + 1 := rfl
    by_cases hc : magicLoopCond (magicLoopBody d nc st) = true
    · have hlt : (magicLoopBody d nc st).p < 64 := by
        unfold magicLoopCond at hc
        simp only [Bool.and_eq_true, decide_eq_true_eq] at hc
        exact hc.1
      obtain ⟨k, hk1, hk2, hk3, hk4, hk5⟩ := ih (magicLoopBody d nc st) (by omega) (by omega)
      refine ⟨k + 1, by omega, by omega, ?_, ?_, ?_⟩
      · rw [Function.iterate_succ_apply]
        exact hk3
      · intro j hj1 hj2
        obtain ⟨i, rfl⟩ : ∃ i, j = i + 1 := ⟨j - 1, by omega⟩
        rw [Function.iterate_succ_apply]
        by_cases hi : i = 0
        · subst hi
          exact hc
        · exact hk4 i (by omega) (by omega)
      · rw [Function.iterate_succ_apply, hk5, hp]
        omega
    · refine ⟨1, by omega, by omega, ?_, ?_, ?_⟩
      · simpa using hc
      · intro j hj1 hj2
        omega
      · rfl

/-- With fuel for the passes up to the first exit, `magicLoop` returns the state after
them. -/
theorem magicLoop_of_iterate (d nc : Nat) : ∀ (k : Nat) (st : MagicLoopState) (fuel : Nat),
    1 ≤ k → k ≤ fuel →
    magicLoopCond ((magicLoopBody d nc)^[k] st) = false →
    (∀ j, 1 ≤ j → j < k → magicLoopCond ((magicLoopBody d nc)^[j] st) = true) →
    magicLoop fuel d nc st = (magicLoopBody d nc)^[k] st := by
  intro k
  induction k with
  | zero => intro st fuel h; omega
  | succ k ih =>
    intro st fuel _ hf hex hcont
    obtain ⟨fuel, rfl⟩ : ∃ f, fuel = f + 1 := ⟨fuel - 1, by omega⟩
    rw [Function.iterate_succ_apply] at hex
    rw [Function.iterate_succ_apply]
    by_cases hk : k = 0
    · subst hk
      simp only [Function.iterate_zero, id_eq] at hex ⊢
      simp only [magicLoop, hex, Bool.false_eq_true, if_false]
    · have h1 : magicLoopCond (magicLoopBody d nc st) = true := by
        have := hcont 1 (by omega) (by omega)
        simpa using this
      simp only [magicLoop, h1, if_true]
      apply ih _ _ (by omega) (by omega) hex
      intro j hj1 hj2
      have := hcont (j + 1) (by omega) (by omega)
      rwa [Function.iterate_succ_apply] at this

/-- C34: for the divisor 0 `getMagicNumbers` takes the branch that divides nothing (the guarded
rendering returns a value) and returns `M = 2^32 - 1`, `a = 0`, `s = 0`; with this triple the
expression `(((x * M) >> 32) + x * a) >> s` is `x - 1` for every `x` in `[1, 2^32)` and `0` for
`x = 0`, a value in `[0, x]`. -/
theorem C34_zero_divisor_fallback (x : Nat) (hx : x < 2 ^ 32) :
    getMagicNumbersDefined 0 = some { M := 2 ^ 32 - 1, a := 0, s := 0 } ∧
    getMagicNumbers 0 = { M := 2 ^ 32 - 1, a := 0, s := 0 } ∧
    magicDiv (getMagicNumbers 0) x ≤ x ∧
    (1 ≤ x → magicDiv (getMagicNumbers 0) x = x - 1) ∧
    (x = 0 → magicDiv (getMagicNumbers 0) x = 0) := by
  have h0 : getMagicNumbers 0 = { M := U32 - 1, a := 0, s := 0 } := rfl
  have hx' : x < U32 := by unfold U32; omega
  have hdiv := magicDiv_fallback hx'
  refine ⟨rfl, rfl, ?_, ?_, ?_⟩
  · rw [h0, hdiv]
    omega
  · intro _
    rw [h0, hdiv]
  · intro h
    rw [h0, hdiv, h]

/-- C34 for `x = 7`. -/
theorem C34_zero_divisor_fallback_witness :
    7 < 2 ^ 32 ∧ magicDiv (getMagicNumbers 0) 7 ≤ 7 ∧
      (1 ≤ 7 → magicDiv (getMagicNumbers 0) 7 = 7 - 1) :=
  ⟨by decide, (C34_zero_divisor_fallback 7 (by decide)).2.2.1,
    (C34_zero_divisor_fallback 7 (by decide)).2.2.2.1⟩

/-- C35: for every divisor `d` with `1 ≤ d ≤ 2^32 - 1`, with `nc` the intermediate value and
`st0` the loop variables before the loop of `getMagicNumbers`: `nc` is
`2^32 - 1 - ((2^32 - d) mod d)` and at least 1, so no division by zero happens (the guarded
rendering returns the value of `getMagicNumbers`); the do-while loop makes `k` passes for some
`1 ≤ k ≤ 33`, its continuation test holding after each of the first `k - 1` passes and failing
after pass `k`, every fuel of at least `k` gives the state after pass `k`, and there
`p = 31 + k` is in `[32, 64]`; the value returned is made from that state, with
`0 ≤ s ≤ 32` and `a` in `{0, 1}`. -/
theorem C35_getMagicNumbers_safe (d nc : Nat) (st0 : MagicLoopState)
    (hd1 : 1 ≤ d) (hd2 : d ≤ 2 ^ 32 - 1)
    (hnc : nc = sub32 (U32 - 1) (sub32 0 d % d))
    (hst : st0 = { p := 31, q1 := 0x80000000 / nc,
                   r1 := sub32 0x80000000 ((0x80000000 / nc * nc) % U32),
                   q2 := 0x7FFFFFFF / d,
                   r2 := sub32 0x7FFFFFFF ((0x7FFFFFFF / d * d) % U32),
                   delta := 0, a := 0 }) :
    nc = 2 ^ 32 - 1 - (2 ^ 32 - d) % d ∧ 1 ≤ nc ∧
    getMagicNumbersDefined d = some (getMagicNumbers d) ∧
    (∃ k, 1 ≤ k ∧ k ≤ 33 ∧
      magicLoopCond ((magicLoopBody d nc)^[k] st0) = false ∧
      (∀ j, 1 ≤ j → j < k → magicLoopCond ((magicLoopBody d nc)^[j] st0) = true) ∧
      (∀ fuel, k ≤ fuel → magicLoop fuel d nc st0 = (magicLoopBody d nc)^[k] st0) ∧
      ((magicLoopBody d nc)^[k] st0).p = 31 + k ∧
      32 ≤ ((magicLoopBody d nc)^[k] st0).p ∧ ((magicLoopBody d nc)^[k] st0).p ≤ 64 ∧
      getMagicNumbers d
        = { M := (((magicLoopBody d nc)^[k] st0).q2 + 1) % U32,
            a := ((magicLoopBody d nc)^[k] st0).a,
            s := ((magicLoopBody d nc)^[k] st0).p - 32 }) ∧
    (getMagicNumbers d).s ≤ 32 ∧
    ((getMagicNumbers d).a = 0 ∨ (getMagicNumbers d).a = 1) := by
  have hd0 : 0 < d := by omega
  have hdU : d < U32 := by unfold U32; omega
  have hfacts := magic_nc_facts hd0 hdU
  simp only at hfacts
  rw [← hnc] at hfacts
  obtain ⟨hncU, _, hhalf, _⟩ := hfacts
  have hnc1 : 1 ≤ nc := by unfold U32 at hhalf hncU; omega
  have hform : nc = 2 ^ 32 - 1 - (2 ^ 32 - d) % d := by
    rw [hnc]
    have hr := Nat.mod_lt (4294967296 - d) hd0
    have e1 : sub32 0 d = 4294967296 - d := by unfold sub32 U32; unfold U32 at hdU; omega
    rw [e1]
    generalize (4294967296 - d) % d = r at hr ⊢
    unfold sub32 U32
    unfold U32 at hdU
    omega
  have hdef : getMagicNumbersDefined d = some (getMagicNumbers d) :=
    getMagicNumbersDefined_eq (by rw [← hnc]; omega)
  have hp0 : st0.p = 31 := by rw [hst]
  obtain ⟨k, hk1, hk2, hk3, hk4, hk5⟩ := magicLoop_first_exit d nc 33 st0
    (by omega) (by omega)
  rw [hp0] at hk2 hk5
  have hloop : ∀ fuel, k ≤ fuel → magicLoop fuel d nc st0 = (magicLoopBody d nc)^[k] st0 :=
    fun fuel hf => magicLoop_of_iterate d nc k st0 fuel hk1 hf hk3 hk4
  have hget : getMagicNumbers d
      = { M := ((magicLoop 33 d nc st0).q2 + 1) % U32, a := (magicLoop 33 d nc st0).a,
          s := (magicLoop 33 d nc st0).p - 32 } := by
    rw [hst, hnc]
    unfold getMagicNumbers
    rw [if_neg (by omega : ¬ d = 0)]
  obtain ⟨_, _, _, _, _, _, _, _, ha, hs, _, _⟩ := getMagicNumbers_exact hd0 hdU
  refine ⟨hform, hnc1, hdef, ⟨k, hk1, by omega, hk3, hk4, hloop, hk5, by omega, by omega, ?_⟩,
    hs, by omega⟩
  rw [hget, hloop 33 (by omega)]

/-- C35 for the divisor 7. -/
theorem C35_getMagicNumbers_safe_witness :
    (1 ≤ 7 ∧ 7 ≤ 2 ^ 32 - 1) ∧
    getMagicNumbersDefined 7 = some (getMagicNumbers 7) ∧
    (getMagicNumbers 7).s ≤ 32 ∧
    ((getMagicNumbers 7).a = 0 ∨ (getMagicNumbers 7).a = 1) :=
  ⟨by decide,
    (C35_getMagicNumbers_safe 7 _ _ (by decide) (by decide) rfl rfl).2.2.1,
    (C35_getMagicNumbers_safe 7 _ _ (by decide) (by decide) rfl rfl).2.2.2.2⟩

namespace ComposedFieldBoundaryIterator

variable {α : Type}

/-- The composed iterator made by the constructor and `setBoundaryToIterate` reaches every cell
of the chunk of its thread, and the position one past the chunk, by calls of `next`; main and
side iterator then stand at the same face cell. -/
theorem reach_onFace_end (sizes : List Nat) (E : Nat)
    (mn mx ix a1 a2 a3 b1 b2 b3 : Nat) (data glo ghi : Nat → α)
    (sides : List (ValueFieldBoundaryIterator α × ValueFieldBoundaryIterator α))
    (lowerIt upperIt : ValueFieldBoundaryIterator α) (b : BoundaryId) (t N : Nat)
    (hpos : ∀ n ∈ sizes, 1 ≤ n) (htot : sizes.prod < 2 ^ 31) (hE : 1 ≤ E)
    (hgtot : (sizes.set b.dimension E).prod < 2 ^ 31)
    (hb : b.dimension < sizes.length) (ht : t < N)
    (hsides : sides.get? b.dimension = some (lowerIt, upperIt))
    (hlo : ValueFieldBoundaryIterator.new a1 a2 a3 (sizes.set b.dimension E) glo = some lowerIt)
    (hhi : ValueFieldBoundaryIterator.new b1 b2 b3 (sizes.set b.dimension E) ghi = some upperIt) :
    Spec.chunkStart (Spec.faceSize sizes b.dimension) N (t + 1)
      ≤ Spec.faceSize sizes b.dimension ∧
    ∃ it0 it1, ComposedFieldBoundaryIterator.new mn mx ix sizes data sides = some it0 ∧
      it0.setBoundaryToIterate t N b = some it1 ∧
      ∀ p, Spec.chunkStart (Spec.faceSize sizes b.dimension) N t ≤ p →
        p ≤ Spec.chunkStart (Spec.faceSize sizes b.dimension) N (t + 1) →
        ∃ it, it1.nextTimes (p - Spec.chunkStart (Spec.faceSize sizes b.dimension) N t)
            = some it ∧
          ComposedOnFace sizes E b (Spec.chunkStart (Spec.faceSize sizes b.dimension) N t)
            (Spec.chunkStart (Spec.faceSize sizes b.dimension) N (t + 1)) data
            (if b.lower then glo else ghi) p it := by
  have hN : 0 < N := by omega
  obtain ⟨m, hm⟩ := ValueFieldBoundaryIterator.new_succeeds mn mx ix data hpos htot
  have hit0 : ComposedFieldBoundaryIterator.new mn mx ix sizes data sides
      = some ⟨m, sides, BoundaryId.new⟩ := by
    unfold ComposedFieldBoundaryIterator.new
    rw [hm]
  obtain ⟨hmainTab, hdata, hsd⟩ := ComposedFieldBoundaryIterator.new_composed hpos htot hit0
  have hgpos := Spec.pos_set hpos hE b.dimension
  obtain ⟨hloTab, hloVal⟩ := ValueFieldBoundaryIterator.new_spec hgpos hgtot hlo
  obtain ⟨hhiTab, hhiVal⟩ := ValueFieldBoundaryIterator.new_spec hgpos hgtot hhi
  rw [← hsd] at hsides
  obtain ⟨it1, hit1, hOn⟩ := ComposedFieldBoundaryIterator.setBoundaryToIterate_composed hpos
    htot hE hgtot hb hN ht hmainTab hsides hloTab hhiTab
  rw [hdata, hloVal, hhiVal] at hOn
  have hhiB := Spec.chunkStart_le (B := Spec.faceSize sizes b.dimension) hN
    (by omega : t + 1 ≤ N)
  refine ⟨hhiB, _, it1, hit0, hit1, ?_⟩
  intro p hp1 hp2
  obtain ⟨it, hit, hOnp⟩ := ComposedFieldBoundaryIterator.nextTimes_exists hpos htot hE hgtot
    hb hhiB (p - Spec.chunkStart (Spec.faceSize sizes b.dimension) N t) _ it1 hOn
    (le_refl _) (by omega)
  have ep : Spec.chunkStart (Spec.faceSize sizes b.dimension) N t
      + (p - Spec.chunkStart (Spec.faceSize sizes b.dimension) N t) = p := by
    omega
  rw [ep] at hOnp
  exact ⟨it, hit, hOnp⟩

end ComposedFieldBoundaryIterator

/-- Within the size bounds of the hypotheses, where no index computation wraps around:
for a composed boundary iterator over a main region with extents `sizes` whose side
regions along the face dimension have the main extents except `E` along that dimension: after
`setBoundaryToIterate((d, side))` by thread `t` of `N` and any number of `next()` calls made
while in field, the main iterator and the current side iterator are both in field, the main
coordinate along `d` is the face value (`0` or `size[d] - 1`), the side coordinate along `d` is
that of the ghost face adjacent to the main region (`E - 1` in the lower ghost region, `0` in
the upper one), and the two agree on every other coordinate; after the `next()` call made at the
last cell of the chunk both have left the field. -/
theorem composed_lock_step_bounded {α : Type} (sizes : List Nat) (E : Nat)
    (mn mx ix a1 a2 a3 b1 b2 b3 : Nat) (data glo ghi : Nat → α)
    (sides : List (ValueFieldBoundaryIterator α × ValueFieldBoundaryIterator α))
    (lowerIt upperIt : ValueFieldBoundaryIterator α) (b : BoundaryId) (t N : Nat)
    (hpos : ∀ n ∈ sizes, 1 ≤ n) (htot : sizes.prod < 2 ^ 31) (hE : 1 ≤ E)
    (hgtot : (sizes.set b.dimension E).prod < 2 ^ 31)
    (hb : b.dimension < sizes.length) (ht : t < N)
    (hsides : sides.get? b.dimension = some (lowerIt, upperIt))
    (hlo : ValueFieldBoundaryIterator.new a1 a2 a3 (sizes.set b.dimension E) glo = some lowerIt)
    (hhi : ValueFieldBoundaryIterator.new b1 b2 b3 (sizes.set b.dimension E) ghi = some upperIt) :
    ∃ it0 it1, ComposedFieldBoundaryIterator.new mn mx ix sizes data sides = some it0 ∧
      it0.setBoundaryToIterate t N b = some it1 ∧
      (∀ p, Spec.chunkStart (Spec.faceSize sizes b.dimension) N t ≤ p →
        p < Spec.chunkStart (Spec.faceSize sizes b.dimension) N (t + 1) →
        ∃ it s, it1.nextTimes (p - Spec.chunkStart (Spec.faceSize sizes b.dimension) N t)
            = some it ∧
          it.currentSideIterator = some s ∧
          it.isInField = true ∧ it.mainIterator.isInField = true ∧ s.isInField = true ∧
          it.mainIterator.currentIndex b.dimension
            = some (if b.lower then 0 else sizes.getD b.dimension 0 - 1) ∧
          s.currentIndex b.dimension = some (if b.lower then E - 1 else 0) ∧
          ∀ e, e < sizes.length → e ≠ b.dimension →
            ∃ c, it.mainIterator.currentIndex e = some c ∧ s.currentIndex e = some c) ∧
      ∃ it s, it1.nextTimes (Spec.chunkStart (Spec.faceSize sizes b.dimension) N (t + 1)
            - Spec.chunkStart (Spec.faceSize sizes b.dimension) N t) = some it ∧
        it.currentSideIterator = some s ∧
        it.isInField = false ∧ it.mainIterator.isInField = false ∧ s.isInField = false := by
  obtain ⟨hB, it0, it1, h0, h1, hreach⟩ := ComposedFieldBoundaryIterator.reach_onFace_end sizes E
    mn mx ix a1 a2 a3 b1 b2 b3 data glo ghi sides lowerIt upperIt b t N hpos htot hE hgtot hb ht
    hsides hlo hhi
  have hlen : (sizes.set b.dimension E).length = sizes.length := List.length_set _ _ _
  have hposS := Spec.pos_set hpos hE b.dimension
  have hbS : b.oppositeSide.dimension < (sizes.set b.dimension E).length := by
    rw [hlen]; exact hb
  have hfS : Spec.faceSize (sizes.set b.dimension E) b.oppositeSide.dimension
      = Spec.faceSize sizes b.dimension := Spec.faceSize_set hpos hE hb
  have hhi1 : 1 ≤ Spec.chunkStart (Spec.faceSize sizes b.dimension) N (t + 1) :=
    Spec.chunkStart_succ_pos (Spec.faceSize_pos hpos hb) N t
  have hmono : Spec.chunkStart (Spec.faceSize sizes b.dimension) N t
      ≤ Spec.chunkStart (Spec.faceSize sizes b.dimension) N (t + 1) :=
    Spec.chunkStart_mono _ _ (Nat.le_succ t)
  refine ⟨it0, it1, h0, h1, ?_, ?_⟩
  · intro p hp1 hp2
    obtain ⟨it, hn, hon⟩ := hreach p hp1 (by omega)
    have hin : it.isInField = true :=
      (ComposedFieldBoundaryIterator.isInField_iff_onFace hon hpos hb hp1 hhi1).mpr hp2
    obtain ⟨s, hs, hside⟩ := hon.side
    have hmain := hon.main
    refine ⟨it, s, hn, hs, hin, hin, ?_, ?_, ?_, ?_⟩
    · exact (OnFace.inField_iff hside hposS hbS hp1 hhi1).mpr hp2
    · rw [OnFace.currentIndex_eq hmain hpos htot hb hp1 hp2 hB hb,
        Spec.coordinate_faceIndex hpos hb]
      rfl
    · have hBS : Spec.chunkStart (Spec.faceSize sizes b.dimension) N (t + 1)
          ≤ Spec.faceSize (sizes.set b.dimension E) b.oppositeSide.dimension := by
        rw [hfS]; exact hB
      have := OnFace.currentIndex_eq hside hposS hgtot hbS hp1 hp2 hBS hbS
      have e1 : b.oppositeSide.dimension = b.dimension := rfl
      rw [e1] at this
      rw [this, Spec.coordinate_faceIndex hposS (by rw [hlen]; exact hb)]
      unfold Spec.faceCoordinate BoundaryId.oppositeSide
      rw [Spec.getD_set_self E hb]
      cases b.lower <;> rfl
    · intro e he hne
      have hBS : Spec.chunkStart (Spec.faceSize sizes b.dimension) N (t + 1)
          ≤ Spec.faceSize (sizes.set b.dimension E) b.oppositeSide.dimension := by
        rw [hfS]; exact hB
      refine ⟨_, OnFace.currentIndex_eq hmain hpos htot hb hp1 hp2 hB he, ?_⟩
      rw [OnFace.currentIndex_eq hside hposS hgtot hbS hp1 hp2 hBS (by rw [hlen]; exact he)]
      have e1 : b.oppositeSide.dimension = b.dimension := rfl
      rw [e1, Spec.coordinate_set_faceIndex sizes b.dimension E b.lower b.oppositeSide.lower p e
        hpos hE hb hne]
  · obtain ⟨it, hn, hon⟩ := hreach _ hmono (le_refl _)
    obtain ⟨s, hs, hside⟩ := hon.side
    have hout : it.isInField = false := by
      have := ComposedFieldBoundaryIterator.isInField_iff_onFace hon hpos hb hmono hhi1
      cases h : it.isInField
      · rfl
      · exact absurd (this.mp h) (lt_irrefl _)
    refine ⟨it, s, hn, hs, hout, hout, ?_⟩
    have := OnFace.inField_iff hside hposS hbS hmono hhi1
    cases h : s.isInField
    · rfl
    · exact absurd (this.mp h) (lt_irrefl _)

/-- The bounded statement on the fixture of `ComposedFieldBoundaryIteratorTest` (extents 5 x 5 x 5,
width 4), on the upper boundary of dimension 1 with a single thread, at the face cell 12: the main
iterator has coordinate 4 and the side iterator coordinate 0 along dimension 1, and they agree
along dimension 2. -/
theorem composed_lock_step_bounded_witness :
    ∃ it0 it1, ComposedFieldBoundaryIterator.new 0 0 0 [5, 5, 5] (fun i => 33 * i)
        fixtureGhostIterators = some it0 ∧
      it0.setBoundaryToIterate 0 1 { dimension := 1, lower := false } = some it1 ∧
      ∃ it s, it1.nextTimes (12 - Spec.chunkStart (Spec.faceSize [5, 5, 5] 1) 1 0) = some it ∧
        it.currentSideIterator = some s ∧
        it.mainIterator.isInField = true ∧ s.isInField = true ∧
        it.mainIterator.currentIndex 1 = some (5 - 1) ∧
        s.currentIndex 1 = some 0 ∧
        ∃ c, it.mainIterator.currentIndex 2 = some c ∧ s.currentIndex 2 = some c := by
  obtain ⟨it0, it1, h0, h1, h, _⟩ := composed_lock_step_bounded [5, 5, 5] 4
    0 0 0 0 0 0 0 0 0
    (fun i => 33 * i) (fun k => 1000 * 1 + 100 * 0 + k) (fun k => 1000 * 1 + 100 * 1 + k)
    fixtureGhostIterators ((fixtureGhostIterator 1 0).get rfl)
    ((fixtureGhostIterator 1 1).get rfl) { dimension := 1, lower := false } 0 1
    (by decide) (by decide) (by decide) (by decide) (by decide) (by decide) rfl
    (Option.some_get _).symm (Option.some_get _).symm
  obtain ⟨it, s, h2, h3, _, h4, h5, h6, h7, h8⟩ := h 12 (by decide) (by decide)
  exact ⟨it0, it1, h0, h1, it, s, h2, h3, h4, h5, h6, h7, h8 2 (by decide) (by decide)⟩

/-- Mapping after a modification that the map does not see. -/
theorem map_modify_eq {β γ : Type} (g : β → γ) (f : β → β) : ∀ (l : List β) (n : Nat),
    (∀ p, l.get? n = some p → g (f p) = g p) → (l.modify f n).map g = l.map g := by
  intro l
  induction l with
  | nil => intro n _; cases n <;> rfl
  | cons a l ih =>
    intro n h
    cases n with
    | zero =>
      simp only [List.modify_zero_cons, List.map_cons]
      rw [h a rfl]
    | succ n =>
      simp only [List.modify_succ_cons, List.map_cons]
      rw [ih n (fun p hp => h p (by simpa using hp))]

/-- The buffer of a plain boundary iterator is not touched by `setBoundaryToIterate`. -/
theorem ValueFieldBoundaryIterator.getter_setBoundaryToIterate {α : Type} {t N : Nat}
    {it it1 : ValueFieldBoundaryIterator α} {b : BoundaryId}
    (h : it.setBoundaryToIterate t N b = some it1) :
    it1.getter.values = it.getter.values := by
  unfold ValueFieldBoundaryIterator.setBoundaryToIterate at h
  cases hs : it.stepper.setBoundaryToIterate t N b with
  | none => simp only [hs] at h; exact absurd h (by simp)
  | some s =>
    simp only [hs] at h
    rw [← Option.some.inj h]
    rfl

namespace ComposedFieldBoundaryIterator

variable {α : Type}

/-- Replacing a side iterator by one with the same buffer keeps all the buffers. -/
theorem buffers_setSideIterator (it : ComposedFieldBoundaryIterator α) (d j : Nat)
    {side side1 : ValueFieldBoundaryIterator α} (hs : it.sideIterator d j = some side)
    (hg : side1.getter.values = side.getter.values) :
    (it.setSideIterator d j side1).mainIterator = it.mainIterator ∧
    (it.setSideIterator d j side1).sideIterators.map
        (fun p => (p.1.getter.values, p.2.getter.values))
      = it.sideIterators.map (fun p => (p.1.getter.values, p.2.getter.values)) := by
  refine ⟨rfl, ?_⟩
  unfold setSideIterator
  apply map_modify_eq
  intro p hp
  unfold sideIterator at hs
  rw [hp] at hs
  by_cases hj : j = 0
  · simp only [hj, if_true] at hs ⊢
    rw [hg, ← Option.some.inj hs]
  · simp only [hj, if_false] at hs ⊢
    rw [hg, ← Option.some.inj hs]

/-- `next` moves the steppers and leaves the main buffer and the side buffers as they are. -/
theorem buffers_next {it it1 : ComposedFieldBoundaryIterator α} (h : it.next = some it1) :
    it1.mainIterator.getter.values = it.mainIterator.getter.values ∧
    it1.sideIterators.map (fun p => (p.1.getter.values, p.2.getter.values))
      = it.sideIterators.map (fun p => (p.1.getter.values, p.2.getter.values)) := by
  unfold next at h
  cases hm : it.mainIterator.next with
  | none => simp only [hm] at h; exact absurd h (by simp)
  | some m =>
    simp only [hm] at h
    have hmg : m.getter.values = it.mainIterator.getter.values := by
      unfold ValueFieldBoundaryIterator.next at hm
      cases hs : it.mainIterator.stepper.next with
      | none => simp only [hs] at hm; exact absurd hm (by simp)
      | some s =>
        simp only [hs] at hm
        rw [← Option.some.inj hm]
    cases hside : ({ it with mainIterator := m } :
        ComposedFieldBoundaryIterator α).currentSideIterator with
    | none => simp only [hside] at h; exact absurd h (by simp)
    | some side =>
      simp only [hside] at h
      cases hn : side.next with
      | none => simp only [hn] at h; exact absurd h (by simp)
      | some side1 =>
        simp only [hn] at h
        have hsg : side1.getter.values = side.getter.values := by
          unfold ValueFieldBoundaryIterator.next at hn
          cases hs : side.stepper.next with
          | none => simp only [hs] at hn; exact absurd hn (by simp)
          | some s =>
            simp only [hs] at hn
            rw [← Option.some.inj hn]
        have := buffers_setSideIterator ({ it with mainIterator := m } :
          ComposedFieldBoundaryIterator α) _ _ hside hsg
        rw [← Option.some.inj h]
        exact ⟨by rw [this.1]; exact hmg, this.2⟩

/-- `first` leaves the main buffer and the side buffers as they are. -/
theorem buffers_first {it it1 : ComposedFieldBoundaryIterator α} (h : it.first = some it1) :
    it1.mainIterator.getter.values = it.mainIterator.getter.values ∧
    it1.sideIterators.map (fun p => (p.1.getter.values, p.2.getter.values))
      = it.sideIterators.map (fun p => (p.1.getter.values, p.2.getter.values)) := by
  unfold first at h
  cases hside : ({ it with mainIterator := it.mainIterator.first } :
      ComposedFieldBoundaryIterator α).currentSideIterator with
  | none => simp only [hside] at h; exact absurd h (by simp)
  | some side =>
    simp only [hside] at h
    have := buffers_setSideIterator ({ it with mainIterator := it.mainIterator.first } :
      ComposedFieldBoundaryIterator α) _ _ hside
        (rfl : side.first.getter.values = side.getter.values)
    rw [← Option.some.inj h]
    exact ⟨by rw [this.1]; rfl, this.2⟩

/-- `setBoundaryToIterate` leaves the main buffer and the side buffers as they are. -/
theorem buffers_setBoundaryToIterate {t N : Nat} {b : BoundaryId}
    {it it1 : ComposedFieldBoundaryIterator α} (h : it.setBoundaryToIterate t N b = some it1) :
    it1.mainIterator.getter.values = it.mainIterator.getter.values ∧
    it1.sideIterators.map (fun p => (p.1.getter.values, p.2.getter.values))
      = it.sideIterators.map (fun p => (p.1.getter.values, p.2.getter.values)) := by
  unfold setBoundaryToIterate at h
  simp only at h
  cases hm : it.mainIterator.setBoundaryToIterate t N b with
  | none => simp only [hm] at h; exact absurd h (by simp)
  | some m =>
    simp only [hm] at h
    have hmg := ValueFieldBoundaryIterator.getter_setBoundaryToIterate hm
    cases hside : ({ it with currentBoundary := b, mainIterator := m } :
        ComposedFieldBoundaryIterator α).currentSideIterator with
    | none => simp only [hside] at h; exact absurd h (by simp)
    | some side =>
      simp only [hside] at h
      cases hn : side.setBoundaryToIterate t N
          ({ it with currentBoundary := b, mainIterator := m } :
            ComposedFieldBoundaryIterator α).currentBoundary.oppositeSide with
      | none => simp only [hn] at h; exact absurd h (by simp)
      | some side1 =>
        simp only [hn] at h
        have hsg := ValueFieldBoundaryIterator.getter_setBoundaryToIterate hn
        have h1 := buffers_setSideIterator ({ it with currentBoundary := b, mainIterator := m } :
          ComposedFieldBoundaryIterator α) _ _ hside hsg
        have h2 := buffers_first h
        exact ⟨by rw [h2.1, h1.1]; exact hmg, by rw [h2.2, h1.2]⟩

end ComposedFieldBoundaryIterator

/-- Within the size bounds of the hypotheses, where no index computation wraps around:
for block width `n ≥ E ≥ 1` and every face `b = (d, side)`, `applyInBoundaryRegion`
returns, and the output buffer differs from the one before the pass only in the cells whose
coordinate along `d` lies in `[0, E)` (lower face) or `[n - E, n)` (upper face); to each of
these it has added the `E` taps of dimension `d` that point towards the face (weights
`0 … E - 1` at offsets `-E … -1` for the lower face, weights `E + 1 … 2 E` at offsets `1 … E`
for the upper face).  Every other output cell is unchanged.  The input block is read only: the
pass takes it as a value and returns the result block alone, and the operations it applies to
the input iterator (`setBoundaryToIterate`, `next`) leave the main buffer and all side buffers
as they are. -/
theorem boundary_pass_frame_bounded {α : Type} [CommRing α] (D n E N fuel : Nat)
    (w : Nat → Int → α) (main : Nat → α) (ghost : Nat → Nat → Nat → α) (out : Nat → α)
    (u : Nat → Nat → Nat) (b : BoundaryId)
    (hE : 1 ≤ E) (hEn : E ≤ n) (hE2 : 2 * E < 2147483648) (htot : n ^ D < 2 ^ 31)
    (hb : b.dimension < D) (hN : 1 ≤ N) (hf : n ^ D ≤ fuel) :
    (∃ out1, MultuncialStencil.applyInBoundaryRegion D E w fuel N u
        (ComputationalComposedBlock.new D n E (some main) ghost)
        (ComputationalPureBlock.new n out) b = some (ComputationalPureBlock.new n out1) ∧
      (∀ y, y < n ^ D →
        (if b.lower then Spec.coordinate (List.replicate D n) y b.dimension < E
          else n ≤ Spec.coordinate (List.replicate D n) y b.dimension + E) →
        out1 y = out y + Spec.faceTaps D n E w main ghost b y) ∧
      (∀ y, y < n ^ D →
        ¬ (if b.lower then Spec.coordinate (List.replicate D n) y b.dimension < E
          else n ≤ Spec.coordinate (List.replicate D n) y b.dimension + E) →
        out1 y = out y) ∧
      (∀ y, n ^ D ≤ y → out1 y = out y)) ∧
    (∀ y, Spec.faceTaps D n E w main ghost b y
      = if b.lower then
          ∑ i in Finset.range E,
            w b.dimension (i : Int)
              * Spec.neighborValue D n E main ghost y b.dimension ((i : Int) - (E : Int))
        else
          ∑ i in Finset.range E,
            w b.dimension ((E : Int) + 1 + (i : Int))
              * Spec.neighborValue D n E main ghost y b.dimension ((i : Int) + 1)) ∧
    ∀ (t : Nat) (it it1 : ComposedFieldBoundaryIterator α),
      it.setBoundaryToIterate t N b = some it1 ∨ it.next = some it1 →
      it1.mainIterator.getter.values = it.mainIterator.getter.values ∧
      it1.sideIterators.map (fun p => (p.1.getter.values, p.2.getter.values))
        = it.sideIterators.map (fun p => (p.1.getter.values, p.2.getter.values)) := by
  refine ⟨⟨_, MultuncialStencil.applyInBoundaryRegion_spec main w ghost hE hEn hE2 htot hb hN hf
    u out, ?_, ?_, ?_⟩, ?_, ?_⟩
  · intro y hy hc
    simp only [if_pos hy]
    rw [MultuncialStencil.boundaryTerm_eq, if_pos hc]
  · intro y hy hc
    simp only [if_pos hy]
    rw [MultuncialStencil.boundaryTerm_eq, if_neg hc, add_zero]
  · intro y hy
    simp only [if_neg (by omega : ¬ y < n ^ D)]
  · intro y
    unfold Spec.faceTaps Spec.leftTaps Spec.rightTaps
    rfl
  · intro t it it1 h
    rcases h with h | h
    · exact ComposedFieldBoundaryIterator.buffers_setBoundaryToIterate h
    · exact ComposedFieldBoundaryIterator.buffers_next h

/-- The bounded statement for a block of two dimensions with 8 elements per dimension, extent 4,
the weights `k + 1` in both dimensions, two threads and the upper face of dimension 1: the pass
returns and leaves every cell beyond the block as it was. -/
theorem boundary_pass_frame_bounded_witness :
    (1 ≤ 4 ∧ 4 ≤ 8 ∧ 2 * 4 < 2147483648 ∧ 8 ^ 2 < 2 ^ 31 ∧ (1 : Nat) < 2 ∧ 1 ≤ 2 ∧ 8 ^ 2 ≤ 64) ∧
    ∃ out1, MultuncialStencil.applyInBoundaryRegion 2 4 (fun _ k => (k + 1 : ℚ)) 64 2
        (fun _ _ => 0)
        (ComputationalComposedBlock.new 2 8 4 (some fun i => (i : ℚ))
          (fun d j k => (1000 * d + 100 * j + k : ℚ)))
        (ComputationalPureBlock.new 8 fun _ => 5) { dimension := 1, lower := false }
        = some (ComputationalPureBlock.new 8 out1) ∧
      (∀ y, y < 8 ^ 2 →
        ¬ (if ({ dimension := 1, lower := false } : BoundaryId).lower then
            Spec.coordinate (List.replicate 2 8) y 1 < 4
          else 8 ≤ Spec.coordinate (List.replicate 2 8) y 1 + 4) →
        out1 y = (fun _ => 5) y) ∧
      ∀ y, 8 ^ 2 ≤ y → out1 y = (fun _ => 5) y := by
  obtain ⟨⟨out1, h1, _, h3, h4⟩, _⟩ := boundary_pass_frame_bounded 2 8 4 2 64
    (fun _ k => (k + 1 : ℚ)) (fun i => (i : ℚ)) (fun d j k => (1000 * d + 100 * j + k : ℚ))
    (fun _ => 5) (fun _ _ => 0) { dimension := 1, lower := false }
    (by decide) (by decide) (by decide) (by decide) (by decide) (by decide) (by decide)
  exact ⟨by decide, out1, h1, h3, h4⟩

namespace BlockOperator

variable {α : Type} [CommRing α]

/-- The result of `apply`: the full stencil in every cell of the block, whatever the output
buffer held before. -/
theorem apply_stencil {D n E : Nat} (main : Nat → α) (w : Nat → Int → α)
    (ghost : Nat → Nat → Nat → α)
    (hE : 1 ≤ E) (hEn : E ≤ n) (hE2 : 2 * E < 2147483648) (htot : n ^ D < 2 ^ 31)
    {fuel N : Nat} (hN : 1 ≤ N) (hf : n ^ D ≤ fuel)
    (u : Nat → Nat → Nat → Nat) {completions : List Nat}
    (hperm : completions.Perm (List.range (2 * D))) (out : Nat → α) :
    ∃ result, apply D E w fuel N u completions
        (ComputationalComposedBlock.new D n E (some main) ghost)
        (ComputationalPureBlock.new n out) = some (ComputationalPureBlock.new n result) ∧
      (∀ x, x < n ^ D → result x = Spec.stencil D n E w main ghost x) ∧
      ∀ x, n ^ D ≤ x → result x = out x := by
  have hlen : completions.length = 2 * D := by
    rw [hperm.length_eq, List.length_range]
  have hlt : ∀ idx ∈ completions, idx < 2 * D := by
    intro idx hidx
    exact List.mem_range.mp (hperm.mem_iff.mp hidx)
  have hw := ComputationalComposedBlock.new_wellFormed D n E (some main) ghost
  refine ⟨fun y =>
      if y < n ^ D then
        (fun i => if i < n ^ D then Spec.innerValue D n E w main ghost i else out i) y
          + ∑ k in Finset.range (2 * D), Spec.boundaryTerm D n E w main ghost
              (ComputationalComposedBlock.receiveDoneAt (completions.getD k 0)) y
      else (fun i => if i < n ^ D then Spec.innerValue D n E w main ghost i else out i) y,
    ?_, ?_, ?_⟩
  · unfold apply
    rw [MultuncialStencil.applyInInnerRegion_spec w ghost hw rfl hE hEn hE2 htot hN hf]
    simp only
    rw [applyInBoundaryRegions_spec main w ghost hE hEn hE2 htot hN hf u hlt _
      (2 * D) (by omega)]
  · intro x hx
    simp only [if_pos hx]
    rw [sum_completions (fun idx => Spec.boundaryTerm D n E w main ghost
      (ComputationalComposedBlock.receiveDoneAt idx) x) hperm]
    unfold Spec.stencil Spec.innerValue
    rw [← Finset.sum_add_distrib]
    apply Finset.sum_congr rfl
    intro d _
    exact Spec.terms_add D n E w main ghost x d
  · intro x hx
    simp only [if_neg (by omega : ¬ x < n ^ D)]

end BlockOperator

/-- Within the size bounds of the hypotheses, where no index computation wraps around:
for equal input data, weights, thread count and receipt order, two runs of `apply`
(block width `n ≥ E ≥ 1`) that start from the output buffers `out1` and `out2` both return,
and their output blocks hold the same value in every cell.  The inner pass alone already
makes the two output blocks equal: it writes every cell without reading it.  The
indeterminate contents `u1`, `u2` of new iterator members may differ as well. -/
theorem output_independent_of_previous_output_bounded {α : Type} [CommRing α] (D n E N fuel : Nat)
    (w : Nat → Int → α) (main : Nat → α) (ghost : Nat → Nat → Nat → α) (out1 out2 : Nat → α)
    (u1 u2 : Nat → Nat → Nat → Nat) (completions : List Nat)
    (hE : 1 ≤ E) (hEn : E ≤ n) (hE2 : 2 * E < 2147483648) (htot : n ^ D < 2 ^ 31)
    (hN : 1 ≤ N) (hf : n ^ D ≤ fuel) (hperm : completions.Perm (List.range (2 * D))) :
    (∃ result1 result2,
      BlockOperator.apply D E w fuel N u1 completions
        (ComputationalComposedBlock.new D n E (some main) ghost)
        (ComputationalPureBlock.new n out1) = some (ComputationalPureBlock.new n result1) ∧
      BlockOperator.apply D E w fuel N u2 completions
        (ComputationalComposedBlock.new D n E (some main) ghost)
        (ComputationalPureBlock.new n out2) = some (ComputationalPureBlock.new n result2) ∧
      ∀ x, x < n ^ D → result1 x = result2 x) ∧
    ∃ inner1 inner2,
      MultuncialStencil.applyInInnerRegion D E w fuel N
        (ComputationalComposedBlock.new D n E (some main) ghost)
        (ComputationalPureBlock.new n out1) = some (ComputationalPureBlock.new n inner1) ∧
      MultuncialStencil.applyInInnerRegion D E w fuel N
        (ComputationalComposedBlock.new D n E (some main) ghost)
        (ComputationalPureBlock.new n out2) = some (ComputationalPureBlock.new n inner2) ∧
      ∀ x, x < n ^ D → inner1 x = inner2 x := by
  obtain ⟨r1, h1, h1s, _⟩ := BlockOperator.apply_stencil main w ghost hE hEn hE2 htot hN hf u1
    hperm out1
  obtain ⟨r2, h2, h2s, _⟩ := BlockOperator.apply_stencil main w ghost hE hEn hE2 htot hN hf u2
    hperm out2
  have hw := ComputationalComposedBlock.new_wellFormed D n E (some main) ghost
  refine ⟨⟨r1, r2, h1, h2, fun x hx => by rw [h1s x hx, h2s x hx]⟩, _, _,
    MultuncialStencil.applyInInnerRegion_spec w ghost hw rfl hE hEn hE2 htot hN hf out1,
    MultuncialStencil.applyInInnerRegion_spec w ghost hw rfl hE hEn hE2 htot hN hf out2, ?_⟩
  intro x hx
  simp only [if_pos hx]

/-- The bounded statement for a block of two dimensions with 8 elements per dimension, extent 4,
two threads, the receipt order 3, 1, 2, 0 and the output buffers `0` and `x + 7`. -/
theorem output_independent_of_previous_output_bounded_witness :
    (1 ≤ 4 ∧ 4 ≤ 8 ∧ 2 * 4 < 2147483648 ∧ 8 ^ 2 < 2 ^ 31 ∧ 1 ≤ 2 ∧ 8 ^ 2 ≤ 64 ∧
      [3, 1, 2, 0].Perm (List.range (2 * 2))) ∧
    ∃ result1 result2,
      BlockOperator.apply 2 4 (fun _ k => (k + 1 : ℚ)) 64 2 (fun _ _ _ => 0) [3, 1, 2, 0]
        (ComputationalComposedBlock.new 2 8 4 (some fun i => (i : ℚ))
          (fun d j k => (1000 * d + 100 * j + k : ℚ)))
        (ComputationalPureBlock.new 8 fun _ => 0) = some (ComputationalPureBlock.new 8 result1) ∧
      BlockOperator.apply 2 4 (fun _ k => (k + 1 : ℚ)) 64 2 (fun _ _ _ => 0) [3, 1, 2, 0]
        (ComputationalComposedBlock.new 2 8 4 (some fun i => (i : ℚ))
          (fun d j k => (1000 * d + 100 * j + k : ℚ)))
        (ComputationalPureBlock.new 8 fun x => (x + 7 : ℚ))
          = some (ComputationalPureBlock.new 8 result2) ∧
      ∀ x, x < 8 ^ 2 → result1 x = result2 x :=
  ⟨by decide, (output_independent_of_previous_output_bounded 2 8 4 2 64 _ _ _ _ _ _ _ _
    (by decide) (by decide) (by decide) (by decide) (by decide) (by decide) (by decide)).1⟩

/-- The nine weights that `initializeWeights` makes for one step length sum to zero. -/
theorem ConstFD8Stencil.row_sum {α : Type} [Field α] [CharZero α] (h : α) :
    ([-1 / (560 * (h * h)), 8 / (315 * (h * h)), -1 / (5 * (h * h)), 8 / (5 * (h * h)),
      -205 / (72 * (h * h)), 8 / (5 * (h * h)), -1 / (5 * (h * h)), 8 / (315 * (h * h)),
      -1 / (560 * (h * h))] : List α).sum = 0 := by
  simp only [List.sum_cons, List.sum_nil, add_zero, div_mul_eq_div_div, ← add_div]
  rw [div_eq_zero_iff]
  left
  norm_num

/-- The weight rows of a stencil made by `initializeWeights`. -/
theorem ConstFD8Stencil.weights_getD {α : Type} [Field α] {stepLength : List α}
    {s : ConstFD8Stencil α} (hs : ConstFD8Stencil.new stepLength = some s) {d : Nat}
    (hd : d < stepLength.length) :
    s.weights.getD d []
      = [-1 / (560 * (stepLength.getD d 0 * stepLength.getD d 0)),
         8 / (315 * (stepLength.getD d 0 * stepLength.getD d 0)),
         -1 / (5 * (stepLength.getD d 0 * stepLength.getD d 0)),
         8 / (5 * (stepLength.getD d 0 * stepLength.getD d 0)),
         -205 / (72 * (stepLength.getD d 0 * stepLength.getD d 0)),
         8 / (5 * (stepLength.getD d 0 * stepLength.getD d 0)),
         -1 / (5 * (stepLength.getD d 0 * stepLength.getD d 0)),
         8 / (315 * (stepLength.getD d 0 * stepLength.getD d 0)),
         -1 / (560 * (stepLength.getD d 0 * stepLength.getD d 0))] := by
  unfold ConstFD8Stencil.new ConstFD8Stencil.initializeWeights at hs
  split_ifs at hs
  rw [← Option.some.inj hs]
  simp only [List.getD_eq_getElem?_getD, List.getElem?_map, List.getElem?_eq_getElem hd,
    Option.map_some', Option.getD_some]

/-- A cell of a field that is constant over main and side regions has the constant at every
neighbour. -/
theorem Spec.neighborValue_const {α : Type} (D n E : Nat) (c : α) (x d : Nat) (off : Int) :
    Spec.neighborValue D n E (fun _ => c) (fun _ _ _ => c) x d off = c := by
  unfold Spec.neighborValue
  simp only
  split_ifs <;> rfl

/-- The nine weights of one dimension, read through `getWeight`, sum to zero. -/
theorem ConstFD8Stencil.getWeight_sum {α ι : Type} [Field α] [CharZero α]
    {stepLength : List α} {s : ConstFD8Stencil α}
    (hs : ConstFD8Stencil.new stepLength = some s) (it : ι) {d : Nat}
    (hd : d < stepLength.length) :
    (s.weights.getD d []).sum = 0 ∧ (s.weights.getD d []).length = 9 ∧
    ∑ k in Finset.range 9, s.getWeight it d (k : Int) = 0 := by
  have hrow := ConstFD8Stencil.weights_getD hs hd
  have hsum : (s.weights.getD d []).sum = 0 := by
    rw [hrow]
    exact ConstFD8Stencil.row_sum _
  refine ⟨hsum, by rw [hrow]; rfl, ?_⟩
  unfold ConstFD8Stencil.getWeight
  rw [← hsum, hrow]
  simp only [Int.toNat_ofNat, Finset.sum_range_succ, Finset.sum_range_zero, List.sum_cons,
    List.sum_nil, List.getD_cons_zero, List.getD_cons_succ]
  ring

/-- Within the size bounds of the hypotheses, where no index computation wraps around:
for every list of step lengths (fewer than 65536 dimensions) over a field of
characteristic zero, the nine coefficients `-205/72 + 2 (8/5 - 1/5 + 8/315 - 1/560)` sum to
zero, the nine weights that `ConstFD8Stencil` holds for a dimension sum to zero, and `apply`
with these weights (extent 4, block width `n ≥ 4`) on a block whose main buffer and side
buffers all hold the constant `c` returns with `0` in every cell of the output block. -/
theorem constant_field_gives_zero_bounded {α : Type} [Field α] [CharZero α] (stepLength : List α)
    (n N fuel : Nat) (c : α) (out : Nat → α) (u : Nat → Nat → Nat → Nat)
    (completions : List Nat)
    (hlen : stepLength.length < 65536) (hn : 4 ≤ n) (htot : n ^ stepLength.length < 2 ^ 31)
    (hN : 1 ≤ N) (hf : n ^ stepLength.length ≤ fuel)
    (hperm : completions.Perm (List.range (2 * stepLength.length))) :
    (-205 / 72 + 2 * (8 / 5 - 1 / 5 + 8 / 315 - 1 / 560) : α) = 0 ∧
    ∃ s, ConstFD8Stencil.new stepLength = some s ∧
      (∀ d, d < stepLength.length →
        (s.weights.getD d []).sum = 0 ∧ (s.weights.getD d []).length = 9 ∧
        ∑ k in Finset.range 9, s.getWeight () d (k : Int) = 0) ∧
      ∃ result, BlockOperator.apply stepLength.length 4 (fun d k => s.getWeight () d k) fuel N
          u completions
          (ComputationalComposedBlock.new stepLength.length n 4 (some fun _ => c)
            (fun _ _ _ => c))
          (ComputationalPureBlock.new n out) = some (ComputationalPureBlock.new n result) ∧
        ∀ x, x < n ^ stepLength.length → result x = 0 := by
  refine ⟨by norm_num, ?_⟩
  have hs : ∃ s, ConstFD8Stencil.new stepLength = some s := by
    unfold ConstFD8Stencil.new ConstFD8Stencil.initializeWeights
    rw [if_pos hlen]
    exact ⟨_, rfl⟩
  obtain ⟨s, hs⟩ := hs
  refine ⟨s, hs, fun d hd => ConstFD8Stencil.getWeight_sum hs () hd, ?_⟩
  obtain ⟨result, hr, hst, _⟩ := BlockOperator.apply_stencil (fun _ => c)
    (fun d k => s.getWeight () d k) (fun _ _ _ => c) (by decide : 1 ≤ 4) hn (by decide) htot hN
    hf u hperm out
  refine ⟨result, hr, ?_⟩
  intro x hx
  rw [hst x hx]
  unfold Spec.stencil
  apply Finset.sum_eq_zero
  intro d hd
  simp only [Spec.neighborValue_const]
  rw [← Finset.sum_mul, (ConstFD8Stencil.getWeight_sum hs () (Finset.mem_range.mp hd)).2.2,
    zero_mul]

/-- The bounded statement for two dimensions with step lengths `1/8` and `1/4`, block width 8, two
threads, the receipt order 3, 1, 2, 0 and the constant `5/3`. -/
theorem constant_field_gives_zero_bounded_witness :
    (([1 / 8, 1 / 4] : List ℚ).length < 65536 ∧ 4 ≤ 8 ∧
      8 ^ ([1 / 8, 1 / 4] : List ℚ).length < 2 ^ 31 ∧ 1 ≤ 2 ∧
      8 ^ ([1 / 8, 1 / 4] : List ℚ).length ≤ 64 ∧
      [3, 1, 2, 0].Perm (List.range (2 * ([1 / 8, 1 / 4] : List ℚ).length))) ∧
    ∃ s, ConstFD8Stencil.new ([1 / 8, 1 / 4] : List ℚ) = some s ∧
      ∃ result, BlockOperator.apply ([1 / 8, 1 / 4] : List ℚ).length 4
          (fun d k => s.getWeight () d k) 64 2 (fun _ _ _ => 0) [3, 1, 2, 0]
          (ComputationalComposedBlock.new ([1 / 8, 1 / 4] : List ℚ).length 8 4
            (some fun _ => (5 / 3 : ℚ)) (fun _ _ _ => (5 / 3 : ℚ)))
          (ComputationalPureBlock.new 8 fun _ => 1) = some (ComputationalPureBlock.new 8 result) ∧
        ∀ x, x < 8 ^ ([1 / 8, 1 / 4] : List ℚ).length → result x = 0 := by
  obtain ⟨_, s, h1, _, h3⟩ := constant_field_gives_zero_bounded ([1 / 8, 1 / 4] : List ℚ) 8 2 64
    (5 / 3) (fun _ => 1) (fun _ _ _ => 0) [3, 1, 2, 0]
    (by decide) (by decide) (by decide) (by decide) (by decide) (by decide)
  exact ⟨by decide, s, h1, h3⟩

/-- C39: for a size array with all extents at least 1 and total size below `2^31`, at every
in-field linear index below the total size, every dimension `d < D` and every offset of the
range of `int` for which `neighborInField(d, offset)` holds: `linearNeighborIndex(d, offset)`
returns an index `j` in `[0, totalSize)`, whose coordinate along `d` is
`currentIndex(d) + offset` and whose other coordinates are those of the current index;
`currentNeighbor` of a plain iterator reads the element `j` of the buffer and
`setCurrentNeighbor` writes the element `j` and no other element. -/
theorem C39_neighbor_index_in_bounds {α : Type} (sizes : List Nat)
    (minIndex maxIndex index : Nat) (s : FieldSteppingStrategy) (getter : ValueArray α)
    (d : Nat) (offset : Int) (v : α)
    (hpos : ∀ n ∈ sizes, 1 ≤ n) (htot : sizes.prod < 2 ^ 31)
    (hs : FieldSteppingStrategy.new minIndex maxIndex index sizes = some s)
    (hin : s.isInField = true) (hlt : s.index < s.totalSize) (hd : d < sizes.length)
    (h1 : -2147483648 ≤ offset) (h2 : offset < 2147483648)
    (hnb : s.neighborInField d offset = some true) :
    ∃ j c : Nat, s.currentIndex d = some c ∧ s.linearNeighborIndex d offset = some j ∧
      s.totalSize = sizes.prod ∧ j < s.totalSize ∧
      (Spec.coordinate sizes j d : Int) = (c : Int) + offset ∧
      (∀ e, e ≠ d → Spec.coordinate sizes j e = Spec.coordinate sizes s.index e) ∧
      PureFieldIterator.currentNeighbor s getter d offset = some (getter.values j) ∧
      (∃ g, PureFieldIterator.setCurrentNeighbor s getter d offset v = some g ∧
        g.values j = v ∧ ∀ i, i ≠ j → g.values i = getter.values i) := by
  have htab := (FieldSteppingStrategy.new_tables hpos htot hs).2.2.2
  have hn := FieldSteppingStrategy.neighborInField_of_tables hpos htot htab hin hlt hd h1 h2
  have hcur := FieldSteppingStrategy.currentIndex_of_tables hpos htot htab hin hlt hd
  rw [hn] at hnb
  have hdec := of_decide_eq_true (Option.some.inj hnb)
  obtain ⟨c1, hc1⟩ : ∃ c1 : Nat,
      (c1 : Int) = (Spec.coordinate sizes s.index d : Int) + offset :=
    ⟨_, Int.toNat_of_nonneg hdec.1⟩
  obtain ⟨hnf, j, hj, hjlt, _, hjd, hje⟩ :=
    @FieldSteppingStrategy.neighbor_of_tables sizes s hpos htot htab hin hlt d hd offset c1 hc1
      (by have := hdec.2; omega)
  refine ⟨j, _, hcur, hj, htab.total_eq, by rw [htab.total_eq]; exact hjlt, ?_, hje, ?_, ?_⟩
  · rw [hjd, hc1]
  · unfold PureFieldIterator.currentNeighbor
    rw [hnf]
    simp only [hj]
    rfl
  · refine ⟨getter.setValue j v, ?_, ?_, ?_⟩
    · unfold PureFieldIterator.setCurrentNeighbor
      rw [hnf]
      simp only [hj]
    · unfold ValueArray.setValue
      simp only [if_true]
    · intro i hi
      unfold ValueArray.setValue
      simp only [if_neg hi]

/-- C39 on the 3 x 4 x 5 field of the unit tests, at index 37 (coordinates 1, 0, 3), dimension
2 and offset -3: the neighbour is the element 1 of the buffer. -/
theorem C39_neighbor_index_in_bounds_witness :
    ((∀ n ∈ [3, 4, 5], 1 ≤ n) ∧ [3, 4, 5].prod < 2 ^ 31 ∧ 2 < [3, 4, 5].length ∧
      (FieldSteppingStrategy.fill 0 59 37 1 1 [3, 4, 5]).isInField = true ∧
      (FieldSteppingStrategy.fill 0 59 37 1 1 [3, 4, 5]).index
        < (FieldSteppingStrategy.fill 0 59 37 1 1 [3, 4, 5]).totalSize ∧
      (FieldSteppingStrategy.fill 0 59 37 1 1 [3, 4, 5]).neighborInField 2 (-3) = some true) ∧
    ∃ j c : Nat, (FieldSteppingStrategy.fill 0 59 37 1 1 [3, 4, 5]).currentIndex 2 = some c ∧
      (FieldSteppingStrategy.fill 0 59 37 1 1 [3, 4, 5]).linearNeighborIndex 2 (-3) = some j ∧
      (FieldSteppingStrategy.fill 0 59 37 1 1 [3, 4, 5]).totalSize = [3, 4, 5].prod ∧
      j < (FieldSteppingStrategy.fill 0 59 37 1 1 [3, 4, 5]).totalSize ∧
      (Spec.coordinate [3, 4, 5] j 2 : Int) = (c : Int) + (-3) ∧
      (∀ e, e ≠ 2 → Spec.coordinate [3, 4, 5] j e
        = Spec.coordinate [3, 4, 5] (FieldSteppingStrategy.fill 0 59 37 1 1 [3, 4, 5]).index e) ∧
      PureFieldIterator.currentNeighbor (FieldSteppingStrategy.fill 0 59 37 1 1 [3, 4, 5])
        ({ values := fun i => 10 * i } : ValueArray Nat) 2 (-3)
        = some (({ values := fun i => 10 * i } : ValueArray Nat).values j) ∧
      ∃ g, PureFieldIterator.setCurrentNeighbor
          (FieldSteppingStrategy.fill 0 59 37 1 1 [3, 4, 5])
          ({ values := fun i => 10 * i } : ValueArray Nat) 2 (-3) 7 = some g ∧
        g.values j = 7 ∧
        ∀ i, i ≠ j → g.values i = ({ values := fun i => 10 * i } : ValueArray Nat).values i :=
  ⟨by decide, C39_neighbor_index_in_bounds [3, 4, 5] 0 59 37
    (FieldSteppingStrategy.fill 0 59 37 1 1 [3, 4, 5]) { values := fun i => 10 * i } 2 (-3) 7
    (by decide) (by decide) rfl (by decide) (by decide) (by decide) (by decide) (by decide)
    (by decide)⟩

/-- C16 (failing input): the size array `{300, 300, 300, 300}` passes the assertion of the
constructor (total size 8100000000).  The boundary stepper of thread 2 of 3 stands, right after
`setBoundaryToIterate` for the upper face of dimension 0, at the in-field index 5400000299,
whose coordinate along dimension 0 is 299.  There `currentIndex(0)` returns `2^64 - 1`, since
the index has more than 32 bits, and `neighborInField(0, 1)` is true although neither
`currentIndex(0) + 1` nor `299 + 1` is below `size[0] = 300`.  The same happens at the in-field
index 5924871299. -/
theorem C16_neighborInField_beyond_32_bits :
    (∃ s0 s, BoundaryStepper.new 0 0 0 [300, 300, 300, 300] = some s0 ∧
      s0.setBoundaryToIterate 2 3 { dimension := 0, lower := false } = some s ∧
      s.totalSize = 8100000000 ∧ s.index = 5400000299 ∧ s.isInField = true ∧
      s.index < s.totalSize ∧ s.size.getD 0 0 = 300 ∧
      Spec.coordinate [300, 300, 300, 300] s.index 0 = 299 ∧
      s.currentIndex 0 = some 18446744073709551615 ∧
      s.neighborInField 0 1 = some true ∧
      ¬ ((18446744073709551615 : Int) + 1 < 300) ∧ ¬ ((299 : Int) + 1 < 300)) ∧
    ∃ s, FieldSteppingStrategy.new 0 8099999999 5924871299 [300, 300, 300, 300] = some s ∧
      s.isInField = true ∧ s.index < s.totalSize ∧
      Spec.coordinate [300, 300, 300, 300] s.index 0 = 299 ∧
      s.currentIndex 0 = some 18446744073709551615 ∧
      s.neighborInField 0 1 = some true :=
  ⟨⟨_, _, rfl, rfl, by decide, by decide, by decide, by decide, by decide, by decide, by decide,
    by decide, by decide, by decide⟩,
   ⟨_, rfl, by decide, by decide, by decide, by decide, by decide⟩⟩

/-- C13 (failing input): a plain boundary iterator over the accepted size array
`{300, 300, 300, 300}` with the buffer content `7 i`, set by thread 2 of 3 to the upper face of
dimension 0, is in field at index 5400000299 with coordinate 299 along dimension 0.  The
neighbour at offset 1 has coordinate 300, outside `[0, 300)`, but `currentNeighbor(0, 1)` does
not fail: it returns the buffer element 5400000300, and `setCurrentNeighbor(0, 1, 5)` writes
that element. -/
theorem C13_neighbor_not_rejected_beyond_32_bits :
    ∃ it0 it, ValueFieldBoundaryIterator.new 0 0 0 [300, 300, 300, 300] (fun i => 7 * i)
        = some it0 ∧
      it0.setBoundaryToIterate 2 3 { dimension := 0, lower := false } = some it ∧
      it.isInField = true ∧ it.stepper.index = 5400000299 ∧
      Spec.coordinate [300, 300, 300, 300] it.stepper.index 0 = 299 ∧
      it.size 0 = 300 ∧
      it.currentIndex 0 = some 18446744073709551615 ∧
      it.currentNeighbor 0 1 = some (7 * 5400000300) ∧
      (it.setCurrentNeighbor 0 1 5).map (fun it2 => it2.getter.values 5400000300) = some 5 :=
  ⟨_, _, rfl, rfl, by decide, by decide, by decide, by decide, by decide, by decide, by decide⟩

/-- C10 (failing input): the composed boundary iterator of a block of four dimensions with 300
elements per dimension and side regions of width 4 (main buffer content `i`, every side buffer
content at least `10^13`), set by thread 2 of 3 to the upper face of dimension 0, is in field
at the main index 5400000299 with coordinates `(299, 0, 0, 200)`.  The target of offset 1 is
the coordinate 300, the first cell of the upper side region, but `currentNeighbor(0, 1)`
returns 5400000300, the main buffer element `index + 1` (coordinates `(0, 1, 0, 200)`), which
is no side buffer value. -/
theorem C10_neighbor_read_from_main_buffer :
    ∃ it0 it, (ComputationalComposedBlock.new 4 300 4 (some fun i => i)
        (fun _ _ k => 10000000000000 + k)).getBoundaryIterator 4 (fun _ => 0) = some it0 ∧
      it0.setBoundaryToIterate 2 3 { dimension := 0, lower := false } = some it ∧
      it.isInField = true ∧ it.mainIterator.stepper.index = 5400000299 ∧
      Spec.coordinates [300, 300, 300, 300] 5400000299 = [299, 0, 0, 200] ∧
      Spec.coordinates [300, 300, 300, 300] 5400000300 = [0, 1, 0, 200] ∧
      it.currentIndex 0 = some 18446744073709551615 ∧
      it.currentNeighbor 0 1 = some 5400000300 ∧
      ∀ k : Nat, 10000000000000 + k ≠ 5400000300 :=
  ⟨_, _, rfl, rfl, by decide, by decide, by decide, by decide, by decide, by decide,
    fun k => by omega⟩

/-- C11 (failing input): on the composed boundary iterator of the block of four dimensions with
300 elements per dimension and side regions of width 4, set by thread 2 of 3 to the upper face
of dimension 0 (main index 5400000299, coordinates `(299, 0, 0, 200)`), the offset 1 targets
the coordinate 300 outside `[0, 300)`, but `setCurrentNeighbor(0, 1, 77)` stores 77 in the main
buffer element 5400000300 and leaves the cell `(0, 0, 0, 200)` of the upper side buffer
(element 72000000) as it was. -/
theorem C11_neighbor_written_to_main_buffer :
    ∃ it0 it it2 side, (ComputationalComposedBlock.new 4 300 4 (some fun i => i)
        (fun _ _ k => 10000000000000 + k)).getBoundaryIterator 4 (fun _ => 0) = some it0 ∧
      it0.setBoundaryToIterate 2 3 { dimension := 0, lower := false } = some it ∧
      it.isInField = true ∧ it.mainIterator.stepper.index = 5400000299 ∧
      Spec.coordinates [300, 300, 300, 300] 5400000299 = [299, 0, 0, 200] ∧
      Spec.coordinates [4, 300, 300, 300] 72000000 = [0, 0, 0, 200] ∧
      it.setCurrentNeighbor 0 1 77 = some it2 ∧
      it2.mainIterator.getter.values 5400000300 = 77 ∧
      it2.currentSideIterator = some side ∧
      side.getter.values 72000000 = 10000000000000 + 72000000 :=
  ⟨_, _, _, _, rfl, rfl, by decide, by decide, by decide, by decide, rfl, by decide, rfl,
    by decide⟩

/-- C12 (failing input): on the composed boundary iterator of the block of four dimensions with
300 elements per dimension and side regions of width `E = 4`, set by thread 2 of 3 to the upper
face of dimension 0 (main index 5400000299), the offset `E + 1 = 5` is one beyond the side
region, but `currentNeighbor(0, 5)` returns the main buffer element 5400000304 and
`setCurrentNeighbor(0, 5, 77)` writes it: neither call fails. -/
theorem C12_offset_beyond_ghost_accepted :
    ∃ it0 it, (ComputationalComposedBlock.new 4 300 4 (some fun i => i)
        (fun _ _ k => 10000000000000 + k)).getBoundaryIterator 4 (fun _ => 0) = some it0 ∧
      it0.setBoundaryToIterate 2 3 { dimension := 0, lower := false } = some it ∧
      it.isInField = true ∧ it.mainIterator.stepper.index = 5400000299 ∧
      it.currentNeighbor 0 5 = some 5400000304 ∧
      (it.setCurrentNeighbor 0 5 77).map (fun it2 => it2.mainIterator.getter.values 5400000304)
        = some 77 :=
  ⟨_, _, rfl, rfl, by decide, by decide, by decide, by decide⟩

/-- C2 (failing input): for the block of four dimensions with 300 elements per dimension and
side regions of width 4 (main buffer content `i`), after `startCommunication` and the completion
of all receives on the single-process periodic topology, the composed boundary iterator set by
thread 2 of 3 to the upper face of dimension 0 is in field at the main index 5400000299
(coordinates `(299, 0, 0, 200)`).  `currentNeighbor(0, 1)` should be the main value at
coordinates `(0, 0, 0, 200)`, the element 5400000000, but returns the element 5400000300 at
coordinates `(0, 1, 0, 200)`. -/
theorem C2_halo_value_not_read :
    ∃ it0 it, ((ComputationalComposedBlock.new 4 300 4 (some fun i => i)
        (fun _ _ k => 10000000000000 + k)).exchanged 4).getBoundaryIterator 4 (fun _ => 0)
        = some it0 ∧
      it0.setBoundaryToIterate 2 3 { dimension := 0, lower := false } = some it ∧
      it.isInField = true ∧ it.mainIterator.stepper.index = 5400000299 ∧
      Spec.coordinates [300, 300, 300, 300] 5400000299 = [299, 0, 0, 200] ∧
      Spec.coordinates [300, 300, 300, 300] 5400000000 = [0, 0, 0, 200] ∧
      Spec.coordinates [300, 300, 300, 300] 5400000300 = [0, 1, 0, 200] ∧
      it.currentNeighbor 0 1 = some 5400000300 :=
  ⟨_, _, rfl, rfl, by decide, by decide, by decide, by decide, by decide, by decide⟩

/-- C28 (failing input): the size array `{65536, 65536}` passes the assertion of the
constructor; its entry `stride[2]` has wrapped around to 0.  The single-thread boundary stepper
of the lower face of dimension 1 owns the indices `[0, 65535]`.  It steps from every index
`k < 65535` to `k + 1`, and at the in-field index 65535 `next()` moves it to index 0, which is
not greater than 65535 and is in field again: the traversal is not ascending and never leaves
the field. -/
theorem C28_next_returns_to_start :
    ∃ s0 st s1, BoundaryStepper.new 0 0 0 [65536, 65536] = some s0 ∧
      s0.setBoundaryToIterate 0 1 { dimension := 1, lower := true } = some st ∧
      st.totalSize = 4294967296 ∧ st.stride = [1, 65536, 0] ∧
      st.minIndex = 0 ∧ st.maxIndex = 65535 ∧ st.index = 0 ∧
      (∀ k, k < 65535 →
        BoundaryStepper.next { st with index := k } = some { st with index := k + 1 }) ∧
      ({ st with index := 65535 } : BoundaryStepper).isInField = true ∧
      BoundaryStepper.next { st with index := 65535 } = some s1 ∧
      s1.index = 0 ∧ ¬ 65535 < s1.index ∧ s1.isInField = true ∧ s1 = st := by
  have key : ∀ st : BoundaryStepper, st.minIndex = 0 → st.maxIndex = 65535 →
      st.stride = [1, 65536, 0] → st.boundary = { dimension := 1, lower := true } →
      ∀ k, k < 65535 →
        BoundaryStepper.next { st with index := k } = some { st with index := k + 1 } := by
    intro st hmin hmax hstride hb k hk
    have h1 : (k + 1) % U64 = k + 1 := by unfold U64; omega
    have h2 : (k + 1) % 65536 ≠ 0 := by omega
    have hin : ({ st with index := k } : BoundaryStepper).isInField = true := by
      unfold FieldSteppingStrategy.isInField
      simp only [hmin, hmax, Bool.and_eq_true, decide_eq_true_eq]
      omega
    unfold BoundaryStepper.next
    rw [if_pos hin]
    simp only [hstride, hb, BoundaryId.getDimension, h1]
    rw [if_pos (by simpa using h2)]
  refine ⟨_, _, _, rfl, rfl, by decide, by decide, by decide, by decide, by decide,
    key _ (by decide) (by decide) (by decide) (by decide),
    by decide, rfl, by decide, by decide, by decide, by decide⟩

/-- C9 (failing input): the size array `{65536, 65536, 2}` passes the assertion of the
constructor; its entries `stride[2]` and `stride[3]` have wrapped around to 0.  The lower face
of dimension 1 has `B = totalSize / size[1] = 131072` cells.  With one thread,
`setBoundaryToIterate` gives the stepper the index range `[0, 65535]`; the face cell with
coordinates `(0, 0, 1)`, index 4294967296, is outside that range, so no thread visits it, and
`next()` at index 65535 returns to index 0. -/
theorem C9_face_cells_left_out :
    ∃ s0 st s1, BoundaryStepper.new 0 0 0 [65536, 65536, 2] = some s0 ∧
      s0.setBoundaryToIterate 0 1 { dimension := 1, lower := true } = some st ∧
      st.totalSize = 8589934592 ∧ st.stride = [1, 65536, 0, 0] ∧
      st.totalSize / st.size.getD 1 0 = 131072 ∧
      st.minIndex = 0 ∧ st.maxIndex = 65535 ∧
      Spec.coordinates [65536, 65536, 2] 4294967296 = [0, 0, 1] ∧
      4294967296 < st.totalSize ∧
      ({ st with index := 4294967296 } : BoundaryStepper).isInField = false ∧
      BoundaryStepper.next { st with index := 65535 } = some s1 ∧ s1.index = 0 :=
  ⟨_, _, _, rfl, rfl, by decide, by decide, by decide, by decide, by decide, by decide,
    by decide, by decide, rfl, by decide⟩

/-- C36 (failing input): a composed boundary iterator over the accepted main extents
`{65536, 65536, 2}` whose side regions have the main extents except width 1 along their own
dimension.  After `setBoundaryToIterate((1, lower))` by thread 1 of 2, with no call of
`next()`, the main iterator stands at index 0 (coordinate 0 along dimension 2), because
`stride[2]` has wrapped around to 0, and the side iterator at index 65536 (coordinate 1 along
dimension 2): both are in field, but they disagree on a coordinate other than the face
dimension. -/
theorem C36_main_and_side_disagree :
    ∃ lo0 hi0 lo1 hi1 lo2 hi2 it0 it side,
      ValueFieldBoundaryIterator.new 0 0 0 [1, 65536, 2] (fun k => 1000 + k) = some lo0 ∧
      ValueFieldBoundaryIterator.new 0 0 0 [1, 65536, 2] (fun k => 2000 + k) = some hi0 ∧
      ValueFieldBoundaryIterator.new 0 0 0 [65536, 1, 2] (fun k => 3000 + k) = some lo1 ∧
      ValueFieldBoundaryIterator.new 0 0 0 [65536, 1, 2] (fun k => 4000 + k) = some hi1 ∧
      ValueFieldBoundaryIterator.new 0 0 0 [65536, 65536, 1] (fun k => 5000 + k) = some lo2 ∧
      ValueFieldBoundaryIterator.new 0 0 0 [65536, 65536, 1] (fun k => 6000 + k) = some hi2 ∧
      ComposedFieldBoundaryIterator.new 0 0 0 [65536, 65536, 2] (fun i => i)
        [(lo0, hi0), (lo1, hi1), (lo2, hi2)] = some it0 ∧
      it0.setBoundaryToIterate 1 2 { dimension := 1, lower := true } = some it ∧
      it.currentSideIterator = some side ∧
      it.mainIterator.stepper.stride = [1, 65536, 0, 0] ∧
      it.mainIterator.isInField = true ∧ side.isInField = true ∧
      it.mainIterator.stepper.index = 0 ∧ side.stepper.index = 65536 ∧
      it.mainIterator.currentIndex 1 = some 0 ∧ side.currentIndex 1 = some 0 ∧
      it.mainIterator.currentIndex 0 = some 0 ∧ side.currentIndex 0 = some 0 ∧
      it.mainIterator.currentIndex 2 = some 0 ∧ side.currentIndex 2 = some 1 :=
  ⟨_, _, _, _, _, _, _, _, _, rfl, rfl, rfl, rfl, rfl, rfl, rfl, rfl, rfl, by decide, by decide,
    by decide, by decide, by decide, by decide, by decide, by decide, by decide, by decide,
    by decide⟩

/-- The whole-field stepper of a single thread over `{1291, 1291, 1291}`: the total size
`1291^3 = 2151685171` does not fit into the `int` chunk, which becomes `-2143282125`, and
`maxIndex = minIndex + chunk - 1` wraps around to `2^64 - 2143282126`. -/
theorem WholeFieldStepper.new_large :
    ∃ s, WholeFieldStepper.new 0 1 [1291, 1291, 1291] = some s ∧ s.totalSize = 2151685171 ∧
      s.minIndex = 0 ∧ s.index = 0 ∧ s.maxIndex = 18446744071566269490 :=
  ⟨_, rfl, by decide, by decide, by decide, by decide⟩

/-- The whole-field iterator of a single thread over `{1291, 1291, 1291}`. -/
theorem ValueFieldIterator.new_large_field {α : Type} (values : Nat → α) :
    ∃ it, ValueFieldIterator.new 0 1 [1291, 1291, 1291] values = some it ∧
      it.getter.values = values ∧ it.stepper.totalSize = 2151685171 ∧
      it.stepper.minIndex = 0 ∧ it.stepper.index = 0 ∧
      it.stepper.maxIndex = 18446744071566269490 := by
  obtain ⟨s, hs, h1, h2, h3, h4⟩ := WholeFieldStepper.new_large
  refine ⟨⟨s, ⟨values⟩⟩, ?_, rfl, h1, h2, h3, h4⟩
  unfold ValueFieldIterator.new
  rw [hs]

/-- A whole-field iterator between its limits is in field. -/
theorem ValueFieldIterator.isInField_of_le {α : Type} (it : ValueFieldIterator α)
    (hmin : it.stepper.minIndex ≤ it.stepper.index)
    (hle : it.stepper.index ≤ it.stepper.maxIndex) : it.isInField = true := by
  unfold ValueFieldIterator.isInField FieldSteppingStrategy.isInField
  simp only [Bool.and_eq_true, decide_eq_true_eq]
  omega

/-- One step of a whole-field iterator below `maxIndex`. -/
theorem ValueFieldIterator.next_of_lt {α : Type} (it : ValueFieldIterator α)
    (hmin : it.stepper.minIndex ≤ it.stepper.index)
    (hlt : it.stepper.index < it.stepper.maxIndex) (hmax : it.stepper.maxIndex < U64) :
    it.next = some { it with stepper := { it.stepper with index := it.stepper.index + 1 } } := by
  have hin : it.stepper.isInField = true :=
    ValueFieldIterator.isInField_of_le it hmin (by omega)
  unfold ValueFieldIterator.next WholeFieldStepper.next
  rw [if_pos hin]
  have e : (it.stepper.index + 1) % U64 = it.stepper.index + 1 := by
    apply Nat.mod_eq_of_lt
    omega
  simp only [e]

namespace MultuncialStencil

variable {α : Type} [CommRing α]

/-- As long as the input iterator stays at or below `maxIndex`, the loop of the inner pass has
not returned: with `fuel` passes it is still in field, or an assertion has failed. -/
theorem innerLoop_none (D E sz : Nat) (w : Nat → Int → α) :
    ∀ (fuel : Nat) (it r : ValueFieldIterator α), it.stepper.minIndex = 0 →
      it.stepper.index + fuel ≤ it.stepper.maxIndex → it.stepper.maxIndex < U64 →
      innerLoop D E sz w fuel it r = none := by
  intro fuel
  induction fuel with
  | zero =>
    intro it r hmin hle hmax
    have h := ValueFieldIterator.isInField_of_le it (by omega) (by omega)
    simp only [innerLoop, h, if_true]
  | succ fuel ih =>
    intro it r hmin hle hmax
    have h := ValueFieldIterator.isInField_of_le it (by omega) (by omega)
    have hn := ValueFieldIterator.next_of_lt it (by omega) (by omega) hmax
    simp only [innerLoop, h, if_true]
    cases innerValue E sz w it D with
    | none => rfl
    | some v =>
      simp only
      cases r.setCurrentValue v with
      | none => rfl
      | some r1 =>
        simp only [hn]
        cases r1.next with
        | none => rfl
        | some r2 =>
          simp only
          exact ih _ r2 hmin (by simp only; omega) hmax

/-- The inner pass over a block of three dimensions with 1291 elements per dimension, run by a
single thread, has no result for any fuel up to `2^64 - 2143282126`. -/
theorem applyInInnerRegion_large (E : Nat) (w : Nat → Int → α) (main : Nat → α)
    (ghost : Nat → Nat → Nat → α) (result : ComputationalPureBlock α) (fuel : Nat)
    (hf : fuel ≤ 18446744071566269490) :
    applyInInnerRegion 3 E w fuel 1 (ComputationalComposedBlock.new 3 1291 E (some main) ghost)
      result = none := by
  obtain ⟨it, hit, _, _, hmin, hidx, hmax⟩ :=
    ValueFieldIterator.new_large_field (fun i => main (0 + i))
  have hin : (ComputationalComposedBlock.new 3 1291 E (some main) ghost).getInnerIterator 3 0 1
      = some it := hit
  unfold applyInInnerRegion
  simp only [parallelRegion]
  unfold innerThread
  rw [hin]
  cases result.getInnerIterator 3 0 1 with
  | none => rfl
  | some r =>
    simp only
    rw [innerLoop_none 3 E _ w fuel it r hmin (by rw [hidx, hmax]; omega)
      (by rw [hmax]; unfold U64; omega)]

end MultuncialStencil

/-- The inner iterator of a block of three dimensions with 1291 elements per dimension, for a
single thread. -/
theorem ComputationalComposedBlock.getInnerIterator_large {α : Type} (E : Nat)
    (main : Nat → α) (ghost : Nat → Nat → Nat → α) :
    ∃ it, (ComputationalComposedBlock.new 3 1291 E (some main) ghost).getInnerIterator 3 0 1
        = some it ∧
      it.getter.values = main ∧ it.stepper.totalSize = 2151685171 ∧
      it.stepper.minIndex = 0 ∧ it.stepper.index = 0 ∧
      it.stepper.maxIndex = 18446744071566269490 := by
  obtain ⟨it, hit, hv, h1, h2, h3, h4⟩ := ValueFieldIterator.new_large_field (fun i => main (0 + i))
  refine ⟨it, hit, ?_, h1, h2, h3, h4⟩
  rw [hv]
  funext i
  rw [Nat.zero_add]

/-- The first loop of the unit test on an iterator that starts at index 0: as long as the
number of passes does not exceed `maxIndex`, every pass writes the element of its number and
the iterator then stands at the index that equals the number of passes made. -/
theorem ValueFieldIterator.writeLoop_index {α : Type} (value : Nat → α) :
    ∀ (count : Nat) (it : ValueFieldIterator α), it.stepper.minIndex = 0 →
      it.stepper.index = 0 → count ≤ it.stepper.maxIndex → it.stepper.maxIndex < U64 →
      ∃ it1, ValueFieldIterator.writeLoop value count it = some it1 ∧
        it1.stepper = { it.stepper with index := count } ∧
        (∀ j, j < count → it1.getter.values j = value j) ∧
        ∀ j, count ≤ j → it1.getter.values j = it.getter.values j := by
  intro count
  induction count with
  | zero =>
    intro it _ hidx _ _
    refine ⟨it, rfl, ?_, fun j hj => by omega, fun j _ => rfl⟩
    rw [← hidx]
  | succ count ih =>
    intro it hmin hidx hle hmax
    obtain ⟨it1, h1, hs, hlow, hhigh⟩ := ih it hmin hidx (by omega) hmax
    have hmin1 : it1.stepper.minIndex = 0 := by rw [hs]; exact hmin
    have hidx1 : it1.stepper.index = count := by rw [hs]
    have hmax1 : it1.stepper.maxIndex = it.stepper.maxIndex := by rw [hs]
    have hin : it1.stepper.isInField = true :=
      ValueFieldIterator.isInField_of_le it1 (by omega) (by omega)
    have hset : it1.setCurrentValue (value count)
        = some { it1 with getter := it1.getter.setValue count (value count) } := by
      unfold ValueFieldIterator.setCurrentValue PureFieldIterator.setCurrentValue
      rw [if_pos hin, hidx1]
    have hnext := ValueFieldIterator.next_of_lt
      ({ it1 with getter := it1.getter.setValue count (value count) } : ValueFieldIterator α)
      (by simp only; omega) (by simp only; omega) (by simp only; omega)
    refine ⟨⟨{ it1.stepper with index := it1.stepper.index + 1 },
      it1.getter.setValue count (value count)⟩, ?_, ?_, ?_, ?_⟩
    · simp only [ValueFieldIterator.writeLoop, h1, hset]
      exact hnext
    · simp only [hs]
    · intro j hj
      simp only [ValueArray.setValue]
      by_cases hjc : j = count
      · rw [if_pos hjc, hjc]
      · rw [if_neg hjc]
        exact hlow j (by omega)
    · intro j hj
      simp only [ValueArray.setValue]
      rw [if_neg (by omega : ¬ j = count)]
      exact hhigh j (by omega)

/-- C26 (failing input): the size array `{1291, 1291, 1291}` passes the assertion of the
constructor; the caller's buffer has `1291^3 = 2151685171` elements.  The whole-field iterator
of a single thread gets `maxIndex = 2^64 - 2143282126`.  After `2151685171` passes of
`setCurrentValue(v_i); next()` it has written every element of the buffer and is still in field,
at index 2151685171; the next pass writes `v_i` to the element 2151685171, one past the end of
the buffer. -/
theorem C26_traversal_runs_past_the_buffer {α : Type} (buffer value : Nat → α) :
    ∃ it0 it1 it2, ValueFieldIterator.new 0 1 [1291, 1291, 1291] buffer = some it0 ∧
      it0.stepper.totalSize = 2151685171 ∧ it0.stepper.minIndex = 0 ∧
      it0.stepper.maxIndex = 18446744071566269490 ∧
      ValueFieldIterator.writeLoop value 2151685171 it0 = some it1 ∧
      it1.isInField = true ∧ it1.stepper.index = 2151685171 ∧
      it1.stepper.index = it1.stepper.totalSize ∧
      ValueFieldIterator.writeLoop value 2151685172 it0 = some it2 ∧
      it2.isInField = true ∧ it2.getter.values 2151685171 = value 2151685171 := by
  obtain ⟨it0, h0, _, htot, hmin, hidx, hmax⟩ := ValueFieldIterator.new_large_field buffer
  obtain ⟨it1, h1, hs1, _, _⟩ := ValueFieldIterator.writeLoop_index value 2151685171 it0 hmin
    hidx (by rw [hmax]; decide) (by rw [hmax]; decide)
  obtain ⟨it2, h2, hs2, hlow2, _⟩ := ValueFieldIterator.writeLoop_index value 2151685172 it0
    hmin hidx (by rw [hmax]; decide) (by rw [hmax]; decide)
  refine ⟨it0, it1, it2, h0, htot, hmin, hmax, h1, ?_, by rw [hs1], by rw [hs1, htot], h2, ?_,
    hlow2 _ (by decide)⟩
  · apply ValueFieldIterator.isInField_of_le
    · rw [hs1]; simp only [hmin]; omega
    · rw [hs1]; simp only [hmax]; decide
  · apply ValueFieldIterator.isInField_of_le
    · rw [hs2]; simp only [hmin]; omega
    · rw [hs2]; simp only [hmax]; decide

/-- C1 (failing input): a block of three dimensions with 1291 elements per dimension
(`1291^3 = 2151685171` cells; the size array passes the assertion of the stepper constructor),
any extent, weights and buffer contents, one thread.  The inner iterator gets
`maxIndex = 2^64 - 2143282126`, so it is still in field at index `1291^3`, one past the buffers;
the inner pass, and with it `apply`, has no result for any number of loop passes up to
`2^64 - 2143282126`: no output block with the stencil values is returned. -/
theorem C1_apply_runs_past_the_buffers {α : Type} [CommRing α] (E : Nat) (w : Nat → Int → α)
    (main : Nat → α) (ghost : Nat → Nat → Nat → α) (out : Nat → α)
    (u : Nat → Nat → Nat → Nat) (completions : List Nat) :
    (∃ it, (ComputationalComposedBlock.new 3 1291 E (some main) ghost).getInnerIterator 3 0 1
        = some it ∧
      it.stepper.totalSize = 2151685171 ∧ it.stepper.minIndex = 0 ∧
      it.stepper.maxIndex = 18446744071566269490 ∧
      ({ it with stepper := { it.stepper with index := 2151685171 } } :
        ValueFieldIterator α).isInField = true) ∧
    ∀ fuel, fuel ≤ 18446744071566269490 →
      BlockOperator.apply 3 E w fuel 1 u completions
        (ComputationalComposedBlock.new 3 1291 E (some main) ghost)
        (ComputationalPureBlock.new 1291 out) = none := by
  obtain ⟨it, hit, _, htot, hmin, _, hmax⟩ :=
    ComputationalComposedBlock.getInnerIterator_large E main ghost
  refine ⟨⟨it, hit, htot, hmin, hmax, ?_⟩, ?_⟩
  · apply ValueFieldIterator.isInField_of_le
    · simp only [hmin]; omega
    · simp only [hmax]; decide
  · intro fuel hf
    unfold BlockOperator.apply
    rw [MultuncialStencil.applyInInnerRegion_large E w main ghost _ fuel hf]

/-- C27 (failing input): for a block of three dimensions with 1291 elements per dimension
(`1291^3 = 2151685171` cells), any extent, weights and buffer contents and one thread,
`applyInInnerRegion` has no result for any number of loop passes up to `2^64 - 2143282126`.
At index `1291^3` the input iterator is still in field and `currentValue` reads the element
`1291^3` of the main buffer, one past its end. -/
theorem C27_inner_pass_runs_past_the_buffers {α : Type} [CommRing α] (E : Nat)
    (w : Nat → Int → α) (main : Nat → α) (ghost : Nat → Nat → Nat → α) (out : Nat → α) :
    (∃ it, (ComputationalComposedBlock.new 3 1291 E (some main) ghost).getInnerIterator 3 0 1
        = some it ∧
      it.stepper.totalSize = 2151685171 ∧ it.stepper.maxIndex = 18446744071566269490 ∧
      ({ it with stepper := { it.stepper with index := 2151685171 } } :
        ValueFieldIterator α).currentValue = some (main 2151685171)) ∧
    ∀ fuel, fuel ≤ 18446744071566269490 →
      MultuncialStencil.applyInInnerRegion 3 E w fuel 1
        (ComputationalComposedBlock.new 3 1291 E (some main) ghost)
        (ComputationalPureBlock.new 1291 out) = none := by
  obtain ⟨it, hit, hv, htot, hmin, _, hmax⟩ :=
    ComputationalComposedBlock.getInnerIterator_large E main ghost
  refine ⟨⟨it, hit, htot, hmax, ?_⟩,
    fun fuel hf => MultuncialStencil.applyInInnerRegion_large E w main ghost _ fuel hf⟩
  have hin : ({ it with stepper := { it.stepper with index := 2151685171 } } :
      ValueFieldIterator α).isInField = true := by
    apply ValueFieldIterator.isInField_of_le
    · simp only [hmin]; omega
    · simp only [hmax]; decide
  unfold ValueFieldIterator.isInField at hin
  simp only at hin
  simp only [ValueFieldIterator.currentValue, PureFieldIterator.currentValue, hin, if_true,
    ValueArray.getValue, hv]

/-- C38 (failing input): for a block of three dimensions with 1291 elements per dimension
(`1291^3 = 2151685171` cells) and one thread, the result iterator of the inner pass gets
`maxIndex = 2^64 - 2143282126`; at index `1291^3` it is still in field and `setCurrentValue`
writes the element `1291^3`, one past the end of the output buffer.  Neither of two runs of
`apply` that start from the output buffers `out1` and `out2` returns an output block, for any
number of loop passes up to `2^64 - 2143282126`. -/
theorem C38_no_output_for_large_block {α : Type} [CommRing α] (E : Nat) (w : Nat → Int → α)
    (main : Nat → α) (ghost : Nat → Nat → Nat → α) (out1 out2 : Nat → α)
    (u1 u2 : Nat → Nat → Nat → Nat) (completions : List Nat) (v : α) :
    (∃ r r1, (ComputationalPureBlock.new 1291 out1).getInnerIterator 3 0 1 = some r ∧
      r.stepper.totalSize = 2151685171 ∧ r.stepper.maxIndex = 18446744071566269490 ∧
      ({ r with stepper := { r.stepper with index := 2151685171 } } :
        ValueFieldIterator α).setCurrentValue v = some r1 ∧
      r1.getter.values 2151685171 = v) ∧
    ∀ fuel, fuel ≤ 18446744071566269490 →
      BlockOperator.apply 3 E w fuel 1 u1 completions
        (ComputationalComposedBlock.new 3 1291 E (some main) ghost)
        (ComputationalPureBlock.new 1291 out1) = none ∧
      BlockOperator.apply 3 E w fuel 1 u2 completions
        (ComputationalComposedBlock.new 3 1291 E (some main) ghost)
        (ComputationalPureBlock.new 1291 out2) = none := by
  obtain ⟨r, hr, _, htot, hmin, _, hmax⟩ :=
    ValueFieldIterator.new_large_field (fun i => out1 (0 + i))
  have hin : ({ r with stepper := { r.stepper with index := 2151685171 } } :
      ValueFieldIterator α).isInField = true := by
    apply ValueFieldIterator.isInField_of_le
    · simp only [hmin]; omega
    · simp only [hmax]; decide
  unfold ValueFieldIterator.isInField at hin
  simp only at hin
  refine ⟨⟨r, ⟨{ r.stepper with index := 2151685171 }, r.getter.setValue 2151685171 v⟩, hr,
    htot, hmax, ?_, ?_⟩, ?_⟩
  · simp only [ValueFieldIterator.setCurrentValue, PureFieldIterator.setCurrentValue, hin,
      if_true]
  · simp only [ValueArray.setValue, if_true]
  · intro fuel hf
    unfold BlockOperator.apply
    rw [MultuncialStencil.applyInInnerRegion_large E w main ghost _ fuel hf,
      MultuncialStencil.applyInInnerRegion_large E w main ghost _ fuel hf]
    exact ⟨rfl, rfl⟩

/-- C40 (failing input): the coefficients sum to zero, but for three dimensions with any step
lengths, a block with 1291 elements per dimension (`1291^3 = 2151685171` cells) whose main
buffer and side buffers hold the constant `c`, and one thread, `apply` with the weights of
`ConstFD8Stencil` (extent 4) has no result for any number of loop passes up to
`2^64 - 2143282126`: the inner iterator gets `maxIndex = 2^64 - 2143282126` and runs past the
buffers instead of leaving 0 in every cell. -/
theorem C40_no_result_for_large_block {α : Type} [Field α] [CharZero α] (h0 h1 h2 c : α)
    (out : Nat → α) (u : Nat → Nat → Nat → Nat) (completions : List Nat) :
    (-205 / 72 + 2 * (8 / 5 - 1 / 5 + 8 / 315 - 1 / 560) : α) = 0 ∧
    ∃ s it, ConstFD8Stencil.new [h0, h1, h2] = some s ∧
      (ComputationalComposedBlock.new 3 1291 4 (some fun _ => c)
        (fun _ _ _ => c)).getInnerIterator 3 0 1 = some it ∧
      it.stepper.totalSize = 2151685171 ∧ it.stepper.maxIndex = 18446744071566269490 ∧
      ∀ fuel, fuel ≤ 18446744071566269490 →
        BlockOperator.apply 3 4 (fun d k => s.getWeight () d k) fuel 1 u completions
          (ComputationalComposedBlock.new 3 1291 4 (some fun _ => c) (fun _ _ _ => c))
          (ComputationalPureBlock.new 1291 out) = none := by
  refine ⟨by norm_num, ?_⟩
  obtain ⟨it, hit, _, htot, _, _, hmax⟩ :=
    ComputationalComposedBlock.getInnerIterator_large 4 (fun _ => c) (fun _ _ _ => c)
  refine ⟨_, it, rfl, hit, htot, hmax, ?_⟩
  intro fuel hf
  unfold BlockOperator.apply
  rw [MultuncialStencil.applyInInnerRegion_large 4 _ _ _ _ fuel hf]

/-- C40 (failing input) over the rationals, with the step lengths `1`, `1/2` and `1/4`, the
constant `5/3` and the receipt order 5, 3, 1, 2, 0, 4: with `1291^3 + 1` loop passes, one more
than the block has cells, `apply` has no result. -/
theorem C40_no_result_for_large_block_witness :
    ∃ s, ConstFD8Stencil.new ([1, 1 / 2, 1 / 4] : List ℚ) = some s ∧
      BlockOperator.apply 3 4 (fun d k => s.getWeight () d k) 2151685172 1 (fun _ _ _ => 0)
        [5, 3, 1, 2, 0, 4]
        (ComputationalComposedBlock.new 3 1291 4 (some fun _ => (5 / 3 : ℚ))
          (fun _ _ _ => (5 / 3 : ℚ)))
        (ComputationalPureBlock.new 1291 fun _ => 1) = none := by
  obtain ⟨_, s, _, h1, _, _, _, h5⟩ := C40_no_result_for_large_block (1 : ℚ) (1 / 2) (1 / 4)
    (5 / 3) (fun _ => 1) (fun _ _ _ => 0) [5, 3, 1, 2, 0, 4]
  exact ⟨s, h1, h5 2151685172 (by decide)⟩

/-- A boundary stepper of the lower face of dimension 1 of the field `{65536, 65536}`, whose
entry `stride[2]` has wrapped around to 0, never leaves the index range `[0, 65535]`: `next`
at index 65535 returns to index 0. -/
theorem BoundaryStepper.next_wrapped {s s1 : BoundaryStepper} (hmin : s.minIndex = 0)
    (hmax : s.maxIndex = 65535) (hstride : s.stride = [1, 65536, 0])
    (hsize : s.size.length = 2) (hb : s.boundary = { dimension := 1, lower := true })
    (hidx : s.index ≤ 65535) (h : s.next = some s1) :
    s1.minIndex = 0 ∧ s1.maxIndex = 65535 ∧ s1.stride = [1, 65536, 0] ∧ s1.size.length = 2 ∧
      s1.boundary = { dimension := 1, lower := true } ∧ s1.index ≤ 65535 := by
  unfold BoundaryStepper.next at h
  have hin : s.isInField = true := by
    unfold FieldSteppingStrategy.isInField
    simp only [hmin, hmax, Bool.and_eq_true, decide_eq_true_eq]
    omega
  rw [if_pos hin] at h
  have hst : s.stride.getD s.boundary.getDimension 0 = 65536 := by rw [hstride, hb]; rfl
  have hnx : s.stride.getD (s.boundary.getDimension + 1) 0 = 0 := by rw [hstride, hb]; rfl
  have hdim : s.boundary.getDimension < s.size.length := by rw [hb, hsize]; decide
  have e1 : (s.index + 1) % U64 = s.index + 1 := by unfold U64; omega
  simp only [hst, hnx, e1] at h
  by_cases hc : (s.index + 1) % 65536 ≠ 0
  · rw [if_pos hc] at h
    have := Option.some.inj h
    rw [← this]
    refine ⟨hmin, hmax, hstride, hsize, hb, ?_⟩
    show s.index + 1 ≤ 65535
    clear e1 h this hin hst hnx hdim
    omega
  · have e2 : s.index = 65535 := by
      clear e1 h hin hst hnx hdim
      omega
    have hwrap : (s.index + sub64 0 (sub64 65536 1)) % U64 = 0 := by
      rw [e2]
      unfold sub64 U64
      norm_num
    rw [if_neg hc, if_pos hdim, hwrap] at h
    have := Option.some.inj h
    rw [← this]
    exact ⟨hmin, hmax, hstride, hsize, hb, Nat.zero_le _⟩

namespace ComposedFieldBoundaryIterator

variable {α : Type}

/-- The main stepper after `next` is the main stepper stepped once. -/
theorem stepper_next {it it1 : ComposedFieldBoundaryIterator α} (h : it.next = some it1) :
    it.mainIterator.stepper.next = some it1.mainIterator.stepper := by
  unfold next at h
  cases hm : it.mainIterator.next with
  | none => simp only [hm] at h; exact absurd h (by simp)
  | some m =>
    simp only [hm] at h
    have hms : it.mainIterator.stepper.next = some m.stepper := by
      unfold ValueFieldBoundaryIterator.next at hm
      cases hs : it.mainIterator.stepper.next with
      | none => simp only [hs] at hm; exact absurd hm (by simp)
      | some s =>
        simp only [hs] at hm
        rw [← Option.some.inj hm]
    cases hside : ({ it with mainIterator := m } :
        ComposedFieldBoundaryIterator α).currentSideIterator with
    | none => simp only [hside] at h; exact absurd h (by simp)
    | some side =>
      simp only [hside] at h
      cases hn : side.next with
      | none => simp only [hn] at h; exact absurd h (by simp)
      | some side1 =>
        simp only [hn] at h
        rw [← Option.some.inj h]
        exact hms

/-- `first` puts the main iterator at its first index. -/
theorem main_first {it it1 : ComposedFieldBoundaryIterator α} (h : it.first = some it1) :
    it1.mainIterator = it.mainIterator.first := by
  unfold first at h
  cases hside : ({ it with mainIterator := it.mainIterator.first } :
      ComposedFieldBoundaryIterator α).currentSideIterator with
  | none => simp only [hside] at h; exact absurd h (by simp)
  | some side =>
    simp only [hside] at h
    rw [← Option.some.inj h]
    rfl

/-- The main stepper after `setBoundaryToIterate` is the main stepper set to the boundary and
put at its first index. -/
theorem stepper_setBoundaryToIterate {t N : Nat} {b : BoundaryId}
    {it it1 : ComposedFieldBoundaryIterator α} (h : it.setBoundaryToIterate t N b = some it1) :
    ∃ s, it.mainIterator.stepper.setBoundaryToIterate t N b = some s ∧
      it1.mainIterator.stepper
        = { s with toFieldSteppingStrategy := s.toFieldSteppingStrategy.first } := by
  unfold setBoundaryToIterate at h
  simp only at h
  cases hm : it.mainIterator.setBoundaryToIterate t N b with
  | none => simp only [hm] at h; exact absurd h (by simp)
  | some m =>
    simp only [hm] at h
    unfold ValueFieldBoundaryIterator.setBoundaryToIterate at hm
    cases hs : it.mainIterator.stepper.setBoundaryToIterate t N b with
    | none => simp only [hs] at hm; exact absurd hm (by simp)
    | some s =>
      simp only [hs] at hm
      refine ⟨s, rfl, ?_⟩
      cases hside : ({ it with currentBoundary := b, mainIterator := m } :
          ComposedFieldBoundaryIterator α).currentSideIterator with
      | none => simp only [hside] at h; exact absurd h (by simp)
      | some side =>
        simp only [hside] at h
        cases hn : side.setBoundaryToIterate t N
            ({ it with currentBoundary := b, mainIterator := m } :
              ComposedFieldBoundaryIterator α).currentBoundary.oppositeSide with
        | none => simp only [hn] at h; exact absurd h (by simp)
        | some side1 =>
          simp only [hn] at h
          rw [main_first h, ← Option.some.inj hm]
          rfl

end ComposedFieldBoundaryIterator

/-- The tables that the constructor fills do not depend on the indeterminate contents of
`minIndex`, `maxIndex` and `index`. -/
theorem FieldSteppingStrategy.fill_congr (mn mx ix : Nat) : ∀ (sizes : List Nat) (a b : Nat),
    (FieldSteppingStrategy.fill mn mx ix a b sizes).stride
        = (FieldSteppingStrategy.fill 0 0 0 a b sizes).stride ∧
      (FieldSteppingStrategy.fill mn mx ix a b sizes).size
        = (FieldSteppingStrategy.fill 0 0 0 a b sizes).size ∧
      (FieldSteppingStrategy.fill mn mx ix a b sizes).totalSize
        = (FieldSteppingStrategy.fill 0 0 0 a b sizes).totalSize := by
  intro sizes
  induction sizes with
  | nil => intro a b; exact ⟨rfl, rfl, rfl⟩
  | cons n sizes ih =>
    intro a b
    obtain ⟨h1, h2, h3⟩ := ih ((a * (n % U32)) % U32) ((b * (n % U32)) % U64)
    simp only [FieldSteppingStrategy.fill, h1, h2, h3]
    exact ⟨trivial, trivial, trivial⟩

/-- The main stepper of the composed boundary iterator of a block with 65536 elements in each
of two dimensions, set by a single thread to the lower face of dimension 1: it owns the
indices `[0, 65535]`, and its entry `stride[2]` is 0. -/
theorem ComputationalComposedBlock.wide_block_stepper {α : Type} (E : Nat) (main : Nat → α)
    (ghost : Nat → Nat → Nat → α) (u : Nat → Nat)
    {i0 it : ComposedFieldBoundaryIterator α}
    (h0 : (ComputationalComposedBlock.new 2 65536 E (some main) ghost).getBoundaryIterator 2 u
      = some i0)
    (h1 : i0.setBoundaryToIterate 0 1 { dimension := 1, lower := true } = some it) :
    it.mainIterator.stepper.minIndex = 0 ∧ it.mainIterator.stepper.maxIndex = 65535 ∧
      it.mainIterator.stepper.stride = [1, 65536, 0] ∧
      it.mainIterator.stepper.size.length = 2 ∧
      it.mainIterator.stepper.boundary = { dimension := 1, lower := true } ∧
      it.mainIterator.stepper.index = 0 := by
  have hs0 : i0.mainIterator.stepper
      = ⟨FieldSteppingStrategy.fill (u 0) (u 1) (u 2) 1 1 [65536, 65536], BoundaryId.new⟩ := by
    unfold ComputationalComposedBlock.getBoundaryIterator at h0
    simp only [ComputationalComposedBlock.new] at h0
    cases hg : ComputationalComposedBlock.ghostIterators 2 u 0
        (ComputationalComposedBlock.createGhostRegions 2 65536 E ghost) with
    | none => simp only [hg] at h0; exact absurd h0 (by simp)
    | some sides =>
      simp only [hg] at h0
      have hnew : ValueFieldBoundaryIterator.new (u 0) (u 1) (u 2) [65536, 65536]
          (fun i => main (0 + i))
          = some ⟨⟨FieldSteppingStrategy.fill (u 0) (u 1) (u 2) 1 1 [65536, 65536],
              BoundaryId.new⟩, ⟨fun i => main (0 + i)⟩, BoundaryId.new⟩ := rfl
      unfold ComposedFieldBoundaryIterator.new at h0
      have hsz : ComputationalComposedBlock.getSizeArray 2
          ({ smallestIndex := 0, elementsPerDim := 65536, values := some main,
             ghostRegions := ComputationalComposedBlock.createGhostRegions 2 65536 E ghost,
             extent := E,
             commDataBlockTypes := ComputationalComposedBlock.initializeBlockDataTypes 2 65536 E,
             receiveRequest := [] } : ComputationalComposedBlock α) = [65536, 65536] := rfl
      rw [hsz, hnew] at h0
      simp only at h0
      rw [← Option.some.inj h0]
  obtain ⟨s, hs, hst⟩ := ComposedFieldBoundaryIterator.stepper_setBoundaryToIterate h1
  obtain ⟨c1, c2, c3⟩ := FieldSteppingStrategy.fill_congr (u 0) (u 1) (u 2) [65536, 65536] 1 1
  have k1 : (FieldSteppingStrategy.fill 0 0 0 1 1 [65536, 65536]).stride = [1, 65536, 0] := by
    decide
  have k2 : (FieldSteppingStrategy.fill 0 0 0 1 1 [65536, 65536]).size = [65536, 65536] := by
    decide
  have hsize : i0.mainIterator.stepper.size = [65536, 65536] := by rw [hs0]; exact c2.trans k2
  have hstride : i0.mainIterator.stepper.stride = [1, 65536, 0] := by
    rw [hs0]; exact c1.trans k1
  rw [BoundaryStepper.setBoundaryToIterate_normal 0 1 _ _ (by rw [hsize]; decide)] at hs
  have hlim := @BoundaryStepper.setIndexLimits_congr 0 1
    { i0.mainIterator.stepper with boundary := { dimension := 1, lower := true } }
    ⟨FieldSteppingStrategy.fill 0 0 0 1 1 [65536, 65536], { dimension := 1, lower := true }⟩
    (by rw [hs0]; exact c1) (by rw [hs0]; exact c2) (by rw [hs0]; exact c3) rfl
  have m1 : (BoundaryStepper.setIndexLimits 0 1
      ⟨FieldSteppingStrategy.fill 0 0 0 1 1 [65536, 65536],
        { dimension := 1, lower := true }⟩).minIndex = 0 := by decide
  have m2 : (BoundaryStepper.setIndexLimits 0 1
      ⟨FieldSteppingStrategy.fill 0 0 0 1 1 [65536, 65536],
        { dimension := 1, lower := true }⟩).maxIndex = 65535 := by decide
  rw [hlim.1, hlim.2, m1, m2] at hs
  rw [hst, ← Option.some.inj hs]
  exact ⟨rfl, rfl, hstride, by rw [hsize]; rfl, rfl, rfl⟩

namespace MultuncialStencil

variable {α : Type} [CommRing α]

/-- While the main stepper of the input iterator cycles through `[0, 65535]`, the loop of the
boundary pass has not returned: with any number of passes it is still in field, or an
assertion has failed. -/
theorem boundaryLoop_none (E : Nat) (w : Nat → Int → α) (b : BoundaryId) :
    ∀ (fuel : Nat) (it : ComposedFieldBoundaryIterator α) (r : ValueFieldBoundaryIterator α),
      it.mainIterator.stepper.minIndex = 0 → it.mainIterator.stepper.maxIndex = 65535 →
      it.mainIterator.stepper.stride = [1, 65536, 0] →
      it.mainIterator.stepper.size.length = 2 →
      it.mainIterator.stepper.boundary = { dimension := 1, lower := true } →
      it.mainIterator.stepper.index ≤ 65535 →
      boundaryLoop E w b fuel it r = none := by
  intro fuel
  induction fuel with
  | zero =>
    intro it r hmin hmax _ _ _ hidx
    have hin : it.isInField = true := by
      unfold ComposedFieldBoundaryIterator.isInField ValueFieldBoundaryIterator.isInField
        FieldSteppingStrategy.isInField
      simp only [hmin, hmax, Bool.and_eq_true, decide_eq_true_eq]
      omega
    simp only [boundaryLoop, hin, if_true]
  | succ fuel ih =>
    intro it r hmin hmax hstride hsize hb hidx
    have hin : it.isInField = true := by
      unfold ComposedFieldBoundaryIterator.isInField ValueFieldBoundaryIterator.isInField
        FieldSteppingStrategy.isInField
      simp only [hmin, hmax, Bool.and_eq_true, decide_eq_true_eq]
      omega
    simp only [boundaryLoop, hin, if_true]
    cases boundaryDistances E w b it E r with
    | none => rfl
    | some r1 =>
      simp only
      cases hn : it.next with
      | none => cases r1.next <;> rfl
      | some i2 =>
        cases r1.next with
        | none => rfl
        | some r2 =>
          simp only
          obtain ⟨g1, g2, g3, g4, g5, g6⟩ := BoundaryStepper.next_wrapped hmin hmax hstride
            hsize hb hidx (ComposedFieldBoundaryIterator.stepper_next hn)
          exact ih i2 r2 g1 g2 g3 g4 g5 g6

end MultuncialStencil

/-- C37 (failing input): a block of two dimensions with 65536 elements per dimension (the size
array passes the assertion of the stepper constructor, but `stride[2]` wraps around to 0), any
extent, weights and buffer contents, the lower face of dimension 1 and one thread.  The iterators
of the pass exist (shown for extent 4); the main stepper of the input iterator owns the indices
`[0, 65535]`, starts in field at index 0, and from no index of that range does `next()` lead out of
the range.  So the loop of `applyInBoundaryRegion` does not end by leaving the field: for every
number of loop passes the pass has no result block (the input iterator is still in field, or an
assertion has failed), instead of returning the output with the one-sided taps added. -/
theorem C37_boundary_pass_never_ends {α : Type} [CommRing α] (E : Nat) (w : Nat → Int → α)
    (main : Nat → α) (ghost : Nat → Nat → Nat → α) (out : Nat → α) (u : Nat → Nat → Nat)
    (fuel : Nat) :
    MultuncialStencil.applyInBoundaryRegion 2 E w fuel 1 u
      (ComputationalComposedBlock.new 2 65536 E (some main) ghost)
      (ComputationalPureBlock.new 65536 out) { dimension := 1, lower := true } = none ∧
    (∀ i0 it, (ComputationalComposedBlock.new 2 65536 E (some main) ghost).getBoundaryIterator 2
        (u 0) = some i0 →
      i0.setBoundaryToIterate 0 1 { dimension := 1, lower := true } = some it →
      it.mainIterator.stepper.minIndex = 0 ∧ it.mainIterator.stepper.maxIndex = 65535 ∧
        it.mainIterator.stepper.stride = [1, 65536, 0] ∧
        it.mainIterator.stepper.index = 0 ∧ it.isInField = true ∧
        ∀ k s1, k ≤ 65535 →
          BoundaryStepper.next { it.mainIterator.stepper with index := k } = some s1 →
          s1.minIndex = 0 ∧ s1.index ≤ 65535 ∧ s1.maxIndex = 65535) ∧
    ∃ i0 it r0 r, (ComputationalComposedBlock.new 2 65536 4 (some main) ghost).getBoundaryIterator
        2 (u 0) = some i0 ∧
      i0.setBoundaryToIterate 0 1 { dimension := 1, lower := true } = some it ∧
      (ComputationalPureBlock.new 65536 out).getBoundaryIterator 2 (u 0 (6 * 2 + 3))
        (u 0 (6 * 2 + 4)) (u 0 (6 * 2 + 5)) = some r0 ∧
      r0.setBoundaryToIterate 0 1 { dimension := 1, lower := true } = some r := by
  refine ⟨?_, ?_, ⟨_, _, _, _, rfl, rfl, rfl, rfl⟩⟩
  · unfold MultuncialStencil.applyInBoundaryRegion
    simp only [parallelRegion]
    unfold MultuncialStencil.boundaryThread
    cases h0 : (ComputationalComposedBlock.new 2 65536 E (some main) ghost).getBoundaryIterator
        2 (u 0) with
    | none => rfl
    | some i0 =>
      simp only
      cases h1 : i0.setBoundaryToIterate 0 1 { dimension := 1, lower := true } with
      | none => rfl
      | some it =>
        cases (ComputationalPureBlock.new 65536 out).getBoundaryIterator 2 (u 0 (6 * 2 + 3))
            (u 0 (6 * 2 + 4)) (u 0 (6 * 2 + 5)) with
        | none => rfl
        | some r0 =>
          simp only
          cases r0.setBoundaryToIterate 0 1 { dimension := 1, lower := true } with
          | none => rfl
          | some r =>
            simp only
            obtain ⟨g1, g2, g3, g4, g5, g6⟩ :=
              ComputationalComposedBlock.wide_block_stepper E main ghost (u 0) h0 h1
            rw [MultuncialStencil.boundaryLoop_none E w _ fuel it r g1 g2 g3 g4 g5
              (by rw [g6]; decide)]
  · intro i0 it h0 h1
    obtain ⟨g1, g2, g3, g4, g5, g6⟩ :=
      ComputationalComposedBlock.wide_block_stepper E main ghost (u 0) h0 h1
    refine ⟨g1, g2, g3, g6, ?_, ?_⟩
    · unfold ComposedFieldBoundaryIterator.isInField ValueFieldBoundaryIterator.isInField
        FieldSteppingStrategy.isInField
      simp only [g1, g2, g6, Bool.and_eq_true, decide_eq_true_eq]
      omega
    · intro k s1 hk hs1
      have hx := BoundaryStepper.next_wrapped
        (s := { it.mainIterator.stepper with index := k }) g1 g2 g3 g4 g5 hk hs1
      exact ⟨hx.1, hx.2.2.2.2.2, hx.2.1⟩

end Haparanda
